import Mathlib

/-!
# Recurrence rules: parser, serializer and occurrence iterator

A shallow embedding of the Go package `rrule` (files `lib.go`, `parse.go`,
`date_and_time.go`, `iter.go`) together with the theorems that settle the
claims of its specification. The definitions come first, the theorems after them.

Modelling conventions.

* Go `int` values are `Int`; the `int16` BY-lists are lists of `Int` whose
  entries the parser wraps with `toInt16`.
* `time.Time` is an absolute instant (Unix seconds plus nanoseconds) with a
  `Location`.  The functions of Go's `time` package that the sources call
  (`Date`, `AddDate`, `Add`, the field accessors, `ISOWeek`, `Equal`, `Before`,
  `After`, `In`, `LoadLocation`) are modelled on the proleptic Gregorian calendar
  with Go's normalisation of out-of-range fields; a zone is `time.UTC` or a list of
  transitions, and the zone database is a parameter of the parser.
* A Go string is the list of its characters; the library functions that the parser
  calls (`strings.Split`, `strconv.ParseInt`, `fmt.Sprintf` with `%d`, ...) are
  modelled on such lists.
* A function that can fail returns `Except Failure`: an error value, or a panic of
  the Go runtime.
* Loops that Go may run for ever take a fuel argument and return `none` when
  the fuel runs out.
-/

namespace RRule

/-! ## The `time` package -/

/-- A time zone: the distinguished `time.UTC`, or a named zone with the offset in
force before its first transition and its transitions `(start, offset)` in
ascending order of `start` (seconds east of UTC). -/
inductive Location where
  | utc
  | zone (name : List Char) (base : Int) (transitions : List (Int × Int))
deriving DecidableEq, Repr

/-- The instant type of Go: seconds since the Unix epoch, nanoseconds within the
second, and the location used to present the instant. -/
structure Time where
  sec : Int
  nsec : Int
  loc : Location
deriving DecidableEq, Repr

/-- The upper end of the last zone period (Go's `omega`). -/
def zoneOmega : Int := 9223372036854775807

/-- The lower end of the first zone period (Go's `alpha`). -/
def zoneAlpha : Int := -9223372036854775808

/-- Walks the transitions: the offset in force at `u` and the bounds of its
period. -/
def lookupAux (off start : Int) : List (Int × Int) → Int → Int × Int × Int
  | [], _ => (off, start, zoneOmega)
  | (s, o) :: rest, u => if u < s then (off, start, s) else lookupAux o s rest u

/-- The function `Location.lookup`: offset, start and end of the zone period that
holds the instant `u`. -/
def Location.lookup : Location → Int → Int × Int × Int
  | .utc, _ => (0, zoneAlpha, zoneOmega)
  | .zone _ base tr, u => lookupAux base zoneAlpha tr u

/-- The name of a location (`Location.String`). -/
def Location.name : Location → List Char
  | .utc => ['U', 'T', 'C']
  | .zone n _ _ => n

/-- Days before each month in a common year, `daysBefore[m-1]` of Go for month
`m` in `1..13`. -/
def daysBefore (m : Int) : Int :=
  if m ≤ 1 then 0 else if m = 2 then 31 else if m = 3 then 59 else if m = 4 then 90
  else if m = 5 then 120 else if m = 6 then 151 else if m = 7 then 181
  else if m = 8 then 212 else if m = 9 then 243 else if m = 10 then 273
  else if m = 11 then 304 else if m = 12 then 334 else 365

/-- Gregorian leap-year test of the `time` package. -/
def isLeap (year : Int) : Bool :=
  year % 4 == 0 && (year % 100 != 0 || year % 400 == 0)

/-- Days from 0001-01-01 to January 1 of `year`. -/
def daysSinceEpoch (year : Int) : Int :=
  let y := year - 1
  365 * y + y / 4 - y / 100 + y / 400

/-- Days from 0001-01-01 to the given civil date; `month` is in `1..12`, `day` is
any integer (day 0 is the last day of the previous month, and so on). -/
def civilDays (year month day : Int) : Int :=
  daysSinceEpoch year + daysBefore month
    + (if isLeap year && month ≥ 3 then 1 else 0) + (day - 1)

/-- Seconds from 0001-01-01T00:00:00 to the Unix epoch. -/
def unixToAbs : Int := 62135596800

/-- The function `time.Date`: months overflow into years, seconds, minutes and
hours into days, and the wall clock is resolved against the location with the same
two lookups as Go. -/
def Date (year month day hour min sec nsec : Int) (loc : Location) : Time :=
  let m := month - 1
  let year := year + m / 12
  let month := m % 12 + 1
  let sec := sec + nsec / 1000000000
  let nsec := nsec % 1000000000
  let abs := civilDays year month day * 86400 + hour * 3600 + min * 60 + sec
  let unix := abs - unixToAbs
  let (offset, start, stop) := loc.lookup unix
  let unix :=
    if offset != 0 then
      let utc := unix - offset
      if utc < start || utc ≥ stop then
        unix - (loc.lookup utc).1
      else unix - offset
    else unix
  { sec := unix, nsec := nsec, loc := loc }

/-- Seconds since 0001-01-01T00:00:00 of the wall clock that `t` shows in its
location (`Time.abs`). -/
def Time.abs (t : Time) : Int :=
  t.sec + (t.loc.lookup t.sec).1 + unixToAbs

/-- The function `absDate` up to the year: the year and the zero-based day of the
year of a day count from 0001-01-01, by 400-, 100-, 4- and 1-year cycles. -/
def absYearDay (days : Int) : Int × Int :=
  let n400 := days / 146097
  let d := days % 146097
  let n100 := d / 36524
  let n100 := n100 - n100 / 4
  let d := d - 36524 * n100
  let n4 := d / 1461
  let d := d - 1461 * n4
  let n := d / 365
  let n := n - n / 4
  let d := d - 365 * n
  (400 * n400 + 100 * n100 + 4 * n4 + n + 1, d)

/-- The rest of `absDate`: month and day of the month from the year and the
zero-based day of the year. -/
def monthDay (year yday : Int) : Int × Int :=
  if isLeap year && yday == 59 then (2, 29)
  else
    let day := if isLeap year && yday > 59 then yday - 1 else yday
    let month := day / 31
    let stop := daysBefore (month + 2)
    if day ≥ stop then (month + 2, day - stop + 1)
    else (month + 1, day - daysBefore (month + 1) + 1)

/-- Year shown by `t`. -/
def Time.Year (t : Time) : Int := (absYearDay (t.abs / 86400)).1

/-- One-based day of the year shown by `t`. -/
def Time.YearDay (t : Time) : Int := (absYearDay (t.abs / 86400)).2 + 1

/-- Month (1..12) shown by `t`. -/
def Time.Month (t : Time) : Int :=
  let yd := absYearDay (t.abs / 86400)
  (monthDay yd.1 yd.2).1

/-- Day of the month shown by `t`. -/
def Time.Day (t : Time) : Int :=
  let yd := absYearDay (t.abs / 86400)
  (monthDay yd.1 yd.2).2

/-- Hour of the day shown by `t`. -/
def Time.Hour (t : Time) : Int := t.abs % 86400 / 3600

/-- Minute of the hour shown by `t`. -/
def Time.Minute (t : Time) : Int := t.abs % 3600 / 60

/-- Second of the minute shown by `t`. -/
def Time.Second (t : Time) : Int := t.abs % 60

/-- Day of the week shown by `t`, Sunday being 0 (0001-01-01 is a Monday). -/
def Time.Weekday (t : Time) : Int := (t.abs / 86400 + 1) % 7

/-- The week number of `Time.ISOWeek`: the week of the year of the Thursday of
the Monday-based week that holds `t`. -/
def Time.ISOWeekNo (t : Time) : Int :=
  let d := 4 - t.Weekday
  let d := if d == 4 then -3 else d
  (absYearDay (t.abs / 86400 + d)).2 / 7 + 1

/-- The method `Time.In`: the same instant shown in another location. -/
def Time.In (t : Time) (loc : Location) : Time := { t with loc := loc }

/-- The method `Time.Equal`: same instant, whatever the locations. -/
def Time.Equal (t u : Time) : Bool := t.sec == u.sec && t.nsec == u.nsec

/-- The method `Time.Before`. -/
def Time.Before (t u : Time) : Bool :=
  decide (t.sec < u.sec) || (t.sec == u.sec && decide (t.nsec < u.nsec))

/-- The method `Time.After`. -/
def Time.After (t u : Time) : Bool :=
  decide (t.sec > u.sec) || (t.sec == u.sec && decide (t.nsec > u.nsec))

/-- The method `Time.AddDate`. -/
def Time.AddDate (t : Time) (years months days : Int) : Time :=
  Date (t.Year + years) (t.Month + months) (t.Day + days)
    t.Hour t.Minute t.Second t.nsec t.loc

/-- The value of an `int64` expression: the integer wrapped into 64 bits. -/
def wrap64 (v : Int) : Int := (v + 2 ^ 63) % 2 ^ 64 - 2 ^ 63

/-- The method `Time.Add`; `d` is a `time.Duration`, a count of nanoseconds held in an
`int64`. The division `d / 1e9` and the remainder `d % 1e9` of Go truncate toward
zero. -/
def Time.Add (t : Time) (d : Int) : Time :=
  let dsec := Int.tdiv d 1000000000
  let nsec := t.nsec + Int.tmod d 1000000000
  if nsec ≥ 1000000000 then { t with sec := t.sec + (dsec + 1), nsec := nsec - 1000000000 }
  else if nsec < 0 then { t with sec := t.sec + (dsec - 1), nsec := nsec + 1000000000 }
  else { t with sec := t.sec + dsec, nsec := nsec }

/-- The zero `time.Time`: 0001-01-01T00:00:00 UTC. -/
def EmptyTime : Time := { sec := -62135596800, nsec := 0, loc := .utc }

/-! ## The rule (`lib.go`) -/

/-- The type `FrequencyValue`, a `uint8` in Go, as its seven constants in declaration
order (`YEARLY` is 0, `SECONDLY` is 6): the values that `Parse` stores. The branches
`panic("Unknown frequency")` of `generateCandidates` and `panic("Unknown Frequency")`
of `FrequencyValue.String` are for the other values of the `uint8`; the second one is
kept in `frequencyString`. -/
inductive FrequencyValue where
  | YEARLY | MONTHLY | WEEKLY | DAILY | HOURLY | MINUTELY | SECONDLY
deriving DecidableEq, Repr

/-- The numeric value of a frequency constant, used by the `<=` comparisons. -/
def FrequencyValue.toNat : FrequencyValue → Nat
  | .YEARLY => 0 | .MONTHLY => 1 | .WEEKLY => 2 | .DAILY => 3
  | .HOURLY => 4 | .MINUTELY => 5 | .SECONDLY => 6

/-- The struct `ForDay`: a weekday (Sunday is 0) and an offset. -/
structure ForDay where
  Weekday : Int
  Offset : Int
deriving DecidableEq, Repr

/-- The struct `RecurringRule`. -/
structure RecurringRule where
  DtStart : Time
  Frequency : FrequencyValue
  Until : Time
  Count : Int
  Interval : Int
  BySecond : List Int
  ByMinute : List Int
  ByHour : List Int
  ByDay : List ForDay
  ByMonthDay : List Int
  ByYearDay : List Int
  ByWeekNo : List Int
  ByMonth : List Int
  BySetPos : List Int
  WorkWeekStart : Int
  ExceptionsToRule : List Time
deriving DecidableEq, Repr

/-! ## The iterator (`iter.go`) -/

/-- The struct `RecurrenceIterator`; the rule it points to is read only. -/
structure RecurrenceIterator where
  rule : RecurringRule
  iterCounter : Int
  iterBuffer : List Time
  ReturnCounter : Int
  UserLimit : Int
  UserBefore : Time
  UserAfter : Time
  UseUserBefore : Bool
  UseUserAfter : Bool
deriving DecidableEq, Repr

/-- The method `RecurringRule.Iterator`: a fresh iterator, every other field zero. -/
def RecurringRule.Iterator (rr : RecurringRule) : RecurrenceIterator :=
  { rule := rr, iterCounter := 0, iterBuffer := [], ReturnCounter := 0,
    UserLimit := 0, UserBefore := EmptyTime, UserAfter := EmptyTime,
    UseUserBefore := false, UseUserAfter := false }

/-- The method `Limit`. -/
def RecurrenceIterator.Limit (ri : RecurrenceIterator) (i : Int) : RecurrenceIterator :=
  { ri with UserLimit := i }

/-- The method `Before`. -/
def RecurrenceIterator.Before (ri : RecurrenceIterator) (b : Time) : RecurrenceIterator :=
  { ri with UserBefore := b, UseUserBefore := true }

/-- The method `After`. -/
def RecurrenceIterator.After (ri : RecurrenceIterator) (b : Time) : RecurrenceIterator :=
  { ri with UserAfter := b, UseUserAfter := true }

/-- The method `Between`. -/
def RecurrenceIterator.Between (ri : RecurrenceIterator) (a b : Time) : RecurrenceIterator :=
  (ri.After a).Before b

/-- The function `getNextDateByFreqAndInterval`. The products `time.Hour *
time.Duration(interval)`, `time.Minute * ...` and `time.Second * ...` are `int64`
counts of nanoseconds and wrap. -/
def getNextDateByFreqAndInterval (last : Time) (freq : FrequencyValue) (interval : Int) : Time :=
  match freq with
  | .YEARLY =>
    let last := Date last.Year last.Month 1 last.Hour last.Minute last.Second 0 last.loc
    last.AddDate (1 * interval) 0 0
  | .MONTHLY =>
    let last := Date last.Year last.Month 1 last.Hour last.Minute last.Second 0 last.loc
    last.AddDate 0 (1 * interval) 0
  | .WEEKLY => last.AddDate 0 0 (7 * interval)
  | .DAILY => last.AddDate 0 0 (1 * interval)
  | .HOURLY => last.Add (wrap64 (3600000000000 * interval))
  | .MINUTELY => last.Add (wrap64 (60000000000 * interval))
  | .SECONDLY => last.Add (wrap64 (1000000000 * interval))

/-- The days `d, d+1, ..., d+n-1` of one month with the wall clock of `root`: the
inner loop `for d := 1; d <= daysInMonth; d += 1` of `generateCandidates`. -/
def monthCandidates (root : Time) (year month : Int) : Nat → Int → List Time
  | 0, _ => []
  | n + 1, d =>
    Date year month d root.Hour root.Minute root.Second 0 root.loc
      :: monthCandidates root year month n (d + 1)

/-- The expression `time.Date(year, month+1, 0, 0, 0, 0, 0, time.UTC).Day()`. -/
def daysInMonth (year month : Int) : Int :=
  (Date year (month + 1) 0 0 0 0 0 .utc).Day

/-- The outer loop `for m := time.January; m < 13; m += 1` of the `YEARLY` case,
from month `m` for `n` months. -/
def yearCandidates (root : Time) : Nat → Int → List Time
  | 0, _ => []
  | n + 1, m =>
    monthCandidates root root.Year m (daysInMonth root.Year m).toNat 1
      ++ yearCandidates root n (m + 1)

/-- The loop `for t.Weekday() != ri.rule.WorkWeekStart` of the `WEEKLY` case; `none`
when the fuel runs out before the weekday is met. -/
def walkBack (wkst : Int) : Nat → Time → Option Time
  | 0, _ => none
  | fuel + 1, t =>
    if t.Weekday != wkst then walkBack wkst fuel (t.AddDate 0 0 (-1)) else some t

/-- The loop `for d := 0; d < 7; d += 1` of the `WEEKLY` case. -/
def weekCandidates : Nat → Time → List Time
  | 0, _ => []
  | n + 1, t => t :: weekCandidates n (t.AddDate 0 0 1)

/-- The method `generateTimesForCandidates`. -/
def generateTimesForCandidates (rule : RecurringRule) (root : Time) : List Time :=
  let ByHourItems :=
    if rule.ByHour.length > 0 && rule.Frequency.toNat ≤ FrequencyValue.DAILY.toNat
    then rule.ByHour else [root.Hour]
  let ByMinuteItems :=
    if rule.ByMinute.length > 0 && rule.Frequency.toNat ≤ FrequencyValue.MINUTELY.toNat
    then rule.ByMinute else [root.Minute]
  let BySecondItems :=
    if rule.BySecond.length > 0 && rule.Frequency.toNat ≤ FrequencyValue.SECONDLY.toNat
    then rule.BySecond else [root.Second]
  ByHourItems.flatMap fun h =>
    ByMinuteItems.flatMap fun m =>
      BySecondItems.map fun s =>
        Date root.Year root.Month root.Day h m s 0 root.loc

/-- The method `generateCandidates`; `none` when the walk back to the start of
the week does not end within the fuel. -/
def generateCandidates (rule : RecurringRule) (fuel : Nat) (root : Time) : Option (List Time) :=
  match rule.Frequency with
  | .YEARLY => some (yearCandidates root 12 1)
  | .MONTHLY =>
    some (monthCandidates root root.Year root.Month (daysInMonth root.Year root.Month).toNat 1)
  | .WEEKLY =>
    let t := Date root.Year root.Month root.Day root.Hour root.Minute root.Second 0 root.loc
    (walkBack rule.WorkWeekStart fuel t).map (weekCandidates 7)
  | _ => some (generateTimesForCandidates rule root)

/-- The inner loop shared by the `ByYearDay`, `ByMonthDay`, `ByMonth` and `ByWeekNo`
blocks of `Step`: a positive value is compared with the field `field` of the
candidate, a negative one is matched when `(candidate_count - cindex) + value` is 0. -/
def matchSigned (values : List Int) (field candidate_count cindex : Int) : Bool :=
  values.any fun value =>
    if value > 0 then field == value
    else if value < 0 then (candidate_count - cindex) + value == 0
    else false

/-- The inner loop of the `ByDay` block of `Step`. -/
def matchByDay (values : List ForDay) (d : Time) (candidate_count cindex : Int) : Bool :=
  values.any fun value =>
    if value.Weekday == d.Weekday then
      if value.Offset == 0 then true
      else if value.Offset > 0 then cindex / 7 + 1 == value.Offset
      else if value.Offset < 0 then
        ((candidate_count - cindex) - 1) / 7 + (value.Offset + 1) == 0
      else false
    else false

/-- The inner loop of the `ByHour`, `ByMinute` and `BySecond` blocks of `Step`. -/
def matchPlain (values : List Int) (field : Int) : Bool :=
  values.any fun value => value == field

/-- The list `matches` that the first loop of `Step` builds for the candidate `d` at
index `cindex` of a period with `candidate_count` candidates. -/
def candidateMatches (rule : RecurringRule) (candidate_count cindex : Int) (d : Time) :
    List Bool :=
  (if rule.ByYearDay.length > 0
    then [matchSigned rule.ByYearDay d.YearDay candidate_count cindex] else [])
  ++ (if rule.ByMonthDay.length > 0
    then [matchSigned rule.ByMonthDay d.Day candidate_count cindex] else [])
  ++ (if rule.ByMonth.length > 0
    then [matchSigned rule.ByMonth d.Month candidate_count cindex] else [])
  ++ (if rule.ByWeekNo.length > 0
    then [matchSigned rule.ByWeekNo d.ISOWeekNo candidate_count cindex] else [])
  ++ (if rule.ByDay.length > 0
    then [matchByDay rule.ByDay d candidate_count cindex] else [])
  ++ (if rule.ByHour.length > 0 then [matchPlain rule.ByHour d.Hour] else [])
  ++ (if rule.ByMinute.length > 0 then [matchPlain rule.ByMinute d.Minute] else [])
  ++ (if rule.BySecond.length > 0 then [matchPlain rule.BySecond d.Second] else [])
  ++ (if rule.ByDay.length == 0 && rule.Frequency == .WEEKLY
        && d.Weekday == rule.DtStart.Weekday then [true] else [])
  ++ (if rule.ByHour.length == 0 && rule.Frequency == .DAILY
        && d.Hour == rule.DtStart.Hour then [true] else [])
  ++ (if rule.ByMinute.length == 0 && rule.Frequency == .HOURLY
        && d.Minute == rule.DtStart.Minute then [true] else [])
  ++ (if rule.BySecond.length == 0 && rule.Frequency == .MINUTELY
        && d.Second == rule.DtStart.Second then [true] else [])
  ++ (if rule.ByYearDay.length == 0 && rule.ByMonthDay.length == 0
        && rule.ByDay.length == 0 && rule.Frequency == .YEARLY
      then [d.Day == rule.DtStart.Day] else [])

/-- The value of `final_match` in the first loop of `Step`: false for an empty
`matches`, the conjunction of its entries otherwise. -/
def firstFinalMatch (ms : List Bool) : Bool :=
  if ms.length == 0 then false else ms.all id

/-- The first loop of `Step` (`for cindex, d := range candidates`), from index
`cindex` on: the candidates whose `final_match` is true, in order. -/
def finalSet (rule : RecurringRule) (candidate_count : Int) : Int → List Time → List Time
  | _, [] => []
  | cindex, d :: rest =>
    if firstFinalMatch (candidateMatches rule candidate_count cindex d)
    then d :: finalSet rule candidate_count (cindex + 1) rest
    else finalSet rule candidate_count (cindex + 1) rest

/-- The inner loop of the `BySetPos` block of `Step`. -/
def matchSetPos (values : List Int) (final_candidate_count cindex : Int) : Bool :=
  values.any fun value =>
    if value > 0 then cindex == value - 1
    else if value < 0 then (final_candidate_count - cindex) + value == 0
    else false

/-- The list `matches` that the second loop of `Step` builds for the survivor `d`
at index `cindex` of `final_set`. -/
def survivorMatches (ri : RecurrenceIterator) (final_candidate_count cindex : Int)
    (d : Time) : List Bool :=
  (if ri.rule.BySetPos.length > 0
    then [matchSetPos ri.rule.BySetPos final_candidate_count cindex] else [])
  ++ (ri.rule.ExceptionsToRule.filter fun exDate => exDate.Equal d).map (fun _ => false)
  ++ (if ri.UseUserBefore then [d.Before ri.UserBefore] else [])
  ++ (if ri.UseUserAfter then [d.After ri.UserAfter] else [])

/-- The second loop of `Step` (`for cindex, d := range final_set`), from index
`cindex` on, threading the buffer and the flag `shortcircuit_finish`. -/
def secondLoop (ri : RecurrenceIterator) (final_candidate_count : Int) :
    Int → List Time → List Time × Bool → List Time × Bool
  | _, [], acc => acc
  | cindex, d :: rest, (buffer, shortcircuit_finish) =>
    let ms := survivorMatches ri final_candidate_count cindex d
    let shortcircuit_finish :=
      if ri.UseUserBefore && !(d.Before ri.UserBefore) then true else shortcircuit_finish
    let final_match := ms.all id
    let buffer :=
      if final_match && !(d.Before ri.rule.DtStart) then buffer ++ [d] else buffer
    secondLoop ri final_candidate_count (cindex + 1) rest (buffer, shortcircuit_finish)

/-- One pass through the body of the loop `for len(ri.iterBuffer) == 0 &&
shortcircuit_finish == false` of `Step`: the iterator after the pass and the flag
`shortcircuit_finish`; `none` when the candidates could not be generated within the
fuel. -/
def advancePeriod (fuel : Nat) (ri : RecurrenceIterator) (shortcircuit_finish : Bool) :
    Option (RecurrenceIterator × Bool) :=
  let next_base := getNextDateByFreqAndInterval ri.rule.DtStart ri.rule.Frequency
    (ri.rule.Interval * ri.iterCounter)
  match generateCandidates ri.rule fuel next_base with
  | none => none
  | some candidates =>
    let candidate_count : Int := candidates.length
    let final_set := finalSet ri.rule candidate_count 0 candidates
    let final_candidate_count : Int := final_set.length
    let r := secondLoop ri final_candidate_count 0 final_set (ri.iterBuffer, shortcircuit_finish)
    some ({ ri with iterBuffer := r.1, iterCounter := ri.iterCounter + 1 }, r.2)

/-- The loop `for len(ri.iterBuffer) == 0 && shortcircuit_finish == false` of `Step`,
with at most `fuel` passes, each pass generating its candidates within `wfuel`;
`none` when the loop has not ended by then. -/
def refill (wfuel : Nat) : Nat → RecurrenceIterator → Bool → Option (RecurrenceIterator × Bool)
  | 0, ri, shortcircuit_finish =>
    if ri.iterBuffer.length == 0 && shortcircuit_finish == false then none
    else some (ri, shortcircuit_finish)
  | fuel + 1, ri, shortcircuit_finish =>
    if ri.iterBuffer.length == 0 && shortcircuit_finish == false then
      match advancePeriod wfuel ri shortcircuit_finish with
      | none => none
      | some (ri, shortcircuit_finish) => refill wfuel fuel ri shortcircuit_finish
    else some (ri, shortcircuit_finish)

/-- The result of one call `ri.Step(&t)`: the value returned, the caller's
variable `t` after the call, and the iterator after the call. -/
structure StepResult where
  ok : Bool
  out : Time
  iter : RecurrenceIterator
deriving DecidableEq, Repr

/-- The part of `Step` after the loop: deliver the head of the buffer. -/
def deliver (ri : RecurrenceIterator) (shortcircuit_finish : Bool) (t : Time) : StepResult :=
  match ri.iterBuffer with
  | head :: tail =>
    let ri := { ri with iterBuffer := tail }
    if !(ri.rule.Until.Equal EmptyTime) && head.After ri.rule.Until then
      { ok := false, out := head, iter := ri }
    else
      let ri := { ri with ReturnCounter := ri.ReturnCounter + 1 }
      if ri.UserLimit > 0 && ri.ReturnCounter > ri.UserLimit then
        { ok := false, out := head, iter := ri }
      else { ok := true, out := head, iter := ri }
  | [] => { ok := !shortcircuit_finish, out := t, iter := ri }

/-- The method `Step`, called with the caller's variable holding `t`; `none` when
the period loop has not ended within `fuel` passes (or a walk back to the start of
the week within `fuel` days). -/
def Step (fuel : Nat) (ri : RecurrenceIterator) (t : Time) : Option StepResult :=
  if ri.rule.Count > 0 && ri.ReturnCounter ≥ ri.rule.Count then
    some { ok := false, out := t, iter := ri }
  else
    match refill fuel fuel ri false with
    | none => none
    | some (ri, shortcircuit_finish) => some (deliver ri shortcircuit_finish t)

/-- Successive calls of `Step` on one iterator, one call for each entry of `calls`;
an entry gives the fuel of the call and the value the caller's variable holds
before it. `none` when a call does not return within its fuel. -/
def StepSeq : List (Nat × Time) → RecurrenceIterator → Option (List StepResult)
  | [], _ => some []
  | (fuel, t) :: rest, ri =>
    match Step fuel ri t with
    | none => none
    | some r =>
      match StepSeq rest r.iter with
      | none => none
      | some rs => some (r :: rs)

/-- The timestamps that a sequence of calls delivered: the outputs of the calls
that returned true, in order. -/
def yielded (rs : List StepResult) : List Time :=
  (rs.filter fun r => r.ok).map fun r => r.out

/-- A rule with an empty list in every BY-part. -/
def RecurringRule.NoByParts (r : RecurringRule) : Prop :=
  r.BySecond = [] ∧ r.ByMinute = [] ∧ r.ByHour = [] ∧ r.ByDay = [] ∧ r.ByMonthDay = []
    ∧ r.ByYearDay = [] ∧ r.ByWeekNo = [] ∧ r.ByMonth = [] ∧ r.BySetPos = []

/-- A rule with the given anchor and frequency and the defaults of `Parse` in every
other field (`Interval` 1, `WorkWeekStart` Monday). -/
def plainRule (dtStart : Time) (freq : FrequencyValue) : RecurringRule :=
  { DtStart := dtStart, Frequency := freq, Until := EmptyTime, Count := 0, Interval := 1,
    BySecond := [], ByMinute := [], ByHour := [], ByDay := [], ByMonthDay := [],
    ByYearDay := [], ByWeekNo := [], ByMonth := [], BySetPos := [], WorkWeekStart := 1,
    ExceptionsToRule := [] }

end RRule

namespace RRule

/-! ## Predicates used by the invariants -/

/-- What the second loop of `Step` guarantees of a timestamp it buffers. -/
def Passes (ri : RecurrenceIterator) (d : Time) : Prop :=
  d.Before ri.rule.DtStart = false
    ∧ (∀ e ∈ ri.rule.ExceptionsToRule, e.Equal d = false)
    ∧ (ri.UseUserBefore = true → d.Before ri.UserBefore = true)
    ∧ (ri.UseUserAfter = true → d.After ri.UserAfter = true)

/-- Two iterator states over the same rule with the same user settings. -/
def SameConfig (a b : RecurrenceIterator) : Prop :=
  a.rule = b.rule ∧ a.UserLimit = b.UserLimit ∧ a.UserBefore = b.UserBefore
    ∧ a.UserAfter = b.UserAfter ∧ a.UseUserBefore = b.UseUserBefore
    ∧ a.UseUserAfter = b.UseUserAfter

/-- Every buffered timestamp has gone through the second loop of `Step`. -/
def BufferOK (ri : RecurrenceIterator) : Prop :=
  ∀ d ∈ ri.iterBuffer, Passes ri d

end RRule

namespace RRule

/-! ## Concrete rules used to instantiate the theorems -/

/-- The zone America/New_York around 2018: EST, with the two transitions of 2018. -/
def newYork2018 : Location :=
  .zone "America/New_York".toList (-18000) [(1520751600, -14400), (1541311200, -18000)]

/-- The zone America/Los_Angeles around 2018: PST, with the two transitions of 2018. -/
def losAngeles2018 : Location :=
  .zone "America/Los_Angeles".toList (-28800) [(1520762400, -25200), (1541322000, -28800)]

/-- The rule `DTSTART:20200102T090000Z`, `RRULE:FREQ=DAILY;COUNT=2`. -/
def dailyCount2 : RecurringRule :=
  { plainRule (Date 2020 1 2 9 0 0 0 .utc) .DAILY with Count := 2 }

/-- Four calls of `Step`, each with fuel 1 and the zero time in the caller's variable. -/
def fourCalls : List (Nat × Time) :=
  [(1, EmptyTime), (1, EmptyTime), (1, EmptyTime), (1, EmptyTime)]

/-- The results of `fourCalls` on a fresh iterator over `dailyCount2`. -/
def dailyCount2Run : List StepResult :=
  (StepSeq fourCalls dailyCount2.Iterator).getD []

/-- The rule `DTSTART:20200102T090000Z`, `RRULE:FREQ=DAILY;UNTIL=20200103T090000Z`: the
second occurrence falls on `Until`. -/
def dailyUntil : RecurringRule :=
  { plainRule (Date 2020 1 2 9 0 0 0 .utc) .DAILY with Until := Date 2020 1 3 9 0 0 0 .utc }

/-- A fresh iterator over `dailyUntil` set to deliver only what is after the anchor. -/
def dailyUntilIter : RecurrenceIterator :=
  dailyUntil.Iterator.After dailyUntil.DtStart

/-- The state in which the period loop leaves `dailyUntilIter`. -/
def dailyUntilRefilled : RecurrenceIterator × Bool :=
  (refill 2 2 dailyUntilIter false).getD (dailyUntilIter, false)

/-- The rule of `Test_RealWorldFromGoogle_WithException_DiffTimezone`: every other
week from 2018-09-02 09:00 New York, three times, with the exception 2018-09-16
06:00 written in Los Angeles time. -/
def weeklyWithException : RecurringRule :=
  { plainRule (Date 2018 9 2 9 0 0 0 newYork2018) .WEEKLY with
    Count := 3, Interval := 2,
    ExceptionsToRule := [Date 2018 9 16 6 0 0 0 losAngeles2018] }

/-- Four calls of `Step`, each with fuel 8. -/
def fourCalls8 : List (Nat × Time) :=
  [(8, EmptyTime), (8, EmptyTime), (8, EmptyTime), (8, EmptyTime)]

/-- The results of `fourCalls8` on a fresh iterator over `weeklyWithException`. -/
def weeklyWithExceptionRun : List StepResult :=
  (StepSeq fourCalls8 weeklyWithException.Iterator).getD []

/-- The rule `DTSTART:19970902T090000Z`, `RRULE:FREQ=MONTHLY;BYMONTHDAY=1`: the first
candidate of the first period, 1997-09-01, precedes the anchor. -/
def monthlyFirstDay : RecurringRule :=
  { plainRule (Date 1997 9 2 9 0 0 0 .utc) .MONTHLY with ByMonthDay := [1] }

/-- The results of two calls with fuel 2 on a fresh iterator over `monthlyFirstDay`. -/
def monthlyFirstDayRun : List StepResult :=
  (StepSeq [(2, EmptyTime), (2, EmptyTime)] monthlyFirstDay.Iterator).getD []

end RRule

namespace RRule

/-! ## The hard limit -/

/-- Modelled from the spec: the hard limit of the iterator. `iter.go` has no
`HardLimit` method, no `IsHardLimitReached` method and no bound in the loop of
`Step`; only `Test_IteratorHardLimit` calls them. The spec says: "Hard limit: an
implementer-supplied upper bound on total iterations of the period-advance loop
(to defend against pathological rules that never emit). When reached the iterator
signals end and exposes a hard limit reached flag." The iterator of `iter.go` is
extended with the bound (absent until `HardLimit` sets it) and the flag; the total
number of iterations of the period-advance loop is the field `iterCounter`, which
every pass increments. -/
structure LimitedIterator where
  iter : RecurrenceIterator
  hardLimit : Option Int
  hardLimitReached : Bool
deriving DecidableEq, Repr

/-- Modelled from the spec: the helper `hard_limit(n)`, which `iter.go` lacks; it sets
the bound and changes nothing else. -/
def LimitedIterator.HardLimit (li : LimitedIterator) (n : Int) : LimitedIterator :=
  { li with hardLimit := some n }

/-- Modelled from the spec: the predicate `is_hard_limit_reached()`, which `iter.go`
lacks; it reads the flag. -/
def LimitedIterator.IsHardLimitReached (li : LimitedIterator) : Bool :=
  li.hardLimitReached

/-- Modelled from the spec: a fresh iterator with no hard limit set, the extension of
`RecurringRule.Iterator`. -/
def RecurringRule.LimitedIterator (rr : RecurringRule) : LimitedIterator :=
  { iter := rr.Iterator, hardLimit := none, hardLimitReached := false }

/-- Modelled from the spec: the bound on the total iterations of the period-advance
loop has been reached. -/
def LimitedIterator.atLimit (li : LimitedIterator) : Bool :=
  match li.hardLimit with
  | none => false
  | some h => decide (h ≤ li.iter.iterCounter)

/-- Modelled from the spec: the period loop of `Step` with the hard limit, which
`iter.go` lacks. Before each pass the bound is tested; when it is reached the flag is
set and the loop is left to signal the end (third component true). The pass itself is
`advancePeriod`, the body of the loop of `iter.go`. -/
def refillLimited (wfuel : Nat) :
    Nat → LimitedIterator → Bool → Option (LimitedIterator × Bool × Bool)
  | 0, li, shortcircuit_finish =>
    if li.iter.iterBuffer.length == 0 && shortcircuit_finish == false then
      if li.atLimit then some ({ li with hardLimitReached := true }, shortcircuit_finish, true)
      else none
    else some (li, shortcircuit_finish, false)
  | fuel + 1, li, shortcircuit_finish =>
    if li.iter.iterBuffer.length == 0 && shortcircuit_finish == false then
      if li.atLimit then some ({ li with hardLimitReached := true }, shortcircuit_finish, true)
      else
        match advancePeriod wfuel li.iter shortcircuit_finish with
        | none => none
        | some (ri, shortcircuit_finish) =>
          refillLimited wfuel fuel { li with iter := ri } shortcircuit_finish
    else some (li, shortcircuit_finish, false)

/-- The result of one call of `Step` on an iterator with a hard limit. -/
structure LimitedStepResult where
  ok : Bool
  out : Time
  iter : LimitedIterator
deriving DecidableEq, Repr

/-- Modelled from the spec: `Step` with the hard limit, which `iter.go` lacks: the
`Step` of `iter.go` with `refillLimited` for its loop, returning false when the loop
was left because the bound was reached. -/
def StepLimited (fuel : Nat) (li : LimitedIterator) (t : Time) : Option LimitedStepResult :=
  if li.iter.rule.Count > 0 && li.iter.ReturnCounter ≥ li.iter.rule.Count then
    some { ok := false, out := t, iter := li }
  else
    match refillLimited fuel fuel li false with
    | none => none
    | some (li, shortcircuit_finish, stopped) =>
      if stopped then some { ok := false, out := t, iter := li }
      else
        let r := deliver li.iter shortcircuit_finish t
        some { ok := r.ok, out := r.out, iter := { li with iter := r.iter } }

/-- Every period of the rule gets its candidates within `wfuel` steps of the walk back
to the start of the week (always so when the frequency is not `WEEKLY`). -/
def CandidatesWithin (rule : RecurringRule) (wfuel : Nat) : Prop :=
  ∀ root, (generateCandidates rule wfuel root).isSome = true

/-- The rule `DTSTART;TZID=America/New_York:20200102T090000`, `RRULE:FREQ=MONTHLY;COUNT=5`
of `Test_MonthlyFreqWithoutByMonthDay`, with the zone taken as a fixed EST. -/
def monthlyCount5 : RecurringRule :=
  { plainRule (Date 2020 1 2 9 0 0 0 (.zone "America/New_York".toList (-18000) [])) .MONTHLY
    with Count := 5 }

end RRule

namespace RRule

/-- The zone America/New_York around 2020: EST, with the two transitions of 2020. -/
def newYork2020 : Location :=
  .zone "America/New_York".toList (-18000) [(1583650800, -14400), (1604210400, -18000)]

/-- The rule `DTSTART;TZID=America/New_York:20200102T090000`, `RRULE:FREQ=YEARLY;COUNT=5`
of `Test_YearlyFreqWithoutByYearDay`. -/
def yearlyCount5 : RecurringRule :=
  { plainRule (Date 2020 1 2 9 0 0 0 newYork2020) .YEARLY with Count := 5 }

/-- Six calls of `Step`, each with fuel 1, the caller's variable threaded from call to
call as in `for iter.Step(&out) {}`. -/
def sixCalls (ri : RecurrenceIterator) : Option (List StepResult) :=
  match Step 1 ri EmptyTime with
  | none => none
  | some r₁ =>
    match Step 1 r₁.iter r₁.out with
    | none => none
    | some r₂ =>
      match Step 1 r₂.iter r₂.out with
      | none => none
      | some r₃ =>
        match Step 1 r₃.iter r₃.out with
        | none => none
        | some r₄ =>
          match Step 1 r₄.iter r₄.out with
          | none => none
          | some r₅ =>
            match Step 1 r₅.iter r₅.out with
            | none => none
            | some r₆ => some [r₁, r₂, r₃, r₄, r₅, r₆]

/-- The rule `DTSTART;TZID=America/New_York:20180902T090000`, `RRULE:FREQ=SECONDLY;COUNT=5`
of `Test_FrequencySecondly`. -/
def secondlyCount5 : RecurringRule :=
  { plainRule (Date 2018 9 2 9 0 0 0 newYork2018) .SECONDLY with Count := 5 }

/-- The rule `DTSTART:20200102T090000Z`, `RRULE:FREQ=DAILY;BYHOUR=10,9`. -/
def dailyByHourDescending : RecurringRule :=
  { plainRule (Date 2020 1 2 9 0 0 0 .utc) .DAILY with ByHour := [10, 9] }

/-- A result that stands for a call that did not return. -/
def default_result : StepResult :=
  { ok := false, out := EmptyTime, iter := (plainRule EmptyTime .DAILY).Iterator }

end RRule

namespace RRule

/-! ## Go strings and the library functions the parser calls

A Go string is modelled by the list of its characters; the texts of the grammar are
ASCII, where a character is a byte. -/

/-- The kinds of error value that the package returns. -/
inductive GoError where
  | badFormat
  | numError
  | unknownZone
  | rfcCheck
  | invalidFreq
deriving DecidableEq, Repr

/-- How a call fails: it returns an error value, or the Go runtime panics (an explicit
`panic`, or an index out of range). -/
inductive Failure where
  | error (e : GoError)
  | panic
deriving DecidableEq, Repr

/-- The function `strings.HasPrefix`. -/
def stringsHasPrefix (s p : List Char) : Bool := p.isPrefixOf s

/-- The function `strings.HasSuffix`. -/
def stringsHasSuffix (s p : List Char) : Bool := p.isSuffixOf s

/-- The function `strings.Contains` for a separator of one character. -/
def stringsContains (s : List Char) (c : Char) : Bool := s.contains c

/-- The function `strings.Split` for a separator of one character. -/
def stringsSplit : List Char → Char → List (List Char)
  | [], _ => [[]]
  | c :: rest, sep =>
    if c == sep then [] :: stringsSplit rest sep
    else
      match stringsSplit rest sep with
      | [] => [[c]]
      | h :: t => (c :: h) :: t

/-- The call `strings.SplitN(s, sep, 2)` for a separator of one character: the text
before the first separator and the text after it, or the text alone. -/
def stringsSplitN2 : List Char → Char → List (List Char)
  | [], _ => [[]]
  | c :: rest, sep =>
    if c == sep then [[], rest]
    else
      match stringsSplitN2 rest sep with
      | [h] => [c :: h]
      | h :: t => (c :: h) :: t
      | [] => [[c]]

/-- The function `strings.Join`. -/
def stringsJoin : List (List Char) → List Char → List Char
  | [], _ => []
  | [a], _ => a
  | a :: b :: rest, sep => a ++ sep ++ stringsJoin (b :: rest) sep

/-- The function `unicode.IsDigit` on `rune(b)` for a byte `b`: below 256 the only
decimal digits are `0` to `9`. -/
def isDigitByte (c : Char) : Bool := decide ('0' ≤ c) && decide (c ≤ '9')

/-- The value of a run of decimal digits read after the value `acc`; `none` when a
character is not a digit. -/
def digitsValue : List Char → Nat → Option Nat
  | [], acc => some acc
  | c :: rest, acc =>
    if isDigitByte c then digitsValue rest (acc * 10 + (c.toNat - '0'.toNat)) else none

/-- The function `strconv.ParseInt(s, 10, bitSize)`: an optional sign and at least one
decimal digit; a value outside the range of `bitSize` bits is an error. -/
def strconvParseInt (s : List Char) (bitSize : Nat) : Except Failure Int :=
  let body :=
    match s with
    | '+' :: rest => rest
    | '-' :: rest => rest
    | _ => s
  let negative :=
    match s with
    | '-' :: _ => true
    | _ => false
  match body with
  | [] => .error (.error .numError)
  | _ =>
    match digitsValue body 0 with
    | none => .error (.error .numError)
    | some n =>
      let v : Int := if negative then -(n : Int) else (n : Int)
      if v < -(2 ^ (bitSize - 1) : Int) || v ≥ (2 ^ (bitSize - 1) : Int) then
        .error (.error .numError)
      else .ok v

/-- The conversion `int16(v)` of an `int64`. -/
def toInt16 (v : Int) : Int := (v + 32768) % 65536 - 32768

/-- The decimal digits of a natural number, most significant first, with fuel one more
than the number. -/
def natDigitsAux : Nat → Nat → List Char → List Char
  | 0, _, acc => acc
  | fuel + 1, n, acc =>
    let acc := Char.ofNat ('0'.toNat + n % 10) :: acc
    if n / 10 = 0 then acc else natDigitsAux fuel (n / 10) acc

/-- The verb `%d` on a natural number. -/
def natDigits (n : Nat) : List Char := natDigitsAux (n + 1) n []

/-- The verb `%d` of `fmt.Sprintf`. -/
def formatInt (v : Int) : List Char :=
  if v < 0 then '-' :: natDigits v.natAbs else natDigits v.natAbs

/-- The verbs `%02d` and `%04d` of `fmt.Sprintf`: zeros between the sign and the digits
up to the width, the sign counting in the width. -/
def formatIntPadded (width : Nat) (v : Int) : List Char :=
  let digits := natDigits v.natAbs
  if v < 0 then '-' :: (List.replicate (width - 1 - digits.length) '0' ++ digits)
  else List.replicate (width - digits.length) '0' ++ digits

/-- The time zone database of the platform, as the named zones it holds. -/
abbrev TzDatabase := List Location

/-- The function `time.LoadLocation`: the empty name and `UTC` give `time.UTC`, any
other name is looked up in the database. -/
def LoadLocation (db : TzDatabase) (name : List Char) : Except Failure Location :=
  if name = [] || name = ['U', 'T', 'C'] then .ok .utc
  else
    match db.find? fun l => l.name == name with
    | some l => .ok l
    | none => .error (.error .unknownZone)

/-! ## Dates and times (`date_and_time.go`) -/

/-- The function `ParseDateTime`. -/
def ParseDateTime (s : List Char) (InLocation : Location) : Except Failure Time := do
  let s_len := s.length
  if s_len < 8 then throw (.error .badFormat)
  let year := s.take 4
  let month := (s.drop 4).take 2
  let day := (s.drop 6).take 2
  let y ← strconvParseInt year 32
  let m ← strconvParseInt month 32
  let d ← strconvParseInt day 32
  if s.length == 8 then
    return Date y m d 0 0 0 0 .utc
  if (s.drop 8).head? != some 'T' then throw (.error .badFormat)
  if s_len < 15 || s_len > 16 then throw (.error .badFormat)
  let hours := (s.drop 9).take 2
  let minutes := (s.drop 11).take 2
  let seconds := (s.drop 13).take 2
  let is_utc := stringsHasSuffix s ['Z']
  let hrs ← strconvParseInt hours 32
  let min ← strconvParseInt minutes 32
  let sec ← strconvParseInt seconds 32
  let locale := if is_utc then Location.utc else InLocation
  return Date y m d hrs min sec 0 locale

/-- The loop of `ParseDateTimeChunks` over the parameters before the colon: each must
be `TZID=<zone>`, the last one read gives the location. -/
def readZoneParams (db : TzDatabase) : List (List Char) → Location → Except Failure Location
  | [], loc => .ok loc
  | item :: rest, _ =>
    match stringsSplitN2 item '=' with
    | [key, value] =>
      if key = ['T', 'Z', 'I', 'D'] then
        match LoadLocation db value with
        | .ok loc => readZoneParams db rest loc
        | .error e => .error e
      else .error .panic
    | _ => .error .panic

/-- The loop of `ParseDateTimeChunks` over the timestamps. -/
def parseDateTimes (loc : Location) : List (List Char) → Except Failure (List Time)
  | [] => .ok []
  | item :: rest =>
    match ParseDateTime item loc with
    | .error e => .error e
    | .ok dt =>
      match parseDateTimes loc rest with
      | .error e => .error e
      | .ok dts => .ok (dt :: dts)

/-- The function `ParseDateTimeChunks`. -/
def ParseDateTimeChunks (db : TzDatabase) (s : List Char) : Except Failure (List Time) :=
  if stringsContains s ':' then
    match stringsSplit s ':' with
    | params :: values :: _ =>
      match readZoneParams db (stringsSplit params ';') .utc with
      | .error e => .error e
      | .ok loc => parseDateTimes loc (stringsSplit values ',')
    | _ => .error .panic
  else parseDateTimes .utc (stringsSplit s ',')

/-- The function `DateTimeToString`. -/
def DateTimeToString (t : Time) : List Char :=
  let body :=
    formatIntPadded 4 t.Year ++ formatIntPadded 2 t.Month ++ formatIntPadded 2 t.Day
      ++ ['T'] ++ formatIntPadded 2 t.Hour ++ formatIntPadded 2 t.Minute
      ++ formatIntPadded 2 t.Second
  if t.loc = .utc then body ++ ['Z'] else body

/-- The function `DatesToList`. -/
def DatesToList (times : List Time) : List Char :=
  match times with
  | [] => []
  | first :: rest =>
    let loc := first.loc
    let correctedTimes := first :: rest.map fun t2 => t2.In loc
    let correctedTimeStrings := correctedTimes.map DateTimeToString
    if loc = .utc then [':'] ++ stringsJoin correctedTimeStrings [',']
    else ";TZID=".toList ++ loc.name ++ [':'] ++ stringsJoin correctedTimeStrings [',']

end RRule

namespace RRule

/-! ## Parsing and rendering a rule (`lib.go`, `parse.go`) -/

/-- The method `FrequencyValue.String` on the numeric value of its receiver: it panics
on a value that is none of the seven constants. -/
def frequencyString (code : Nat) : Except Failure (List Char) :=
  if code = 0 then .ok "YEARLY".toList
  else if code = 1 then .ok "MONTHLY".toList
  else if code = 2 then .ok "WEEKLY".toList
  else if code = 3 then .ok "DAILY".toList
  else if code = 4 then .ok "HOURLY".toList
  else if code = 5 then .ok "MINUTELY".toList
  else if code = 6 then .ok "SECONDLY".toList
  else .error .panic

/-- The method `FrequencyValue.String` on one of the seven constants, which are the
values that the type `FrequencyValue` of this development holds. -/
def FrequencyValue.String (fv : FrequencyValue) : Except Failure (List Char) :=
  frequencyString fv.toNat

/-- The function `weekdayFromShort`; it panics on an unknown name. -/
def weekdayFromShort (s : List Char) : Except Failure Int :=
  if s = ['S', 'U'] then .ok 0
  else if s = ['M', 'O'] then .ok 1
  else if s = ['T', 'U'] then .ok 2
  else if s = ['W', 'E'] then .ok 3
  else if s = ['T', 'H'] then .ok 4
  else if s = ['F', 'R'] then .ok 5
  else if s = ['S', 'A'] then .ok 6
  else .error .panic

/-- The function `shortFromWeekday`; it panics on a value that is no weekday. -/
def shortFromWeekday (t : Int) : Except Failure (List Char) :=
  if t = 0 then .ok ['S', 'U']
  else if t = 1 then .ok ['M', 'O']
  else if t = 2 then .ok ['T', 'U']
  else if t = 3 then .ok ['W', 'E']
  else if t = 4 then .ok ['T', 'H']
  else if t = 5 then .ok ['F', 'R']
  else if t = 6 then .ok ['S', 'A']
  else .error .panic

/-- The method `ForDay.String`. -/
def ForDay.String (fd : ForDay) : Except Failure (List Char) :=
  match shortFromWeekday fd.Weekday with
  | .error e => .error e
  | .ok s => if fd.Offset = 0 then .ok s else .ok (formatInt fd.Offset ++ s)

/-- The function `compareListsOfInt16`. -/
def compareListsOfInt16 (a b : List Int) : Bool :=
  if a.length != b.length then false
  else (a.zip b).all fun p => p.1 == p.2

/-- The method `RecurringRule.Equal`, test by test in the order of the source. -/
def RecurringRule.Equal (r1 r2 : RecurringRule) : Bool :=
  if !(r1.DtStart.Equal r2.DtStart) then false
  else if r1.Frequency != r2.Frequency then false
  else if !(r1.Until.Equal r2.Until) then false
  else if r1.Count != r2.Count then false
  else if r1.Interval != r2.Interval then false
  else if compareListsOfInt16 r1.BySecond r2.BySecond == false then false
  else if compareListsOfInt16 r1.ByMinute r2.ByMinute == false then false
  else if compareListsOfInt16 r1.ByHour r2.ByHour == false then false
  else if r1.ByDay.length != r2.ByDay.length then false
  else if (r1.ByDay.zip r2.ByDay).any (fun p => p.1 != p.2) then false
  else if compareListsOfInt16 r1.ByMonthDay r2.ByMonthDay == false then false
  else if compareListsOfInt16 r1.ByYearDay r2.ByYearDay == false then false
  else if compareListsOfInt16 r1.ByWeekNo r2.ByWeekNo == false then false
  else if compareListsOfInt16 r1.BySetPos r2.BySetPos == false then false
  else if r1.WorkWeekStart != r2.WorkWeekStart then false
  else if r1.ExceptionsToRule.length != r2.ExceptionsToRule.length then false
  else if (r1.ExceptionsToRule.zip r2.ExceptionsToRule).any (fun p => !(p.1.Equal p.2))
    then false
  else true

/-- The method `passed_rfc_checks`, as the boolean it returns. -/
def RecurringRule.passed_rfc_checks (rr : RecurringRule) : Bool :=
  if rr.BySecond.any (fun item => decide (item < 0) || decide (item > 60)) then false
  else if rr.ByMinute.any (fun item => decide (item < 0) || decide (item > 59)) then false
  else if rr.ByHour.any (fun item => decide (item < 0) || decide (item > 23)) then false
  else if rr.ByDay.any (fun item => decide (item.Offset < -53) || decide (item.Offset > 53))
    then false
  else true

/-- The method `internal_parser`. -/
def RecurringRule.internalParser (rr : RecurringRule) : Except Failure Unit :=
  if rr.passed_rfc_checks == false then .error (.error .rfcCheck) else .ok ()

/-- The method `handle_part_freq`. -/
def RecurringRule.handle_part_freq (rr : RecurringRule) (value : List Char) :
    Except Failure RecurringRule :=
  if value = "SECONDLY".toList then .ok { rr with Frequency := .SECONDLY }
  else if value = "MINUTELY".toList then .ok { rr with Frequency := .MINUTELY }
  else if value = "HOURLY".toList then .ok { rr with Frequency := .HOURLY }
  else if value = "DAILY".toList then .ok { rr with Frequency := .DAILY }
  else if value = "WEEKLY".toList then .ok { rr with Frequency := .WEEKLY }
  else if value = "MONTHLY".toList then .ok { rr with Frequency := .MONTHLY }
  else if value = "YEARLY".toList then .ok { rr with Frequency := .YEARLY }
  else .error (.error .invalidFreq)

/-- The loop over the chunks of an integer BY-list in `handle_recur_rule_part`. -/
def parseInt16List : List (List Char) → Except Failure (List Int)
  | [] => .ok []
  | item :: rest =>
    match strconvParseInt item 64 with
    | .error e => .error e
    | .ok iv =>
      match parseInt16List rest with
      | .error e => .error e
      | .ok results => .ok (toInt16 iv :: results)

/-- The body of the loop over the chunks of `BYDAY` in `handle_recur_rule_part`: an
index past the end of the chunk panics. -/
def parseForDay (item : List Char) : Except Failure ForDay :=
  match item with
  | [] => .error .panic
  | c0 :: _ =>
    let offset_dir : Int := if c0 == '-' then -1 else 1
    let item := if c0 == '-' then item.drop 1 else item
    match item with
    | [] => .error .panic
    | d0 :: after0 =>
      if isDigitByte d0 then
        match after0 with
        | [] => .error .panic
        | d1 :: after1 =>
          let chunk := if isDigitByte d1 then [d0, d1] else [d0]
          let item := if isDigitByte d1 then after1 else after0
          match strconvParseInt chunk 64 with
          | .error e => .error e
          | .ok iv =>
            match weekdayFromShort item with
            | .error e => .error e
            | .ok dow => .ok { Weekday := dow, Offset := iv * offset_dir }
      else
        match weekdayFromShort item with
        | .error e => .error e
        | .ok dow => .ok { Weekday := dow, Offset := 0 * offset_dir }

/-- The loop over the chunks of `BYDAY` in `handle_recur_rule_part`. -/
def parseForDays : List (List Char) → Except Failure (List ForDay)
  | [] => .ok []
  | item :: rest =>
    match parseForDay item with
    | .error e => .error e
    | .ok fd =>
      match parseForDays rest with
      | .error e => .error e
      | .ok results => .ok (fd :: results)

/-- The method `handle_recur_rule_part`; a key that no case names changes nothing. -/
def RecurringRule.handle_recur_rule_part (rr : RecurringRule) (key value : List Char) :
    Except Failure RecurringRule :=
  if key = "FREQ".toList then rr.handle_part_freq value
  else if key = "UNTIL".toList then
    match ParseDateTime value rr.DtStart.loc with
    | .error e => .error e
    | .ok dt => .ok { rr with Until := dt }
  else if key = "COUNT".toList then
    match strconvParseInt value 64 with
    | .error e => .error e
    | .ok iv => .ok { rr with Count := iv }
  else if key = "INTERVAL".toList then
    match strconvParseInt value 64 with
    | .error e => .error e
    | .ok iv => .ok { rr with Interval := iv }
  else if key = "BYSECOND".toList || key = "BYMINUTE".toList || key = "BYHOUR".toList
      || key = "BYMONTHDAY".toList || key = "BYYEARDAY".toList || key = "BYWEEKNO".toList
      || key = "BYMONTH".toList || key = "BYSETPOS".toList then
    match parseInt16List (stringsSplit value ',') with
    | .error e => .error e
    | .ok results =>
      if key = "BYSECOND".toList then .ok { rr with BySecond := results }
      else if key = "BYMINUTE".toList then .ok { rr with ByMinute := results }
      else if key = "BYHOUR".toList then .ok { rr with ByHour := results }
      else if key = "BYMONTHDAY".toList then .ok { rr with ByMonthDay := results }
      else if key = "BYYEARDAY".toList then .ok { rr with ByYearDay := results }
      else if key = "BYWEEKNO".toList then .ok { rr with ByWeekNo := results }
      else if key = "BYMONTH".toList then .ok { rr with ByMonth := results }
      else .ok { rr with BySetPos := results }
  else if key = "WKST".toList then
    match weekdayFromShort value with
    | .error e => .error e
    | .ok d => .ok { rr with WorkWeekStart := d }
  else if key = "BYDAY".toList then
    match parseForDays (stringsSplit value ',') with
    | .error e => .error e
    | .ok results => .ok { rr with ByDay := results }
  else .ok rr

/-- The loop over the parts of an `RRULE:` line in `handle_rule_chunk`; a part without
`=` panics on `args[1]`. -/
def RecurringRule.handle_parts (rr : RecurringRule) : List (List Char) → Except Failure RecurringRule
  | [] => .ok rr
  | part :: rest =>
    match stringsSplitN2 part '=' with
    | [key, value] =>
      match rr.handle_recur_rule_part key value with
      | .error e => .error e
      | .ok rr => rr.handle_parts rest
    | _ => .error .panic

/-- The method `handle_rule_chunk`. -/
def RecurringRule.handle_rule_chunk (db : TzDatabase) (rr : RecurringRule) (value : List Char) :
    Except Failure RecurringRule :=
  if stringsHasPrefix value "RRULE:".toList then
    rr.handle_parts (stringsSplit (value.drop 6) ';')
  else if stringsHasPrefix value "DTSTART;".toList then
    match ParseDateTimeChunks db (value.drop 8) with
    | .error e => .error e
    | .ok [] => .error .panic
    | .ok (dt :: _) => .ok { rr with DtStart := dt }
  else if stringsHasPrefix value "EXDATE;".toList then
    match ParseDateTimeChunks db (value.drop 7) with
    | .error e => .error e
    | .ok dts => .ok { rr with ExceptionsToRule := dts }
  else .error .panic

/-- The loop `for _, c := range rule` of `Parse`, with the text read so far into
`chunk` (kept in reverse). -/
def parseLoop (db : TzDatabase) : List Char → List Char → RecurringRule →
    Except Failure (RecurringRule × List Char)
  | [], chunk, rr => .ok (rr, chunk.reverse)
  | c :: rest, chunk, rr =>
    if c == '\n' then
      match rr.handle_rule_chunk db chunk.reverse with
      | .error e => .error e
      | .ok rr => parseLoop db rest [] rr
    else parseLoop db rest (c :: chunk) rr

/-- The function `Parse`, reading zone names from the database `db`. -/
def Parse (db : TzDatabase) (rule : List Char) : Except Failure RecurringRule :=
  let recur_rule : RecurringRule :=
    { plainRule EmptyTime .YEARLY with Interval := 1, WorkWeekStart := 1 }
  match parseLoop db rule [] recur_rule with
  | .error e => .error e
  | .ok (recur_rule, chunk) =>
    match (if chunk.length > 0 then recur_rule.handle_rule_chunk db chunk else .ok recur_rule) with
    | .error e => .error e
    | .ok recur_rule =>
      match recur_rule.internalParser with
      | .error e => .error e
      | .ok _ => .ok recur_rule

/-- The function `listOfIntsToCSV`. -/
def listOfIntsToCSV (values : List Int) : List Char :=
  stringsJoin (values.map formatInt) [',']

/-- The method `ExdateString`. -/
def RecurringRule.ExdateString (rr : RecurringRule) : List Char :=
  if rr.ExceptionsToRule.length > 0 then "EXDATE".toList ++ DatesToList rr.ExceptionsToRule
  else []

/-- The loop over `rr.ByDay` in `RecurString`. -/
def daysAsStrings : List ForDay → Except Failure (List (List Char))
  | [] => .ok []
  | fd :: rest =>
    match fd.String with
    | .error e => .error e
    | .ok s =>
      match daysAsStrings rest with
      | .error e => .error e
      | .ok ss => .ok (s :: ss)

/-- The method `RecurString`; it panics where `FrequencyValue.String` and
`shortFromWeekday` do. -/
def RecurringRule.RecurString (rr : RecurringRule) : Except Failure (List Char) :=
  match rr.Frequency.String with
  | .error e => .error e
  | .ok freq =>
  let head :=
    "RRULE:".toList ++ "FREQ=".toList ++ freq
    ++ (if rr.Interval != 1 then ";INTERVAL=".toList ++ formatInt rr.Interval else [])
    ++ (if !(rr.Until.Equal EmptyTime) then ";UNTIL=".toList ++ DateTimeToString rr.Until else [])
    ++ (if rr.BySecond.length > 0 then ";BYSECOND=".toList ++ listOfIntsToCSV rr.BySecond else [])
    ++ (if rr.ByMinute.length > 0 then ";BYMINUTE=".toList ++ listOfIntsToCSV rr.ByMinute else [])
    ++ (if rr.ByHour.length > 0 then ";BYHOUR=".toList ++ listOfIntsToCSV rr.ByHour else [])
    ++ (if rr.ByMonth.length > 0 then ";BYMONTH=".toList ++ listOfIntsToCSV rr.ByMonth else [])
    ++ (if rr.ByWeekNo.length > 0 then ";BYWEEKNO=".toList ++ listOfIntsToCSV rr.ByWeekNo else [])
    ++ (if rr.Count > 0 then ";COUNT=".toList ++ formatInt rr.Count else [])
  let tail :=
    (if rr.ByMonthDay.length > 0
      then ";BYMONTHDAY=".toList ++ listOfIntsToCSV rr.ByMonthDay else [])
    ++ (if rr.ByYearDay.length > 0
      then ";BYYEARDAY=".toList ++ listOfIntsToCSV rr.ByYearDay else [])
    ++ (if rr.BySetPos.length > 0
      then ";BYSETPOS=".toList ++ listOfIntsToCSV rr.BySetPos else [])
  match (if rr.WorkWeekStart != 1 then
      (shortFromWeekday rr.WorkWeekStart).map fun s => ";WKST=".toList ++ s
    else .ok []) with
  | .error e => .error e
  | .ok wkst =>
    match (if rr.ByDay.length > 0 then
        (daysAsStrings rr.ByDay).map fun ss => ";BYDAY=".toList ++ stringsJoin ss [',']
      else .ok []) with
    | .error e => .error e
    | .ok byday => .ok (head ++ wkst ++ byday ++ tail)

/-- The method `RecurringRule.String`. -/
def RecurringRule.String (rr : RecurringRule) : Except Failure (List Char) :=
  match rr.RecurString with
  | .error e => .error e
  | .ok recur =>
    let result_string :=
      (if rr.DtStart.Equal EmptyTime == false then
        ["DTSTART;TZID=".toList ++ rr.DtStart.loc.name ++ [':'] ++ DateTimeToString rr.DtStart]
      else [])
      ++ (if rr.ExceptionsToRule.length > 0 then [rr.ExdateString] else [])
      ++ [recur]
    .ok (stringsJoin result_string ['\n'])

/-- The check of `AssertToStringMatchesInput`: parse, render, parse again and compare
with `Equal`. -/
def roundTrip (db : TzDatabase) (s : List Char) : Except Failure Bool :=
  match Parse db s with
  | .error e => .error e
  | .ok rule =>
    match rule.String with
    | .error e => .error e
    | .ok text =>
      match Parse db text with
      | .error e => .error e
      | .ok rule_checker => .ok (rule.Equal rule_checker)

end RRule

namespace RRule

/-- A rule text with an exception date written in UTC. -/
def utcExdateText : List Char :=
  "EXDATE;TZID=UTC:20180916T130000Z\nRRULE:FREQ=WEEKLY".toList

/-- The rule that `utcExdateText` denotes. -/
def utcExdateRule : RecurringRule :=
  { plainRule EmptyTime .WEEKLY with
    ExceptionsToRule := [Date 2018 9 16 13 0 0 0 .utc] }

end RRule

namespace RRule

/-! ## Calendar notions used by the ordering theorems -/

/-- The number of days of a year. -/
def yearLen (y : Int) : Int := if isLeap y then 366 else 365

/-- The number of days of month `m` (1..12) of year `y`. -/
def monthLen (y m : Int) : Int :=
  if m = 2 then (if isLeap y then 29 else 28)
  else if m = 4 ∨ m = 6 ∨ m = 9 ∨ m = 11 then 30 else 31

/-- Days from 0001-01-01 to the first day of the month with index `i`, the months
being counted from January of year 0 (`i = 12 * year + month - 1`). -/
def monthStart (i : Int) : Int := civilDays (i / 12) (i % 12 + 1) 1

/-- A zone without transitions: `time.UTC` or a named zone with one fixed offset. -/
def Location.Fixed : Location → Prop
  | .utc => True
  | .zone _ _ tr => tr = []

/-- The offset of a zone without transitions. -/
def Location.offset : Location → Int
  | .utc => 0
  | .zone _ base _ => base

/-- The day count from 0001-01-01 of the wall clock of `t`. -/
def Time.days (t : Time) : Int := t.abs / 86400

/-- The first day of the week that starts on weekday `wkst` and holds day `d`. -/
def weekStart (wkst d : Int) : Int := d - (d + 1 - wkst) % 7

end RRule

namespace RRule

/-! ## Ordered periods -/

/-- The root of period `k` of a rule: the first argument of `generateCandidates` in the
pass of the loop of `Step` that runs with `iterCounter = k`. -/
def periodRoot (rule : RecurringRule) (k : Int) : Time :=
  getNextDateByFreqAndInterval rule.DtStart rule.Frequency (rule.Interval * k)

/-- The periods of a rule follow one another along the bounds `L`: the candidates of
period `k ≥ 0` have whole seconds, are strictly increasing, and lie in the interval
from `L k` (included) to `L (k + 1)` (excluded). -/
def PeriodsOrdered (rule : RecurringRule) (L : Int → Int) : Prop :=
  ∀ k : Int, 0 ≤ k →
    L k ≤ L (k + 1)
    ∧ ∀ wfuel cands, generateCandidates rule wfuel (periodRoot rule k) = some cands →
        cands.Pairwise (fun a b => a.sec < b.sec)
        ∧ ∀ d ∈ cands, d.nsec = 0 ∧ L k ≤ d.sec ∧ d.sec < L (k + 1)

/-- The buffer of an iterator holds strictly increasing timestamps with whole seconds,
all before the bound of the next period to generate. -/
def BufferOrdered (L : Int → Int) (ri : RecurrenceIterator) : Prop :=
  0 ≤ ri.iterCounter
    ∧ ri.iterBuffer.Pairwise (fun a b => a.sec < b.sec)
    ∧ ∀ d ∈ ri.iterBuffer, d.nsec = 0 ∧ d.sec < L ri.iterCounter

/-- No BYHOUR, BYMINUTE or BYSECOND list is expanded by `generateTimesForCandidates`
at the frequency of the rule. -/
def RecurringRule.NoTimeExpansion (r : RecurringRule) : Prop :=
  (r.Frequency = .DAILY → r.ByHour = [])
    ∧ (r.Frequency = .DAILY ∨ r.Frequency = .HOURLY ∨ r.Frequency = .MINUTELY → r.ByMinute = [])
    ∧ (r.Frequency = .DAILY ∨ r.Frequency = .HOURLY ∨ r.Frequency = .MINUTELY
        ∨ r.Frequency = .SECONDLY → r.BySecond = [])

end RRule

namespace RRule

/-! ## The caller's loop and the rules of the window tests -/

/-- The zone America/New_York around 1997: EST, with the two transitions of 1997. -/
def newYork1997 : Location :=
  .zone "America/New_York".toList (-18000) [(860310000, -14400), (877845600, -18000)]

/-- The rule `DTSTART;TZID=America/New_York:19970902T090000`,
`RRULE:FREQ=HOURLY;INTERVAL=3;UNTIL=19970902T170000` of `Test_Iterator_Limit`,
`Test_Iterator_Before` and `Test_Iterator_After`. -/
def hourlyUntil : RecurringRule :=
  { plainRule (Date 1997 9 2 9 0 0 0 newYork1997) .HOURLY with
    Interval := 3, Until := Date 1997 9 2 17 0 0 0 newYork1997 }

/-- The loop `for iter.Step(&out) {}` of a caller, cut after `calls` calls of fuel
`fuel` each: the results of the calls up to and with the first one that returns
false, the variable `out` being handed from call to call. `none` when a call does
not return or no call returns false. -/
def drain (fuel : Nat) : Nat → RecurrenceIterator → Time → Option (List StepResult)
  | 0, _, _ => none
  | calls + 1, ri, out =>
    match Step fuel ri out with
    | none => none
    | some r =>
      if r.ok then (drain fuel calls r.iter r.out).map (fun rs => r :: rs)
      else some [r]

/-- What a caller sees of a call: the value returned, the variable after the call
and the field `ReturnCounter` after the call. -/
def StepResult.seen (r : StepResult) : Bool × Time × Int :=
  (r.ok, r.out, r.iter.ReturnCounter)

/-- The results of `fourCalls8` on a fresh iterator over `hourlyUntil` set with
`After` at the anchor, as in `Test_Iterator_After`. -/
def hourlyAfterRun : List StepResult :=
  (StepSeq fourCalls8 (hourlyUntil.Iterator.After (Date 1997 9 2 9 0 0 0 newYork1997))).getD []

/-- The text of `Test_Parse_PositiveIndicatorIgnored` with the `+` signs. -/
def withPos : List Char :=
  "DTSTART;TZID=America/New_York:19970902T090000\nRRULE:FREQ=MONTHLY;BYDAY=+1MO,+1TU".toList

/-- The text of `Test_Parse_PositiveIndicatorIgnored` without the `+` signs. -/
def noPos : List Char :=
  "DTSTART;TZID=America/New_York:19970902T090000\nRRULE:FREQ=MONTHLY;BYDAY=1MO,1TU".toList

/-- The rule that `noPos` denotes. -/
def noPosRule : RecurringRule :=
  { plainRule (Date 1997 9 2 9 0 0 0 newYork1997) .MONTHLY with
    ByDay := [{ Weekday := 1, Offset := 1 }, { Weekday := 2, Offset := 1 }] }

/-- The rule `RRULE:FREQ=YEARLY;BYMONTH=1`. -/
def yearlyInJanuary : RecurringRule :=
  { plainRule EmptyTime .YEARLY with ByMonth := [1] }

/-- The rule `RRULE:FREQ=YEARLY;BYMONTH=2`. -/
def yearlyInFebruary : RecurringRule :=
  { plainRule EmptyTime .YEARLY with ByMonth := [2] }

/-- Three calls of `Step`, each with fuel 8. -/
def threeCalls8 : List (Nat × Time) :=
  [(8, EmptyTime), (8, EmptyTime), (8, EmptyTime)]

/-- The results of `fourCalls` on a fresh iterator over `hourlyUntil` without limit. -/
def hourlyUntilRun : List StepResult :=
  (StepSeq fourCalls hourlyUntil.Iterator).getD []

/-- The rule `DTSTART:19970902T090000Z`, `RRULE:FREQ=DAILY;INTERVAL=10;COUNT=5`: the
rule of `Test_Interval_And_Count` with the anchor in UTC. -/
def dailyEvery10 : RecurringRule :=
  { plainRule (Date 1997 9 2 9 0 0 0 .utc) .DAILY with Interval := 10, Count := 5 }

/-- The rule `DTSTART;TZID=America/New_York:19970902T090000`,
`RRULE:FREQ=DAILY;INTERVAL=10;COUNT=5` of `Test_Interval_And_Count`. -/
def dailyEvery10NewYork : RecurringRule :=
  { plainRule (Date 1997 9 2 9 0 0 0 newYork1997) .DAILY with Interval := 10, Count := 5 }

/-- The rule `DTSTART:19970805T090000Z`,
`RRULE:FREQ=WEEKLY;INTERVAL=2;BYDAY=TU,SU;WKST=SU`: the rule of `Test_WKST_Change`
with the anchor in UTC and without `COUNT`. -/
def everyOtherWeekSunday : RecurringRule :=
  { plainRule (Date 1997 8 5 9 0 0 0 .utc) .WEEKLY with
    Interval := 2, WorkWeekStart := 0,
    ByDay := [{ Weekday := 2, Offset := 0 }, { Weekday := 0, Offset := 0 }] }

/-- The rule `DTSTART;TZID=America/New_York:19970805T090000`,
`RRULE:FREQ=WEEKLY;INTERVAL=2;COUNT=4;BYDAY=TU,SU` of `Test_WKST_Change`, with the
week starting on weekday `wkst`. -/
def everyOtherWeek (wkst : Int) : RecurringRule :=
  { plainRule (Date 1997 8 5 9 0 0 0 newYork1997) .WEEKLY with
    Interval := 2, Count := 4, WorkWeekStart := wkst,
    ByDay := [{ Weekday := 2, Offset := 0 }, { Weekday := 0, Offset := 0 }] }

/-- The rule `DTSTART;TZID=America/New_York:20200301T023000`,
`RRULE:FREQ=WEEKLY;COUNT=5;WKST=SU;BYDAY=SU,MO`: the second week starts on 2020-03-08,
the day the clocks of New York go from 02:00 to 03:00. -/
def weeklyAcrossGap : RecurringRule :=
  { plainRule (Date 2020 3 1 2 30 0 0 newYork2020) .WEEKLY with
    Count := 5, WorkWeekStart := 0,
    ByDay := [{ Weekday := 0, Offset := 0 }, { Weekday := 1, Offset := 0 }] }

end RRule

namespace RRule

/-! ## What `Equal` compares -/

/-- Two rules agree on every field but `ByMonth`: the anchors, the bounds and the
exceptions at the same instants, the other fields and lists equal. -/
def RecurringRule.AgreeButByMonth (r1 r2 : RecurringRule) : Prop :=
  r1.DtStart.Equal r2.DtStart = true ∧ r1.Frequency = r2.Frequency
    ∧ r1.Until.Equal r2.Until = true ∧ r1.Count = r2.Count ∧ r1.Interval = r2.Interval
    ∧ r1.BySecond = r2.BySecond ∧ r1.ByMinute = r2.ByMinute ∧ r1.ByHour = r2.ByHour
    ∧ r1.ByDay = r2.ByDay ∧ r1.ByMonthDay = r2.ByMonthDay ∧ r1.ByYearDay = r2.ByYearDay
    ∧ r1.ByWeekNo = r2.ByWeekNo ∧ r1.BySetPos = r2.BySetPos
    ∧ r1.WorkWeekStart = r2.WorkWeekStart
    ∧ List.Forall₂ (fun a b => a.Equal b = true) r1.ExceptionsToRule r2.ExceptionsToRule

end RRule

namespace RRule

/-! ## Iterators that differ in `Count` or in the user limit -/

/-- The iterator `ri` with the field `Count` of its rule and its user limit replaced,
every other field kept. -/
def RecurrenceIterator.retag (ri : RecurrenceIterator) (count limit : Int) :
    RecurrenceIterator :=
  { ri with rule := { ri.rule with Count := count }, UserLimit := limit }

/-- The rule `r` without `COUNT`. -/
def RecurringRule.withoutCount (r : RecurringRule) : RecurringRule := { r with Count := 0 }

/-- What a call returns to the caller: the boolean and the variable after the call. -/
def StepResult.returned (r : StepResult) : Bool × Time := (r.ok, r.out)

/-- The timestamps delivered before the first call that returns false: what the loop
`for iter.Step(&out) { ... }` of a caller sees. -/
def yieldedFirst (rs : List StepResult) : List Time :=
  (rs.takeWhile fun r => r.ok).map fun r => r.out

/-- The result of a call on the iterator with user limit `n > 0`, from the result `r`
of the same call without user limit: the call returns true when `r` does and the
counter has not passed `n`. -/
def StepResult.limited (n : Int) (r : StepResult) : StepResult :=
  { ok := r.ok && !decide (r.iter.ReturnCounter > n), out := r.out, iter := r.iter.Limit n }

end RRule

namespace RRule

/-! ## The text of a rule as the specification lays it out -/

/-- The two letters of a weekday in a rule text, Sunday being 0. -/
def weekdayShort (w : Int) : List Char :=
  if w = 0 then ['S', 'U']
  else if w = 1 then ['M', 'O']
  else if w = 2 then ['T', 'U']
  else if w = 3 then ['W', 'E']
  else if w = 4 then ['T', 'H']
  else if w = 5 then ['F', 'R']
  else ['S', 'A']

/-- The name of a frequency in a rule text. -/
def frequencyName : FrequencyValue → List Char
  | .YEARLY => "YEARLY".toList
  | .MONTHLY => "MONTHLY".toList
  | .WEEKLY => "WEEKLY".toList
  | .DAILY => "DAILY".toList
  | .HOURLY => "HOURLY".toList
  | .MINUTELY => "MINUTELY".toList
  | .SECONDLY => "SECONDLY".toList

/-- An entry of `BYDAY` in a rule text: the offset when it is not 0, then the
weekday. -/
def forDayText (fd : ForDay) : List Char :=
  (if fd.Offset = 0 then [] else formatInt fd.Offset) ++ weekdayShort fd.Weekday

/-- The entries of a list of optional pieces that are present, in order. -/
def present (pieces : List (Bool × List Char)) : List (List Char) :=
  (pieces.filter fun p => p.1).map fun p => p.2

/-- The parts of the `RRULE` line in the order the specification gives, each with the
condition under which it is written. -/
def rruleParts (rr : RecurringRule) : List (Bool × List Char) :=
  [(true, "FREQ=".toList ++ frequencyName rr.Frequency),
    (decide (rr.Interval ≠ 1), "INTERVAL=".toList ++ formatInt rr.Interval),
    (!(rr.Until.Equal EmptyTime), "UNTIL=".toList ++ DateTimeToString rr.Until),
    (!rr.BySecond.isEmpty, "BYSECOND=".toList ++ listOfIntsToCSV rr.BySecond),
    (!rr.ByMinute.isEmpty, "BYMINUTE=".toList ++ listOfIntsToCSV rr.ByMinute),
    (!rr.ByHour.isEmpty, "BYHOUR=".toList ++ listOfIntsToCSV rr.ByHour),
    (!rr.ByMonth.isEmpty, "BYMONTH=".toList ++ listOfIntsToCSV rr.ByMonth),
    (!rr.ByWeekNo.isEmpty, "BYWEEKNO=".toList ++ listOfIntsToCSV rr.ByWeekNo),
    (decide (rr.Count > 0), "COUNT=".toList ++ formatInt rr.Count),
    (decide (rr.WorkWeekStart ≠ 1), "WKST=".toList ++ weekdayShort rr.WorkWeekStart),
    (!rr.ByDay.isEmpty, "BYDAY=".toList ++ stringsJoin (rr.ByDay.map forDayText) [',']),
    (!rr.ByMonthDay.isEmpty, "BYMONTHDAY=".toList ++ listOfIntsToCSV rr.ByMonthDay),
    (!rr.ByYearDay.isEmpty, "BYYEARDAY=".toList ++ listOfIntsToCSV rr.ByYearDay),
    (!rr.BySetPos.isEmpty, "BYSETPOS=".toList ++ listOfIntsToCSV rr.BySetPos)]

/-- The lines of the text of a rule in the order the specification gives, each with
the condition under which it is written. -/
def textLines (rr : RecurringRule) : List (Bool × List Char) :=
  [(!(rr.DtStart.Equal EmptyTime),
      "DTSTART;TZID=".toList ++ rr.DtStart.loc.name ++ [':'] ++ DateTimeToString rr.DtStart),
    (!rr.ExceptionsToRule.isEmpty, "EXDATE".toList ++ DatesToList rr.ExceptionsToRule),
    (true, "RRULE:".toList ++ stringsJoin (present (rruleParts rr)) [';'])]

/-- The text of a rule as the specification lays it out: the lines that are
present, joined by a newline. -/
def specString (rr : RecurringRule) : List Char :=
  stringsJoin (present (textLines rr)) ['\n']

/-- The weekday fields of a rule name weekdays (0 to 6). -/
def RecurringRule.WeekdaysValid (rr : RecurringRule) : Prop :=
  (0 ≤ rr.WorkWeekStart ∧ rr.WorkWeekStart ≤ 6)
    ∧ ∀ fd ∈ rr.ByDay, 0 ≤ fd.Weekday ∧ fd.Weekday ≤ 6

end RRule

namespace RRule

/-! ## The stream of the periods -/

/-- The list `B k` is what the pass of the loop of `Step` for period `k` puts into
an empty buffer, on every iterator over `rule` without windows: a pass that returns
returns that state, and a pass with at least `W` fuel for the walk back to the start
of the week returns. -/
def PeriodYields (rule : RecurringRule) (W : Nat) (B : Int → List Time) : Prop :=
  ∀ (ri : RecurrenceIterator) (sc : Bool) (wfuel : Nat),
    ri.rule = rule → ri.UseUserBefore = false → ri.UseUserAfter = false →
    0 ≤ ri.iterCounter → ri.iterBuffer = [] →
      (W ≤ wfuel → (advancePeriod wfuel ri sc).isSome = true)
        ∧ ∀ p, advancePeriod wfuel ri sc = some p →
            p = ({ ri with iterBuffer := B ri.iterCounter,
                           iterCounter := ri.iterCounter + 1 }, sc)

/-- An iterator over `rule` without windows whose buffer holds only timestamps of the
periods `B`. -/
def Within (rule : RecurringRule) (B : Int → List Time) (ri : RecurrenceIterator) : Prop :=
  ri.rule = rule ∧ ri.UseUserBefore = false ∧ ri.UseUserAfter = false ∧ 0 ≤ ri.iterCounter
    ∧ ∀ d ∈ ri.iterBuffer, ∃ i : Int, 0 ≤ i ∧ d ∈ B i

/-- An iterator that nothing stops: no `Count`, no `Until`, no user limit. -/
def RecurrenceIterator.Unbounded (ri : RecurrenceIterator) : Prop :=
  ri.rule.Count ≤ 0 ∧ ri.rule.Until.Equal EmptyTime = true ∧ ri.UserLimit ≤ 0

/-- Some sequence of calls of `Step` on `ri` returns and delivers `d`. -/
def Reaches (ri : RecurrenceIterator) (d : Time) : Prop :=
  ∃ calls rs, StepSeq calls ri = some rs ∧ d ∈ yielded rs

/-- The length in seconds of the period of a frequency whose periods all have the
same length (0 for `YEARLY` and `MONTHLY`, which have none). -/
def FrequencyValue.seconds : FrequencyValue → Int
  | .YEARLY => 0 | .MONTHLY => 0 | .WEEKLY => 604800 | .DAILY => 86400
  | .HOURLY => 3600 | .MINUTELY => 60 | .SECONDLY => 1

/-- The anchor of a rule moved by `k` times the interval, in the zone of the anchor:
`DtStart` plus `k * Interval` days, hours or minutes for `DAILY`, `HOURLY` and
`MINUTELY`. -/
def occurrence (rule : RecurringRule) (k : Int) : Time :=
  { sec := rule.DtStart.sec + rule.Frequency.seconds * (rule.Interval * k), nsec := 0,
    loc := rule.DtStart.loc }

/-- The length in nanoseconds of the period of a frequency that
`getNextDateByFreqAndInterval` multiplies as a `time.Duration` (0 for the frequencies
that go through `AddDate`). -/
def FrequencyValue.nanoseconds : FrequencyValue → Int
  | .HOURLY => 3600000000000 | .MINUTELY => 60000000000 | .SECONDLY => 1000000000
  | _ => 0

/-- The duration from the anchor to period `k` fits a `time.Duration`: `k * Interval`
hours, minutes or seconds are less than `2 ^ 63` nanoseconds (about 292 years); no
bound at the frequencies that go through `AddDate`. -/
def RecurringRule.Fits (rule : RecurringRule) (k : Int) : Prop :=
  rule.Frequency.nanoseconds * (rule.Interval * k) < 2 ^ 63

instance (rule : RecurringRule) (k : Int) : Decidable (rule.Fits k) :=
  inferInstanceAs (Decidable (rule.Frequency.nanoseconds * (rule.Interval * k) < 2 ^ 63))

/-- The rule `DTSTART:19970902T090000Z`, `RRULE:FREQ=MINUTELY;INTERVAL=153722868`: one
interval is just above `2 ^ 63` nanoseconds. -/
def minutelyEvery292Years : RecurringRule :=
  { plainRule (Date 1997 9 2 9 0 0 0 .utc) .MINUTELY with
    Interval := 153722868 }

/-- The rule `DTSTART:19970902T090000Z`, `RRULE:FREQ=HOURLY;INTERVAL=2562048`: one
interval is just above `2 ^ 63` nanoseconds. -/
def hourlyEvery292Years : RecurringRule :=
  { plainRule (Date 1997 9 2 9 0 0 0 .utc) .HOURLY with
    Interval := 2562048 }

/-- The state of a fresh iterator over `rule` after `k` calls that each took one
period and delivered one timestamp. -/
def RecurringRule.after (rule : RecurringRule) (k : Nat) : RecurrenceIterator :=
  { rule.Iterator with iterCounter := k, ReturnCounter := k }

end RRule

namespace RRule

/-! ## The weeks of a `WEEKLY` rule with `BYDAY` -/

/-- The weekday of `d` is the weekday of an entry of `BYDAY`. -/
def onByDay (rule : RecurringRule) (d : Time) : Bool :=
  rule.ByDay.any fun v => v.Weekday == d.Weekday

/-- The timestamp `d` carries the wall clock of the anchor: same zone, same hour,
minute and second, whole seconds. -/
def CarriesClock (rule : RecurringRule) (d : Time) : Prop :=
  d.loc = rule.DtStart.loc ∧ d.nsec = 0 ∧ d.Hour = rule.DtStart.Hour
    ∧ d.Minute = rule.DtStart.Minute ∧ d.Second = rule.DtStart.Second

/-- The timestamp `d` lies in the week, starting on `WorkWeekStart`, that holds the
day of the anchor moved by `7 * Interval * k` days. -/
def InWeekOf (rule : RecurringRule) (k : Int) (d : Time) : Prop :=
  weekStart rule.WorkWeekStart (rule.DtStart.days + 7 * rule.Interval * k) ≤ d.days
    ∧ d.days < weekStart rule.WorkWeekStart (rule.DtStart.days + 7 * rule.Interval * k) + 7

/-- A `WEEKLY` rule with a non-empty `BYDAY` without offsets and nothing else: no
other BY-part and no exception. -/
def RecurringRule.WeeklyByDay (r : RecurringRule) : Prop :=
  r.Frequency = .WEEKLY ∧ r.ByDay ≠ [] ∧ (∀ fd ∈ r.ByDay, fd.Offset = 0)
    ∧ r.BySecond = [] ∧ r.ByMinute = [] ∧ r.ByHour = [] ∧ r.ByMonthDay = []
    ∧ r.ByYearDay = [] ∧ r.ByWeekNo = [] ∧ r.ByMonth = [] ∧ r.BySetPos = []
    ∧ r.ExceptionsToRule = []

end RRule

namespace RRule

/-! ## Leap years (`util.go`) and durations (`date_and_time.go`) -/

/-- The function `IsLeapYear`; the operator `%` of Go truncates toward zero. -/
def IsLeapYear (year : Int) : Int :=
  if year.tmod 4 == 0 && (year.tmod 100 != 0 || year.tmod 400 == 0) then 1 else 0

/-- The function `unicode.IsDigit`: up to U+00FF the digits `0` to `9`; above, the
decimal digits of the Unicode tables of the Go release, given by `table`. -/
def unicodeIsDigit (table : Char → Bool) (r : Char) : Bool :=
  if r.toNat ≤ 255 then decide ('0' ≤ r) && decide (r ≤ '9') else table r

/-- The loop `for _, c := range s` of `ParseDuration`, with the digits read so far in
`chunk` and the seconds counted so far in `durationSeconds`; a letter that no case
names adds nothing. -/
def durationLoop (table : Char → Bool) : List Char → List Char → Int → Except Failure Int
  | [], _, durationSeconds => .ok durationSeconds
  | c :: rest, chunk, durationSeconds =>
    if unicodeIsDigit table c then durationLoop table rest (chunk ++ [c]) durationSeconds
    else if c == 'T' then durationLoop table rest chunk durationSeconds
    else
      match strconvParseInt chunk 64 with
      | .error _ => .error (.error .badFormat)
      | .ok value =>
        let durationSeconds :=
          if c == 'W' then
            wrap64 (durationSeconds
              + wrap64 (wrap64 (wrap64 (wrap64 (value * 60) * 60) * 24) * 7))
          else if c == 'D' then
            wrap64 (durationSeconds + wrap64 (wrap64 (wrap64 (value * 60) * 60) * 24))
          else if c == 'H' then wrap64 (durationSeconds + wrap64 (wrap64 (value * 60) * 60))
          else if c == 'M' then wrap64 (durationSeconds + wrap64 (value * 60))
          else if c == 'S' then wrap64 (durationSeconds + value)
          else durationSeconds
        durationLoop table rest [] durationSeconds

/-- The function `ParseDuration`; the result is a `time.Duration`, a number of
nanoseconds in 64 bits. An empty text, or a lone `-`, panics on `s[0]`. -/
def ParseDuration (table : Char → Bool) (s : List Char) : Except Failure Int :=
  match s with
  | [] => .error .panic
  | c0 :: _ =>
    let pos_or_neg : Int := if c0 == '-' then -1 else 1
    let s := if c0 == '-' then s.drop 1 else s
    match s with
    | [] => .error .panic
    | c1 :: rest =>
      if c1 != 'P' then .error (.error .badFormat)
      else
        match durationLoop table rest [] 0 with
        | .error e => .error e
        | .ok durationSeconds =>
          let durationSeconds := wrap64 (durationSeconds * pos_or_neg)
          .ok (wrap64 (durationSeconds * 1000000000))

/-! ## Texts of digits -/

/-- Every character of the text is one of `0` to `9`. -/
def AllDigits (l : List Char) : Prop := ∀ c ∈ l, isDigitByte c = true

/-- The number that a text of decimal digits denotes, read after the value `acc`. -/
def decimalFrom (acc : Nat) (l : List Char) : Nat :=
  l.foldl (fun acc c => acc * 10 + (c.toNat - '0'.toNat)) acc

/-- The number that a text of decimal digits denotes (0 for the empty text). -/
def decimal (l : List Char) : Nat := decimalFrom 0 l

/-- A group of a duration: the digits followed by the designator, or nothing when
the group is absent. -/
def durationGroup (digits : List Char) (designator : Char) : List Char :=
  if digits = [] then [] else digits ++ [designator]

/-- The time part `T[cH][dM][eS]` of a duration text, empty when there is none. -/
def durationClock : Option (List Char × List Char × List Char) → List Char
  | none => []
  | some (c, d, e) => ['T'] ++ durationGroup c 'H' ++ durationGroup d 'M' ++ durationGroup e 'S'

/-- A text of the grammar `[-]P[aW][bD][T[cH][dM][eS]]`; an absent group is given by
the empty text, an absent time part by `none`. -/
def durationText (negative : Bool) (a b : List Char)
    (time : Option (List Char × List Char × List Char)) : List Char :=
  (if negative then ['-'] else []) ++ ['P'] ++ durationGroup a 'W' ++ durationGroup b 'D'
    ++ durationClock time

/-- The seconds that a duration of `a` weeks, `b` days, `c` hours, `d` minutes and `e`
seconds counts. -/
def durationTotal (a b c d e : Nat) : Int :=
  604800 * a + 86400 * b + 3600 * c + 60 * d + e

end RRule

namespace RRule

/-! ## Texts and rules used to instantiate the theorems about the parser -/

/-- The keys that `handle_recur_rule_part` names. -/
def knownKeys : List (List Char) :=
  ["FREQ".toList, "UNTIL".toList, "COUNT".toList, "INTERVAL".toList, "BYSECOND".toList,
    "BYMINUTE".toList, "BYHOUR".toList, "BYMONTHDAY".toList, "BYYEARDAY".toList,
    "BYWEEKNO".toList, "BYMONTH".toList, "BYSETPOS".toList, "WKST".toList, "BYDAY".toList]

/-- The names that `weekdayFromShort` knows. -/
def weekdayNames : List (List Char) :=
  [['S', 'U'], ['M', 'O'], ['T', 'U'], ['W', 'E'], ['T', 'H'], ['F', 'R'], ['S', 'A']]

/-- The names that `handle_part_freq` knows. -/
def frequencyNames : List (List Char) :=
  ["SECONDLY".toList, "MINUTELY".toList, "HOURLY".toList, "DAILY".toList, "WEEKLY".toList,
    "MONTHLY".toList, "YEARLY".toList]

/-- What `passed_rfc_checks` tests: the values of `BYSECOND`, `BYMINUTE` and `BYHOUR`
and the offsets of `BYDAY`. -/
def RecurringRule.InCheckedBounds (rr : RecurringRule) : Prop :=
  (∀ item ∈ rr.BySecond, 0 ≤ item ∧ item ≤ 60)
    ∧ (∀ item ∈ rr.ByMinute, 0 ≤ item ∧ item ≤ 59)
    ∧ (∀ item ∈ rr.ByHour, 0 ≤ item ∧ item ≤ 23)
    ∧ (∀ item ∈ rr.ByDay, -53 ≤ item.Offset ∧ item.Offset ≤ 53)

/-- The rule that `Parse` returns for `RRULE:FREQ=DAILY;BYHOUR=65545`. -/
def dailyAtNine : RecurringRule :=
  { plainRule EmptyTime .DAILY with ByHour := [9] }

/-- The rule that `Parse` returns for a text with values outside the bounds of
RFC 5545 in the five lists that `passed_rfc_checks` does not read. -/
def outOfBoundsRule : RecurringRule :=
  { plainRule EmptyTime .DAILY with
    ByMonth := [13], ByYearDay := [400, 0], ByWeekNo := [54], BySetPos := [0],
    ByMonthDay := [32] }

end RRule
namespace RRule

/-! ## Timestamp texts -/

/-- A run of exactly `n` decimal digits. -/
def DigitsOfWidth (n : Nat) (l : List Char) : Prop := l.length = n ∧ AllDigits l

/-- A text of the grammar `YYYYMMDDThhmmss[Z]`, given by its six digit groups. -/
def stampText (Y M D h mi s : List Char) (z : Bool) : List Char :=
  Y ++ M ++ D ++ ['T'] ++ h ++ mi ++ s ++ (if z then ['Z'] else [])

/-- A text of the grammar `YYYYMMDD`, given by its three digit groups. -/
def dateText (Y M D : List Char) : List Char := Y ++ M ++ D

/-- The rule of `Test_Parse_set_until_render`, read from
`RRULE:FREQ=WEEKLY;WKST=MO;BYDAY=MO,TU,WE,TH,FR`. -/
def workdays : RecurringRule :=
  { plainRule EmptyTime .WEEKLY with
    ByDay := [⟨1, 0⟩, ⟨2, 0⟩, ⟨3, 0⟩, ⟨4, 0⟩, ⟨5, 0⟩] }

/-- A zone five hours west of Greenwich, without transitions. -/
def fiveWest : Location := .zone "EST".toList (-18000) []

end RRule
namespace RRule

/-! ## Rules for the time-of-day expansion, the implicit filters and the end of a run -/

/-- The values that one loop of `generateTimesForCandidates` walks: the BY-list when it
applies, the field of the root otherwise. -/
def itemsOr (applies : Bool) (values : List Int) (field : Int) : List Int :=
  if values.length > 0 && applies then values else [field]

/-- The three nested loops of `generateTimesForCandidates`, with a flag for each list
that says whether it applies at the frequency of the rule. -/
def expansion (rule : RecurringRule) (root : Time) (hours minutes seconds : Bool) : List Time :=
  (itemsOr hours rule.ByHour root.Hour).flatMap fun h =>
    (itemsOr minutes rule.ByMinute root.Minute).flatMap fun m =>
      (itemsOr seconds rule.BySecond root.Second).map fun s =>
        Date root.Year root.Month root.Day h m s 0 root.loc

/-- Five calls of `Step`, each with fuel 8. -/
def fiveCalls8 : List (Nat × Time) :=
  [(8, EmptyTime), (8, EmptyTime), (8, EmptyTime), (8, EmptyTime), (8, EmptyTime)]

/-- The rule `DTSTART:19970902T090000Z`, `RRULE:FREQ=MINUTELY;BYMINUTE=0,20,40`. -/
def minutelyByMinute : RecurringRule :=
  { plainRule (Date 1997 9 2 9 0 0 0 .utc) .MINUTELY with ByMinute := [0, 20, 40] }

/-- The rule `DTSTART:19970902T090000Z`, `RRULE:FREQ=SECONDLY;BYSECOND=0,30`. -/
def secondlyBySecond : RecurringRule :=
  { plainRule (Date 1997 9 2 9 0 0 0 .utc) .SECONDLY with BySecond := [0, 30] }

/-- The rule `DTSTART:19970902T090000Z`, `RRULE:FREQ=WEEKLY;BYMONTH=9`; the anchor is a
Tuesday. -/
def weeklyInSeptember : RecurringRule :=
  { plainRule (Date 1997 9 2 9 0 0 0 .utc) .WEEKLY with ByMonth := [9] }

/-- The rule `DTSTART:20200102T090000Z`,
`RRULE:FREQ=DAILY;UNTIL=20200102T093000Z;BYHOUR=10,9`. -/
def dailyDescendingUntil : RecurringRule :=
  { plainRule (Date 2020 1 2 9 0 0 0 .utc) .DAILY with
    ByHour := [10, 9], Until := Date 2020 1 2 9 30 0 0 .utc }

end RRule
namespace RRule

/-! ## The positions that BYSETPOS names -/

/-- A list with the index of each element, counted from `i`: what
`for cindex, d := range final_set` walks. -/
def withIndex : Int → List Time → List (Int × Time)
  | _, [] => []
  | i, d :: rest => (i, d) :: withIndex (i + 1) rest

/-- The index `i` of a list of `len` elements is named by a value of BYSETPOS: it is
`V - 1` for a positive value `V`, or `len + V` for a negative one. -/
def atSetPos (values : List Int) (len i : Int) : Bool :=
  values.any fun V => (decide (0 < V) && i == V - 1) || (decide (V < 0) && i == len + V)

/-- The elements of `S` at the indices that BYSETPOS names, each once, in the order of
`S`. -/
def picked (values : List Int) (S : List Time) : List Time :=
  ((withIndex 0 S).filter fun p => atSetPos values S.length p.1).map Prod.snd

/-- The tests of the second loop of `Step` other than BYSETPOS: no exception date is
the instant of `d`, `d` is inside the windows of the iterator, and `d` is not before
the anchor. -/
def passesExclusion (ri : RecurrenceIterator) (d : Time) : Bool :=
  (ri.rule.ExceptionsToRule.all fun e => !e.Equal d)
    && (!ri.UseUserBefore || d.Before ri.UserBefore)
    && (!ri.UseUserAfter || d.After ri.UserAfter)
    && !d.Before ri.rule.DtStart

/-- The rule `DTSTART;TZID=America/New_York:19970904T090000`,
`RRULE:FREQ=MONTHLY;COUNT=3;BYDAY=TU,WE,TH;BYSETPOS=3` of `Test_BySetPos`. -/
def thirdMidweekDay : RecurringRule :=
  { plainRule (Date 1997 9 4 9 0 0 0 newYork1997) .MONTHLY with
    Count := 3, BySetPos := [3],
    ByDay := [{ Weekday := 2, Offset := 0 }, { Weekday := 3, Offset := 0 },
      { Weekday := 4, Offset := 0 }] }

/-- The rule `DTSTART;TZID=America/New_York:19970929T090000`,
`RRULE:FREQ=MONTHLY;BYDAY=MO,TU,WE,TH,FR;BYSETPOS=-2` of `Test_BySetPos`. -/
def secondToLastWorkday : RecurringRule :=
  { plainRule (Date 1997 9 29 9 0 0 0 newYork1997) .MONTHLY with
    BySetPos := [-2],
    ByDay := [{ Weekday := 1, Offset := 0 }, { Weekday := 2, Offset := 0 },
      { Weekday := 3, Offset := 0 }, { Weekday := 4, Offset := 0 },
      { Weekday := 5, Offset := 0 }] }

/-- The survivors of the first loop of `Step` in the first period of
`thirdMidweekDay`: the Tuesdays, Wednesdays and Thursdays of September 1997. -/
def midweekDaysOfSeptember : List Time :=
  match generateCandidates thirdMidweekDay 0 (periodRoot thirdMidweekDay 0) with
  | some candidates => finalSet thirdMidweekDay candidates.length 0 candidates
  | none => []

end RRule
namespace RRule

/-! ## The week of a root -/

/-- The number of days from the first day of the week, starting on weekday `wkst`, that
holds the day of `R`, to the day of `R`. -/
def daysIntoWeek (wkst : Int) (R : Time) : Int := (R.days + 1 - wkst) % 7

/-- The day of the month, the hour and the minute that a timestamp shows. -/
def Time.dayAndClock (t : Time) : Int × Int × Int := (t.Day, t.Hour, t.Minute)

end RRule
namespace RRule

/-! ## Zones with a transition at midnight, and rules anchored in them -/

/-- The zone America/Asuncion around 2017: four hours west, with the clocks going from
00:00 to 01:00 on Sunday 2017-10-01 and back on 2018-03-25. -/
def asuncion2017 : Location :=
  .zone "America/Asuncion".toList (-14400) [(1506830400, -10800), (1521946800, -14400)]

/-- The zone America/Sao_Paulo around 2018: three hours west, with the clocks going
from 00:00 to 01:00 on Sunday 2018-11-04 and back on 2019-02-17. -/
def saoPaulo2018 : Location :=
  .zone "America/Sao_Paulo".toList (-10800) [(1541300400, -7200), (1550368800, -10800)]

/-- The month, the day of the month, the hour and the minute that a timestamp shows. -/
def Time.monthDayClock (t : Time) : Int × Int × Int × Int := (t.Month, t.Day, t.Hour, t.Minute)

/-- The index of the month that a timestamp shows, the months being counted from
January of year 0. -/
def Time.monthIndex (t : Time) : Int := 12 * t.Year + (t.Month - 1)

/-- The rule `DTSTART;TZID=America/Asuncion:20170915T003000`,
`RRULE:FREQ=MONTHLY;BYMONTHDAY=15`. -/
def monthlyOn15Asuncion : RecurringRule :=
  { plainRule (Date 2017 9 15 0 30 0 0 asuncion2017) .MONTHLY with ByMonthDay := [15] }

/-- The rule `DTSTART;TZID=America/Asuncion:20171015T003000`,
`RRULE:FREQ=MONTHLY;BYMONTHDAY=15`: the wall clock 00:30 does not exist on the first day
of the month of the anchor. -/
def monthlyFromOctoberAsuncion : RecurringRule :=
  { plainRule (Date 2017 10 15 0 30 0 0 asuncion2017) .MONTHLY with ByMonthDay := [15] }

/-- The rule `DTSTART;TZID=America/New_York:19970930T090000`,
`RRULE:FREQ=MONTHLY;COUNT=10;BYMONTHDAY=1,-1` of `Test_FirstAndLastDayOfMonth`. -/
def firstAndLastDayNewYork : RecurringRule :=
  { plainRule (Date 1997 9 30 9 0 0 0 newYork1997) .MONTHLY with
    Count := 10, ByMonthDay := [1, -1] }

end RRule
namespace RRule

/-! ## The days that BYMONTHDAY and BYDAY select -/

/-- The candidates of a `MONTHLY` period with root `R`: the loop
`for d := 1; d <= daysInMonth; d += 1` over the month that `R` shows. -/
def monthOf (R : Time) : List Time :=
  monthCandidates R R.Year R.Month (monthLen R.Year R.Month).toNat 1

/-- The day `day` of a month of `L` days is named by a value of BYMONTHDAY: it is the
day `V` for a positive value `V`, or the day `L + V + 1` for a negative one. -/
def daySelected (values : List Int) (L day : Int) : Bool :=
  values.any fun V => (decide (0 < V) && day == V) || (decide (V < 0) && day == L + V + 1)

/-- How many of the candidates up to and with the one at index `j` fall on weekday
`wd`. -/
def countUpTo (c : List Time) (wd : Int) (j : Nat) : Nat :=
  ((c.take (j + 1)).filter fun y => y.Weekday == wd).length

/-- How many of the candidates from the one at index `j` on fall on weekday `wd`. -/
def countFrom (c : List Time) (wd : Int) (j : Nat) : Nat :=
  ((c.drop j).filter fun y => y.Weekday == wd).length

/-- The candidate `x` at index `j` of the list `c` is named by an entry of BYDAY: an
entry with offset 0 names every candidate on its weekday, one with offset `n > 0` the
`n`-th candidate on its weekday counted from the start of `c`, one with offset `-n` the
`n`-th counted from the end. -/
def byDaySelected (values : List ForDay) (c : List Time) (j : Nat) (x : Time) : Bool :=
  values.any fun v =>
    v.Weekday == x.Weekday
      && (v.Offset == 0
        || (decide (0 < v.Offset) && (countUpTo c v.Weekday j : Int) == v.Offset)
        || (decide (v.Offset < 0) && (countFrom c v.Weekday j : Int) == -v.Offset))

/-- A rule whose only BY-part is BYMONTHDAY. -/
def RecurringRule.OnlyByMonthDay (r : RecurringRule) : Prop :=
  r.ByMonthDay ≠ [] ∧ r.BySecond = [] ∧ r.ByMinute = [] ∧ r.ByHour = [] ∧ r.ByDay = []
    ∧ r.ByYearDay = [] ∧ r.ByWeekNo = [] ∧ r.ByMonth = [] ∧ r.BySetPos = []

/-- A rule whose only BY-part is BYDAY. -/
def RecurringRule.OnlyByDay (r : RecurringRule) : Prop :=
  r.ByDay ≠ [] ∧ r.BySecond = [] ∧ r.ByMinute = [] ∧ r.ByHour = [] ∧ r.ByMonthDay = []
    ∧ r.ByYearDay = [] ∧ r.ByWeekNo = [] ∧ r.ByMonth = [] ∧ r.BySetPos = []

/-- The zone America/New_York from 1997 to 1999. -/
def newYork1997to1999 : Location :=
  .zone "America/New_York".toList (-18000)
    [(860310000, -14400), (877845600, -18000), (891759600, -14400), (909295200, -18000),
      (923209200, -14400), (941349600, -18000)]

/-- The zone America/New_York around 2007. -/
def newYork2007 : Location :=
  .zone "America/New_York".toList (-18000) [(1173596400, -14400), (1194156000, -18000)]

/-- The rule `DTSTART;TZID=America/New_York:19970928T090000`,
`RRULE:FREQ=MONTHLY;BYMONTHDAY=-3` of `Test_Monthly_on_the_third_to_last_day_of_month`. -/
def thirdToLastDay : RecurringRule :=
  { plainRule (Date 1997 9 28 9 0 0 0 newYork1997to1999) .MONTHLY with ByMonthDay := [-3] }

/-- The rule `DTSTART;TZID=America/New_York:20070115T090000`,
`RRULE:FREQ=MONTHLY;BYMONTHDAY=15,30;COUNT=5` of `Test_Dont_Return_Invalid_Date`. -/
def day15And30 : RecurringRule :=
  { plainRule (Date 2007 1 15 9 0 0 0 newYork2007) .MONTHLY with
    Count := 5, ByMonthDay := [15, 30] }

/-- The rule `DTSTART;TZID=America/Sao_Paulo:20181101T003000`,
`RRULE:FREQ=MONTHLY;BYMONTHDAY=4`. -/
def monthlyOn4SaoPaulo : RecurringRule :=
  { plainRule (Date 2018 11 1 0 30 0 0 saoPaulo2018) .MONTHLY with ByMonthDay := [4] }

/-- The rule `DTSTART;TZID=America/Sao_Paulo:20181101T003000`,
`RRULE:FREQ=MONTHLY;BYMONTHDAY=3`. -/
def monthlyOn3SaoPaulo : RecurringRule :=
  { plainRule (Date 2018 11 1 0 30 0 0 saoPaulo2018) .MONTHLY with ByMonthDay := [3] }

/-- The rule `DTSTART;TZID=America/New_York:19970922T090000`,
`RRULE:FREQ=MONTHLY;COUNT=6;BYDAY=-2MO` of `Test_Monthly_secondtolast_monday`. -/
def secondToLastMonday : RecurringRule :=
  { plainRule (Date 1997 9 22 9 0 0 0 newYork1997to1999) .MONTHLY with
    Count := 6, ByDay := [{ Weekday := 1, Offset := -2 }] }

/-- The rule `DTSTART;TZID=America/New_York:19970907T090000`,
`RRULE:FREQ=MONTHLY;INTERVAL=2;COUNT=10;BYDAY=1SU,-1SU` of
`Test_FirstandLast_SundayofMonth`. -/
def firstAndLastSunday : RecurringRule :=
  { plainRule (Date 1997 9 7 9 0 0 0 newYork1997to1999) .MONTHLY with
    Interval := 2, Count := 10,
    ByDay := [{ Weekday := 0, Offset := 1 }, { Weekday := 0, Offset := -1 }] }

/-- The rule `DTSTART;TZID=America/New_York:19970519T090000`, `RRULE:FREQ=YEARLY;BYDAY=20MO`
of `Test_Every20thMonday`. -/
def every20thMonday : RecurringRule :=
  { plainRule (Date 1997 5 19 9 0 0 0 newYork1997to1999) .YEARLY with
    ByDay := [{ Weekday := 1, Offset := 20 }] }

/-- The rule `DTSTART;TZID=America/Sao_Paulo:20181101T003000`,
`RRULE:FREQ=MONTHLY;BYDAY=1SU`. -/
def firstSundaySaoPaulo : RecurringRule :=
  { plainRule (Date 2018 11 1 0 30 0 0 saoPaulo2018) .MONTHLY with
    ByDay := [{ Weekday := 0, Offset := 1 }] }

/-- The rule `DTSTART;TZID=America/Sao_Paulo:20181101T003000`,
`RRULE:FREQ=MONTHLY;BYDAY=1SA`. -/
def firstSaturdaySaoPaulo : RecurringRule :=
  { plainRule (Date 2018 11 1 0 30 0 0 saoPaulo2018) .MONTHLY with
    ByDay := [{ Weekday := 6, Offset := 1 }] }

/-- The rule `DTSTART:19970902T090000Z`, `RRULE:FREQ=MONTHLY;BYMONTH=2;BYMONTHDAY=30`: no
date matches it. -/
def february30 : RecurringRule :=
  { plainRule (Date 1997 9 2 9 0 0 0 .utc) .MONTHLY with ByMonth := [2], ByMonthDay := [30] }

end RRule
namespace RRule

/-! ## Rules without survivors -/

/-- No candidate of any period survives the first loop of `Step`. -/
def RecurringRule.NoSurvivors (rule : RecurringRule) : Prop :=
  ∀ (k : Int) (wfuel : Nat) (c : List Time),
    generateCandidates rule wfuel (periodRoot rule k) = some c →
    finalSet rule c.length 0 c = []

end RRule
namespace RRule

/-! ## Wall clocks in a zone with transitions -/

/-- The Unix second that `time.Date` gives for the wall clock `w`, counted in seconds
from 0001-01-01T00:00:00, in the location `loc`: the two lookups of `Date`. -/
def Location.resolve (loc : Location) (w : Int) : Int :=
  let unix := w - unixToAbs
  let (offset, start, stop) := loc.lookup unix
  if offset != 0 then
    let utc := unix - offset
    if utc < start || utc ≥ stop then unix - (loc.lookup utc).1 else unix - offset
  else unix

/-- The time that `time.Date` gives for the wall clock `w` in `loc`. -/
def atWall (loc : Location) (w : Int) : Time :=
  { sec := loc.resolve w, nsec := 0, loc := loc }

/-- The wall clock `w` exists in `loc`: the time that `time.Date` gives for it shows
`w`. A wall clock inside an hour that the zone skips does not exist: `time.Date` gives
a time that shows another wall clock. -/
def Location.Shows (loc : Location) (w : Int) : Prop := (atWall loc w).abs = w

instance (loc : Location) (w : Int) : Decidable (loc.Shows w) :=
  inferInstanceAs (Decidable ((atWall loc w).abs = w))

/-- The wall clock, in seconds from 0001-01-01T00:00:00, of day `j` (from 0) of the
month with index `i` (the months counted from January of year 0) at `c` seconds after
midnight. -/
def wallOf (i j c : Int) : Int := (monthStart i + j) * 86400 + c

/-- The seconds after midnight that a time shows. -/
def Time.clock (t : Time) : Int := t.abs % 86400

/-- The candidate of day `D` (counted from 0001-01-01) at the clock of `R`, in the zone
of `R`: the time that `time.Date` gives for that wall clock. -/
def dayAt (R : Time) (D : Int) : Time := atWall R.loc (D * 86400 + R.clock)

/-- The candidates of `n` consecutive days from day `D0` on, at the clock of `R`. -/
def daysFrom (R : Time) (D0 : Int) (n : Nat) : List Time :=
  (List.range n).map fun i : Nat => dayAt R (D0 + (i : Int))

/-- The candidates of the period of a `YEARLY` or `MONTHLY` rule with root `R`: one for
each day of the year that `R` shows, from January 1 on, or for each day of the month
that `R` shows, from day 1 on, at the clock of `R`. -/
def periodDays (rule : RecurringRule) (R : Time) : List Time :=
  match rule.Frequency with
  | .YEARLY => daysFrom R (monthStart (12 * R.Year)) (yearLen R.Year).toNat
  | _ => daysFrom R (monthStart R.monthIndex) (monthLen R.Year R.Month).toNat

/-- Seven consecutive days at the clock of `R`, the first being the first day of the
week, starting on weekday `wkst`, that holds the day of `R`: the times that `time.Date`
gives for those wall clocks. -/
def weekAt (wkst : Int) (R : Time) : List Time :=
  (List.range 7).map fun j : Nat =>
    atWall R.loc ((weekStart wkst R.days + (j : Int)) * 86400 + R.clock)

/-- The wall clock of `R` exists on each of the seven days of the week, starting on
weekday `wkst`, that holds the day of `R`. -/
def WeekShown (wkst : Int) (R : Time) : Prop :=
  ∀ j : Nat, j < 7 → R.loc.Shows ((weekStart wkst R.days + (j : Int)) * 86400 + R.clock)

instance (wkst : Int) (R : Time) : Decidable (WeekShown wkst R) :=
  inferInstanceAs (Decidable (∀ j : Nat, j < 7 →
    R.loc.Shows ((weekStart wkst R.days + (j : Int)) * 86400 + R.clock)))

/-- The wall clock that the root of period `k` of a `MONTHLY` or `YEARLY` rule is to
show: the first day of the month `k * Interval` months (`MONTHLY`) or `k * Interval`
years (`YEARLY`) after the month of the anchor, at the clock of the anchor. For `k = 0`
it is the first day of the month of the anchor, to which
`getNextDateByFreqAndInterval` moves before it adds the months or years. -/
def RecurringRule.rootWall (rule : RecurringRule) (k : Int) : Int :=
  wallOf (rule.DtStart.monthIndex
      + (if rule.Frequency = .YEARLY then 12 else 1) * (rule.Interval * k)) 0
    rule.DtStart.clock

/-- The index of the first month of period `k` of a `MONTHLY` or `YEARLY` rule: the
month `k * Interval` months after the month of the anchor, or January of the year
`k * Interval` years after the year of the anchor. -/
def RecurringRule.periodIndex (rule : RecurringRule) (k : Int) : Int :=
  match rule.Frequency with
  | .YEARLY => 12 * (rule.DtStart.Year + rule.Interval * k)
  | _ => rule.DtStart.monthIndex + rule.Interval * k

/-- The number of days of period `k` of a `MONTHLY` or `YEARLY` rule. -/
def RecurringRule.periodLength (rule : RecurringRule) (k : Int) : Int :=
  match rule.Frequency with
  | .YEARLY => yearLen (rule.DtStart.Year + rule.Interval * k)
  | _ => monthLen (rule.periodIndex k / 12) (rule.periodIndex k % 12 + 1)

/-- The wall clock of the anchor exists on every day of period `k` of a `MONTHLY` or
`YEARLY` rule: no candidate of the period is asked for inside an hour that the zone
skips. -/
def RecurringRule.PeriodShown (rule : RecurringRule) (k : Int) : Prop :=
  ∀ j : Nat, j < (rule.periodLength k).toNat →
    rule.DtStart.loc.Shows (wallOf (rule.periodIndex k) j rule.DtStart.clock)

instance (rule : RecurringRule) (k : Int) : Decidable (rule.PeriodShown k) :=
  inferInstanceAs (Decidable (∀ j : Nat, j < (rule.periodLength k).toNat →
    rule.DtStart.loc.Shows (wallOf (rule.periodIndex k) j rule.DtStart.clock)))

/-- The wall clock of `R` exists on every day of the month that `R` shows. -/
def MonthShown (R : Time) : Prop :=
  ∀ j : Nat, j < (monthLen R.Year R.Month).toNat →
    R.loc.Shows (wallOf R.monthIndex j R.clock)

instance (R : Time) : Decidable (MonthShown R) :=
  inferInstanceAs (Decidable (∀ j : Nat, j < (monthLen R.Year R.Month).toNat →
    R.loc.Shows (wallOf R.monthIndex j R.clock)))

/-- The first day (counted from 0001-01-01) of the period of a `MONTHLY` or `YEARLY`
rule with root `R`: January 1 of the year that `R` shows, or day 1 of the month that
`R` shows. -/
def periodFirstDay (rule : RecurringRule) (R : Time) : Int :=
  match rule.Frequency with
  | .YEARLY => monthStart (12 * R.Year)
  | _ => monthStart R.monthIndex

/-- The number of days of the period of a `MONTHLY` or `YEARLY` rule with root `R`: the
days of the year, or of the month, that `R` shows. -/
def periodDayCount (rule : RecurringRule) (R : Time) : Nat :=
  match rule.Frequency with
  | .YEARLY => (yearLen R.Year).toNat
  | _ => (monthLen R.Year R.Month).toNat

/-- The wall clock of the root `R` exists on every day of the period of a `MONTHLY` or
`YEARLY` rule with that root: no candidate of the period is asked for inside an hour
that the zone skips. -/
def RecurringRule.RootShown (rule : RecurringRule) (R : Time) : Prop :=
  ∀ i : Nat, i < periodDayCount rule R →
    R.loc.Shows ((periodFirstDay rule R + (i : Int)) * 86400 + R.clock)

instance (rule : RecurringRule) (R : Time) : Decidable (rule.RootShown R) :=
  inferInstanceAs (Decidable (∀ i : Nat, i < periodDayCount rule R →
    R.loc.Shows ((periodFirstDay rule R + (i : Int)) * 86400 + R.clock)))

end RRule
namespace RRule

/-! ## The window `Before` and the periods that end the loop of `Step` -/

/-- Period `k` of the rule has a survivor of the first loop of `Step` that is not before
`B`: on an iterator with the window `Before(B)` the second loop sets
`shortcircuit_finish` in the pass of that period. -/
def RecurringRule.StopsAt (rule : RecurringRule) (B : Time) (k : Int) : Prop :=
  ∀ (wfuel : Nat) (c : List Time),
    generateCandidates rule wfuel (periodRoot rule k) = some c →
    ∃ d ∈ finalSet rule c.length 0 c, d.Before B = false

/-- Every period of the rule is followed, after finitely many periods, by one that has
a survivor of the first loop of `Step` that is not before `B`. -/
def RecurringRule.StopsAgain (rule : RecurringRule) (B : Time) : Prop :=
  ∀ k : Int, 0 ≤ k → ∃ n : Nat, rule.StopsAt B (k + (n : Int))

/-- From period `K` on no survivor of the first loop of `Step` is before `B`. -/
def RecurringRule.PastFrom (rule : RecurringRule) (B : Time) (K : Int) : Prop :=
  ∀ k : Int, K ≤ k → ∀ (wfuel : Nat) (c : List Time),
    generateCandidates rule wfuel (periodRoot rule k) = some c →
    ∀ d ∈ finalSet rule c.length 0 c, d.Before B = false

/-- Some finite sequence of calls of `Step` on `ri`, the caller's variable holding `t`,
returns, and one of the calls returns false. -/
def Finishes (ri : RecurrenceIterator) (t : Time) : Prop :=
  ∃ (fuels : List Nat) (rs : List StepResult),
    StepSeq (fuels.map fun f => (f, t)) ri = some rs ∧ ∃ r ∈ rs, r.ok = false

end RRule
namespace RRule

/-! ## The weeks of a `WEEKLY` rule in a zone with transitions -/

/-- The wall clock of the anchor exists on each of the seven days of the week, starting
on `WorkWeekStart`, that holds the day of the anchor moved by `7 * Interval * k` days:
no candidate of period `k` is asked for inside an hour that the zone skips. -/
def RecurringRule.WeekClockShown (rule : RecurringRule) (k : Int) : Prop :=
  ∀ j : Nat, j < 7 →
    rule.DtStart.loc.Shows
      ((weekStart rule.WorkWeekStart (rule.DtStart.days + 7 * rule.Interval * k) + (j : Int))
          * 86400 + rule.DtStart.clock)

instance (rule : RecurringRule) (k : Int) : Decidable (rule.WeekClockShown k) :=
  inferInstanceAs (Decidable (∀ j : Nat, j < 7 →
    rule.DtStart.loc.Shows
      ((weekStart rule.WorkWeekStart (rule.DtStart.days + 7 * rule.Interval * k) + (j : Int))
          * 86400 + rule.DtStart.clock)))

/-- The seven candidates of period `k` of a `WEEKLY` rule: the times that `time.Date`
gives for the clock of the anchor on the seven days of the week, starting on
`WorkWeekStart`, that holds the day of the anchor moved by `7 * Interval * k` days. -/
def weekDays (rule : RecurringRule) (k : Int) : List Time :=
  (List.range 7).map fun j : Nat =>
    atWall rule.DtStart.loc
      ((weekStart rule.WorkWeekStart (rule.DtStart.days + 7 * rule.Interval * k) + (j : Int))
          * 86400 + rule.DtStart.clock)

/-- What period `k` of a `WEEKLY` rule with `BYDAY` puts into the buffer: the days of
the week on a weekday of `BYDAY` that are not before the anchor. -/
def weeklyYield (rule : RecurringRule) (k : Int) : List Time :=
  ((weekDays rule k).filter (onByDay rule)).filter fun d => !d.Before rule.DtStart

/-- The time `d` is the one that `time.Date` gives for the wall clock that `d` shows.
Of the two instants that show a wall clock inside an hour that the zone repeats, one
is. -/
def Time.Resolved (d : Time) : Prop := atWall d.loc d.abs = d

instance (d : Time) : Decidable d.Resolved :=
  inferInstanceAs (Decidable (atWall d.loc d.abs = d))

/-- The rule `DTSTART;TZID=America/New_York:19970805T090000`,
`RRULE:FREQ=WEEKLY;INTERVAL=2;WKST=SU;BYDAY=TU,SU`: the rule of `Test_WKST_Change` with
the week starting on Sunday, without `COUNT`. -/
def everyOtherWeekNewYork : RecurringRule :=
  { plainRule (Date 1997 8 5 9 0 0 0 newYork1997) .WEEKLY with
    Interval := 2, WorkWeekStart := 0,
    ByDay := [{ Weekday := 2, Offset := 0 }, { Weekday := 0, Offset := 0 }] }

/-- The rule `DTSTART;TZID=America/New_York:20201025T013000`,
`RRULE:FREQ=WEEKLY;WKST=SU;BYDAY=SU`: the second Sunday is 2020-11-01, the day the
clocks of New York go from 02:00 back to 01:00, so that 01:30 comes twice. -/
def weeklyAcrossRepeat : RecurringRule :=
  { plainRule (Date 2020 10 25 1 30 0 0 newYork2020) .WEEKLY with
    WorkWeekStart := 0, ByDay := [{ Weekday := 0, Offset := 0 }] }

/-- The second 01:30 of 2020-11-01 in New York: 06:30 UTC, in standard time. -/
def secondHalfPastOne : Time := { sec := 1604212200, nsec := 0, loc := newYork2020 }

end RRule
namespace RRule

/-! ## The parts of the `RRULE` line that `String` writes -/

/-- A part `key=value` of an `RRULE` line that holds neither `;` nor a line break, the
key without `=`; when the key is `UNTIL` the value is `U`. -/
def CleanPart (U p : List Char) : Prop :=
  ';' ∉ p ∧ '\n' ∉ p
    ∧ ∃ key value, p = key ++ '=' :: value ∧ '=' ∉ key ∧ (key = "UNTIL".toList → value = U)

/-- A rule of which `String` writes only the `RRULE` line with `FREQ`, `INTERVAL`,
`UNTIL` and `COUNT`: no `DTSTART`, no exception, no BY-part, the week starting on
Monday, and `Interval` and `Count` within the 64 bits of Go's `int`. -/
def RecurringRule.CountsOnly (rr : RecurringRule) : Prop :=
  rr.DtStart.Equal EmptyTime = true ∧ rr.ExceptionsToRule = [] ∧ rr.NoByParts
    ∧ rr.WorkWeekStart = 1
    ∧ -(2 ^ 63) ≤ rr.Interval ∧ rr.Interval < 2 ^ 63 ∧ rr.Count < 2 ^ 63

/-- What `Parse` makes of the text of a rule that is `CountsOnly`: a `Count` that is not
positive is not written and is read as 0. -/
def RecurringRule.reread (rr : RecurringRule) : RecurringRule :=
  { plainRule EmptyTime rr.Frequency with
    Interval := rr.Interval, Until := rr.Until,
    Count := if rr.Count > 0 then rr.Count else 0 }

/-- The rule `EXDATE:19970904T090000Z`, `RRULE:FREQ=DAILY;UNTIL=19971224T000000Z`: one
exception, in UTC. -/
def dailyWithException : RecurringRule :=
  { plainRule EmptyTime .DAILY with
    Until := Date 1997 12 24 0 0 0 0 .utc,
    ExceptionsToRule := [Date 1997 9 4 9 0 0 0 .utc] }

/-- The rule `DTSTART;TZID=EST:20170102T090000`, `RRULE:FREQ=WEEKLY;UNTIL=20180101T000000`
with `UNTIL` in the zone of `DTSTART`, five hours west of Greenwich. -/
def weeklyUntilFiveWest : RecurringRule :=
  { plainRule (Date 2017 1 2 9 0 0 0 fiveWest) .WEEKLY with
    Until := Date 2018 1 1 0 0 0 0 fiveWest }

end RRule

/-! # Theorems -/

namespace RRule

/-! ## Invariants of the iterator -/

theorem SameConfig.refl (a : RecurrenceIterator) : SameConfig a a :=
  ⟨rfl, rfl, rfl, rfl, rfl, rfl⟩

theorem SameConfig.trans {a b c : RecurrenceIterator} (h₁ : SameConfig a b)
    (h₂ : SameConfig b c) : SameConfig a c := by
  obtain ⟨h1, h2, h3, h4, h5, h6⟩ := h₁
  obtain ⟨g1, g2, g3, g4, g5, g6⟩ := h₂
  exact ⟨h1.trans g1, h2.trans g2, h3.trans g3, h4.trans g4, h5.trans g5, h6.trans g6⟩

theorem Passes.of_sameConfig {a b : RecurrenceIterator} (h : SameConfig a b) {d : Time}
    (hp : Passes a d) : Passes b d := by
  obtain ⟨h1, _, h3, h4, h5, h6⟩ := h
  unfold Passes at *
  rw [← h1, ← h3, ← h4, ← h5, ← h6]
  exact hp

theorem survivorMatches_all {ri : RecurrenceIterator} {fcc cindex : Int} {d : Time}
    (h : (survivorMatches ri fcc cindex d).all id = true) :
    (∀ e ∈ ri.rule.ExceptionsToRule, e.Equal d = false)
      ∧ (ri.UseUserBefore = true → d.Before ri.UserBefore = true)
      ∧ (ri.UseUserAfter = true → d.After ri.UserAfter = true) := by
  unfold survivorMatches at h
  simp only [List.all_append, Bool.and_eq_true] at h
  obtain ⟨⟨⟨_, hex⟩, hb⟩, ha⟩ := h
  refine ⟨?_, ?_, ?_⟩
  · intro e he
    by_contra hne
    have heq : e.Equal d = true := by simpa using hne
    have hmem : e ∈ ri.rule.ExceptionsToRule.filter fun exDate => exDate.Equal d :=
      List.mem_filter.mpr ⟨he, heq⟩
    have := List.all_eq_true.mp hex false (List.mem_map.mpr ⟨e, hmem, rfl⟩)
    simp at this
  · intro hu
    simpa [hu] using hb
  · intro hu
    simpa [hu] using ha

theorem secondLoop_mem (ri : RecurrenceIterator) (fcc : Int) :
    ∀ (l : List Time) (cindex : Int) (acc : List Time × Bool) (d : Time),
      d ∈ (secondLoop ri fcc cindex l acc).1 → d ∈ acc.1 ∨ (d ∈ l ∧ Passes ri d) := by
  intro l
  induction l with
  | nil => intro cindex acc d h; exact Or.inl (by simpa [secondLoop] using h)
  | cons x rest ih =>
    intro cindex acc d h
    obtain ⟨buffer, sc⟩ := acc
    simp only [secondLoop] at h
    rcases ih _ _ d h with h' | ⟨h', hp⟩
    · by_cases hc : ((survivorMatches ri fcc cindex x).all id
          && !(x.Before ri.rule.DtStart)) = true
      · simp only [hc, if_true, List.mem_append, List.mem_singleton] at h'
        rcases h' with h' | h'
        · exact Or.inl h'
        · subst h'
          simp only [Bool.and_eq_true, Bool.not_eq_true'] at hc
          exact Or.inr ⟨List.mem_cons_self _ _, hc.2, survivorMatches_all hc.1⟩
      · simp only [hc] at h'
        exact Or.inl (by simpa using h')
    · exact Or.inr ⟨List.mem_cons_of_mem _ h', hp⟩

theorem advancePeriod_spec {wfuel : Nat} {ri ri' : RecurrenceIterator} {sc sc' : Bool}
    (h : advancePeriod wfuel ri sc = some (ri', sc')) :
    SameConfig ri ri' ∧ ri'.ReturnCounter = ri.ReturnCounter
      ∧ ri'.iterCounter = ri.iterCounter + 1
      ∧ ∀ d ∈ ri'.iterBuffer, d ∈ ri.iterBuffer ∨ Passes ri d := by
  unfold advancePeriod at h
  cases hg : generateCandidates ri.rule wfuel (getNextDateByFreqAndInterval ri.rule.DtStart
      ri.rule.Frequency (ri.rule.Interval * ri.iterCounter)) with
  | none => simp [hg] at h
  | some candidates =>
    simp only [hg, Option.some.injEq, Prod.mk.injEq] at h
    obtain ⟨h1, _⟩ := h
    subst h1
    refine ⟨⟨rfl, rfl, rfl, rfl, rfl, rfl⟩, rfl, rfl, ?_⟩
    intro d hd
    rcases secondLoop_mem ri _ _ _ _ d hd with h' | ⟨_, hp⟩
    · exact Or.inl h'
    · exact Or.inr hp

theorem refill_spec (wfuel : Nat) :
    ∀ (fuel : Nat) (ri ri' : RecurrenceIterator) (sc sc' : Bool),
      refill wfuel fuel ri sc = some (ri', sc') →
      SameConfig ri ri' ∧ ri'.ReturnCounter = ri.ReturnCounter
        ∧ ri.iterCounter ≤ ri'.iterCounter
        ∧ (∀ d ∈ ri'.iterBuffer, d ∈ ri.iterBuffer ∨ Passes ri d)
        ∧ (ri'.iterBuffer ≠ [] ∨ sc' = true) := by
  intro fuel
  induction fuel with
  | zero =>
    intro ri ri' sc sc' h
    unfold refill at h
    split at h
    · exact absurd h (by simp)
    · rename_i hc
      simp only [Option.some.injEq, Prod.mk.injEq] at h
      obtain ⟨h1, h2⟩ := h
      subst h1 h2
      refine ⟨SameConfig.refl _, rfl, le_refl _, fun d hd => Or.inl hd, ?_⟩
      by_cases hb : ri.iterBuffer = []
      · right
        cases sc <;> simp_all
      · exact Or.inl hb
  | succ n ih =>
    intro ri ri' sc sc' h
    unfold refill at h
    split at h
    · split at h
      · exact absurd h (by simp)
      · rename_i ri₁ sc₁ hadv
        obtain ⟨hc, hr, hi, hm⟩ := advancePeriod_spec hadv
        obtain ⟨hc', hr', hi', hm', hx⟩ := ih _ _ _ _ h
        refine ⟨hc.trans hc', hr'.trans hr, by omega, ?_, hx⟩
        intro d hd
        rcases hm' d hd with h1 | h1
        · exact hm d h1
        · exact Or.inr (Passes.of_sameConfig ⟨hc.1.symm, hc.2.1.symm, hc.2.2.1.symm,
            hc.2.2.2.1.symm, hc.2.2.2.2.1.symm, hc.2.2.2.2.2.symm⟩ h1)
    · rename_i hc
      simp only [Option.some.injEq, Prod.mk.injEq] at h
      obtain ⟨h1, h2⟩ := h
      subst h1 h2
      refine ⟨SameConfig.refl _, rfl, le_refl _, fun d hd => Or.inl hd, ?_⟩
      by_cases hb : ri.iterBuffer = []
      · right
        cases sc <;> simp_all
      · exact Or.inl hb

end RRule

namespace RRule

theorem Step_cases {fuel : Nat} {ri : RecurrenceIterator} {t : Time} {r : StepResult}
    (h : Step fuel ri t = some r) :
    (0 < ri.rule.Count ∧ ri.rule.Count ≤ ri.ReturnCounter
        ∧ r = { ok := false, out := t, iter := ri })
      ∨ (¬ (0 < ri.rule.Count ∧ ri.rule.Count ≤ ri.ReturnCounter)
        ∧ ∃ ri₁ sc, refill fuel fuel ri false = some (ri₁, sc) ∧ r = deliver ri₁ sc t) := by
  unfold Step at h
  split at h
  · rename_i hc
    simp only [Bool.and_eq_true, decide_eq_true_eq, ge_iff_le, gt_iff_lt] at hc
    simp only [Option.some.injEq] at h
    exact Or.inl ⟨hc.1, hc.2, h.symm⟩
  · rename_i hc
    simp only [Bool.and_eq_true, decide_eq_true_eq, ge_iff_le, gt_iff_lt] at hc
    cases hr : refill fuel fuel ri false with
    | none => simp [hr] at h
    | some p =>
      obtain ⟨ri₁, sc⟩ := p
      simp only [hr, Option.some.injEq] at h
      exact Or.inr ⟨hc, ri₁, sc, rfl, h.symm⟩

theorem deliver_nil {ri : RecurrenceIterator} (sc : Bool) (t : Time)
    (h : ri.iterBuffer = []) :
    deliver ri sc t = { ok := !sc, out := t, iter := ri } := by
  unfold deliver
  rw [h]

theorem deliver_cons {ri : RecurrenceIterator} (sc : Bool) (t : Time) {head : Time}
    {tail : List Time} (h : ri.iterBuffer = head :: tail) :
    (deliver ri sc t).out = head
      ∧ (deliver ri sc t).iter.iterBuffer = tail
      ∧ SameConfig ri (deliver ri sc t).iter
      ∧ (deliver ri sc t).iter.iterCounter = ri.iterCounter
      ∧ ri.ReturnCounter ≤ (deliver ri sc t).iter.ReturnCounter
      ∧ (deliver ri sc t).iter.ReturnCounter ≤ ri.ReturnCounter + 1
      ∧ ((deliver ri sc t).ok = true →
          (deliver ri sc t).iter.ReturnCounter = ri.ReturnCounter + 1
          ∧ (ri.rule.Until.Equal EmptyTime = false → head.After ri.rule.Until = false)
          ∧ (0 < ri.UserLimit → ri.ReturnCounter + 1 ≤ ri.UserLimit)) := by
  unfold deliver
  rw [h]
  simp only
  split
  · refine ⟨rfl, rfl, ⟨rfl, rfl, rfl, rfl, rfl, rfl⟩, rfl, le_refl _, by simp, ?_⟩
    intro hk
    simp at hk
  · rename_i hu
    split
    · refine ⟨rfl, rfl, ⟨rfl, rfl, rfl, rfl, rfl, rfl⟩, rfl, by simp, le_refl _, ?_⟩
      intro hk
      simp at hk
    · rename_i hl
      refine ⟨rfl, rfl, ⟨rfl, rfl, rfl, rfl, rfl, rfl⟩, rfl, by simp, le_refl _, ?_⟩
      intro _
      refine ⟨rfl, ?_, ?_⟩
      · intro hset
        simpa [hset] using hu
      · intro hpos
        simp only [Bool.and_eq_true, decide_eq_true_eq, gt_iff_lt, not_and, not_lt] at hl
        exact hl hpos

/-- What one call of `Step` does to an iterator whose buffer holds only timestamps
that passed the second loop. -/
theorem Step_invariant {fuel : Nat} {ri : RecurrenceIterator} {t : Time} {r : StepResult}
    (h : Step fuel ri t = some r) (hb : BufferOK ri) :
    SameConfig ri r.iter ∧ BufferOK r.iter
      ∧ ri.ReturnCounter ≤ r.iter.ReturnCounter
      ∧ r.iter.ReturnCounter ≤ ri.ReturnCounter + 1
      ∧ (r.ok = true →
          Passes ri r.out
          ∧ r.iter.ReturnCounter = ri.ReturnCounter + 1
          ∧ ¬ (0 < ri.rule.Count ∧ ri.rule.Count ≤ ri.ReturnCounter)
          ∧ (ri.rule.Until.Equal EmptyTime = false → r.out.After ri.rule.Until = false)
          ∧ (0 < ri.UserLimit → ri.ReturnCounter + 1 ≤ ri.UserLimit)) := by
  rcases Step_cases h with ⟨_, _, hr⟩ | ⟨hcnt, ri₁, sc, hre, hr⟩
  · subst hr
    exact ⟨SameConfig.refl _, hb, le_refl _, by simp, fun hk => by simp at hk⟩
  · obtain ⟨hc, hrc, _, hmem, hexit⟩ := refill_spec _ _ _ _ _ _ hre
    have hb₁ : BufferOK ri₁ := by
      intro d hd
      rcases hmem d hd with h1 | h1
      · exact Passes.of_sameConfig hc (hb d h1)
      · exact Passes.of_sameConfig hc h1
    have hcs : SameConfig ri₁ ri :=
      ⟨hc.1.symm, hc.2.1.symm, hc.2.2.1.symm, hc.2.2.2.1.symm, hc.2.2.2.2.1.symm,
        hc.2.2.2.2.2.symm⟩
    cases hbuf : ri₁.iterBuffer with
    | nil =>
      have hsc : sc = true := by
        rcases hexit with h1 | h1
        · exact absurd hbuf h1
        · exact h1
      rw [deliver_nil sc t hbuf] at hr
      subst hr
      subst hsc
      refine ⟨hc, hb₁, by simp [hrc], by simp [hrc], fun hk => by simp at hk⟩
    | cons head tail =>
      obtain ⟨ho, hbt, hsc, _, hlo, hhi, hok⟩ := deliver_cons sc t hbuf
      rw [← hr] at ho hbt hsc hlo hhi hok
      refine ⟨hc.trans hsc, ?_, by omega, by omega, ?_⟩
      · intro d hd
        rw [hbt] at hd
        exact Passes.of_sameConfig hsc (hb₁ d (by rw [hbuf]; exact List.mem_cons_of_mem _ hd))
      · intro hk
        obtain ⟨h1, h2, h3⟩ := hok hk
        have hp : Passes ri₁ head := hb₁ head (by rw [hbuf]; exact List.mem_cons_self _ _)
        refine ⟨?_, by omega, hcnt, ?_, ?_⟩
        · rw [ho]; exact Passes.of_sameConfig hcs hp
        · rw [ho, hc.1]; exact h2
        · rw [hc.2.1, ← hrc]; exact h3

/-- The invariant along a sequence of calls: every call that returns true delivers
a timestamp that passed the second loop and respects `Until`. -/
theorem StepSeq_invariant :
    ∀ (calls : List (Nat × Time)) (ri : RecurrenceIterator) (rs : List StepResult),
      BufferOK ri → StepSeq calls ri = some rs →
      ∀ r ∈ rs, r.ok = true →
        Passes ri r.out
        ∧ (ri.rule.Until.Equal EmptyTime = false → r.out.After ri.rule.Until = false) := by
  intro calls
  induction calls with
  | nil =>
    intro ri rs _ h r hr
    simp only [StepSeq, Option.some.injEq] at h
    subst h
    simp at hr
  | cons c rest ih =>
    intro ri rs hb h r hr hok
    obtain ⟨fuel, t⟩ := c
    simp only [StepSeq] at h
    cases hs : Step fuel ri t with
    | none => simp [hs] at h
    | some r₁ =>
      simp only [hs] at h
      cases hq : StepSeq rest r₁.iter with
      | none => simp [hq] at h
      | some rs₁ =>
        simp only [hq, Option.some.injEq] at h
        subst h
        obtain ⟨hc, hb', _, _, hfirst⟩ := Step_invariant hs hb
        rcases List.mem_cons.mp hr with h1 | h1
        · subst h1
          obtain ⟨hp, _, _, hu, _⟩ := hfirst hok
          exact ⟨hp, hu⟩
        · obtain ⟨hp, hu⟩ := ih r₁.iter rs₁ hb' hq r h1 hok
          have hcs : SameConfig r₁.iter ri :=
            ⟨hc.1.symm, hc.2.1.symm, hc.2.2.1.symm, hc.2.2.2.1.symm, hc.2.2.2.2.1.symm,
              hc.2.2.2.2.2.symm⟩
          refine ⟨Passes.of_sameConfig hcs hp, ?_⟩
          rw [hc.1]
          exact hu

end RRule

namespace RRule

theorem mem_yielded {rs : List StepResult} {t : Time} (h : t ∈ yielded rs) :
    ∃ r ∈ rs, r.ok = true ∧ r.out = t := by
  unfold yielded at h
  obtain ⟨r, hr, ht⟩ := List.mem_map.mp h
  obtain ⟨hr1, hr2⟩ := List.mem_filter.mp hr
  exact ⟨r, hr1, hr2, ht⟩

theorem yielded_cons (r : StepResult) (rs : List StepResult) :
    yielded (r :: rs) = if r.ok then r.out :: yielded rs else yielded rs := by
  unfold yielded
  by_cases h : r.ok = true <;> simp [List.filter, h]

/-- Without any assumption on the buffer: how a call changes the return counter. -/
theorem Step_counter {fuel : Nat} {ri : RecurrenceIterator} {t : Time} {r : StepResult}
    (h : Step fuel ri t = some r) :
    r.iter.rule = ri.rule ∧ ri.ReturnCounter ≤ r.iter.ReturnCounter
      ∧ r.iter.ReturnCounter ≤ ri.ReturnCounter + 1
      ∧ (0 < ri.rule.Count → ri.rule.Count ≤ ri.ReturnCounter →
          r = { ok := false, out := t, iter := ri })
      ∧ (r.ok = true → r.iter.ReturnCounter = ri.ReturnCounter + 1
          ∧ ¬ (0 < ri.rule.Count ∧ ri.rule.Count ≤ ri.ReturnCounter)
          ∧ (ri.rule.Until.Equal EmptyTime = false → r.out.After ri.rule.Until = false)) := by
  rcases Step_cases h with ⟨_, _, hr⟩ | ⟨hcnt, ri₁, sc, hre, hr⟩
  · subst hr
    exact ⟨rfl, le_refl _, by simp, fun _ _ => rfl, fun hk => by simp at hk⟩
  · obtain ⟨hc, hrc, _, _, hexit⟩ := refill_spec _ _ _ _ _ _ hre
    cases hbuf : ri₁.iterBuffer with
    | nil =>
      have hsc : sc = true := by
        rcases hexit with h1 | h1
        · exact absurd hbuf h1
        · exact h1
      rw [deliver_nil sc t hbuf] at hr
      subst hr
      subst hsc
      exact ⟨hc.1.symm, by simp [hrc], by simp [hrc], fun h1 h2 => absurd ⟨h1, h2⟩ hcnt,
        fun hk => by simp at hk⟩
    | cons head tail =>
      obtain ⟨ho, _, hsc, _, hlo, hhi, hok⟩ := deliver_cons sc t hbuf
      rw [← hr] at ho hsc hlo hhi hok
      refine ⟨(hc.trans hsc).1.symm, by omega, by omega,
        fun h1 h2 => absurd ⟨h1, h2⟩ hcnt, ?_⟩
      intro hk
      obtain ⟨h1, h2, _⟩ := hok hk
      refine ⟨by omega, hcnt, ?_⟩
      rw [ho, hc.1]
      exact h2

theorem StepSeq_counter (N : Int) :
    ∀ (calls : List (Nat × Time)) (ri : RecurrenceIterator) (rs : List StepResult),
      ri.rule.Count = N → 0 < N → ri.ReturnCounter ≤ N → StepSeq calls ri = some rs →
      (∀ r ∈ rs, r.iter.ReturnCounter ≤ N)
        ∧ ((yielded rs).length : Int) + ri.ReturnCounter ≤ N := by
  intro calls
  induction calls with
  | nil =>
    intro ri rs _ _ hle h
    simp only [StepSeq, Option.some.injEq] at h
    subst h
    simpa [yielded] using hle
  | cons c rest ih =>
    intro ri rs hN hpos hle h
    obtain ⟨fuel, t⟩ := c
    simp only [StepSeq] at h
    cases hs : Step fuel ri t with
    | none => simp [hs] at h
    | some r₁ =>
      simp only [hs] at h
      cases hq : StepSeq rest r₁.iter with
      | none => simp [hq] at h
      | some rs₁ =>
        simp only [hq, Option.some.injEq] at h
        subst h
        obtain ⟨hrule, hlo, hhi, hstop, hok⟩ := Step_counter hs
        have hle₁ : r₁.iter.ReturnCounter ≤ N := by
          by_cases hfull : N ≤ ri.ReturnCounter
          · have := hstop (by omega) (by omega)
            subst this
            exact hle
          · omega
        obtain ⟨ih₁, ih₂⟩ := ih r₁.iter rs₁ (by rw [hrule]; exact hN) hpos hle₁ hq
        refine ⟨?_, ?_⟩
        · intro r hr
          rcases List.mem_cons.mp hr with h1 | h1
          · subst h1; exact hle₁
          · exact ih₁ r h1
        · rw [yielded_cons]
          by_cases hk : r₁.ok = true
          · obtain ⟨hinc, _, _⟩ := hok hk
            simp only [hk, if_true, List.length_cons, Nat.cast_add, Nat.cast_one]
            omega
          · simp only [hk]
            simp only [Bool.false_eq_true, if_false]
            omega

/-- C3. For a rule with `Count = N > 0`: in any iterator state over the rule, `Step`
returns false (leaving the iterator and the caller's variable as they were) once
`ReturnCounter` has reached `N`; and along any sequence of calls from a state with
`ReturnCounter ≤ N` (a fresh iterator has 0) the counter never exceeds `N` and at
most `N - ReturnCounter` calls return true. -/
theorem count_bounds_return_counter (rule : RecurringRule) (N : Int)
    (hN : rule.Count = N) (hpos : 0 < N) (ri : RecurrenceIterator) (hr : ri.rule = rule) :
    (∀ fuel t, N ≤ ri.ReturnCounter →
        Step fuel ri t = some { ok := false, out := t, iter := ri })
      ∧ (ri.ReturnCounter ≤ N → ∀ calls rs, StepSeq calls ri = some rs →
          (∀ r ∈ rs, r.iter.ReturnCounter ≤ N)
            ∧ ((yielded rs).length : Int) + ri.ReturnCounter ≤ N) := by
  subst hr
  refine ⟨?_, ?_⟩
  · intro fuel t hfull
    unfold Step
    have : (decide (ri.rule.Count > 0) && decide (ri.ReturnCounter ≥ ri.rule.Count)) = true := by
      simp only [Bool.and_eq_true, decide_eq_true_eq]
      omega
    simp [this]
  · intro hle calls rs hs
    exact StepSeq_counter N calls ri rs hN hpos hle hs

/-- C3, at the rule `FREQ=DAILY;COUNT=2`: of four calls on a fresh iterator at most
two return true. -/
theorem count_bounds_return_counter_witness :
    ((yielded dailyCount2Run).length : Int) + 0 ≤ 2 :=
  ((count_bounds_return_counter dailyCount2 2 (by decide) (by decide)
    dailyCount2.Iterator rfl).2 (by decide) fourCalls dailyCount2Run (by decide!)).2

end RRule

namespace RRule

theorem Equal_not_After {t u : Time} (h : t.Equal u = true) : t.After u = false := by
  unfold Time.Equal at h
  unfold Time.After
  simp only [Bool.and_eq_true, beq_iff_eq] at h
  simp [h.1, h.2]

theorem bufferOK_of_nil {ri : RecurrenceIterator} (h : ri.iterBuffer = []) : BufferOK ri := by
  intro d hd
  rw [h] at hd
  simp at hd

/-- C4. For a rule whose `Until` is set (differs from the zero time): a call of
`Step` that returns true never delivers a timestamp after `Until`, in any iterator
state; and when the head of the buffer at delivery is at the instant `Until`, the
call delivers it (returns true with that timestamp) unless `Count` or the user
limit stops the call. -/
theorem until_is_inclusive_bound (rule : RecurringRule)
    (hset : rule.Until.Equal EmptyTime = false) :
    (∀ (fuel : Nat) (ri : RecurrenceIterator) (t : Time) (r : StepResult),
        ri.rule = rule → Step fuel ri t = some r → r.ok = true →
        r.out.After rule.Until = false)
      ∧ (∀ (fuel : Nat) (ri ri₁ : RecurrenceIterator) (sc : Bool) (t head : Time)
          (tail : List Time),
        ri.rule = rule → refill fuel fuel ri false = some (ri₁, sc) →
        ri₁.iterBuffer = head :: tail → head.Equal rule.Until = true →
        ¬ (0 < rule.Count ∧ rule.Count ≤ ri.ReturnCounter) →
        ¬ (0 < ri.UserLimit ∧ ri.UserLimit < ri.ReturnCounter + 1) →
        ∃ r, Step fuel ri t = some r ∧ r.ok = true ∧ r.out = head) := by
  refine ⟨?_, ?_⟩
  · intro fuel ri t r hr hs hok
    subst hr
    exact (Step_counter hs).2.2.2.2 hok |>.2.2 hset
  · intro fuel ri ri₁ sc t head tail hr hre hbuf heq hcnt hlim
    subst hr
    obtain ⟨hc, hrc, _, _, _⟩ := refill_spec _ _ _ _ _ _ hre
    refine ⟨deliver ri₁ sc t, ?_, ?_, (deliver_cons sc t hbuf).1⟩
    · unfold Step
      have : (decide (ri.rule.Count > 0) && decide (ri.ReturnCounter ≥ ri.rule.Count)) = false := by
        rw [Bool.and_eq_false_iff]
        simp only [decide_eq_false_iff_not]
        by_cases h0 : ri.rule.Count > 0
        · right; intro h1; exact hcnt ⟨h0, h1⟩
        · left; exact h0
      simp [this, hre]
    · unfold deliver
      rw [hbuf]
      simp only
      have hna : head.After ri₁.rule.Until = false := by
        rw [← hc.1]; exact Equal_not_After heq
      have hl : (decide (ri₁.UserLimit > 0) && decide (ri₁.ReturnCounter + 1 > ri₁.UserLimit))
          = false := by
        rw [Bool.and_eq_false_iff]
        simp only [decide_eq_false_iff_not]
        rw [← hc.2.1, hrc]
        by_cases h0 : ri.UserLimit > 0
        · right; intro h1; exact hlim ⟨h0, h1⟩
        · left; exact h0
      simp [hna, hl]

/-- C4, at the rule `FREQ=DAILY;UNTIL=20200103T090000Z` from 2020-01-02 09:00 UTC, on
an iterator that skips the anchor: the call delivers 2020-01-03 09:00, the instant
`Until`. -/
theorem until_is_inclusive_bound_witness :
    ∃ r, Step 2 dailyUntilIter EmptyTime = some r
      ∧ r.ok = true ∧ r.out = Date 2020 1 3 9 0 0 0 .utc :=
  (until_is_inclusive_bound dailyUntil (by decide!)).2 2 dailyUntilIter
    dailyUntilRefilled.1 dailyUntilRefilled.2 EmptyTime
    (Date 2020 1 3 9 0 0 0 .utc) [] rfl (by decide!) (by decide!) (by decide!)
    (by decide!) (by decide!)

end RRule

namespace RRule

/-- C5. Along any sequence of `Step` calls on an iterator that starts with an empty
buffer (a fresh iterator, whatever its limit and windows), no timestamp delivered
by a call that returns true is at the instant of an entry of `ExceptionsToRule`;
the comparison is on the instant alone, so the zone in which the entry is written
plays no part. -/
theorem exceptions_are_never_yielded (rule : RecurringRule) (ri : RecurrenceIterator)
    (calls : List (Nat × Time)) (rs : List StepResult)
    (hr : ri.rule = rule) (hb : ri.iterBuffer = []) (hs : StepSeq calls ri = some rs) :
    ∀ t ∈ yielded rs, ∀ e ∈ rule.ExceptionsToRule, ¬ (e.sec = t.sec ∧ e.nsec = t.nsec) := by
  intro t ht e he heq
  obtain ⟨r, hmem, hok, hout⟩ := mem_yielded ht
  subst hr
  have hp := (StepSeq_invariant calls ri rs (bufferOK_of_nil hb) hs r hmem hok).1
  have := hp.2.1 e he
  rw [hout] at this
  unfold Time.Equal at this
  simp [heq.1, heq.2] at this

/-- C5, at the rule of `Test_RealWorldFromGoogle_WithException_DiffTimezone`: the
occurrence 2018-09-16 09:00 New York, excluded as 06:00 Los Angeles, is not among
the timestamps delivered. -/
theorem exceptions_are_never_yielded_witness :
    (yielded weeklyWithExceptionRun).all (fun t =>
      !((Date 2018 9 16 6 0 0 0 losAngeles2018).sec == t.sec
        && (Date 2018 9 16 6 0 0 0 losAngeles2018).nsec == t.nsec)) = true :=
  List.all_eq_true.mpr fun t ht => by
    have h := exceptions_are_never_yielded weeklyWithException weeklyWithException.Iterator
      fourCalls8 weeklyWithExceptionRun rfl rfl (by decide!) t ht
      (Date 2018 9 16 6 0 0 0 losAngeles2018) (List.mem_singleton.mpr rfl)
    simp only [Bool.not_eq_true', Bool.and_eq_false_iff, beq_eq_false_iff_ne, ne_eq]
    exact not_and_or.mp h

/-- C6. Along any sequence of `Step` calls on an iterator that starts with an empty
buffer (a fresh iterator, whatever its limit and windows), no timestamp delivered
by a call that returns true is before the rule's `DtStart`. -/
theorem nothing_yielded_before_dtstart (rule : RecurringRule) (ri : RecurrenceIterator)
    (calls : List (Nat × Time)) (rs : List StepResult)
    (hr : ri.rule = rule) (hb : ri.iterBuffer = []) (hs : StepSeq calls ri = some rs) :
    ∀ t ∈ yielded rs, t.Before rule.DtStart = false := by
  intro t ht
  obtain ⟨r, hmem, hok, hout⟩ := mem_yielded ht
  subst hr
  have hp := (StepSeq_invariant calls ri rs (bufferOK_of_nil hb) hs r hmem hok).1
  rw [← hout]
  exact hp.1

/-- C6, at the rule `FREQ=MONTHLY;BYMONTHDAY=1` from 1997-09-02: the candidate
1997-09-01 of the first period is not delivered. -/
theorem nothing_yielded_before_dtstart_witness :
    (yielded monthlyFirstDayRun).all (fun t => !t.Before (Date 1997 9 2 9 0 0 0 .utc)) = true :=
  List.all_eq_true.mpr fun t ht => by
    have h := nothing_yielded_before_dtstart monthlyFirstDay monthlyFirstDay.Iterator
      [(2, EmptyTime), (2, EmptyTime)] monthlyFirstDayRun rfl rfl (by decide!) t ht
    simpa [monthlyFirstDay, plainRule] using h

end RRule

namespace RRule

theorem generateCandidates_isSome_of_ne_weekly {rule : RecurringRule}
    (h : rule.Frequency ≠ .WEEKLY) (wfuel : Nat) : CandidatesWithin rule wfuel := by
  intro root
  unfold generateCandidates
  cases hf : rule.Frequency <;> simp_all

theorem advancePeriod_isSome {rule : RecurringRule} {wfuel : Nat}
    (hc : CandidatesWithin rule wfuel) (ri : RecurrenceIterator) (hr : ri.rule = rule)
    (sc : Bool) :
    ∃ ri' sc', advancePeriod wfuel ri sc = some (ri', sc') := by
  subst hr
  unfold advancePeriod
  have := hc (getNextDateByFreqAndInterval ri.rule.DtStart ri.rule.Frequency
    (ri.rule.Interval * ri.iterCounter))
  cases hg : generateCandidates ri.rule wfuel (getNextDateByFreqAndInterval ri.rule.DtStart
      ri.rule.Frequency (ri.rule.Interval * ri.iterCounter)) with
  | none => simp [hg] at this
  | some c =>
    simp only [hg]
    exact ⟨_, _, rfl⟩

theorem refillLimited_spec (wfuel : Nat) (h : Int) :
    ∀ (fuel : Nat) (li li' : LimitedIterator) (sc sc' stopped : Bool),
      li.hardLimit = some h → li.iter.iterCounter ≤ max h li.iter.iterCounter →
      refillLimited wfuel fuel li sc = some (li', sc', stopped) →
      li'.hardLimit = some h
        ∧ li'.iter.rule = li.iter.rule
        ∧ li'.iter.ReturnCounter = li.iter.ReturnCounter
        ∧ li.iter.iterCounter ≤ li'.iter.iterCounter
        ∧ li'.iter.iterCounter ≤ max h li.iter.iterCounter
        ∧ (stopped = true → li'.hardLimitReached = true ∧ h ≤ li'.iter.iterCounter)
        ∧ (stopped = false → li'.hardLimitReached = li.hardLimitReached
            ∧ (li'.iter.iterBuffer ≠ [] ∨ sc' = true)) := by
  intro fuel
  induction fuel with
  | zero =>
    intro li li' sc sc' stopped hh _ hre
    unfold refillLimited at hre
    split at hre
    · split at hre
      · rename_i hat
        simp only [Option.some.injEq, Prod.mk.injEq] at hre
        obtain ⟨h1, h2, h3⟩ := hre
        subst h1 h2 h3
        unfold LimitedIterator.atLimit at hat
        rw [hh] at hat
        simp only [decide_eq_true_eq] at hat
        exact ⟨hh, rfl, rfl, le_refl _, le_max_right _ _, fun _ => ⟨rfl, hat⟩,
          fun hk => by simp at hk⟩
      · exact absurd hre (by simp)
    · rename_i hc
      simp only [Option.some.injEq, Prod.mk.injEq] at hre
      obtain ⟨h1, h2, h3⟩ := hre
      subst h1 h2 h3
      refine ⟨hh, rfl, rfl, le_refl _, le_max_right _ _, fun hk => by simp at hk,
        fun _ => ⟨rfl, ?_⟩⟩
      by_cases hb : li.iter.iterBuffer = []
      · right
        cases sc <;> simp_all
      · exact Or.inl hb
  | succ n ih =>
    intro li li' sc sc' stopped hh _ hre
    unfold refillLimited at hre
    split at hre
    · split at hre
      · rename_i hat
        simp only [Option.some.injEq, Prod.mk.injEq] at hre
        obtain ⟨h1, h2, h3⟩ := hre
        subst h1 h2 h3
        unfold LimitedIterator.atLimit at hat
        rw [hh] at hat
        simp only [decide_eq_true_eq] at hat
        exact ⟨hh, rfl, rfl, le_refl _, le_max_right _ _, fun _ => ⟨rfl, hat⟩,
          fun hk => by simp at hk⟩
      · rename_i hat
        unfold LimitedIterator.atLimit at hat
        rw [hh] at hat
        simp only [decide_eq_true_eq, not_le] at hat
        cases hadv : advancePeriod wfuel li.iter sc with
        | none => simp [hadv] at hre
        | some p =>
          obtain ⟨ri₁, sc₁⟩ := p
          simp only [hadv] at hre
          obtain ⟨hcfg, hrc, hic, _⟩ := advancePeriod_spec hadv
          obtain ⟨g1, g2, g3, g4, g5, g6, g7⟩ :=
            ih { li with iter := ri₁ } li' sc₁ sc' stopped hh (le_max_right _ _) hre
          simp only at g2 g3 g4 g5 g7
          refine ⟨g1, g2.trans hcfg.1.symm, g3.trans hrc, by omega, ?_, g6, g7⟩
          rw [hic] at g5
          have : max h (li.iter.iterCounter + 1) = h := max_eq_left (by omega)
          rw [this] at g5
          exact le_trans g5 (le_max_left _ _)
    · rename_i hc
      simp only [Option.some.injEq, Prod.mk.injEq] at hre
      obtain ⟨h1, h2, h3⟩ := hre
      subst h1 h2 h3
      refine ⟨hh, rfl, rfl, le_refl _, le_max_right _ _, fun hk => by simp at hk,
        fun _ => ⟨rfl, ?_⟩⟩
      by_cases hb : li.iter.iterBuffer = []
      · right
        cases sc <;> simp_all
      · exact Or.inl hb

theorem refillLimited_terminates (rule : RecurringRule) (wfuel : Nat) (h : Int)
    (hc : CandidatesWithin rule wfuel) :
    ∀ (fuel : Nat) (li : LimitedIterator) (sc : Bool),
      li.hardLimit = some h → li.iter.rule = rule →
      h - li.iter.iterCounter ≤ fuel →
      ∃ res, refillLimited wfuel fuel li sc = some res := by
  intro fuel
  induction fuel with
  | zero =>
    intro li sc hh _ hle
    unfold refillLimited
    split
    · have : li.atLimit = true := by
        unfold LimitedIterator.atLimit
        rw [hh]
        simp only [decide_eq_true_eq]
        have : h - li.iter.iterCounter ≤ 0 := by exact_mod_cast hle
        omega
      simp [this]
    · exact ⟨_, rfl⟩
  | succ n ih =>
    intro li sc hh hr hle
    unfold refillLimited
    split
    · split
      · exact ⟨_, rfl⟩
      · obtain ⟨ri', sc', hadv⟩ := advancePeriod_isSome hc li.iter hr sc
        obtain ⟨hcfg, _, hic, _⟩ := advancePeriod_spec hadv
        simp only [hadv]
        apply ih { li with iter := ri' } sc' hh (hcfg.1.symm.trans hr)
        simp only [hic]
        push_cast at hle
        omega
    · exact ⟨_, rfl⟩

/-- C7. On the iterator extended with the hard limit of the spec, set to `h ≥ 0`:
a call of `Step` never takes the total number of passes of the period-advance loop
(`iterCounter`) beyond `h` when it starts at or below `h` (a fresh iterator starts
at 0); a call that returns true leaves the flag as it was, and whenever the loop is
left because the bound is reached the call returns false with the flag set; and the
call returns within fuel `h - iterCounter` whenever every period gets its
candidates within that fuel, even for a rule whose periods never hold a survivor. -/
theorem hard_limit_bounds_period_loop (li : LimitedIterator) (h : Int)
    (hh : li.hardLimit = some h) (hle : li.iter.iterCounter ≤ h) :
    (∀ fuel t r, StepLimited fuel li t = some r →
        r.iter.hardLimit = some h ∧ r.iter.iter.iterCounter ≤ h
          ∧ (r.iter.IsHardLimitReached = true ∧ li.IsHardLimitReached = false →
              r.ok = false ∧ h ≤ r.iter.iter.iterCounter))
      ∧ (∀ fuel t, li.iter.iterBuffer = [] →
          ¬ (0 < li.iter.rule.Count ∧ li.iter.rule.Count ≤ li.iter.ReturnCounter) →
          h ≤ li.iter.iterCounter →
          StepLimited fuel li t
            = some { ok := false, out := t, iter := { li with hardLimitReached := true } })
      ∧ (∀ (fuel : Nat) t, CandidatesWithin li.iter.rule fuel →
          h - li.iter.iterCounter ≤ fuel → ∃ r, StepLimited fuel li t = some r) := by
  refine ⟨?_, ?_, ?_⟩
  · intro fuel t r hs
    unfold StepLimited at hs
    split at hs
    · simp only [Option.some.injEq] at hs
      subst hs
      refine ⟨hh, hle, ?_⟩
      rintro ⟨h1, h2⟩
      simp only [LimitedIterator.IsHardLimitReached] at h1 h2
      rw [h1] at h2
      exact absurd h2 (by simp)
    · cases hre : refillLimited fuel fuel li false with
      | none => simp [hre] at hs
      | some p =>
        obtain ⟨li₁, sc, stopped⟩ := p
        simp only [hre] at hs
        obtain ⟨g1, _, _, _, g5, g6, g7⟩ :=
          refillLimited_spec fuel h fuel li li₁ false sc stopped hh (le_max_right _ _) hre
        have hmax : max h li.iter.iterCounter = h := max_eq_left hle
        rw [hmax] at g5
        cases stopped with
        | true =>
          simp only [if_true, Option.some.injEq] at hs
          subst hs
          exact ⟨g1, g5, fun _ => ⟨rfl, (g6 rfl).2⟩⟩
        | false =>
          simp only [Bool.false_eq_true, if_false, Option.some.injEq] at hs
          subst hs
          simp only [LimitedIterator.IsHardLimitReached]
          refine ⟨g1, ?_, ?_⟩
          · cases hbuf : li₁.iter.iterBuffer with
            | nil => rw [deliver_nil sc t hbuf]; exact g5
            | cons head tail =>
              rw [(deliver_cons sc t hbuf).2.2.2.1]; exact g5
          · rintro ⟨h1, h2⟩
            rw [(g7 rfl).1, h2] at h1
            exact absurd h1 (by simp)
  · intro fuel t hbuf hcnt hat
    unfold StepLimited
    have hc : (decide (li.iter.rule.Count > 0)
        && decide (li.iter.ReturnCounter ≥ li.iter.rule.Count)) = false := by
      rw [Bool.and_eq_false_iff]
      simp only [decide_eq_false_iff_not]
      by_cases h0 : li.iter.rule.Count > 0
      · right; intro h1; exact hcnt ⟨h0, h1⟩
      · left; exact h0
    have hl : li.atLimit = true := by
      unfold LimitedIterator.atLimit
      rw [hh]
      simpa using hat
    cases fuel <;> simp [hc, refillLimited, hbuf, hl]
  · intro fuel t hcw hfuel
    unfold StepLimited
    split
    · exact ⟨_, rfl⟩
    · obtain ⟨⟨li₁, sc, stopped⟩, hre⟩ :=
        refillLimited_terminates li.iter.rule fuel h hcw fuel li false hh rfl hfuel
      simp only [hre]
      cases stopped
      · exact ⟨_, rfl⟩
      · exact ⟨_, rfl⟩

/-- C7, at the rule `FREQ=MONTHLY;COUNT=5` without BY-parts, whose periods never hold a
survivor, with `HardLimit(10)`: the call returns within fuel 10. -/
theorem hard_limit_bounds_period_loop_witness :
    ∃ r, StepLimited 10 (monthlyCount5.LimitedIterator.HardLimit 10) EmptyTime = some r :=
  (hard_limit_bounds_period_loop (monthlyCount5.LimitedIterator.HardLimit 10) 10 rfl
    (by decide)).2.2 10 EmptyTime
    (generateCandidates_isSome_of_ne_weekly (by decide) 10) (by decide)

end RRule

namespace RRule

/-- With no BY-part and a frequency that none of the implicit filters of `Step`
covers, the list `matches` of a candidate is empty. -/
theorem candidateMatches_nil {rule : RecurringRule} (hby : rule.NoByParts)
    (hf : rule.Frequency = .MONTHLY ∨ rule.Frequency = .SECONDLY)
    (cc cindex : Int) (d : Time) : candidateMatches rule cc cindex d = [] := by
  obtain ⟨h1, h2, h3, h4, h5, h6, h7, h8, _⟩ := hby
  unfold candidateMatches
  rcases hf with hf | hf <;> simp [h1, h2, h3, h4, h5, h6, h7, h8, hf]

theorem finalSet_nil {rule : RecurringRule} (hby : rule.NoByParts)
    (hf : rule.Frequency = .MONTHLY ∨ rule.Frequency = .SECONDLY) (cc : Int) :
    ∀ (l : List Time) (cindex : Int), finalSet rule cc cindex l = [] := by
  intro l
  induction l with
  | nil => intro cindex; rfl
  | cons d rest ih =>
    intro cindex
    simp only [finalSet, candidateMatches_nil hby hf, firstFinalMatch]
    simpa using ih (cindex + 1)

theorem advancePeriod_no_survivor {ri ri' : RecurrenceIterator} {wfuel : Nat} {sc sc' : Bool}
    (hby : ri.rule.NoByParts)
    (hf : ri.rule.Frequency = .MONTHLY ∨ ri.rule.Frequency = .SECONDLY)
    (h : advancePeriod wfuel ri sc = some (ri', sc')) :
    ri'.iterBuffer = ri.iterBuffer ∧ sc' = sc ∧ ri'.rule = ri.rule := by
  unfold advancePeriod at h
  cases hg : generateCandidates ri.rule wfuel (getNextDateByFreqAndInterval ri.rule.DtStart
      ri.rule.Frequency (ri.rule.Interval * ri.iterCounter)) with
  | none => simp [hg] at h
  | some candidates =>
    simp only [hg, finalSet_nil hby hf, secondLoop, Option.some.injEq, Prod.mk.injEq] at h
    obtain ⟨h1, h2⟩ := h
    subst h1 h2
    exact ⟨rfl, rfl, rfl⟩

theorem refill_no_survivor (wfuel : Nat) :
    ∀ (fuel : Nat) (ri : RecurrenceIterator), ri.rule.NoByParts →
      (ri.rule.Frequency = .MONTHLY ∨ ri.rule.Frequency = .SECONDLY) →
      ri.iterBuffer = [] → refill wfuel fuel ri false = none := by
  intro fuel
  induction fuel with
  | zero =>
    intro ri _ _ hb
    simp [refill, hb]
  | succ n ih =>
    intro ri hby hf hb
    unfold refill
    simp only [hb, List.length_nil, beq_self_eq_true, Bool.and_self, if_true]
    cases hadv : advancePeriod wfuel ri false with
    | none => rfl
    | some p =>
      obtain ⟨ri', sc'⟩ := p
      obtain ⟨g1, g2, g3⟩ := advancePeriod_no_survivor hby hf hadv
      subst g2
      simp only []
      exact ih ri' (g3 ▸ hby) (g3 ▸ hf) (g1.trans hb)

theorem Step_no_survivor {ri : RecurrenceIterator} (hby : ri.rule.NoByParts)
    (hf : ri.rule.Frequency = .MONTHLY ∨ ri.rule.Frequency = .SECONDLY)
    (hb : ri.iterBuffer = [])
    (hc : ¬ (0 < ri.rule.Count ∧ ri.rule.Count ≤ ri.ReturnCounter)) (fuel : Nat) (t : Time) :
    Step fuel ri t = none := by
  unfold Step
  have : (decide (ri.rule.Count > 0) && decide (ri.ReturnCounter ≥ ri.rule.Count)) = false := by
    rw [Bool.and_eq_false_iff]
    simp only [decide_eq_false_iff_not]
    by_cases h0 : ri.rule.Count > 0
    · right; intro h1; exact hc ⟨h0, h1⟩
    · left; exact h0
  simp [this, refill_no_survivor fuel fuel ri hby hf hb]

/-- C8 (what the code does). For a rule with `FREQ=MONTHLY` and no BY-part, the list
`matches` of every candidate is empty, so no candidate survives: on an iterator with
an empty buffer whose `Count` is not yet reached, the period loop of `Step` does not
end within any fuel, and no timestamp is ever delivered. -/
theorem monthly_without_byparts_never_returns (rule : RecurringRule)
    (hf : rule.Frequency = .MONTHLY) (hby : rule.NoByParts) (ri : RecurrenceIterator)
    (hr : ri.rule = rule) (hb : ri.iterBuffer = [])
    (hc : ¬ (0 < rule.Count ∧ rule.Count ≤ ri.ReturnCounter)) :
    ∀ fuel t, Step fuel ri t = none := by
  subst hr
  intro fuel t
  exact Step_no_survivor hby (Or.inl hf) hb hc fuel t

/-- C8, at the rule of `Test_MonthlyFreqWithoutByMonthDay`: the first call on a fresh
iterator has not returned after 1000 periods. -/
theorem monthly_without_byparts_never_returns_witness :
    Step 1000 monthlyCount5.Iterator EmptyTime = none :=
  monthly_without_byparts_never_returns monthlyCount5 rfl
    ⟨rfl, rfl, rfl, rfl, rfl, rfl, rfl, rfl, rfl⟩ monthlyCount5.Iterator rfl rfl
    (by decide) 1000 EmptyTime

/-- C10 (what the code does). For a rule with `FREQ=SECONDLY` and no BY-part, the list
`matches` of the single candidate of every period is empty, so it does not survive:
on an iterator with an empty buffer whose `Count` is not yet reached, the period loop
of `Step` does not end within any fuel, and no timestamp is ever delivered. -/
theorem secondly_without_byparts_never_returns (rule : RecurringRule)
    (hf : rule.Frequency = .SECONDLY) (hby : rule.NoByParts) (ri : RecurrenceIterator)
    (hr : ri.rule = rule) (hb : ri.iterBuffer = [])
    (hc : ¬ (0 < rule.Count ∧ rule.Count ≤ ri.ReturnCounter)) :
    ∀ fuel t, Step fuel ri t = none := by
  subst hr
  intro fuel t
  exact Step_no_survivor hby (Or.inr hf) hb hc fuel t

/-- C10, at the rule of `Test_FrequencySecondly`: the first call on a fresh iterator
has not returned after 1000 periods. -/
theorem secondly_without_byparts_never_returns_witness :
    Step 1000 secondlyCount5.Iterator EmptyTime = none :=
  secondly_without_byparts_never_returns secondlyCount5 rfl
    ⟨rfl, rfl, rfl, rfl, rfl, rfl, rfl, rfl, rfl⟩ secondlyCount5.Iterator rfl rfl
    (by decide) 1000 EmptyTime

/-- C9 (what the code does). At the rule of `Test_YearlyFreqWithoutByYearDay`
(`FREQ=YEARLY;COUNT=5` from 2020-01-02 09:00 New York, no BY-part) the first period
alone delivers the five timestamps: the second day of January, February, March,
April and May 2020. The sixth call returns false and the caller's variable ends at
2020-05-02 09:00, not at 2024-01-02 09:00. -/
theorem yearly_without_byparts_yields_every_month :
    ((sixCalls yearlyCount5.Iterator).map fun rs => rs.map fun r => (r.ok, r.out))
      = some [(true, Date 2020 1 2 9 0 0 0 newYork2020),
              (true, Date 2020 2 2 9 0 0 0 newYork2020),
              (true, Date 2020 3 2 9 0 0 0 newYork2020),
              (true, Date 2020 4 2 9 0 0 0 newYork2020),
              (true, Date 2020 5 2 9 0 0 0 newYork2020),
              (false, Date 2020 5 2 9 0 0 0 newYork2020)] := by
  decide!

/-- C2 (what the code does). `generateTimesForCandidates` walks the BYHOUR list in the
order written and nothing sorts the candidates of a period. At `FREQ=DAILY;BYHOUR=10,9`
from 2020-01-02 09:00 UTC the first two calls of `Step` return true and deliver 10:00
and then 09:00 of the same day: the second timestamp is before the first. With the
window `Before` 09:30 of that day the candidate 10:00 sets `shortcircuit_finish`, where
the source notes that only later events can follow, and 09:00, which follows it in the
list, is still delivered. -/
theorem yielded_not_monotone_byhour :
    (∃ r₁ r₂, StepSeq [(1, EmptyTime), (1, EmptyTime)] dailyByHourDescending.Iterator
        = some [r₁, r₂]
      ∧ r₁.ok = true ∧ r₂.ok = true
      ∧ r₁.out = Date 2020 1 2 10 0 0 0 .utc ∧ r₂.out = Date 2020 1 2 9 0 0 0 .utc
      ∧ r₂.out.Before r₁.out = true)
      ∧ (StepSeq [(1, EmptyTime), (1, EmptyTime)]
            (dailyByHourDescending.Iterator.Before (Date 2020 1 2 9 30 0 0 .utc))).map
          (List.map fun r => (r.ok, r.out))
        = some [(true, Date 2020 1 2 9 0 0 0 .utc), (false, EmptyTime)] := by
  refine ⟨⟨(Step 1 dailyByHourDescending.Iterator EmptyTime).getD default_result,
    (Step 1 ((Step 1 dailyByHourDescending.Iterator EmptyTime).getD default_result).iter
      EmptyTime).getD default_result, ?_⟩, ?_⟩
  · decide!
  · decide!

end RRule

namespace RRule

/-- C1 (what the code does). `Parse` accepts the text `EXDATE;TZID=UTC:20180916T130000Z`,
`RRULE:FREQ=WEEKLY`; `String` renders the rule as `EXDATE:20180916T130000Z`,
`RRULE:FREQ=WEEKLY`, because `DatesToList` writes a list whose first time is in UTC
with a bare colon; and `Parse` panics on that text, whose first line starts with none
of `RRULE:`, `DTSTART;`, `EXDATE;`. So the check parse, render, parse of
`AssertToStringMatchesInput` does not come back with a rule. -/
theorem round_trip_panics_on_utc_exdate :
    Parse [] utcExdateText = .ok utcExdateRule
      ∧ utcExdateRule.String = .ok "EXDATE:20180916T130000Z\nRRULE:FREQ=WEEKLY".toList
      ∧ Parse [] "EXDATE:20180916T130000Z\nRRULE:FREQ=WEEKLY".toList = .error .panic
      ∧ roundTrip [] utcExdateText = .error .panic := by
  refine ⟨?_, ?_, ?_, ?_⟩ <;> rfl

end RRule

namespace RRule

/-! ## The calendar of the `time` model -/

theorem isLeap_iff (y : Int) :
    isLeap y = true ↔ y % 4 = 0 ∧ (y % 100 ≠ 0 ∨ y % 400 = 0) := by
  unfold isLeap
  simp only [Bool.and_eq_true, beq_iff_eq, Bool.or_eq_true, bne_iff_ne, ne_eq]

/-- The arithmetic of `absYearDay` on named intermediate values. -/
theorem absYearDay_core (N b r c c' r2 e r3 f f' yd y : Int)
    (hb : b = N / 146097) (hr : r = N % 146097)
    (hc : c = r / 36524) (hc' : c' = c - c / 4) (hr2 : r2 = r - 36524 * c')
    (he : e = r2 / 1461) (hr3 : r3 = r2 - 1461 * e)
    (hf : f = r3 / 365) (hf' : f' = f - f / 4) (hyd : yd = r3 - 365 * f')
    (hy : y = 400 * b + 100 * c' + 4 * e + f' + 1) :
    365 * (y - 1) + (y - 1) / 4 - (y - 1) / 100 + (y - 1) / 400 + yd = N
      ∧ 0 ≤ yd ∧ (yd < 365 ∨ (yd = 365 ∧ y % 4 = 0 ∧ (y % 100 ≠ 0 ∨ y % 400 = 0))) := by
  have h1 : c = 0 ∨ c = 1 ∨ c = 2 ∨ c = 3 ∨ c = 4 := by omega
  have h2 : f = 0 ∨ f = 1 ∨ f = 2 ∨ f = 3 ∨ f = 4 := by omega
  rcases h1 with h1 | h1 | h1 | h1 | h1 <;> rcases h2 with h2 | h2 | h2 | h2 | h2 <;>
    subst h1 <;> subst h2 <;> omega

end RRule

namespace RRule

/-- The year and day of the year that `absYearDay` gives add up to the day count, and
the day of the year lies inside the year. -/
theorem absYearDay_spec (N : Int) :
    daysSinceEpoch (absYearDay N).1 + (absYearDay N).2 = N
      ∧ 0 ≤ (absYearDay N).2 ∧ (absYearDay N).2 < yearLen (absYearDay N).1 := by
  have h := absYearDay_core N _ _ _ _ _ _ _ _ _ (absYearDay N).2 (absYearDay N).1
    rfl rfl rfl rfl rfl rfl rfl rfl rfl rfl rfl
  obtain ⟨h1, h2, h3⟩ := h
  refine ⟨?_, h2, ?_⟩
  · unfold daysSinceEpoch
    exact h1
  · unfold yearLen
    rcases h3 with h3 | ⟨h3, h4⟩
    · split <;> omega
    · rw [if_pos ((isLeap_iff _).mpr h4)]
      omega

theorem daysSinceEpoch_succ (y : Int) :
    daysSinceEpoch (y + 1) = daysSinceEpoch y + yearLen y := by
  unfold daysSinceEpoch yearLen
  by_cases h : isLeap y = true
  · rw [if_pos h]
    have := (isLeap_iff y).mp h
    simp only
    omega
  · rw [if_neg h]
    have h' : ¬ (y % 4 = 0 ∧ (y % 100 ≠ 0 ∨ y % 400 = 0)) := fun hh => h ((isLeap_iff y).mpr hh)
    simp only
    omega

theorem yearLen_pos (y : Int) : 365 ≤ yearLen y := by
  unfold yearLen
  split <;> omega

theorem daysSinceEpoch_add_nat (y : Int) (n : Nat) :
    daysSinceEpoch y + 365 * n ≤ daysSinceEpoch (y + n) := by
  induction n with
  | zero => simp
  | succ k ih =>
    have h1 := daysSinceEpoch_succ (y + k)
    have h2 := yearLen_pos (y + k)
    have h3 : y + ((k + 1 : Nat) : Int) = y + k + 1 := by push_cast; ring
    rw [h3, h1]
    push_cast
    omega

theorem daysSinceEpoch_mono {y y' : Int} (h : y ≤ y') :
    daysSinceEpoch y ≤ daysSinceEpoch y' := by
  obtain ⟨n, hn⟩ : ∃ n : Nat, y' = y + n := ⟨(y' - y).toNat, by omega⟩
  subst hn
  have := daysSinceEpoch_add_nat y n
  omega

/-- A day count determines its year and day of the year. -/
theorem year_unique {y y' yd yd' : Int} (h : daysSinceEpoch y + yd = daysSinceEpoch y' + yd')
    (h0 : 0 ≤ yd) (h1 : yd < yearLen y) (h0' : 0 ≤ yd') (h1' : yd' < yearLen y') :
    y = y' ∧ yd = yd' := by
  have key : ∀ a b ya yb : Int, daysSinceEpoch a + ya = daysSinceEpoch b + yb →
      0 ≤ yb → ya < yearLen a → ¬ a < b := by
    intro a b ya yb hab hyb hya hlt
    have h1 := daysSinceEpoch_mono (show a + 1 ≤ b by omega)
    rw [daysSinceEpoch_succ] at h1
    omega
  have hle : ¬ y < y' := key y y' yd yd' h h0' h1
  have hge : ¬ y' < y := key y' y yd' yd h.symm h0 h1'
  have : y = y' := by omega
  subst this
  exact ⟨rfl, by omega⟩

/-- The function `absYearDay` inverts the day count of a year and a day inside it. -/
theorem absYearDay_of_year {y yd : Int} (h0 : 0 ≤ yd) (h1 : yd < yearLen y) :
    absYearDay (daysSinceEpoch y + yd) = (y, yd) := by
  obtain ⟨g1, g2, g3⟩ := absYearDay_spec (daysSinceEpoch y + yd)
  obtain ⟨e1, e2⟩ := year_unique g1 g2 g3 h0 h1
  exact Prod.ext e1 e2

end RRule

namespace RRule

/-- The leap-day adjustment of `civilDays`. -/
theorem civilDays_eq (y m d : Int) :
    civilDays y m d = daysSinceEpoch y + daysBefore m
      + (if isLeap y = true ∧ 3 ≤ m then 1 else 0) + (d - 1) := by
  unfold civilDays
  by_cases h1 : isLeap y = true <;> by_cases h2 : 3 ≤ m <;> simp [h1, h2]

theorem month_cases {m : Int} (h1 : 1 ≤ m) (h2 : m ≤ 12) :
    m = 1 ∨ m = 2 ∨ m = 3 ∨ m = 4 ∨ m = 5 ∨ m = 6 ∨ m = 7 ∨ m = 8 ∨ m = 9 ∨ m = 10
      ∨ m = 11 ∨ m = 12 := by omega

/-- The day of the year of a valid date of month `m` lies inside the year. -/
theorem yearDay_range {y m d : Int} (hm1 : 1 ≤ m) (hm2 : m ≤ 12) (hd1 : 1 ≤ d)
    (hd2 : d ≤ monthLen y m) :
    0 ≤ daysBefore m + (if isLeap y = true ∧ 3 ≤ m then 1 else 0) + (d - 1)
      ∧ daysBefore m + (if isLeap y = true ∧ 3 ≤ m then 1 else 0) + (d - 1) < yearLen y := by
  unfold yearLen
  rcases month_cases hm1 hm2 with h | h | h | h | h | h | h | h | h | h | h | h <;> subst h <;>
    by_cases hl : isLeap y = true <;> simp [daysBefore, monthLen, hl] at hd2 ⊢ <;> omega

/-- The month estimate `day / 31` of `monthDay` and its correction, on a common
year. -/
theorem monthDay_common {q day m d : Int} (hq : q = day / 31) (hm1 : 1 ≤ m) (hm2 : m ≤ 12)
    (hd1 : 1 ≤ d) (hday : daysBefore m + (d - 1) = day) (hlt : day < daysBefore (m + 1)) :
    (if day ≥ daysBefore (q + 2) then (q + 2, day - daysBefore (q + 2) + 1)
      else (q + 1, day - daysBefore (q + 1) + 1)) = (m, d) := by
  have hq2 : q = m - 2 ∨ q = m - 1 := by
    rcases month_cases hm1 hm2 with h | h | h | h | h | h | h | h | h | h | h | h <;>
      subst h <;> simp only [daysBefore] at hday hlt <;> norm_num at hday hlt <;> omega
  rcases hq2 with h | h
  · have e1 : q + 2 = m := by omega
    rw [e1, if_pos (by omega)]
    exact Prod.ext rfl (by simp only; omega)
  · have e1 : q + 2 = m + 1 := by omega
    have e2 : q + 1 = m := by omega
    rw [e1, e2, if_neg (by omega)]
    exact Prod.ext rfl (by simp only; omega)

theorem daysBefore_feb : daysBefore 2 = 31 := by decide

theorem daysBefore_mar : daysBefore 3 = 59 := by decide

theorem daysBefore_ge_mar {m : Int} (h : 3 ≤ m) (h2 : m ≤ 12) : 59 ≤ daysBefore m := by
  rcases month_cases (by omega) h2 with h | h | h | h | h | h | h | h | h | h | h | h <;>
    subst h <;> first | omega | decide

theorem daysBefore_succ {y m : Int} (hm1 : 1 ≤ m) (hm2 : m ≤ 12) :
    daysBefore (m + 1) + (if isLeap y = true ∧ m = 2 then 1 else 0)
      = daysBefore m + monthLen y m := by
  rcases month_cases hm1 hm2 with h | h | h | h | h | h | h | h | h | h | h | h <;> subst h <;>
    by_cases hl : isLeap y = true <;> simp [daysBefore, monthLen, hl]

/-- The function `monthDay` inverts the day of the year of a valid date. -/
theorem monthDay_of {y m d : Int} (hm1 : 1 ≤ m) (hm2 : m ≤ 12) (hd1 : 1 ≤ d)
    (hd2 : d ≤ monthLen y m) :
    monthDay y (daysBefore m + (if isLeap y = true ∧ 3 ≤ m then 1 else 0) + (d - 1))
      = (m, d) := by
  have hsucc := daysBefore_succ (y := y) hm1 hm2
  unfold monthDay
  by_cases hl : isLeap y = true
  · simp only [hl, true_and, Bool.true_and, beq_iff_eq, decide_eq_true_eq, gt_iff_lt]
    by_cases h3 : 3 ≤ m
    · have hdb := daysBefore_ge_mar h3 hm2
      have hne : ¬ (daysBefore m + (if 3 ≤ m then 1 else 0) + (d - 1) = 59) := by
        rw [if_pos h3]; omega
      have hgt : 59 < daysBefore m + (if 3 ≤ m then 1 else 0) + (d - 1) := by
        rw [if_pos h3]; omega
      rw [if_neg hne, if_pos hgt]
      have hm' : ¬ m = 2 := by omega
      simp [hm'] at hsucc
      exact monthDay_common rfl hm1 hm2 hd1 (by rw [if_pos h3]; omega) (by rw [if_pos h3]; omega)
    · rw [if_neg h3]
      have hm' : m = 1 ∨ m = 2 := by omega
      by_cases h59 : daysBefore m + 0 + (d - 1) = 59
      · rw [if_pos h59]
        rcases hm' with h | h <;> subst h <;> simp [daysBefore, monthLen, hl] at h59 hd2 ⊢ <;>
          omega
      · rw [if_neg h59]
        have hle : ¬ 59 < daysBefore m + 0 + (d - 1) := by
          rcases hm' with h | h <;> subst h <;>
            simp [daysBefore, monthLen, hl] at h59 hd2 ⊢ <;> omega
        rw [if_neg hle]
        refine monthDay_common rfl hm1 hm2 hd1 (by omega) ?_
        rcases hm' with h | h <;> subst h <;>
          simp [daysBefore, monthLen, hl] at h59 hd2 ⊢ <;> omega
  · have hl' : isLeap y = false := by simpa using hl
    simp only [hl', false_and, Bool.false_and, if_false, Bool.false_eq_true, add_zero]
    simp [hl] at hsucc
    exact monthDay_common rfl hm1 hm2 hd1 rfl (by omega)

end RRule

namespace RRule

/-- Every day of a year is a valid date of one of its months. -/
theorem exists_month_day {y yd : Int} (h0 : 0 ≤ yd) (h1 : yd < yearLen y) :
    ∃ m d, 1 ≤ m ∧ m ≤ 12 ∧ 1 ≤ d ∧ d ≤ monthLen y m
      ∧ daysBefore m + (if isLeap y = true ∧ 3 ≤ m then 1 else 0) + (d - 1) = yd := by
  unfold yearLen at h1
  by_cases hl : isLeap y = true
  · rw [if_pos hl] at h1
    have hcases : (0 ≤ yd ∧ yd < 31) ∨ (31 ≤ yd ∧ yd < 60) ∨ (60 ≤ yd ∧ yd < 91) ∨ (91 ≤ yd ∧ yd < 121) ∨ (121 ≤ yd ∧ yd < 152) ∨ (152 ≤ yd ∧ yd < 182) ∨ (182 ≤ yd ∧ yd < 213) ∨ (213 ≤ yd ∧ yd < 244) ∨ (244 ≤ yd ∧ yd < 274) ∨ (274 ≤ yd ∧ yd < 305) ∨ (305 ≤ yd ∧ yd < 335) ∨ (335 ≤ yd ∧ yd < 366) := by omega
    rcases hcases with h | h | h | h | h | h | h | h | h | h | h | h
    · exact ⟨1, yd - 0 + 1, by norm_num, by norm_num, by omega,
        by simp [monthLen, hl]; omega, by simp [daysBefore, hl]⟩
    · exact ⟨2, yd - 31 + 1, by norm_num, by norm_num, by omega,
        by simp [monthLen, hl]; omega, by simp [daysBefore, hl]⟩
    · exact ⟨3, yd - 60 + 1, by norm_num, by norm_num, by omega,
        by simp [monthLen, hl]; omega, by simp [daysBefore, hl]⟩
    · exact ⟨4, yd - 91 + 1, by norm_num, by norm_num, by omega,
        by simp [monthLen, hl]; omega, by simp [daysBefore, hl]⟩
    · exact ⟨5, yd - 121 + 1, by norm_num, by norm_num, by omega,
        by simp [monthLen, hl]; omega, by simp [daysBefore, hl]⟩
    · exact ⟨6, yd - 152 + 1, by norm_num, by norm_num, by omega,
        by simp [monthLen, hl]; omega, by simp [daysBefore, hl]⟩
    · exact ⟨7, yd - 182 + 1, by norm_num, by norm_num, by omega,
        by simp [monthLen, hl]; omega, by simp [daysBefore, hl]⟩
    · exact ⟨8, yd - 213 + 1, by norm_num, by norm_num, by omega,
        by simp [monthLen, hl]; omega, by simp [daysBefore, hl]⟩
    · exact ⟨9, yd - 244 + 1, by norm_num, by norm_num, by omega,
        by simp [monthLen, hl]; omega, by simp [daysBefore, hl]⟩
    · exact ⟨10, yd - 274 + 1, by norm_num, by norm_num, by omega,
        by simp [monthLen, hl]; omega, by simp [daysBefore, hl]⟩
    · exact ⟨11, yd - 305 + 1, by norm_num, by norm_num, by omega,
        by simp [monthLen, hl]; omega, by simp [daysBefore, hl]⟩
    · exact ⟨12, yd - 335 + 1, by norm_num, by norm_num, by omega,
        by simp [monthLen, hl]; omega, by simp [daysBefore, hl]⟩
  · rw [if_neg hl] at h1
    have hcases : (0 ≤ yd ∧ yd < 31) ∨ (31 ≤ yd ∧ yd < 59) ∨ (59 ≤ yd ∧ yd < 90) ∨ (90 ≤ yd ∧ yd < 120) ∨ (120 ≤ yd ∧ yd < 151) ∨ (151 ≤ yd ∧ yd < 181) ∨ (181 ≤ yd ∧ yd < 212) ∨ (212 ≤ yd ∧ yd < 243) ∨ (243 ≤ yd ∧ yd < 273) ∨ (273 ≤ yd ∧ yd < 304) ∨ (304 ≤ yd ∧ yd < 334) ∨ (334 ≤ yd ∧ yd < 365) := by omega
    rcases hcases with h | h | h | h | h | h | h | h | h | h | h | h
    · exact ⟨1, yd - 0 + 1, by norm_num, by norm_num, by omega,
        by simp [monthLen, hl]; omega, by simp [daysBefore, hl]⟩
    · exact ⟨2, yd - 31 + 1, by norm_num, by norm_num, by omega,
        by simp [monthLen, hl]; omega, by simp [daysBefore, hl]⟩
    · exact ⟨3, yd - 59 + 1, by norm_num, by norm_num, by omega,
        by simp [monthLen, hl]; omega, by simp [daysBefore, hl]⟩
    · exact ⟨4, yd - 90 + 1, by norm_num, by norm_num, by omega,
        by simp [monthLen, hl]; omega, by simp [daysBefore, hl]⟩
    · exact ⟨5, yd - 120 + 1, by norm_num, by norm_num, by omega,
        by simp [monthLen, hl]; omega, by simp [daysBefore, hl]⟩
    · exact ⟨6, yd - 151 + 1, by norm_num, by norm_num, by omega,
        by simp [monthLen, hl]; omega, by simp [daysBefore, hl]⟩
    · exact ⟨7, yd - 181 + 1, by norm_num, by norm_num, by omega,
        by simp [monthLen, hl]; omega, by simp [daysBefore, hl]⟩
    · exact ⟨8, yd - 212 + 1, by norm_num, by norm_num, by omega,
        by simp [monthLen, hl]; omega, by simp [daysBefore, hl]⟩
    · exact ⟨9, yd - 243 + 1, by norm_num, by norm_num, by omega,
        by simp [monthLen, hl]; omega, by simp [daysBefore, hl]⟩
    · exact ⟨10, yd - 273 + 1, by norm_num, by norm_num, by omega,
        by simp [monthLen, hl]; omega, by simp [daysBefore, hl]⟩
    · exact ⟨11, yd - 304 + 1, by norm_num, by norm_num, by omega,
        by simp [monthLen, hl]; omega, by simp [daysBefore, hl]⟩
    · exact ⟨12, yd - 334 + 1, by norm_num, by norm_num, by omega,
        by simp [monthLen, hl]; omega, by simp [daysBefore, hl]⟩

/-- What `monthDay` returns for a day inside the year: a valid date of the year whose
day of the year is the given one. -/
theorem monthDay_spec {y yd : Int} (h0 : 0 ≤ yd) (h1 : yd < yearLen y) :
    1 ≤ (monthDay y yd).1 ∧ (monthDay y yd).1 ≤ 12 ∧ 1 ≤ (monthDay y yd).2
      ∧ (monthDay y yd).2 ≤ monthLen y (monthDay y yd).1
      ∧ civilDays y (monthDay y yd).1 (monthDay y yd).2 = daysSinceEpoch y + yd := by
  obtain ⟨m, d, hm1, hm2, hd1, hd2, hyd⟩ := exists_month_day h0 h1
  have h := monthDay_of hm1 hm2 hd1 hd2
  rw [hyd] at h
  rw [h, civilDays_eq]
  exact ⟨hm1, hm2, hd1, hd2, by simp only; omega⟩

/-- Round trip from a day count: the date that `absYearDay` and `monthDay` read off a
day count is valid and has that day count. -/
theorem civilDays_absDate (N : Int) :
    1 ≤ (monthDay (absYearDay N).1 (absYearDay N).2).1
      ∧ (monthDay (absYearDay N).1 (absYearDay N).2).1 ≤ 12
      ∧ 1 ≤ (monthDay (absYearDay N).1 (absYearDay N).2).2
      ∧ (monthDay (absYearDay N).1 (absYearDay N).2).2
          ≤ monthLen (absYearDay N).1 (monthDay (absYearDay N).1 (absYearDay N).2).1
      ∧ civilDays (absYearDay N).1 (monthDay (absYearDay N).1 (absYearDay N).2).1
          (monthDay (absYearDay N).1 (absYearDay N).2).2 = N := by
  obtain ⟨g1, g2, g3⟩ := absYearDay_spec N
  obtain ⟨k1, k2, k3, k4, k5⟩ := monthDay_spec g2 g3
  exact ⟨k1, k2, k3, k4, by rw [k5, g1]⟩

/-- Round trip from a valid date: `absYearDay` and `monthDay` read the date back off
its day count. -/
theorem absDate_civilDays {y m d : Int} (hm1 : 1 ≤ m) (hm2 : m ≤ 12) (hd1 : 1 ≤ d)
    (hd2 : d ≤ monthLen y m) :
    absYearDay (civilDays y m d)
        = (y, daysBefore m + (if isLeap y = true ∧ 3 ≤ m then 1 else 0) + (d - 1))
      ∧ monthDay y (daysBefore m + (if isLeap y = true ∧ 3 ≤ m then 1 else 0) + (d - 1))
        = (m, d) := by
  obtain ⟨r0, r1⟩ := yearDay_range (y := y) hm1 hm2 hd1 hd2
  refine ⟨?_, monthDay_of hm1 hm2 hd1 hd2⟩
  rw [civilDays_eq]
  have := absYearDay_of_year r0 r1
  rw [← this]
  congr 1
  omega

/-- The first day of a month follows the last day of the month before. -/
theorem monthStart_succ (i : Int) :
    monthStart (i + 1) = monthStart i + monthLen (i / 12) (i % 12 + 1) := by
  unfold monthStart
  rw [civilDays_eq, civilDays_eq]
  have hm1 : 1 ≤ i % 12 + 1 := by omega
  have hm2 : i % 12 + 1 ≤ 12 := by omega
  have hs := daysBefore_succ (y := i / 12) hm1 hm2
  by_cases h11 : i % 12 = 11
  · have e1 : (i + 1) / 12 = i / 12 + 1 := by omega
    have e2 : (i + 1) % 12 + 1 = 1 := by omega
    have e3 : i % 12 + 1 = 12 := by omega
    rw [e1, e2, e3, daysSinceEpoch_succ]
    rw [e3] at hs
    have hy : yearLen (i / 12) = 365 + (if isLeap (i / 12) = true then 1 else 0) := by
      unfold yearLen; split <;> simp
    have hd13 : daysBefore (12 + 1) = 365 := by decide
    have hd1 : daysBefore 1 = 0 := by decide
    rw [hd13] at hs
    rw [hy, hd1]
    by_cases hl : isLeap (i / 12) = true <;> simp [hl] at hs ⊢ <;> omega
  · have e1 : (i + 1) / 12 = i / 12 := by omega
    have e2 : (i + 1) % 12 + 1 = (i % 12 + 1) + 1 := by omega
    rw [e1, e2]
    by_cases hl : isLeap (i / 12) = true
    · by_cases h2 : i % 12 + 1 = 2
      · have a1 : ¬ (3 ≤ i % 12 + 1) := by omega
        have a2 : 3 ≤ i % 12 + 1 + 1 := by omega
        simp only [hl, h2, true_and, if_true] at hs
        simp only [hl, true_and, a1, a2, if_true, if_false]
        rw [h2] at a1 a2 ⊢
        omega
      · have hh : (3 ≤ i % 12 + 1 + 1) ↔ (3 ≤ i % 12 + 1) := by omega
        simp only [hl, h2, and_false, if_false, add_zero] at hs
        simp only [hl, true_and, hh]
        omega
    · simp only [hl, Bool.false_eq_true, false_and, if_false, add_zero] at hs ⊢
      omega

theorem monthLen_pos (y m : Int) : 28 ≤ monthLen y m := by
  unfold monthLen
  split_ifs <;> omega

theorem monthStart_add_nat (i : Int) (n : Nat) : monthStart i + 28 * n ≤ monthStart (i + n) := by
  induction n with
  | zero => simp
  | succ k ih =>
    have h1 := monthStart_succ (i + k)
    have h2 := monthLen_pos ((i + k) / 12) ((i + k) % 12 + 1)
    have h3 : i + ((k + 1 : Nat) : Int) = i + k + 1 := by push_cast; ring
    rw [h3, h1]
    push_cast
    omega

theorem monthStart_mono {i j : Int} (h : i ≤ j) : monthStart i ≤ monthStart j := by
  obtain ⟨n, hn⟩ : ∃ n : Nat, j = i + n := ⟨(j - i).toNat, by omega⟩
  subst hn
  have := monthStart_add_nat i n
  omega

/-- The day count of a date of year `y`, month `m` in terms of the month index. -/
theorem civilDays_monthStart {y m : Int} (hm1 : 1 ≤ m) (hm2 : m ≤ 12) (d : Int) :
    civilDays y m d = monthStart (12 * y + (m - 1)) + (d - 1) := by
  unfold monthStart
  have e1 : (12 * y + (m - 1)) / 12 = y := by omega
  have e2 : (12 * y + (m - 1)) % 12 + 1 = m := by omega
  rw [e1, e2, civilDays_eq, civilDays_eq]
  omega

end RRule

namespace RRule

/-! ## Order of the timestamps delivered, given ordered periods -/

theorem finalSet_sublist (rule : RecurringRule) (cc : Int) :
    ∀ (l : List Time) (cindex : Int), (finalSet rule cc cindex l).Sublist l := by
  intro l
  induction l with
  | nil => intro cindex; exact List.Sublist.slnil
  | cons d rest ih =>
    intro cindex
    simp only [finalSet]
    split
    · exact (ih (cindex + 1)).cons₂ d
    · exact (ih (cindex + 1)).cons d

theorem secondLoop_buffer (ri : RecurrenceIterator) (fcc : Int) :
    ∀ (l : List Time) (cindex : Int) (acc : List Time × Bool),
      ∃ s : List Time, s.Sublist l ∧ (secondLoop ri fcc cindex l acc).1 = acc.1 ++ s := by
  intro l
  induction l with
  | nil => intro cindex acc; exact ⟨[], List.Sublist.slnil, by simp [secondLoop]⟩
  | cons x rest ih =>
    intro cindex acc
    obtain ⟨buffer, sc⟩ := acc
    simp only [secondLoop]
    by_cases hc : ((survivorMatches ri fcc cindex x).all id
        && !(x.Before ri.rule.DtStart)) = true
    · obtain ⟨s, hs, he⟩ := ih (cindex + 1) (buffer ++ [x],
        if (ri.UseUserBefore && !(x.Before ri.UserBefore)) = true then true else sc)
      refine ⟨x :: s, hs.cons₂ x, ?_⟩
      simp only [hc, if_true]
      rw [he]
      simp
    · obtain ⟨s, hs, he⟩ := ih (cindex + 1) (buffer,
        if (ri.UseUserBefore && !(x.Before ri.UserBefore)) = true then true else sc)
      refine ⟨s, hs.cons x, ?_⟩
      simp only [hc]
      exact he

theorem bound_mono {L : Int → Int} (h : ∀ k : Int, 0 ≤ k → L k ≤ L (k + 1))
    {k k' : Int} (h0 : 0 ≤ k) (hle : k ≤ k') : L k ≤ L k' := by
  obtain ⟨n, hn⟩ : ∃ n : Nat, k' = k + n := ⟨(k' - k).toNat, by omega⟩
  subst hn
  clear hle
  induction n with
  | zero => simp
  | succ m ih =>
    have h1 := h (k + m) (by omega)
    have h3 : k + ((m + 1 : Nat) : Int) = k + m + 1 := by push_cast; ring
    rw [h3]
    omega

theorem advancePeriod_ordered {rule : RecurringRule} {L : Int → Int}
    (hp : PeriodsOrdered rule L) {wfuel : Nat} {ri ri' : RecurrenceIterator} {sc sc' : Bool}
    (hr : ri.rule = rule) (hb : BufferOrdered L ri)
    (h : advancePeriod wfuel ri sc = some (ri', sc')) :
    BufferOrdered L ri'
      ∧ ∀ d ∈ ri'.iterBuffer, d ∈ ri.iterBuffer ∨ (d.nsec = 0 ∧ L ri.iterCounter ≤ d.sec) := by
  subst hr
  obtain ⟨hk, hpair, hlt⟩ := hb
  obtain ⟨hL, hc⟩ := hp ri.iterCounter hk
  unfold advancePeriod at h
  cases hg : generateCandidates ri.rule wfuel (getNextDateByFreqAndInterval ri.rule.DtStart
      ri.rule.Frequency (ri.rule.Interval * ri.iterCounter)) with
  | none => simp [hg] at h
  | some candidates =>
    simp only [hg, Option.some.injEq, Prod.mk.injEq] at h
    obtain ⟨h1, _⟩ := h
    subst h1
    obtain ⟨hcp, hcb⟩ := hc wfuel candidates hg
    obtain ⟨s, hs, he⟩ := secondLoop_buffer ri
      ((finalSet ri.rule (candidates.length : Int) 0 candidates).length : Int)
      (finalSet ri.rule (candidates.length : Int) 0 candidates) 0 (ri.iterBuffer, sc)
    have hsub : s.Sublist candidates := hs.trans (finalSet_sublist _ _ _ _)
    simp only at he
    refine ⟨⟨by simp only; omega, ?_, ?_⟩, ?_⟩
    · simp only [he]
      rw [List.pairwise_append]
      refine ⟨hpair, hcp.sublist hsub, ?_⟩
      intro a ha b hb
      have := (hlt a ha).2
      have := (hcb b (hsub.subset hb)).2.1
      omega
    · simp only [he]
      intro d hd
      rcases List.mem_append.mp hd with h1 | h1
      · exact ⟨(hlt d h1).1, by have := (hlt d h1).2; omega⟩
      · exact ⟨(hcb d (hsub.subset h1)).1, (hcb d (hsub.subset h1)).2.2⟩
    · simp only [he]
      intro d hd
      rcases List.mem_append.mp hd with h1 | h1
      · exact Or.inl h1
      · exact Or.inr ⟨(hcb d (hsub.subset h1)).1, (hcb d (hsub.subset h1)).2.1⟩

theorem refill_ordered {rule : RecurringRule} {L : Int → Int}
    (hp : PeriodsOrdered rule L) (wfuel : Nat) :
    ∀ (fuel : Nat) (ri ri' : RecurrenceIterator) (sc sc' : Bool),
      ri.rule = rule → BufferOrdered L ri → refill wfuel fuel ri sc = some (ri', sc') →
      BufferOrdered L ri' ∧ ri.iterCounter ≤ ri'.iterCounter
        ∧ ∀ d ∈ ri'.iterBuffer,
            d ∈ ri.iterBuffer ∨ (d.nsec = 0 ∧ L ri.iterCounter ≤ d.sec) := by
  intro fuel
  induction fuel with
  | zero =>
    intro ri ri' sc sc' _ hb h
    unfold refill at h
    split at h
    · exact absurd h (by simp)
    · simp only [Option.some.injEq, Prod.mk.injEq] at h
      obtain ⟨h1, _⟩ := h
      subst h1
      exact ⟨hb, le_refl _, fun d hd => Or.inl hd⟩
  | succ n ih =>
    intro ri ri' sc sc' hr hb h
    unfold refill at h
    split at h
    · cases hadv : advancePeriod wfuel ri sc with
      | none => simp [hadv] at h
      | some p =>
        obtain ⟨ri₁, sc₁⟩ := p
        simp only [hadv] at h
        obtain ⟨hb₁, hm₁⟩ := advancePeriod_ordered hp hr hb hadv
        obtain ⟨hcfg, _, hic, _⟩ := advancePeriod_spec hadv
        obtain ⟨hb₂, hle, hm₂⟩ := ih ri₁ ri' sc₁ sc' (hcfg.1.symm.trans hr) hb₁ h
        refine ⟨hb₂, by omega, ?_⟩
        intro d hd
        rcases hm₂ d hd with h1 | ⟨h1, h2⟩
        · exact hm₁ d h1
        · right
          refine ⟨h1, le_trans ?_ h2⟩
          rw [hic]
          exact (hp ri.iterCounter hb.1).1
    · simp only [Option.some.injEq, Prod.mk.injEq] at h
      obtain ⟨h1, _⟩ := h
      subst h1
      exact ⟨hb, le_refl _, fun d hd => Or.inl hd⟩

/-- One call of `Step` on an ordered buffer: the buffer stays ordered, and a timestamp
delivered comes from the buffer or from a later period and precedes everything left in
the buffer. -/
theorem Step_ordered {rule : RecurringRule} {L : Int → Int} (hp : PeriodsOrdered rule L)
    {fuel : Nat} {ri : RecurrenceIterator} {t : Time} {r : StepResult}
    (hr : ri.rule = rule) (hb : BufferOrdered L ri) (h : Step fuel ri t = some r) :
    r.iter.rule = rule ∧ BufferOrdered L r.iter ∧ ri.iterCounter ≤ r.iter.iterCounter
      ∧ (∀ d ∈ r.iter.iterBuffer,
          d ∈ ri.iterBuffer ∨ (d.nsec = 0 ∧ L ri.iterCounter ≤ d.sec))
      ∧ (r.ok = true →
          r.out.nsec = 0
          ∧ (r.out ∈ ri.iterBuffer ∨ L ri.iterCounter ≤ r.out.sec)
          ∧ (∀ d ∈ r.iter.iterBuffer, r.out.sec < d.sec)
          ∧ r.out.sec < L r.iter.iterCounter) := by
  rcases Step_cases h with ⟨_, _, hres⟩ | ⟨_, ri₁, sc, hre, hres⟩
  · subst hres
    exact ⟨hr, hb, le_refl _, fun d hd => Or.inl hd, fun hk => by simp at hk⟩
  · obtain ⟨hb₁, hle, hm⟩ := refill_ordered hp fuel fuel ri ri₁ false sc hr hb hre
    obtain ⟨hcfg, _, _, _, hexit⟩ := refill_spec _ _ _ _ _ _ hre
    cases hbuf : ri₁.iterBuffer with
    | nil =>
      have hsc : sc = true := by
        rcases hexit with h1 | h1
        · exact absurd hbuf h1
        · exact h1
      rw [deliver_nil sc t hbuf] at hres
      subst hres
      subst hsc
      exact ⟨hcfg.1.symm.trans hr, hb₁, hle, hm, fun hk => by simp at hk⟩
    | cons head tail =>
      obtain ⟨ho, hbt, hsc, hic, _, _, _⟩ := deliver_cons sc t hbuf
      rw [← hres] at ho hbt hsc hic
      obtain ⟨hk₁, hpair₁, hlt₁⟩ := hb₁
      rw [hbuf] at hpair₁ hlt₁
      have hhead := hlt₁ head (List.mem_cons_self _ _)
      refine ⟨(hcfg.trans hsc).1.symm.trans hr, ⟨by omega, ?_, ?_⟩, by omega, ?_, ?_⟩
      · rw [hbt]; exact (List.pairwise_cons.mp hpair₁).2
      · rw [hbt, hic]
        intro d hd
        exact hlt₁ d (List.mem_cons_of_mem _ hd)
      · rw [hbt]
        intro d hd
        exact hm d (by rw [hbuf]; exact List.mem_cons_of_mem _ hd)
      · intro _
        refine ⟨by rw [ho]; exact hhead.1, ?_, ?_, ?_⟩
        · rw [ho]
          rcases hm head (by rw [hbuf]; exact List.mem_cons_self _ _) with h1 | h1
          · exact Or.inl h1
          · exact Or.inr h1.2
        · rw [hbt, ho]
          exact (List.pairwise_cons.mp hpair₁).1
        · rw [ho, hic]; exact hhead.2

/-- Along a sequence of calls on an ordered buffer the timestamps delivered are
strictly increasing, have whole seconds, and each comes from the buffer or from a
period not yet generated. -/
theorem StepSeq_ordered {rule : RecurringRule} {L : Int → Int} (hp : PeriodsOrdered rule L) :
    ∀ (calls : List (Nat × Time)) (ri : RecurrenceIterator) (rs : List StepResult),
      ri.rule = rule → BufferOrdered L ri → StepSeq calls ri = some rs →
      (yielded rs).Pairwise (fun a b => a.sec < b.sec)
        ∧ ∀ t ∈ yielded rs, t.nsec = 0
            ∧ (t ∈ ri.iterBuffer ∨ L ri.iterCounter ≤ t.sec) := by
  intro calls
  induction calls with
  | nil =>
    intro ri rs _ _ h
    simp only [StepSeq, Option.some.injEq] at h
    subst h
    simp [yielded]
  | cons c rest ih =>
    intro ri rs hr hb h
    obtain ⟨fuel, t⟩ := c
    simp only [StepSeq] at h
    cases hs : Step fuel ri t with
    | none => simp [hs] at h
    | some r₁ =>
      simp only [hs] at h
      cases hq : StepSeq rest r₁.iter with
      | none => simp [hq] at h
      | some rs₁ =>
        simp only [hq, Option.some.injEq] at h
        subst h
        obtain ⟨hr₁, hb₁, hle, hm, hok⟩ := Step_ordered hp hr hb hs
        obtain ⟨ihp, ihm⟩ := ih r₁.iter rs₁ hr₁ hb₁ hq
        have hmono : L ri.iterCounter ≤ L r₁.iter.iterCounter :=
          bound_mono (fun k hk => (hp k hk).1) hb.1 hle
        have hlater : ∀ t ∈ yielded rs₁, t.nsec = 0
            ∧ (t ∈ ri.iterBuffer ∨ L ri.iterCounter ≤ t.sec) := by
          intro u hu
          obtain ⟨h1, h2⟩ := ihm u hu
          refine ⟨h1, ?_⟩
          rcases h2 with h2 | h2
          · rcases hm u h2 with h3 | h3
            · exact Or.inl h3
            · exact Or.inr h3.2
          · exact Or.inr (le_trans hmono h2)
        rw [yielded_cons]
        by_cases hk : r₁.ok = true
        · obtain ⟨o1, o2, o3, o4⟩ := hok hk
          simp only [hk, if_true]
          refine ⟨List.pairwise_cons.mpr ⟨?_, ihp⟩, ?_⟩
          · intro u hu
            rcases (ihm u hu).2 with h2 | h2
            · exact o3 u h2
            · omega
          · intro u hu
            rcases List.mem_cons.mp hu with h1 | h1
            · subst h1; exact ⟨o1, o2⟩
            · exact hlater u h1
        · simp only [hk]
          exact ⟨ihp, hlater⟩

end RRule

namespace RRule

/-! ## Times in a zone without transitions -/

theorem lookup_fixed {loc : Location} (h : loc.Fixed) (u : Int) :
    loc.lookup u = (loc.offset, zoneAlpha, zoneOmega) := by
  cases loc with
  | utc => rfl
  | zone n b tr =>
    simp only [Location.Fixed] at h
    subst h
    rfl

/-- The function `Date` in a zone without transitions. -/
theorem Date_fixed {loc : Location} (hfix : loc.Fixed) (y m d h mi s ns : Int) :
    Date y m d h mi s ns loc
      = { sec := civilDays (y + (m - 1) / 12) ((m - 1) % 12 + 1) d * 86400 + h * 3600
            + mi * 60 + (s + ns / 1000000000) - unixToAbs - loc.offset,
          nsec := ns % 1000000000, loc := loc } := by
  unfold Date
  simp only [lookup_fixed hfix]
  congr 1
  split_ifs <;> simp_all

theorem abs_fixed {t : Time} (h : t.loc.Fixed) : t.abs = t.sec + t.loc.offset + unixToAbs := by
  unfold Time.abs
  rw [lookup_fixed h]

theorem clock_sum (t : Time) : t.Hour * 3600 + t.Minute * 60 + t.Second = t.abs % 86400 := by
  unfold Time.Hour Time.Minute Time.Second
  omega

theorem civilDays_add (y m d e : Int) : civilDays y m (d + e) = civilDays y m d + e := by
  rw [civilDays_eq, civilDays_eq]
  omega

/-- The date fields of a time are a valid date whose day count is the day count of
the time. -/
theorem fields_valid (t : Time) :
    1 ≤ t.Month ∧ t.Month ≤ 12 ∧ 1 ≤ t.Day ∧ t.Day ≤ monthLen t.Year t.Month
      ∧ civilDays t.Year t.Month t.Day = t.abs / 86400 :=
  civilDays_absDate (t.abs / 86400)

/-- Building a time from the fields of a time `t` in a zone without transitions, with
the day moved by `e` and the nanoseconds `ns`: the instant of `t` moved by `e` days
and by the whole seconds in `ns`. -/
theorem Date_of_fields (t : Time) (hfix : t.loc.Fixed) (e ns : Int) :
    Date t.Year t.Month (t.Day + e) t.Hour t.Minute t.Second ns t.loc
      = { sec := t.sec + e * 86400 + ns / 1000000000, nsec := ns % 1000000000,
          loc := t.loc } := by
  rw [Date_fixed hfix]
  obtain ⟨h1, h2, _, _, h5⟩ := fields_valid t
  have e1 : (t.Month - 1) / 12 = 0 := by omega
  have e2 : (t.Month - 1) % 12 + 1 = t.Month := by omega
  rw [e1, e2, add_zero, civilDays_add, h5]
  have hc := clock_sum t
  have ha := abs_fixed hfix
  congr 1
  omega

/-- The fields of a time built from a valid date and a time of day in a zone without
transitions. -/
theorem fields_of_Date {loc : Location} (hfix : loc.Fixed) {y m d h mi s : Int}
    (hm1 : 1 ≤ m) (hm2 : m ≤ 12) (hd1 : 1 ≤ d) (hd2 : d ≤ monthLen y m)
    (h0 : 0 ≤ h * 3600 + mi * 60 + s) (h1 : h * 3600 + mi * 60 + s < 86400) :
    (Date y m d h mi s 0 loc).Year = y ∧ (Date y m d h mi s 0 loc).Month = m
      ∧ (Date y m d h mi s 0 loc).Day = d
      ∧ (Date y m d h mi s 0 loc).abs % 86400 = h * 3600 + mi * 60 + s
      ∧ (Date y m d h mi s 0 loc).nsec = 0 ∧ (Date y m d h mi s 0 loc).loc = loc := by
  have hD := Date_fixed hfix y m d h mi s 0
  have e1 : (m - 1) / 12 = 0 := by omega
  have e2 : (m - 1) % 12 + 1 = m := by omega
  rw [e1, e2, add_zero] at hD
  have hloc : (Date y m d h mi s 0 loc).loc = loc := by rw [hD]
  have habs : (Date y m d h mi s 0 loc).abs = civilDays y m d * 86400 + (h * 3600 + mi * 60 + s) := by
    rw [abs_fixed (by rw [hloc]; exact hfix), hD]
    simp only
    omega
  have hdays : (Date y m d h mi s 0 loc).abs / 86400 = civilDays y m d := by
    rw [habs]; omega
  obtain ⟨r1, r2⟩ := absDate_civilDays (y := y) hm1 hm2 hd1 hd2
  refine ⟨?_, ?_, ?_, ?_, ?_, hloc⟩
  · unfold Time.Year; rw [hdays, r1]
  · unfold Time.Month; simp only; rw [hdays, r1]; simp only; rw [r2]
  · unfold Time.Day; simp only; rw [hdays, r1]; simp only; rw [r2]
  · rw [habs]; omega
  · rw [hD]; simp

theorem clock_range (t : Time) :
    0 ≤ t.Hour * 3600 + t.Minute * 60 + t.Second
      ∧ t.Hour * 3600 + t.Minute * 60 + t.Second < 86400 := by
  rw [clock_sum]
  omega

/-- The number of days of a month as `generateCandidates` computes it. -/
theorem daysInMonth_eq {y m : Int} (hm1 : 1 ≤ m) (hm2 : m ≤ 12) :
    daysInMonth y m = monthLen y m := by
  unfold daysInMonth
  have hlen := monthLen_pos y m
  have hsame : Date y (m + 1) 0 0 0 0 0 .utc = Date y m (monthLen y m) 0 0 0 0 .utc := by
    rw [@Date_fixed Location.utc trivial, @Date_fixed Location.utc trivial]
    have e1 : (m - 1) / 12 = 0 := by omega
    have e2 : (m - 1) % 12 + 1 = m := by omega
    have e3 : 1 ≤ (m + 1 - 1) % 12 + 1 := by omega
    have e4 : (m + 1 - 1) % 12 + 1 ≤ 12 := by omega
    rw [e1, e2, add_zero, civilDays_monthStart e3 e4, civilDays_monthStart hm1 hm2]
    have e5 : 12 * (y + (m + 1 - 1) / 12) + ((m + 1 - 1) % 12 + 1 - 1) = 12 * y + (m - 1) + 1 := by
      omega
    rw [e5, monthStart_succ]
    have e6 : (12 * y + (m - 1)) / 12 = y := by omega
    have e7 : (12 * y + (m - 1)) % 12 + 1 = m := by omega
    rw [e6, e7]
    congr 1
    omega
  rw [hsame]
  exact (@fields_of_Date Location.utc trivial y m (monthLen y m) 0 0 0 hm1 hm2 (by omega) (le_refl _)
    (by norm_num) (by norm_num)).2.2.1

end RRule

namespace RRule

/-! ## The candidates of a period in a zone without transitions -/

/-- The instant of day `d` of month `m` of year `y` with the time of day of `r`. -/
theorem Date_month_sec {loc : Location} (hfix : loc.Fixed) (r : Time) {y m : Int}
    (hm1 : 1 ≤ m) (hm2 : m ≤ 12) (d : Int) :
    (Date y m d r.Hour r.Minute r.Second 0 loc).sec
        = (monthStart (12 * y + (m - 1)) + (d - 1)) * 86400 + r.abs % 86400
          - unixToAbs - loc.offset
      ∧ (Date y m d r.Hour r.Minute r.Second 0 loc).nsec = 0 := by
  rw [Date_fixed hfix]
  have e1 : (m - 1) / 12 = 0 := by omega
  have e2 : (m - 1) % 12 + 1 = m := by omega
  rw [e1, e2, add_zero, civilDays_monthStart hm1 hm2]
  have hc := clock_sum r
  simp only
  constructor <;> omega

theorem monthCandidates_spec (root : Time) (hfix : root.loc.Fixed) {y m : Int}
    (hm1 : 1 ≤ m) (hm2 : m ≤ 12) :
    ∀ (cnt : Nat) (d0 : Int),
      (monthCandidates root y m cnt d0).Pairwise (fun a b => a.sec < b.sec)
        ∧ ∀ x ∈ monthCandidates root y m cnt d0, x.nsec = 0
            ∧ (monthStart (12 * y + (m - 1)) + (d0 - 1)) * 86400 + root.abs % 86400
                - unixToAbs - root.loc.offset ≤ x.sec
            ∧ x.sec < (monthStart (12 * y + (m - 1)) + (d0 - 1) + cnt) * 86400
                - unixToAbs - root.loc.offset := by
  intro cnt
  induction cnt with
  | zero => intro d0; simp [monthCandidates]
  | succ n ih =>
    intro d0
    obtain ⟨ihp, ihb⟩ := ih (d0 + 1)
    obtain ⟨hs, hns⟩ := Date_month_sec hfix root (y := y) hm1 hm2 d0
    have htod : 0 ≤ root.abs % 86400 ∧ root.abs % 86400 < 86400 := by omega
    simp only [monthCandidates]
    refine ⟨List.pairwise_cons.mpr ⟨?_, ihp⟩, ?_⟩
    · intro b hb
      have := (ihb b hb).2.1
      rw [hs]
      omega
    · intro x hx
      rcases List.mem_cons.mp hx with h1 | h1
      · subst h1
        refine ⟨hns, by rw [hs], ?_⟩
        rw [hs]
        push_cast
        omega
      · obtain ⟨b1, b2, b3⟩ := ihb x h1
        refine ⟨b1, by omega, ?_⟩
        push_cast
        omega

/-- The candidates of one month, with the number of days that `generateCandidates`
computes. -/
theorem monthCandidates_full (root : Time) (hfix : root.loc.Fixed) {y m : Int}
    (hm1 : 1 ≤ m) (hm2 : m ≤ 12) :
    (monthCandidates root y m (daysInMonth y m).toNat 1).Pairwise (fun a b => a.sec < b.sec)
      ∧ ∀ x ∈ monthCandidates root y m (daysInMonth y m).toNat 1, x.nsec = 0
          ∧ monthStart (12 * y + (m - 1)) * 86400 + root.abs % 86400
              - unixToAbs - root.loc.offset ≤ x.sec
          ∧ x.sec < monthStart (12 * y + (m - 1) + 1) * 86400
              - unixToAbs - root.loc.offset := by
  obtain ⟨hp, hb⟩ := monthCandidates_spec root hfix (y := y) hm1 hm2 (daysInMonth y m).toNat 1
  refine ⟨hp, ?_⟩
  intro x hx
  obtain ⟨b1, b2, b3⟩ := hb x hx
  have hlen := monthLen_pos y m
  have hcast : (((daysInMonth y m).toNat : Nat) : Int) = monthLen y m := by
    rw [daysInMonth_eq hm1 hm2]
    omega
  rw [hcast] at b3
  have hsucc := monthStart_succ (12 * y + (m - 1))
  have e6 : (12 * y + (m - 1)) / 12 = y := by omega
  have e7 : (12 * y + (m - 1)) % 12 + 1 = m := by omega
  rw [e6, e7] at hsucc
  refine ⟨b1, by omega, ?_⟩
  rw [hsucc]
  omega

theorem yearCandidates_spec (root : Time) (hfix : root.loc.Fixed) :
    ∀ (n : Nat) (m : Int), 1 ≤ m → m + n ≤ 13 →
      (yearCandidates root n m).Pairwise (fun a b => a.sec < b.sec)
        ∧ ∀ x ∈ yearCandidates root n m, x.nsec = 0
            ∧ monthStart (12 * root.Year + (m - 1)) * 86400
                - unixToAbs - root.loc.offset ≤ x.sec
            ∧ x.sec < monthStart (12 * root.Year + (m - 1) + n) * 86400
                - unixToAbs - root.loc.offset := by
  intro n
  induction n with
  | zero => intro m _ _; simp [yearCandidates]
  | succ k ih =>
    intro m hm1 hm2
    push_cast at hm2
    obtain ⟨ihp, ihb⟩ := ih (m + 1) (by omega) (by omega)
    obtain ⟨mp, mb⟩ := monthCandidates_full root hfix (y := root.Year) hm1 (by omega : m ≤ 12)
    have htod : 0 ≤ root.abs % 86400 ∧ root.abs % 86400 < 86400 := by omega
    have e1 : 12 * root.Year + (m + 1 - 1) = 12 * root.Year + (m - 1) + 1 := by ring
    rw [e1] at ihb
    have hmono : monthStart (12 * root.Year + (m - 1) + 1)
        ≤ monthStart (12 * root.Year + (m - 1) + ((k + 1 : Nat) : Int)) :=
      monthStart_mono (by push_cast; omega)
    have e2 : 12 * root.Year + (m - 1) + 1 + (k : Int)
        = 12 * root.Year + (m - 1) + ((k + 1 : Nat) : Int) := by push_cast; ring
    rw [e2] at ihb
    simp only [yearCandidates]
    refine ⟨List.pairwise_append.mpr ⟨mp, ihp, ?_⟩, ?_⟩
    · intro a ha b hb
      have := (mb a ha).2.2
      have := (ihb b hb).2.1
      omega
    · intro x hx
      rcases List.mem_append.mp hx with h1 | h1
      · obtain ⟨b1, b2, b3⟩ := mb x h1
        exact ⟨b1, by omega, by omega⟩
      · obtain ⟨b1, b2, b3⟩ := ihb x h1
        have hstep := monthStart_mono (show 12 * root.Year + (m - 1)
          ≤ 12 * root.Year + (m - 1) + 1 by omega)
        exact ⟨b1, by omega, b3⟩

/-- The time from which the `YEARLY` and `MONTHLY` cases of
`getNextDateByFreqAndInterval` count: the first day of the month of the anchor. -/
theorem firstOfMonth_fields (s : Time) (hfix : s.loc.Fixed) :
    (Date s.Year s.Month 1 s.Hour s.Minute s.Second 0 s.loc).Year = s.Year
      ∧ (Date s.Year s.Month 1 s.Hour s.Minute s.Second 0 s.loc).Month = s.Month
      ∧ (Date s.Year s.Month 1 s.Hour s.Minute s.Second 0 s.loc).Day = 1
      ∧ (Date s.Year s.Month 1 s.Hour s.Minute s.Second 0 s.loc).nsec = 0
      ∧ (Date s.Year s.Month 1 s.Hour s.Minute s.Second 0 s.loc).loc = s.loc := by
  obtain ⟨h1, h2, _, _, _⟩ := fields_valid s
  obtain ⟨c0, c1⟩ := clock_range s
  have hlen := monthLen_pos s.Year s.Month
  obtain ⟨f1, f2, f3, _, f5, f6⟩ := @fields_of_Date s.loc hfix s.Year s.Month 1
    s.Hour s.Minute s.Second h1 h2 (le_refl _) (by omega) c0 c1
  exact ⟨f1, f2, f3, f5, f6⟩

/-- Normalising the month of `Date` in a zone without transitions. -/
theorem Date_normalize {loc : Location} (hfix : loc.Fixed) (y m d h mi s ns : Int) :
    Date y m d h mi s ns loc
      = Date (y + (m - 1) / 12) ((m - 1) % 12 + 1) d h mi s ns loc := by
  rw [Date_fixed hfix, Date_fixed hfix]
  have e1 : ((m - 1) % 12 + 1 - 1) / 12 = 0 := by omega
  have e2 : ((m - 1) % 12 + 1 - 1) % 12 + 1 = (m - 1) % 12 + 1 := by omega
  rw [e1, e2, add_zero]

/-- The root of period `k` of a `YEARLY` rule: its year and its zone. -/
theorem yearly_root (rule : RecurringRule) (hf : rule.Frequency = .YEARLY)
    (hfix : rule.DtStart.loc.Fixed) (k : Int) :
    (periodRoot rule k).Year = rule.DtStart.Year + rule.Interval * k
      ∧ (periodRoot rule k).loc = rule.DtStart.loc := by
  obtain ⟨x1, x2, x3, x4, x5⟩ := firstOfMonth_fields rule.DtStart hfix
  obtain ⟨h1, h2, _, _, _⟩ := fields_valid rule.DtStart
  unfold periodRoot getNextDateByFreqAndInterval
  rw [hf]
  simp only
  unfold Time.AddDate
  rw [x1, x2, x3, x4, x5]
  obtain ⟨c0, c1⟩ := clock_range
    (Date rule.DtStart.Year rule.DtStart.Month 1 rule.DtStart.Hour rule.DtStart.Minute
      rule.DtStart.Second 0 rule.DtStart.loc)
  have hlen := monthLen_pos (rule.DtStart.Year + 1 * (rule.Interval * k)) rule.DtStart.Month
  obtain ⟨f1, _, _, _, _, f6⟩ := fields_of_Date hfix
    (y := rule.DtStart.Year + 1 * (rule.Interval * k)) (m := rule.DtStart.Month + 0)
    (d := 1 + 0) (by omega) (by omega) (by omega) (le_trans (by norm_num) (monthLen_pos _ _)) c0 c1
  exact ⟨by rw [f1]; ring, f6⟩

/-- The root of period `k` of a `MONTHLY` rule: its month index and its zone. -/
theorem monthly_root (rule : RecurringRule) (hf : rule.Frequency = .MONTHLY)
    (hfix : rule.DtStart.loc.Fixed) (k : Int) :
    1 ≤ (periodRoot rule k).Month ∧ (periodRoot rule k).Month ≤ 12
      ∧ 12 * (periodRoot rule k).Year + ((periodRoot rule k).Month - 1)
        = 12 * rule.DtStart.Year + (rule.DtStart.Month - 1) + rule.Interval * k
      ∧ (periodRoot rule k).loc = rule.DtStart.loc := by
  obtain ⟨x1, x2, x3, x4, x5⟩ := firstOfMonth_fields rule.DtStart hfix
  obtain ⟨h1, h2, _, _, _⟩ := fields_valid rule.DtStart
  unfold periodRoot getNextDateByFreqAndInterval
  rw [hf]
  simp only
  unfold Time.AddDate
  rw [x1, x2, x3, x4, x5, Date_normalize hfix]
  obtain ⟨c0, c1⟩ := clock_range
    (Date rule.DtStart.Year rule.DtStart.Month 1 rule.DtStart.Hour rule.DtStart.Minute
      rule.DtStart.Second 0 rule.DtStart.loc)
  have hlen := monthLen_pos
    (rule.DtStart.Year + 0 + (rule.DtStart.Month + 1 * (rule.Interval * k) - 1) / 12)
    ((rule.DtStart.Month + 1 * (rule.Interval * k) - 1) % 12 + 1)
  obtain ⟨f1, f2, _, _, _, f6⟩ := fields_of_Date hfix
    (y := rule.DtStart.Year + 0 + (rule.DtStart.Month + 1 * (rule.Interval * k) - 1) / 12)
    (m := (rule.DtStart.Month + 1 * (rule.Interval * k) - 1) % 12 + 1)
    (d := 1 + 0) (by omega) (by omega) (by omega) (le_trans (by norm_num) (monthLen_pos _ _)) c0 c1
  rw [f1, f2]
  exact ⟨by omega, by omega, by omega, f6⟩

end RRule

namespace RRule

/-! ## The periods of a rule are ordered -/

theorem periodsOrdered_yearly (rule : RecurringRule) (hf : rule.Frequency = .YEARLY)
    (hfix : rule.DtStart.loc.Fixed) (hn : 1 ≤ rule.Interval) :
    PeriodsOrdered rule (fun k =>
      monthStart (12 * (rule.DtStart.Year + rule.Interval * k)) * 86400
        - unixToAbs - rule.DtStart.loc.offset) := by
  intro k hk
  have hmul : rule.Interval * (k + 1) = rule.Interval * k + rule.Interval := by ring
  have hstep : monthStart (12 * (rule.DtStart.Year + rule.Interval * k) + 12)
      ≤ monthStart (12 * (rule.DtStart.Year + rule.Interval * (k + 1))) :=
    monthStart_mono (by rw [hmul]; omega)
  have hstep0 : monthStart (12 * (rule.DtStart.Year + rule.Interval * k))
      ≤ monthStart (12 * (rule.DtStart.Year + rule.Interval * k) + 12) :=
    monthStart_mono (by omega)
  refine ⟨by simp only; omega, ?_⟩
  intro wfuel cands hg
  obtain ⟨hy, hloc⟩ := yearly_root rule hf hfix k
  unfold generateCandidates at hg
  rw [hf] at hg
  simp only [Option.some.injEq] at hg
  subst hg
  obtain ⟨hp, hb⟩ := yearCandidates_spec (periodRoot rule k) (by rw [hloc]; exact hfix) 12 1
    (le_refl _) (by norm_num)
  refine ⟨hp, ?_⟩
  intro d hd
  obtain ⟨b1, b2, b3⟩ := hb d hd
  rw [hy, hloc] at b2 b3
  simp only [sub_self, add_zero, Nat.cast_ofNat] at b2 b3
  exact ⟨b1, b2, by simp only; omega⟩

theorem periodsOrdered_monthly (rule : RecurringRule) (hf : rule.Frequency = .MONTHLY)
    (hfix : rule.DtStart.loc.Fixed) (hn : 1 ≤ rule.Interval) :
    PeriodsOrdered rule (fun k =>
      monthStart (12 * rule.DtStart.Year + (rule.DtStart.Month - 1) + rule.Interval * k) * 86400
        - unixToAbs - rule.DtStart.loc.offset) := by
  intro k hk
  have hmul : rule.Interval * (k + 1) = rule.Interval * k + rule.Interval := by ring
  have hstep : monthStart (12 * rule.DtStart.Year + (rule.DtStart.Month - 1)
        + rule.Interval * k + 1)
      ≤ monthStart (12 * rule.DtStart.Year + (rule.DtStart.Month - 1)
        + rule.Interval * (k + 1)) :=
    monthStart_mono (by rw [hmul]; omega)
  have hstep0 : monthStart (12 * rule.DtStart.Year + (rule.DtStart.Month - 1)
        + rule.Interval * k)
      ≤ monthStart (12 * rule.DtStart.Year + (rule.DtStart.Month - 1)
        + rule.Interval * k + 1) :=
    monthStart_mono (by omega)
  refine ⟨by simp only; omega, ?_⟩
  intro wfuel cands hg
  obtain ⟨hm1, hm2, hidx, hloc⟩ := monthly_root rule hf hfix k
  unfold generateCandidates at hg
  rw [hf] at hg
  simp only [Option.some.injEq] at hg
  subst hg
  obtain ⟨hp, hb⟩ := monthCandidates_full (periodRoot rule k) (by rw [hloc]; exact hfix)
    (y := (periodRoot rule k).Year) hm1 hm2
  refine ⟨hp, ?_⟩
  intro d hd
  obtain ⟨b1, b2, b3⟩ := hb d hd
  rw [hidx, hloc] at b2 b3
  have htod : 0 ≤ (periodRoot rule k).abs % 86400 := by omega
  exact ⟨b1, by simp only; omega, by simp only; omega⟩

/-- The single candidate of a period when no time-of-day list is expanded: the root
with its nanoseconds dropped. -/
theorem generateTimes_single (rule : RecurringRule) (hte : rule.NoTimeExpansion)
    (hf : rule.Frequency = .DAILY ∨ rule.Frequency = .HOURLY ∨ rule.Frequency = .MINUTELY
      ∨ rule.Frequency = .SECONDLY) (root : Time) (hfix : root.loc.Fixed) :
    generateTimesForCandidates rule root = [{ sec := root.sec, nsec := 0, loc := root.loc }] := by
  obtain ⟨h1, h2, h3⟩ := hte
  have hs : rule.BySecond = [] := h3 hf
  have hd := Date_of_fields root hfix 0 0
  simp only [add_zero, zero_mul, Int.zero_ediv, Int.zero_emod] at hd
  unfold generateTimesForCandidates
  rcases hf with hf | hf | hf | hf
  · simp [hf, h1 hf, h2 (Or.inl hf), hs, FrequencyValue.toNat, hd]
  · simp [hf, h2 (Or.inr (Or.inl hf)), hs, FrequencyValue.toNat, hd]
  · simp [hf, h2 (Or.inr (Or.inr hf)), hs, FrequencyValue.toNat, hd]
  · simp [hf, hs, FrequencyValue.toNat, hd]

/-- Moving a time by whole days with `AddDate` in a zone without transitions. -/
theorem AddDate_days (t : Time) (hfix : t.loc.Fixed) (e : Int) :
    t.AddDate 0 0 e
      = { sec := t.sec + e * 86400 + t.nsec / 1000000000, nsec := t.nsec % 1000000000,
          loc := t.loc } := by
  unfold Time.AddDate
  simp only [add_zero]
  exact Date_of_fields t hfix e t.nsec

theorem periodsOrdered_single (rule : RecurringRule) (hte : rule.NoTimeExpansion)
    (hfix : rule.DtStart.loc.Fixed) (hn : 1 ≤ rule.Interval)
    (hf : rule.Frequency = .DAILY) :
    ∃ L, PeriodsOrdered rule L := by
  have hgen : ∀ (wfuel : Nat) (root : Time),
      generateCandidates rule wfuel root = some (generateTimesForCandidates rule root) := by
    intro wfuel root
    unfold generateCandidates
    rw [hf]
  have key : ∀ (unit : Int) (c : Int), 1 ≤ unit →
      (∀ k, (periodRoot rule k).sec = rule.DtStart.sec + c + unit * (rule.Interval * k)
        ∧ (periodRoot rule k).loc = rule.DtStart.loc) →
      PeriodsOrdered rule (fun k => rule.DtStart.sec + c + unit * (rule.Interval * k)) := by
    intro unit c hu hroot k hk
    have h1 : unit * (rule.Interval * (k + 1))
        = unit * (rule.Interval * k) + unit * rule.Interval := by ring
    have h2 : 1 ≤ unit * rule.Interval := by nlinarith
    refine ⟨by simp only; omega, ?_⟩
    intro wfuel cands hg
    rw [hgen] at hg
    simp only [Option.some.injEq] at hg
    obtain ⟨hsec, hloc⟩ := hroot k
    rw [generateTimes_single rule hte (Or.inl hf) _ (by rw [hloc]; exact hfix)] at hg
    subst hg
    refine ⟨List.pairwise_singleton _ _, ?_⟩
    intro d hd
    rw [List.mem_singleton] at hd
    subst hd
    exact ⟨rfl, by simp only; omega, by simp only; omega⟩
  refine ⟨_, key 86400 (rule.DtStart.nsec / 1000000000) (by norm_num) ?_⟩
  intro k
  unfold periodRoot getNextDateByFreqAndInterval
  rw [hf]
  simp only
  rw [AddDate_days _ hfix]
  simp only
  exact ⟨by ring, trivial⟩

end RRule

namespace RRule

/-! ## The candidates of a week -/

theorem weekday_range (t : Time) : 0 ≤ t.Weekday ∧ t.Weekday ≤ 6 := by
  unfold Time.Weekday
  omega

/-- With a `WorkWeekStart` that is no weekday the walk back never ends. -/
theorem walkBack_none {wkst : Int} (h : wkst < 0 ∨ 6 < wkst) :
    ∀ (fuel : Nat) (t : Time), walkBack wkst fuel t = none := by
  intro fuel
  induction fuel with
  | zero => intro t; rfl
  | succ n ih =>
    intro t
    have hw := weekday_range t
    have hne : (t.Weekday != wkst) = true := by
      simp only [bne_iff_ne, ne_eq]
      omega
    simp only [walkBack, hne, if_true]
    exact ih _

/-- The walk back ends on the first day of the week that holds the day it starts
from, at the same time of day. -/
theorem walkBack_spec {wkst : Int} (h0 : 0 ≤ wkst) (h6 : wkst ≤ 6) :
    ∀ (fuel : Nat) (t t' : Time), t.loc.Fixed → t.nsec = 0 →
      walkBack wkst fuel t = some t' →
      t' = { sec := t.sec - (t.abs / 86400 + 1 - wkst) % 7 * 86400, nsec := 0, loc := t.loc } := by
  intro fuel
  induction fuel with
  | zero => intro t t' _ _ h; simp [walkBack] at h
  | succ n ih =>
    intro t t' hfix hns h
    simp only [walkBack] at h
    by_cases hw : t.Weekday = wkst
    · have hne : (t.Weekday != wkst) = false := by simp [hw]
      simp only [hne, Bool.false_eq_true, if_false, Option.some.injEq] at h
      subst h
      unfold Time.Weekday at hw
      have e : (t.abs / 86400 + 1 - wkst) % 7 = 0 := by omega
      rw [e]
      cases t
      simp only at hns
      subst hns
      simp
    · have hne : (t.Weekday != wkst) = true := by simp [hw]
      simp only [hne, if_true] at h
      have hadd := AddDate_days t hfix (-1)
      rw [hns] at hadd
      simp only [Int.zero_ediv, Int.zero_emod, add_zero] at hadd
      rw [hadd] at h
      have r := ih (Time.mk (t.sec + -1 * 86400) 0 t.loc) t' hfix rfl h
      rw [r]
      unfold Time.Weekday at hw
      have ha := abs_fixed hfix
      have ha' : (Time.mk (t.sec + -1 * 86400) 0 t.loc).abs
          = t.sec + -1 * 86400 + t.loc.offset + unixToAbs := abs_fixed (t := Time.mk _ 0 t.loc) hfix
      rw [ha']
      rw [ha] at hw ⊢
      dsimp only
      congr 1
      omega

theorem weekCandidates_spec :
    ∀ (cnt : Nat) (t : Time), t.loc.Fixed → t.nsec = 0 →
      (weekCandidates cnt t).Pairwise (fun a b => a.sec < b.sec)
        ∧ ∀ x ∈ weekCandidates cnt t, x.nsec = 0 ∧ t.sec ≤ x.sec
            ∧ x.sec + 86400 ≤ t.sec + cnt * 86400 := by
  intro cnt
  induction cnt with
  | zero => intro t _ _; simp [weekCandidates]
  | succ n ih =>
    intro t hfix hns
    have hadd := AddDate_days t hfix 1
    rw [hns] at hadd
    simp only [Int.zero_ediv, Int.zero_emod, add_zero, one_mul] at hadd
    have hfix' : ({ sec := t.sec + 86400, nsec := 0, loc := t.loc } : Time).loc.Fixed := hfix
    obtain ⟨ihp, ihb⟩ := ih _ hfix' rfl
    simp only [weekCandidates]
    rw [hadd]
    refine ⟨List.pairwise_cons.mpr ⟨?_, ihp⟩, ?_⟩
    · intro b hb
      have := (ihb b hb).2.1
      simp only at this
      omega
    · intro x hx
      rcases List.mem_cons.mp hx with h1 | h1
      · subst h1
        refine ⟨hns, le_refl _, ?_⟩
        push_cast
        omega
      · obtain ⟨b1, b2, b3⟩ := ihb x h1
        simp only at b2 b3
        refine ⟨b1, by omega, ?_⟩
        push_cast
        omega

/-- The candidates of the week of `t`: seven days from the first day of the week,
strictly increasing. -/
theorem weekly_candidates_bounds {wkst : Int} (t : Time) (hfix : t.loc.Fixed)
    (hns : t.nsec = 0) (wfuel : Nat) (cands : List Time)
    (hg : (walkBack wkst wfuel t).map (weekCandidates 7) = some cands) :
    cands.Pairwise (fun a b => a.sec < b.sec)
      ∧ ∀ d ∈ cands, d.nsec = 0
          ∧ weekStart wkst (t.abs / 86400) * 86400 - unixToAbs - t.loc.offset ≤ d.sec
          ∧ d.sec < (weekStart wkst (t.abs / 86400) + 7) * 86400 - unixToAbs
              - t.loc.offset := by
  by_cases hw : 0 ≤ wkst ∧ wkst ≤ 6
  · cases hwb : walkBack wkst wfuel t with
    | none => simp [hwb] at hg
    | some tw =>
      simp only [hwb, Option.map_some', Option.some.injEq] at hg
      subst hg
      have htw := walkBack_spec hw.1 hw.2 wfuel t tw hfix hns hwb
      have hsec : tw.sec = t.sec - (t.abs / 86400 + 1 - wkst) % 7 * 86400 := by rw [htw]
      have hfixw : tw.loc.Fixed := by rw [htw]; exact hfix
      obtain ⟨hp, hb⟩ := weekCandidates_spec 7 tw hfixw (by rw [htw])
      refine ⟨hp, ?_⟩
      intro d hd
      obtain ⟨b1, b2, b3⟩ := hb d hd
      have ha := abs_fixed hfix
      push_cast at b3
      unfold weekStart
      refine ⟨b1, ?_, ?_⟩ <;> omega
  · have hbad : wkst < 0 ∨ 6 < wkst := by omega
    rw [walkBack_none hbad] at hg
    simp at hg

theorem periodsOrdered_weekly (rule : RecurringRule) (hf : rule.Frequency = .WEEKLY)
    (hfix : rule.DtStart.loc.Fixed) (hn : 1 ≤ rule.Interval) :
    PeriodsOrdered rule (fun k =>
      weekStart rule.WorkWeekStart
          ((rule.DtStart.sec + rule.DtStart.nsec / 1000000000 + rule.DtStart.loc.offset
            + unixToAbs + 7 * (rule.Interval * k) * 86400) / 86400) * 86400
        - unixToAbs - rule.DtStart.loc.offset) := by
  intro k hk
  have hmul : rule.Interval * (k + 1) = rule.Interval * k + rule.Interval := by ring
  have hL : weekStart rule.WorkWeekStart
        ((rule.DtStart.sec + rule.DtStart.nsec / 1000000000 + rule.DtStart.loc.offset
          + unixToAbs + 7 * (rule.Interval * (k + 1)) * 86400) / 86400)
      = weekStart rule.WorkWeekStart
        ((rule.DtStart.sec + rule.DtStart.nsec / 1000000000 + rule.DtStart.loc.offset
          + unixToAbs + 7 * (rule.Interval * k) * 86400) / 86400) + 7 * rule.Interval := by
    rw [hmul]
    unfold weekStart
    omega
  refine ⟨by simp only; rw [hL]; omega, ?_⟩
  intro wfuel cands hg
  have hroot : periodRoot rule k
      = Time.mk (rule.DtStart.sec + 7 * (rule.Interval * k) * 86400
            + rule.DtStart.nsec / 1000000000)
          (rule.DtStart.nsec % 1000000000) rule.DtStart.loc := by
    unfold periodRoot getNextDateByFreqAndInterval
    rw [hf]
    simp only
    exact AddDate_days _ hfix _
  have hrfix : (periodRoot rule k).loc.Fixed := by rw [hroot]; exact hfix
  have ht0 := Date_of_fields (periodRoot rule k) hrfix 0 0
  simp only [add_zero, zero_mul, Int.zero_ediv, Int.zero_emod] at ht0
  unfold generateCandidates at hg
  rw [hf] at hg
  simp only [ht0] at hg
  obtain ⟨hp, hb⟩ := weekly_candidates_bounds
    (Time.mk (periodRoot rule k).sec 0 (periodRoot rule k).loc) hrfix rfl wfuel cands hg
  refine ⟨hp, ?_⟩
  intro d hd
  obtain ⟨b1, b2, b3⟩ := hb d hd
  have ha : (Time.mk (periodRoot rule k).sec 0 (periodRoot rule k).loc).abs
      = (periodRoot rule k).sec + (periodRoot rule k).loc.offset + unixToAbs :=
    abs_fixed (t := Time.mk _ 0 (periodRoot rule k).loc) hrfix
  have hrs : (periodRoot rule k).sec = rule.DtStart.sec + 7 * (rule.Interval * k) * 86400
      + rule.DtStart.nsec / 1000000000 := by rw [hroot]
  have hrl : (periodRoot rule k).loc = rule.DtStart.loc := by rw [hroot]
  rw [ha, hrs, hrl] at b2 b3
  have e : rule.DtStart.sec + 7 * (rule.Interval * k) * 86400 + rule.DtStart.nsec / 1000000000
        + rule.DtStart.loc.offset + unixToAbs
      = rule.DtStart.sec + rule.DtStart.nsec / 1000000000 + rule.DtStart.loc.offset
        + unixToAbs + 7 * (rule.Interval * k) * 86400 := by ring
  rw [e] at b2 b3
  refine ⟨b1, b2, ?_⟩
  simp only
  rw [hL]
  omega

end RRule
namespace RRule

/-- In a zone without transitions, with `Interval ≥ 1` and no time-of-day list
expanded, the periods of a rule at `YEARLY`, `MONTHLY`, `WEEKLY` or `DAILY` are
ordered. -/
theorem periods_ordered (rule : RecurringRule)
    (hf : rule.Frequency = .YEARLY ∨ rule.Frequency = .MONTHLY ∨ rule.Frequency = .WEEKLY
      ∨ rule.Frequency = .DAILY)
    (hfix : rule.DtStart.loc.Fixed)
    (hn : 1 ≤ rule.Interval) (hte : rule.NoTimeExpansion) : ∃ L, PeriodsOrdered rule L := by
  rcases hf with hf | hf | hf | hf
  · exact ⟨_, periodsOrdered_yearly rule hf hfix hn⟩
  · exact ⟨_, periodsOrdered_monthly rule hf hfix hn⟩
  · exact ⟨_, periodsOrdered_weekly rule hf hfix hn⟩
  · exact periodsOrdered_single rule hte hfix hn hf

/-- Under the same conditions the timestamps that a sequence of calls delivers, from an
iterator with an empty buffer, have whole seconds and strictly increasing instants. -/
theorem yielded_strictly_increasing (rule : RecurringRule)
    (hf : rule.Frequency = .YEARLY ∨ rule.Frequency = .MONTHLY ∨ rule.Frequency = .WEEKLY
      ∨ rule.Frequency = .DAILY)
    (hfix : rule.DtStart.loc.Fixed)
    (hn : 1 ≤ rule.Interval) (hte : rule.NoTimeExpansion) (ri : RecurrenceIterator)
    (hr : ri.rule = rule) (hb : ri.iterBuffer = []) (hk : 0 ≤ ri.iterCounter)
    (calls : List (Nat × Time)) (rs : List StepResult) (hs : StepSeq calls ri = some rs) :
    (yielded rs).Pairwise (fun a b => a.sec < b.sec) ∧ ∀ t ∈ yielded rs, t.nsec = 0 := by
  obtain ⟨L, hp⟩ := periods_ordered rule hf hfix hn hte
  have hbo : BufferOrdered L ri := by
    refine ⟨hk, ?_, ?_⟩
    · rw [hb]; exact List.Pairwise.nil
    · intro d hd; rw [hb] at hd; simp at hd
  obtain ⟨h1, h2⟩ := StepSeq_ordered hp calls ri rs hr hbo hs
  exact ⟨h1, fun t ht => (h2 t ht).1⟩

end RRule

namespace RRule

/-! ## The windows, the counter and the output variable -/

theorem After_not_Equal {t u : Time} (h : t.After u = true) : t.Equal u = false := by
  cases he : t.Equal u with
  | false => rfl
  | true => rw [Equal_not_After he] at h; exact absurd h (by decide)

theorem Before_not_Equal {t u : Time} (h : t.Before u = true) : t.Equal u = false := by
  unfold Time.Before at h
  unfold Time.Equal
  simp only [Bool.or_eq_true, decide_eq_true_eq, Bool.and_eq_true, beq_iff_eq] at h
  simp only [Bool.and_eq_false_iff, beq_eq_false_iff_ne, ne_eq]
  rcases h with h | ⟨_, h⟩
  · exact Or.inl (by omega)
  · exact Or.inr (by omega)

/-- C17. On an iterator whose buffer is empty when the window is set (a fresh
iterator): every timestamp delivered after `After(a)` is strictly after `a`, every
timestamp delivered after `Before(b)` is strictly before `b` (so a candidate at the
instant `a`, or `b`, is never delivered), `Between(a, b)` is the state that `After(a)`
followed by `Before(b)` gives, and what it delivers is strictly between the two. -/
theorem windows_are_strict (ri : RecurrenceIterator) (a b : Time)
    (calls : List (Nat × Time)) (rs : List StepResult) (hb : ri.iterBuffer = []) :
    (StepSeq calls (ri.After a) = some rs →
        ∀ t ∈ yielded rs, t.After a = true ∧ t.Equal a = false)
      ∧ (StepSeq calls (ri.Before b) = some rs →
        ∀ t ∈ yielded rs, t.Before b = true ∧ t.Equal b = false)
      ∧ ri.Between a b = (ri.After a).Before b
      ∧ (StepSeq calls (ri.Between a b) = some rs →
        ∀ t ∈ yielded rs, t.After a = true ∧ t.Before b = true) := by
  refine ⟨?_, ?_, rfl, ?_⟩
  · intro hs t ht
    obtain ⟨r, hmem, hok, hout⟩ := mem_yielded ht
    have hp := (StepSeq_invariant calls (ri.After a) rs (bufferOK_of_nil hb) hs r hmem hok).1
    have h := hp.2.2.2 rfl
    rw [hout] at h
    exact ⟨h, After_not_Equal h⟩
  · intro hs t ht
    obtain ⟨r, hmem, hok, hout⟩ := mem_yielded ht
    have hp := (StepSeq_invariant calls (ri.Before b) rs (bufferOK_of_nil hb) hs r hmem hok).1
    have h := hp.2.2.1 rfl
    rw [hout] at h
    exact ⟨h, Before_not_Equal h⟩
  · intro hs t ht
    obtain ⟨r, hmem, hok, hout⟩ := mem_yielded ht
    have hp := (StepSeq_invariant calls (ri.Between a b) rs (bufferOK_of_nil hb) hs r hmem
      hok).1
    have h1 := hp.2.2.2 rfl
    have h2 := hp.2.2.1 rfl
    rw [hout] at h1 h2
    exact ⟨h1, h2⟩

/-- C17, at the rule of `Test_Iterator_After`: with `After` set at the anchor
1997-09-02 09:00 the timestamps delivered (12:00 and 15:00) are after it. -/
theorem windows_are_strict_witness :
    (yielded hourlyAfterRun).all (fun t =>
      t.After (Date 1997 9 2 9 0 0 0 newYork1997)
        && !t.Equal (Date 1997 9 2 9 0 0 0 newYork1997)) = true :=
  List.all_eq_true.mpr fun t ht => by
    have h := (windows_are_strict hourlyUntil.Iterator (Date 1997 9 2 9 0 0 0 newYork1997)
      EmptyTime fourCalls8 hourlyAfterRun rfl).1 (by decide!) t ht
    simp [h.1, h.2]

/-- How a call of `Step` moves `ReturnCounter`, whatever the state of the iterator. -/
theorem Step_counter_exact {fuel : Nat} {ri : RecurrenceIterator} {t : Time} {r : StepResult}
    (h : Step fuel ri t = some r) :
    (r.ok = true → r.iter.ReturnCounter = ri.ReturnCounter + 1)
      ∧ (r.ok = false → ri.UserLimit ≤ 0 → r.iter.ReturnCounter = ri.ReturnCounter) := by
  rcases Step_cases h with ⟨_, _, hr⟩ | ⟨_, ri₁, sc, hre, hr⟩
  · subst hr
    exact ⟨fun hk => by simp at hk, fun _ _ => rfl⟩
  · obtain ⟨hc, hrc, _, _, hexit⟩ := refill_spec _ _ _ _ _ _ hre
    have hl : ri₁.UserLimit = ri.UserLimit := hc.2.1.symm
    subst hr
    unfold deliver
    cases hbuf : ri₁.iterBuffer with
    | nil =>
      have hsc : sc = true := by
        rcases hexit with h1 | h1
        · exact absurd hbuf h1
        · exact h1
      subst hsc
      exact ⟨fun hk => by simp at hk, fun _ _ => hrc⟩
    | cons head tail =>
      simp only
      split
      · exact ⟨fun hk => by simp at hk, fun _ _ => hrc⟩
      · split
        · rename_i hlim
          simp only [Bool.and_eq_true, decide_eq_true_eq, gt_iff_lt] at hlim
          refine ⟨fun hk => by simp at hk, fun _ h0 => ?_⟩
          rw [hl] at hlim
          omega
        · exact ⟨fun _ => by simp [hrc], fun hk => by simp at hk⟩

end RRule

namespace RRule

/-- When a call of `Step` returns false with the caller's variable changed, the call
took a timestamp from the buffer and refused it, either for `Until` or for the user
limit. -/
theorem Step_false_out {fuel : Nat} {ri : RecurrenceIterator} {t : Time} {r : StepResult}
    (h : Step fuel ri t = some r) (hok : r.ok = false) (hne : r.out ≠ t) :
    (ri.rule.Until.Equal EmptyTime = false ∧ r.out.After ri.rule.Until = true)
      ∨ (0 < ri.UserLimit ∧ ri.UserLimit < r.iter.ReturnCounter) := by
  rcases Step_cases h with ⟨_, _, hr⟩ | ⟨_, ri₁, sc, hre, hr⟩
  · subst hr
    exact absurd rfl hne
  · obtain ⟨hc, _, _, _, _⟩ := refill_spec _ _ _ _ _ _ hre
    have hl : ri₁.UserLimit = ri.UserLimit := hc.2.1.symm
    have hu : ri₁.rule = ri.rule := hc.1.symm
    subst hr
    unfold deliver at hok hne ⊢
    cases hbuf : ri₁.iterBuffer with
    | nil =>
      rw [hbuf] at hne
      exact absurd rfl hne
    | cons head tail =>
      rw [hbuf] at hok
      simp only at hok ⊢
      split
      · rename_i hunt
        simp only [Bool.and_eq_true, Bool.not_eq_true'] at hunt
        rw [hu] at hunt
        exact Or.inl hunt
      · rename_i hunt
        rw [if_neg hunt] at hok
        split
        · rename_i hlim
          simp only [Bool.and_eq_true, decide_eq_true_eq, gt_iff_lt] at hlim
          rw [hl] at hlim
          exact Or.inr hlim
        · rename_i hlim
          rw [if_neg hlim] at hok
          simp at hok

/-- C14 (what the code does). A call of `Step` that returns true adds one to
`ReturnCounter`, and a call that returns false leaves it as it was when no user limit
is set. With a user limit the counter is increased before the limit is tested: on
the rule of `Test_Iterator_Limit` with `Limit(2)` the third call returns false and
leaves `ReturnCounter` at 3 although two timestamps were delivered. -/
theorem return_counter_counts_limit_refusal :
    (∀ (fuel : Nat) (ri : RecurrenceIterator) (t : Time) (r : StepResult),
        Step fuel ri t = some r →
          (r.ok = true → r.iter.ReturnCounter = ri.ReturnCounter + 1)
            ∧ (r.ok = false → ri.UserLimit ≤ 0 → r.iter.ReturnCounter = ri.ReturnCounter))
      ∧ (drain 1 10 (hourlyUntil.Iterator.Limit 2) EmptyTime).map (List.map StepResult.seen)
        = some [(true, Date 1997 9 2 9 0 0 0 newYork1997, 1),
            (true, Date 1997 9 2 12 0 0 0 newYork1997, 2),
            (false, Date 1997 9 2 15 0 0 0 newYork1997, 3)] :=
  ⟨fun _ _ _ _ h => Step_counter_exact h, by decide!⟩

/-- C15 (what the code does). A call of `Step` that returns false leaves the caller's
variable as it was when it ends on `Count` or on an empty buffer; when it refuses the
head of the buffer for `Until` or for the user limit, the variable already holds that
timestamp. On the rule of `Test_Iterator_Limit` the loop `for iter.Step(&out) {}`
ends with `out` at 18:00, after `Until` (17:00) and never delivered; with `Limit(2)`
it ends with `out` at 15:00, the third timestamp. -/
theorem out_is_overwritten_on_refusal :
    (∀ (fuel : Nat) (ri : RecurrenceIterator) (t : Time) (r : StepResult),
        Step fuel ri t = some r → r.ok = false → r.out ≠ t →
          (ri.rule.Until.Equal EmptyTime = false ∧ r.out.After ri.rule.Until = true)
            ∨ (0 < ri.UserLimit ∧ ri.UserLimit < r.iter.ReturnCounter))
      ∧ (drain 1 10 hourlyUntil.Iterator EmptyTime).map (List.map StepResult.seen)
        = some [(true, Date 1997 9 2 9 0 0 0 newYork1997, 1),
            (true, Date 1997 9 2 12 0 0 0 newYork1997, 2),
            (true, Date 1997 9 2 15 0 0 0 newYork1997, 3),
            (false, Date 1997 9 2 18 0 0 0 newYork1997, 3)]
      ∧ (drain 1 10 (hourlyUntil.Iterator.Limit 2) EmptyTime).map
          (List.map fun r => (r.ok, r.out))
        = some [(true, Date 1997 9 2 9 0 0 0 newYork1997),
            (true, Date 1997 9 2 12 0 0 0 newYork1997),
            (false, Date 1997 9 2 15 0 0 0 newYork1997)] :=
  ⟨fun _ _ _ _ h => Step_false_out h, by decide!, by decide!⟩

end RRule

namespace RRule

/-! ## `Equal` and the sign of a `BYDAY` offset -/

theorem zip_all_iff {α : Type} (p : α × α → Bool) :
    ∀ a b : List α, a.length = b.length →
      ((a.zip b).all p = true ↔ List.Forall₂ (fun x y => p (x, y) = true) a b) := by
  intro a
  induction a with
  | nil =>
    intro b hb
    cases b with
    | nil => simp
    | cons y ys => simp at hb
  | cons x xs ih =>
    intro b hb
    cases b with
    | nil => simp at hb
    | cons y ys =>
      simp only [List.length_cons, add_left_inj] at hb
      simp only [List.zip_cons_cons, List.all_cons, Bool.and_eq_true, List.forall₂_cons]
      rw [ih ys hb]

theorem forall₂_length {α : Type} {R : α → α → Prop} :
    ∀ {a b : List α}, List.Forall₂ R a b → a.length = b.length := by
  intro a b h
  induction h with
  | nil => rfl
  | cons _ _ ih => simp [ih]

theorem compareListsOfInt16_iff (a b : List Int) : compareListsOfInt16 a b = true ↔ a = b := by
  unfold compareListsOfInt16
  by_cases hl : a.length = b.length
  · have hne : (a.length != b.length) = false := by simp [hl]
    simp only [hne, Bool.false_eq_true, if_false]
    rw [zip_all_iff _ a b hl]
    simp only [beq_iff_eq]
    exact ⟨fun h => List.forall₂_eq_eq_eq ▸ h, fun h => List.forall₂_eq_eq_eq ▸ h⟩
  · have hne : (a.length != b.length) = true := by simp [hl]
    simp only [hne, if_true, Bool.false_eq_true, false_iff]
    intro h
    exact hl (by rw [h])

theorem zip_any_ne_iff {α : Type} [DecidableEq α] (a b : List α) :
    (a.length = b.length ∧ (a.zip b).any (fun p => p.1 != p.2) = false) ↔ a = b := by
  constructor
  · rintro ⟨hl, h⟩
    have h2 : (a.zip b).all (fun p => p.1 == p.2) = true := by
      rw [List.all_eq_true]
      intro p hp
      have := List.any_eq_false.mp h p hp
      simpa using this
    have h3 := (zip_all_iff (fun p : α × α => p.1 == p.2) a b hl).mp h2
    simp only [beq_iff_eq] at h3
    exact List.forall₂_eq_eq_eq ▸ h3
  · intro h
    subst h
    refine ⟨rfl, ?_⟩
    rw [List.any_eq_false]
    intro p hp
    have := List.of_mem_zip hp
    induction a with
    | nil => simp at hp
    | cons x xs ih =>
      simp only [List.zip_cons_cons, List.mem_cons] at hp
      rcases hp with hp | hp
      · subst hp; simp
      · exact ih hp (List.of_mem_zip hp)

theorem zip_any_not_equal_iff (a b : List Time) :
    (a.length = b.length ∧ (a.zip b).any (fun p => !(p.1.Equal p.2)) = false)
      ↔ List.Forall₂ (fun x y => x.Equal y = true) a b := by
  constructor
  · rintro ⟨hl, h⟩
    have h2 : (a.zip b).all (fun p => p.1.Equal p.2) = true := by
      rw [List.all_eq_true]
      intro p hp
      have := List.any_eq_false.mp h p hp
      simpa using this
    exact (zip_all_iff (fun p : Time × Time => p.1.Equal p.2) a b hl).mp h2
  · intro h
    have hl := forall₂_length h
    refine ⟨hl, ?_⟩
    have h2 := (zip_all_iff (fun p : Time × Time => p.1.Equal p.2) a b hl).mpr h
    rw [List.any_eq_false]
    intro p hp
    have := List.all_eq_true.mp h2 p hp
    simp [this]

theorem ite_false_true {c : Prop} [Decidable c] {b : Bool}
    (h : (if c then false else b) = true) : ¬ c ∧ b = true := by
  by_cases hc : c
  · rw [if_pos hc] at h; exact absurd h (by decide)
  · rw [if_neg hc] at h; exact ⟨hc, h⟩

theorem ite_false_true_of {c : Prop} [Decidable c] {b : Bool} (hc : ¬ c) (hb : b = true) :
    (if c then false else b) = true := by
  rw [if_neg hc]; exact hb

/-- What `Equal` decides: the two rules agree on every field but `ByMonth`, which no
test of `Equal` reads. -/
theorem Equal_iff (r1 r2 : RecurringRule) :
    r1.Equal r2 = true ↔ r1.AgreeButByMonth r2 := by
  constructor
  · intro h
    unfold RecurringRule.Equal at h
    obtain ⟨h1, h⟩ := ite_false_true h
    obtain ⟨h2, h⟩ := ite_false_true h
    obtain ⟨h3, h⟩ := ite_false_true h
    obtain ⟨h4, h⟩ := ite_false_true h
    obtain ⟨h5, h⟩ := ite_false_true h
    obtain ⟨h6, h⟩ := ite_false_true h
    obtain ⟨h7, h⟩ := ite_false_true h
    obtain ⟨h8, h⟩ := ite_false_true h
    obtain ⟨h9, h⟩ := ite_false_true h
    obtain ⟨h10, h⟩ := ite_false_true h
    obtain ⟨h11, h⟩ := ite_false_true h
    obtain ⟨h12, h⟩ := ite_false_true h
    obtain ⟨h13, h⟩ := ite_false_true h
    obtain ⟨h14, h⟩ := ite_false_true h
    obtain ⟨h15, h⟩ := ite_false_true h
    obtain ⟨h16, h⟩ := ite_false_true h
    obtain ⟨h17, h⟩ := ite_false_true h
    simp only [Bool.not_eq_true', Bool.not_eq_false] at h1
    simp only [bne_iff_ne, ne_eq, not_not] at h2
    simp only [Bool.not_eq_true', Bool.not_eq_false] at h3
    simp only [bne_iff_ne, ne_eq, not_not] at h4 h5
    simp only [beq_iff_eq, Bool.not_eq_false] at h6 h7 h8 h11 h12 h13 h14
    simp only [bne_iff_ne, ne_eq, not_not] at h9 h15 h16
    simp only [Bool.not_eq_true] at h10 h17
    exact ⟨h1, h2, h3, h4, h5, (compareListsOfInt16_iff _ _).mp h6,
      (compareListsOfInt16_iff _ _).mp h7, (compareListsOfInt16_iff _ _).mp h8,
      (zip_any_ne_iff _ _).mp ⟨h9, h10⟩, (compareListsOfInt16_iff _ _).mp h11,
      (compareListsOfInt16_iff _ _).mp h12, (compareListsOfInt16_iff _ _).mp h13,
      (compareListsOfInt16_iff _ _).mp h14, h15, (zip_any_not_equal_iff _ _).mp ⟨h16, h17⟩⟩
  · rintro ⟨h1, h2, h3, h4, h5, h6, h7, h8, h9, h10, h11, h12, h13, h14, h15⟩
    have g6 := (compareListsOfInt16_iff _ _).mpr h6
    have g7 := (compareListsOfInt16_iff _ _).mpr h7
    have g8 := (compareListsOfInt16_iff _ _).mpr h8
    have g9 := (zip_any_ne_iff _ _).mpr h9
    have g10 := (compareListsOfInt16_iff _ _).mpr h10
    have g11 := (compareListsOfInt16_iff _ _).mpr h11
    have g12 := (compareListsOfInt16_iff _ _).mpr h12
    have g13 := (compareListsOfInt16_iff _ _).mpr h13
    have g15 := (zip_any_not_equal_iff _ _).mpr h15
    unfold RecurringRule.Equal
    refine ite_false_true_of (by simp only [h1]; decide) ?_
    refine ite_false_true_of (by simp only [bne_iff_ne, ne_eq, not_not]; exact h2) ?_
    refine ite_false_true_of (by simp only [h3]; decide) ?_
    refine ite_false_true_of (by simp only [bne_iff_ne, ne_eq, not_not]; exact h4) ?_
    refine ite_false_true_of (by simp only [bne_iff_ne, ne_eq, not_not]; exact h5) ?_
    refine ite_false_true_of (by simp only [g6]; decide) ?_
    refine ite_false_true_of (by simp only [g7]; decide) ?_
    refine ite_false_true_of (by simp only [g8]; decide) ?_
    refine ite_false_true_of (by simp only [bne_iff_ne, ne_eq, not_not]; exact g9.1) ?_
    refine ite_false_true_of (by simp only [g9.2]; decide) ?_
    refine ite_false_true_of (by simp only [g10]; decide) ?_
    refine ite_false_true_of (by simp only [g11]; decide) ?_
    refine ite_false_true_of (by simp only [g12]; decide) ?_
    refine ite_false_true_of (by simp only [g13]; decide) ?_
    refine ite_false_true_of (by simp only [bne_iff_ne, ne_eq, not_not]; exact h14) ?_
    refine ite_false_true_of (by simp only [bne_iff_ne, ne_eq, not_not]; exact g15.1) ?_
    exact ite_false_true_of (by simp only [g15.2]; decide) rfl

/-- C18 (what the code does). `Equal` is true exactly when the two rules agree on
every field but `ByMonth`: it has no test for `ByMonth`. The rules that `Parse` reads
from `RRULE:FREQ=YEARLY;BYMONTH=1` and `RRULE:FREQ=YEARLY;BYMONTH=2` differ in
`ByMonth` and are `Equal`. -/
theorem Equal_never_reads_ByMonth :
    (∀ r1 r2 : RecurringRule, r1.Equal r2 = true ↔ r1.AgreeButByMonth r2)
      ∧ Parse [] "RRULE:FREQ=YEARLY;BYMONTH=1".toList = .ok yearlyInJanuary
      ∧ Parse [] "RRULE:FREQ=YEARLY;BYMONTH=2".toList = .ok yearlyInFebruary
      ∧ yearlyInJanuary.ByMonth = [1] ∧ yearlyInFebruary.ByMonth = [2]
      ∧ yearlyInJanuary.Equal yearlyInFebruary = true :=
  ⟨Equal_iff, rfl, rfl, rfl, rfl, rfl⟩

/-- A `BYDAY` chunk that starts with `+` reaches `weekdayFromShort` whole and
panics there. -/
theorem parseForDay_plus (rest : List Char) : parseForDay ('+' :: rest) = .error .panic := by
  have hw : weekdayFromShort ('+' :: rest) = .error .panic := by
    unfold weekdayFromShort
    simp
  simp only [parseForDay]
  have h1 : ('+' == '-') = false := by decide
  have h2 : isDigitByte '+' = false := by decide
  simp only [h1, Bool.false_eq_true, if_false, h2, hw]

/-- C20 (what the code does). `handle_recur_rule_part` strips a leading `-` from a
`BYDAY` chunk and nothing else: a chunk that starts with `+` panics in
`weekdayFromShort`. `Parse` panics on the text of `Test_Parse_PositiveIndicatorIgnored`
with `BYDAY=+1MO,+1TU`, and reads the text with `BYDAY=1MO,1TU`. -/
theorem positive_byday_offset_panics :
    (∀ rest : List Char, parseForDay ('+' :: rest) = .error .panic)
      ∧ Parse [newYork1997] withPos = .error .panic
      ∧ Parse [newYork1997] noPos = .ok noPosRule
      ∧ noPosRule.String
        = .ok "DTSTART;TZID=America/New_York:19970902T090000\nRRULE:FREQ=MONTHLY;BYDAY=1MO,1TU".toList :=
  ⟨parseForDay_plus, rfl, rfl, rfl⟩

end RRule

namespace RRule

/-! ## `Count` and the user limit play no part in the period loop -/

theorem finalSet_count (rule : RecurringRule) (c cc : Int) :
    ∀ (l : List Time) (cindex : Int),
      finalSet { rule with Count := c } cc cindex l = finalSet rule cc cindex l := by
  intro l
  induction l with
  | nil => intro cindex; rfl
  | cons d rest ih =>
    intro cindex
    simp only [finalSet]
    rw [ih (cindex + 1)]
    rfl

theorem secondLoop_retag (ri : RecurrenceIterator) (c l fcc : Int) :
    ∀ (xs : List Time) (cindex : Int) (acc : List Time × Bool),
      secondLoop (ri.retag c l) fcc cindex xs acc = secondLoop ri fcc cindex xs acc := by
  intro xs
  induction xs with
  | nil => intro cindex acc; rfl
  | cons d rest ih =>
    intro cindex acc
    obtain ⟨buffer, sc⟩ := acc
    simp only [secondLoop]
    rw [ih]
    rfl

theorem advancePeriod_retag (wfuel : Nat) (ri : RecurrenceIterator) (c l : Int) (sc : Bool) :
    advancePeriod wfuel (ri.retag c l) sc
      = (advancePeriod wfuel ri sc).map fun p => (p.1.retag c l, p.2) := by
  unfold advancePeriod
  have hg : generateCandidates (ri.retag c l).rule wfuel
        (getNextDateByFreqAndInterval (ri.retag c l).rule.DtStart (ri.retag c l).rule.Frequency
          ((ri.retag c l).rule.Interval * (ri.retag c l).iterCounter))
      = generateCandidates ri.rule wfuel
        (getNextDateByFreqAndInterval ri.rule.DtStart ri.rule.Frequency
          (ri.rule.Interval * ri.iterCounter)) := rfl
  dsimp only
  rw [hg]
  cases generateCandidates ri.rule wfuel
      (getNextDateByFreqAndInterval ri.rule.DtStart ri.rule.Frequency
        (ri.rule.Interval * ri.iterCounter)) with
  | none => rfl
  | some candidates =>
    simp only [Option.map_some', Option.some.injEq]
    have hf : finalSet (ri.retag c l).rule (candidates.length : Int) 0 candidates
        = finalSet ri.rule (candidates.length : Int) 0 candidates :=
      finalSet_count ri.rule c _ candidates 0
    rw [hf, secondLoop_retag]
    rfl

theorem refill_retag (wfuel : Nat) (c l : Int) :
    ∀ (fuel : Nat) (ri : RecurrenceIterator) (sc : Bool),
      refill wfuel fuel (ri.retag c l) sc
        = (refill wfuel fuel ri sc).map fun p => (p.1.retag c l, p.2) := by
  intro fuel
  induction fuel with
  | zero =>
    intro ri sc
    simp only [refill]
    have hb : (ri.retag c l).iterBuffer = ri.iterBuffer := rfl
    rw [hb]
    split <;> rfl
  | succ n ih =>
    intro ri sc
    simp only [refill]
    have hb : (ri.retag c l).iterBuffer = ri.iterBuffer := rfl
    rw [hb]
    split
    · rw [advancePeriod_retag]
      cases advancePeriod wfuel ri sc with
      | none => rfl
      | some p =>
        obtain ⟨ri₁, sc₁⟩ := p
        simp only [Option.map_some']
        exact ih ri₁ sc₁
    · rfl

end RRule

namespace RRule

/-! ## `Count` only cuts the sequence short -/

theorem deliver_count (ri : RecurrenceIterator) (c : Int) (sc : Bool) (t : Time) :
    deliver (ri.retag c ri.UserLimit) sc t
      = { ok := (deliver ri sc t).ok, out := (deliver ri sc t).out,
          iter := (deliver ri sc t).iter.retag c ri.UserLimit } := by
  unfold deliver
  have hb : (ri.retag c ri.UserLimit).iterBuffer = ri.iterBuffer := rfl
  rw [hb]
  cases ri.iterBuffer with
  | nil => rfl
  | cons head tail =>
    dsimp only [RecurrenceIterator.retag]
    split
    · rfl
    · split <;> rfl

/-- A configuration that a call of `Step` keeps, whatever the buffer holds. -/
theorem Step_config {fuel : Nat} {ri : RecurrenceIterator} {t : Time} {r : StepResult}
    (h : Step fuel ri t = some r) : SameConfig ri r.iter := by
  rcases Step_cases h with ⟨_, _, hr⟩ | ⟨_, ri₁, sc, hre, hr⟩
  · subst hr
    exact SameConfig.refl _
  · obtain ⟨hc, _, _, _, _⟩ := refill_spec _ _ _ _ _ _ hre
    cases hbuf : ri₁.iterBuffer with
    | nil =>
      rw [deliver_nil sc t hbuf] at hr
      subst hr
      exact hc
    | cons head tail =>
      obtain ⟨_, _, hsc, _⟩ := deliver_cons sc t hbuf
      rw [← hr] at hsc
      exact hc.trans hsc

/-- A call of `Step` that the test of `Count` lets through does what the same call
does on the rule without `Count`. -/
theorem Step_uncounted {fuel : Nat} {ri : RecurrenceIterator} {t : Time}
    (hc : ¬ (0 < ri.rule.Count ∧ ri.rule.Count ≤ ri.ReturnCounter)) :
    Step fuel (ri.retag 0 ri.UserLimit) t
      = (Step fuel ri t).map fun r =>
          { ok := r.ok, out := r.out, iter := r.iter.retag 0 ri.UserLimit } := by
  unfold Step
  have h0 : (decide ((ri.retag 0 ri.UserLimit).rule.Count > 0)
      && decide ((ri.retag 0 ri.UserLimit).ReturnCounter
        ≥ (ri.retag 0 ri.UserLimit).rule.Count)) = false := by
    have : (ri.retag 0 ri.UserLimit).rule.Count = 0 := rfl
    rw [this]
    simp
  have h1 : (decide (ri.rule.Count > 0) && decide (ri.ReturnCounter ≥ ri.rule.Count))
      = false := by
    simp only [Bool.and_eq_false_iff, decide_eq_false_iff_not, gt_iff_lt, ge_iff_le]
    exact not_and_or.mp hc
  rw [h0, h1]
  simp only [Bool.false_eq_true, if_false]
  rw [refill_retag]
  cases hre : refill fuel fuel ri false with
  | none => rfl
  | some p =>
    obtain ⟨ri₁, sc⟩ := p
    obtain ⟨hcfg, _, _, _, _⟩ := refill_spec _ _ _ _ _ _ hre
    have hl : ri.UserLimit = ri₁.UserLimit := hcfg.2.1
    simp only [Option.map_some', Option.some.injEq]
    rw [hl]
    exact deliver_count ri₁ 0 sc t

theorem StepSeq_uncounted (N : Int) :
    ∀ (calls : List (Nat × Time)) (ri : RecurrenceIterator),
      ri.rule.Count = N → ri.ReturnCounter + calls.length ≤ N →
      (StepSeq calls (ri.retag 0 ri.UserLimit)).map (List.map StepResult.returned)
        = (StepSeq calls ri).map (List.map StepResult.returned) := by
  intro calls
  induction calls with
  | nil => intro ri _ _; rfl
  | cons c rest ih =>
    intro ri hN hlen
    obtain ⟨fuel, t⟩ := c
    simp only [List.length_cons, Nat.cast_add, Nat.cast_one] at hlen
    simp only [StepSeq]
    rw [Step_uncounted (by omega)]
    cases hs : Step fuel ri t with
    | none => rfl
    | some r =>
      obtain ⟨hrule, _, hhi, _, _⟩ := Step_counter hs
      have hl : ri.UserLimit = r.iter.UserLimit := (Step_config hs).2.1
      have ih₁ := ih r.iter (by rw [hrule]; exact hN) (by omega)
      simp only [Option.map_some']
      rw [hl]
      cases h1 : StepSeq rest (r.iter.retag 0 r.iter.UserLimit) with
      | none =>
        rw [h1] at ih₁
        cases h2 : StepSeq rest r.iter with
        | none => rfl
        | some rs => rw [h2] at ih₁; simp at ih₁
      | some rs' =>
        rw [h1] at ih₁
        cases h2 : StepSeq rest r.iter with
        | none => rw [h2] at ih₁; simp at ih₁
        | some rs =>
          rw [h2] at ih₁
          simp only [Option.map_some', Option.some.injEq] at ih₁
          simp only [Option.map_some', List.map_cons, Option.some.injEq, List.cons.injEq]
          exact ⟨rfl, ih₁⟩

/-- C13. For a rule with `Count = N > 0`, whatever its exceptions, and a fresh
iterator on it (whatever its limit and windows): the first `N` calls of `Step`
return what the same calls return on the same rule without `Count`, each call with
the same boolean and the same timestamp, and a call returns on the one iterator when
it does on the other. An excluded occurrence is dropped in the period loop on both
sides and the counter moves only on delivery. -/
theorem exclusions_do_not_consume_count (rule : RecurringRule) (N : Int)
    (ri : RecurrenceIterator) (calls : List (Nat × Time))
    (hr : ri.rule = rule) (hN : rule.Count = N) (_hpos : 0 < N)
    (hrc : ri.ReturnCounter = 0) (hlen : (calls.length : Int) ≤ N) :
    (StepSeq calls ri).map (List.map StepResult.returned)
      = (StepSeq calls { ri with rule := rule.withoutCount }).map
          (List.map StepResult.returned) := by
  subst hr
  have h := StepSeq_uncounted N calls ri hN (by omega)
  exact h.symm

/-- C13, at the rule of `Test_RealWorldFromGoogle_WithException_DiffTimezone` (every
other week from 2018-09-02, three times, 2018-09-16 excluded): the three calls return
2018-09-02, 2018-09-30 and 2018-10-14, as they do without `COUNT`. -/
theorem exclusions_do_not_consume_count_witness :
    (StepSeq threeCalls8 weeklyWithException.Iterator).map (List.map StepResult.returned)
        = (StepSeq threeCalls8
            { weeklyWithException.Iterator with rule := weeklyWithException.withoutCount }).map
          (List.map StepResult.returned)
      ∧ (StepSeq threeCalls8 weeklyWithException.Iterator).map (List.map StepResult.returned)
        = some [(true, Date 2018 9 2 9 0 0 0 newYork2018),
            (true, Date 2018 9 30 9 0 0 0 newYork2018),
            (true, Date 2018 10 14 9 0 0 0 newYork2018)] :=
  ⟨exclusions_do_not_consume_count weeklyWithException 3 weeklyWithException.Iterator
    threeCalls8 rfl rfl (by decide) rfl (by decide), by decide!⟩

end RRule

namespace RRule

/-! ## The user limit -/

theorem deliver_limited (ri : RecurrenceIterator) (n : Int) (sc : Bool) (t : Time)
    (hn : 0 < n) (hl : ri.UserLimit ≤ 0) (hexit : ri.iterBuffer ≠ [] ∨ sc = true) :
    deliver (ri.Limit n) sc t = (deliver ri sc t).limited n := by
  unfold deliver
  have hb : (ri.Limit n).iterBuffer = ri.iterBuffer := rfl
  rw [hb]
  cases hbuf : ri.iterBuffer with
  | nil =>
    have hsc : sc = true := by
      rcases hexit with h1 | h1
      · exact absurd hbuf h1
      · exact h1
    subst hsc
    rfl
  | cons head tail =>
    dsimp only [RecurrenceIterator.Limit]
    split
    · rfl
    · have h0 : (decide (ri.UserLimit > 0) && decide (ri.ReturnCounter + 1 > ri.UserLimit))
          = false := by
        simp only [Bool.and_eq_false_iff, decide_eq_false_iff_not, gt_iff_lt]
        exact Or.inl (by omega)
      rw [h0]
      simp only [Bool.false_eq_true, if_false]
      by_cases hover : ri.ReturnCounter + 1 > n
      · have h1 : (decide (n > 0) && decide (ri.ReturnCounter + 1 > n)) = true := by
          simp only [Bool.and_eq_true, decide_eq_true_eq]
          exact ⟨hn, hover⟩
        rw [h1]
        simp [StepResult.limited, RecurrenceIterator.Limit, hover]
      · have h1 : (decide (n > 0) && decide (ri.ReturnCounter + 1 > n)) = false := by
          simp only [Bool.and_eq_false_iff, decide_eq_false_iff_not]
          exact Or.inr hover
        rw [h1]
        simp [StepResult.limited, RecurrenceIterator.Limit, hover]

/-- A call of `Step` on the iterator with user limit `n`, from the same call on the
iterator without user limit. -/
theorem Step_limited {fuel : Nat} {ri : RecurrenceIterator} {t : Time} {n : Int}
    (hn : 0 < n) (hl : ri.UserLimit ≤ 0) :
    Step fuel (ri.Limit n) t = (Step fuel ri t).map (StepResult.limited n) := by
  unfold Step
  have hcond : (decide ((ri.Limit n).rule.Count > 0)
        && decide ((ri.Limit n).ReturnCounter ≥ (ri.Limit n).rule.Count))
      = (decide (ri.rule.Count > 0) && decide (ri.ReturnCounter ≥ ri.rule.Count)) := rfl
  rw [hcond]
  split
  · rfl
  · have hre : refill fuel fuel (ri.Limit n) false
        = (refill fuel fuel ri false).map fun p => (p.1.retag ri.rule.Count n, p.2) :=
      refill_retag fuel ri.rule.Count n fuel ri false
    rw [hre]
    cases hr : refill fuel fuel ri false with
    | none => rfl
    | some p =>
      obtain ⟨ri₁, sc⟩ := p
      obtain ⟨hcfg, _, _, _, hexit⟩ := refill_spec _ _ _ _ _ _ hr
      simp only [Option.map_some', Option.some.injEq]
      have hrt : ri₁.retag ri.rule.Count n = ri₁.Limit n := by
        have : ri.rule = ri₁.rule := hcfg.1
        rw [this]
        rfl
      rw [hrt]
      exact deliver_limited ri₁ n sc t hn (by rw [← hcfg.2.1]; exact hl) hexit

theorem StepSeq_limited {n : Int} (hn : 0 < n) :
    ∀ (calls : List (Nat × Time)) (ri : RecurrenceIterator), ri.UserLimit ≤ 0 →
      StepSeq calls (ri.Limit n) = (StepSeq calls ri).map (List.map (StepResult.limited n)) := by
  intro calls
  induction calls with
  | nil => intro ri _; rfl
  | cons c rest ih =>
    intro ri hl
    obtain ⟨fuel, t⟩ := c
    simp only [StepSeq]
    rw [Step_limited hn hl]
    cases hs : Step fuel ri t with
    | none => rfl
    | some r =>
      have hl₁ : r.iter.UserLimit ≤ 0 := by rw [← (Step_config hs).2.1]; exact hl
      simp only [Option.map_some']
      have hi : (StepResult.limited n r).iter = r.iter.Limit n := rfl
      rw [hi, ih r.iter hl₁]
      cases StepSeq rest r.iter with
      | none => rfl
      | some rs => rfl

theorem yieldedFirst_cons (r : StepResult) (rs : List StepResult) :
    yieldedFirst (r :: rs) = if r.ok then r.out :: yieldedFirst rs else [] := by
  unfold yieldedFirst
  by_cases h : r.ok = true <;> simp [List.takeWhile, h]

theorem yieldedFirst_limited {n : Int} :
    ∀ (calls : List (Nat × Time)) (ri : RecurrenceIterator) (rs : List StepResult) (m : Nat),
      StepSeq calls ri = some rs → ri.ReturnCounter + m = n →
      yieldedFirst (rs.map (StepResult.limited n)) = (yieldedFirst rs).take m := by
  intro calls
  induction calls with
  | nil =>
    intro ri rs m h _
    simp only [StepSeq, Option.some.injEq] at h
    subst h
    simp [yieldedFirst]
  | cons c rest ih =>
    intro ri rs m h hm
    obtain ⟨fuel, t⟩ := c
    simp only [StepSeq] at h
    cases hs : Step fuel ri t with
    | none => simp [hs] at h
    | some r =>
      simp only [hs] at h
      cases hq : StepSeq rest r.iter with
      | none => simp [hq] at h
      | some rs₁ =>
        simp only [hq, Option.some.injEq] at h
        subst h
        obtain ⟨hinc, _⟩ := Step_counter_exact hs
        rw [List.map_cons, yieldedFirst_cons, yieldedFirst_cons]
        by_cases hk : r.ok = true
        · have hrc := hinc hk
          cases m with
          | zero =>
            have hover : r.iter.ReturnCounter > n := by
              simp only [Nat.cast_zero, add_zero] at hm
              omega
            simp [StepResult.limited, hk, hover]
          | succ k =>
            have hfit : ¬ r.iter.ReturnCounter > n := by
              push_cast at hm
              omega
            have ih₁ := ih r.iter rs₁ k hq (by push_cast at hm; omega)
            simp [StepResult.limited, hk, hfit, ih₁]
        · simp [StepResult.limited, hk]

theorem Step_limit_true {fuel : Nat} {ri : RecurrenceIterator} {t : Time} {r : StepResult}
    (h : Step fuel ri t = some r) (hok : r.ok = true) (hl : 0 < ri.UserLimit) :
    ri.ReturnCounter + 1 ≤ ri.UserLimit := by
  rcases Step_cases h with ⟨_, _, hr⟩ | ⟨_, ri₁, sc, hre, hr⟩
  · subst hr
    simp at hok
  · obtain ⟨hc, hrc, _, _, hexit⟩ := refill_spec _ _ _ _ _ _ hre
    cases hbuf : ri₁.iterBuffer with
    | nil =>
      have hsc : sc = true := by
        rcases hexit with h1 | h1
        · exact absurd hbuf h1
        · exact h1
      rw [deliver_nil sc t hbuf] at hr
      subst hr
      subst hsc
      simp at hok
    | cons head tail =>
      obtain ⟨_, _, _, _, _, _, hd⟩ := deliver_cons sc t hbuf
      rw [← hr] at hd
      have := (hd hok).2.2 (by rw [← hc.2.1]; exact hl)
      rw [← hc.2.1, hrc] at this
      exact this

theorem StepSeq_limit_counter :
    ∀ (calls : List (Nat × Time)) (ri : RecurrenceIterator) (rs : List StepResult),
      0 < ri.UserLimit → StepSeq calls ri = some rs →
      ((yielded rs).length : Int) ≤ max 0 (ri.UserLimit - ri.ReturnCounter) := by
  intro calls
  induction calls with
  | nil =>
    intro ri rs _ h
    simp only [StepSeq, Option.some.injEq] at h
    subst h
    simp [yielded]
  | cons c rest ih =>
    intro ri rs hl h
    obtain ⟨fuel, t⟩ := c
    simp only [StepSeq] at h
    cases hs : Step fuel ri t with
    | none => simp [hs] at h
    | some r =>
      simp only [hs] at h
      cases hq : StepSeq rest r.iter with
      | none => simp [hq] at h
      | some rs₁ =>
        simp only [hq, Option.some.injEq] at h
        subst h
        have hcfg := Step_config hs
        obtain ⟨_, hlo, _, _, hok⟩ := Step_counter hs
        have ih₁ := ih r.iter rs₁ (by rw [← hcfg.2.1]; exact hl) hq
        rw [← hcfg.2.1] at ih₁
        rw [yielded_cons]
        by_cases hk : r.ok = true
        · have h1 := Step_limit_true hs hk hl
          have h2 := (hok hk).1
          simp only [hk, if_true, List.length_cons, Nat.cast_add, Nat.cast_one]
          omega
        · simp only [hk]
          simp only [Bool.false_eq_true, if_false]
          omega

/-- C16. For an iterator without user limit whose counter is 0 (a fresh iterator,
whatever its rule and windows) and every `n > 0`: whenever a sequence of calls
returns on it, the same calls return on the iterator with `Limit(n)`; the timestamps
they deliver before the first false are the first `n` of those the iterator without
limit delivers before its first false (all of them when there are fewer than `n`);
and at most `n` of the calls on the limited iterator return true. -/
theorem limit_yields_the_first_n (ri : RecurrenceIterator) (n : Int)
    (calls : List (Nat × Time)) (rs : List StepResult)
    (hn : 0 < n) (hl : ri.UserLimit ≤ 0) (hrc : ri.ReturnCounter = 0)
    (hs : StepSeq calls ri = some rs) :
    ∃ rs', StepSeq calls (ri.Limit n) = some rs'
      ∧ yieldedFirst rs' = (yieldedFirst rs).take n.toNat
      ∧ ((yielded rs').length : Int) ≤ n := by
  have hrun : StepSeq calls (ri.Limit n) = some (rs.map (StepResult.limited n)) := by
    rw [StepSeq_limited hn calls ri hl, hs]
    rfl
  refine ⟨rs.map (StepResult.limited n), hrun, ?_, ?_⟩
  · exact yieldedFirst_limited calls ri rs n.toNat hs (by rw [hrc]; omega)
  · have h := StepSeq_limit_counter calls (ri.Limit n) _ hn hrun
    have e1 : (ri.Limit n).UserLimit = n := rfl
    have e2 : (ri.Limit n).ReturnCounter = ri.ReturnCounter := rfl
    rw [e1, e2, hrc] at h
    omega

/-- C16, at the rule of `Test_Iterator_Limit` with `Limit(2)`: the limited iterator
delivers the first two of the three timestamps 09:00, 12:00 and 15:00. -/
theorem limit_yields_the_first_n_witness :
    ∃ rs', StepSeq fourCalls (hourlyUntil.Iterator.Limit 2) = some rs'
      ∧ yieldedFirst rs' = (yieldedFirst hourlyUntilRun).take (2 : Int).toNat
      ∧ ((yielded rs').length : Int) ≤ 2 :=
  limit_yields_the_first_n hourlyUntil.Iterator 2 fourCalls hourlyUntilRun (by decide)
    (by decide) rfl (by decide!)

end RRule

namespace RRule

/-! ## The order of the text of a rule -/

theorem shortFromWeekday_valid {w : Int} (h0 : 0 ≤ w) (h6 : w ≤ 6) :
    shortFromWeekday w = .ok (weekdayShort w) := by
  unfold shortFromWeekday weekdayShort
  have : w = 0 ∨ w = 1 ∨ w = 2 ∨ w = 3 ∨ w = 4 ∨ w = 5 ∨ w = 6 := by omega
  rcases this with h | h | h | h | h | h | h <;> subst h <;> rfl

theorem shortFromWeekday_invalid {w : Int} (h : w < 0 ∨ 6 < w) :
    shortFromWeekday w = .error .panic := by
  unfold shortFromWeekday
  rw [if_neg (by omega), if_neg (by omega), if_neg (by omega), if_neg (by omega),
    if_neg (by omega), if_neg (by omega), if_neg (by omega)]

theorem ForDay_String_valid {fd : ForDay} (h0 : 0 ≤ fd.Weekday) (h6 : fd.Weekday ≤ 6) :
    fd.String = .ok (forDayText fd) := by
  unfold ForDay.String forDayText
  rw [shortFromWeekday_valid h0 h6]
  by_cases ho : fd.Offset = 0 <;> simp [ho]

theorem daysAsStrings_valid :
    ∀ l : List ForDay, (∀ fd ∈ l, 0 ≤ fd.Weekday ∧ fd.Weekday ≤ 6) →
      daysAsStrings l = .ok (l.map forDayText) := by
  intro l
  induction l with
  | nil => intro _; rfl
  | cons fd rest ih =>
    intro h
    have h1 := h fd (List.mem_cons_self _ _)
    simp only [daysAsStrings]
    rw [ForDay_String_valid h1.1 h1.2, ih fun x hx => h x (List.mem_cons_of_mem _ hx)]
    rfl

theorem stringsJoin_cons (sep : List Char) :
    ∀ (l : List (List Char)) (a : List Char),
      stringsJoin (a :: l) sep = a ++ l.flatMap fun p => sep ++ p := by
  intro l
  induction l with
  | nil => intro a; simp [stringsJoin]
  | cons b rest ih =>
    intro a
    simp only [stringsJoin, List.flatMap_cons]
    rw [ih b]
    simp only [List.append_assoc]

theorem present_cons (c : Bool) (p : List Char) (l : List (Bool × List Char)) :
    present ((c, p) :: l) = if c then p :: present l else present l := by
  unfold present
  cases c <;> simp [List.filter]

theorem present_nil : present [] = [] := rfl

theorem flatMap_present_cons (f : List Char → List Char) (c : Bool) (p : List Char)
    (l : List (Bool × List Char)) :
    (present ((c, p) :: l)).flatMap f = (if c then f p else []) ++ (present l).flatMap f := by
  rw [present_cons]
  cases c <;> simp

theorem ite_length_pos {α β : Type} (l : List α) (x y : β) :
    (if l.length > 0 then x else y) = if (!l.isEmpty) = true then x else y := by
  cases l <;> simp

theorem ite_bne_int {β : Type} (a b : Int) (x y : β) :
    (if (a != b) = true then x else y) = if decide (a ≠ b) = true then x else y := by
  by_cases h : a = b <;> simp [h]

theorem ite_pos_int {β : Type} (a : Int) (x y : β) :
    (if a > 0 then x else y) = if decide (a > 0) = true then x else y := by
  by_cases h : a > 0 <;> simp [h]

theorem ite_map_ok {α : Type} (c : Prop) [Decidable c] (f : α → List Char) (x : α) :
    (if c then Except.map f (Except.ok x) else (Except.ok [] : Except Failure (List Char)))
      = Except.ok (if c then f x else []) := by
  split <;> rfl

/-- On the seven constants `FrequencyValue.String` returns the name. -/
theorem FrequencyValue.String_ok (fv : FrequencyValue) : fv.String = .ok (frequencyName fv) := by
  cases fv <;> rfl

/-- On every other value `FrequencyValue.String` panics. -/
theorem frequencyString_unknown (code : Nat) (h : 6 < code) :
    frequencyString code = .error .panic := by
  unfold frequencyString
  simp only [show ¬ code = 0 by omega, show ¬ code = 1 by omega, show ¬ code = 2 by omega,
    show ¬ code = 3 by omega, show ¬ code = 4 by omega, show ¬ code = 5 by omega,
    show ¬ code = 6 by omega, if_false]

theorem RecurString_valid (rr : RecurringRule) (hv : rr.WeekdaysValid) :
    rr.RecurString = .ok ("RRULE:".toList ++ stringsJoin (present (rruleParts rr)) [';']) := by
  obtain ⟨⟨h0, h6⟩, hd⟩ := hv
  unfold RecurringRule.RecurString
  rw [FrequencyValue.String_ok]
  simp only
  rw [shortFromWeekday_valid h0 h6, daysAsStrings_valid rr.ByDay hd]
  unfold rruleParts
  rw [present_cons, if_pos rfl, stringsJoin_cons]
  simp only [flatMap_present_cons, present_nil, List.flatMap_nil, List.append_nil]
  simp only [ite_map_ok]
  simp only [ite_length_pos, ite_bne_int, ite_pos_int]
  have e1 : ";INTERVAL=".toList = ';' :: "INTERVAL=".toList := rfl
  have e2 : ";UNTIL=".toList = ';' :: "UNTIL=".toList := rfl
  have e3 : ";BYSECOND=".toList = ';' :: "BYSECOND=".toList := rfl
  have e4 : ";BYMINUTE=".toList = ';' :: "BYMINUTE=".toList := rfl
  have e5 : ";BYHOUR=".toList = ';' :: "BYHOUR=".toList := rfl
  have e6 : ";BYMONTH=".toList = ';' :: "BYMONTH=".toList := rfl
  have e7 : ";BYWEEKNO=".toList = ';' :: "BYWEEKNO=".toList := rfl
  have e8 : ";COUNT=".toList = ';' :: "COUNT=".toList := rfl
  have e9 : ";WKST=".toList = ';' :: "WKST=".toList := rfl
  have e10 : ";BYDAY=".toList = ';' :: "BYDAY=".toList := rfl
  have e11 : ";BYMONTHDAY=".toList = ';' :: "BYMONTHDAY=".toList := rfl
  have e12 : ";BYYEARDAY=".toList = ';' :: "BYYEARDAY=".toList := rfl
  have e13 : ";BYSETPOS=".toList = ';' :: "BYSETPOS=".toList := rfl
  rw [e1, e2, e3, e4, e5, e6, e7, e8, e9, e10, e11, e12, e13]
  simp only [List.append_assoc, List.cons_append, List.nil_append, List.singleton_append]

/-- The text of a rule with valid weekdays: the lines and the parts of the layout. -/
theorem String_layout (rr : RecurringRule) (hv : rr.WeekdaysValid) :
    rr.String = .ok (specString rr) := by
  unfold RecurringRule.String
  rw [RecurString_valid rr hv]
  unfold specString textLines RecurringRule.ExdateString
  simp only [present_cons, present_nil, if_true]
  cases hd : rr.DtStart.Equal EmptyTime <;> cases he : rr.ExceptionsToRule <;> simp

theorem daysAsStrings_invalid :
    ∀ l : List ForDay, (¬ ∀ fd ∈ l, 0 ≤ fd.Weekday ∧ fd.Weekday ≤ 6) →
      daysAsStrings l = .error .panic := by
  intro l
  induction l with
  | nil => intro h; exact absurd (fun fd hfd => by simp at hfd) h
  | cons fd rest ih =>
    intro h
    simp only [daysAsStrings]
    by_cases h1 : 0 ≤ fd.Weekday ∧ fd.Weekday ≤ 6
    · rw [ForDay_String_valid h1.1 h1.2]
      simp only
      rw [ih (fun hall => h (fun x hx => by
        rcases List.mem_cons.mp hx with e | e
        · rw [e]; exact h1
        · exact hall x e))]
    · have : fd.String = .error .panic := by
        unfold ForDay.String
        rw [shortFromWeekday_invalid (by omega)]
      rw [this]

theorem RecurString_invalid (rr : RecurringRule) (hv : ¬ rr.WeekdaysValid) :
    rr.RecurString = .error .panic := by
  unfold RecurringRule.WeekdaysValid at hv
  unfold RecurringRule.RecurString
  rw [FrequencyValue.String_ok]
  simp only
  by_cases hw : 0 ≤ rr.WorkWeekStart ∧ rr.WorkWeekStart ≤ 6
  · have hd : ¬ ∀ fd ∈ rr.ByDay, 0 ≤ fd.Weekday ∧ fd.Weekday ≤ 6 := fun h => hv ⟨hw, h⟩
    have hne : rr.ByDay.length > 0 := by
      cases hb : rr.ByDay with
      | nil => rw [hb] at hd; exact absurd (fun fd hfd => by simp at hfd) hd
      | cons a l => simp
    rw [shortFromWeekday_valid hw.1 hw.2, ite_map_ok, if_pos hne, daysAsStrings_invalid _ hd]
    rfl
  · have hne : (rr.WorkWeekStart != 1) = true := by
      simp only [bne_iff_ne, ne_eq]
      omega
    rw [if_pos hne, shortFromWeekday_invalid (by omega)]
    rfl

/-- With a weekday field that names no weekday `String` panics: `shortFromWeekday` ends
in `panic("Unknown day")`. -/
theorem String_panics_outside_weekdays (rr : RecurringRule) (hv : ¬ rr.WeekdaysValid) :
    rr.String = .error .panic := by
  unfold RecurringRule.String
  rw [RecurString_invalid rr hv]

/-- C19. For every rule whose `WorkWeekStart` and `BYDAY` weekdays are weekdays (0 to
6), `String` returns the text the specification lays out: the `DTSTART` line when
`DtStart` is set, the `EXDATE` line when there are exceptions and the `RRULE` line, in
that order, joined by a newline; in the `RRULE` line the parts `FREQ`, `INTERVAL`
(when not 1), `UNTIL` (when set), `BYSECOND`, `BYMINUTE`, `BYHOUR`, `BYMONTH`,
`BYWEEKNO`, `COUNT` (when positive), `WKST` (when not Monday), `BYDAY`, `BYMONTHDAY`,
`BYYEARDAY`, `BYSETPOS`, in that order, joined by `;`, a list part being written when
its list is not empty. -/
theorem String_follows_the_order (rr : RecurringRule) (hv : rr.WeekdaysValid) :
    rr.String = .ok (specString rr) :=
  String_layout rr hv

/-- C19, at the rule of `Test_Parse_PositiveIndicatorIgnored` without the signs. -/
theorem String_follows_the_order_witness :
    noPosRule.String = .ok (specString noPosRule)
      ∧ specString noPosRule
        = "DTSTART;TZID=America/New_York:19970902T090000\nRRULE:FREQ=MONTHLY;BYDAY=1MO,1TU".toList :=
  ⟨String_follows_the_order noPosRule
    ⟨⟨by decide, by decide⟩, fun fd hfd => by
      simp only [noPosRule, plainRule, List.mem_cons, List.mem_singleton, List.not_mem_nil,
        or_false] at hfd
      rcases hfd with h | h <;> subst h <;> exact ⟨by decide, by decide⟩⟩, rfl⟩

end RRule

namespace RRule

/-! ## From the periods to the calls -/

theorem refill_nonempty (wfuel : Nat) {ri : RecurrenceIterator} (h : ri.iterBuffer ≠ [])
    (sc : Bool) : ∀ fuel : Nat, refill wfuel fuel ri sc = some (ri, sc) := by
  have hl : (ri.iterBuffer.length == 0) = false := by
    cases hb : ri.iterBuffer with
    | nil => exact absurd hb h
    | cons a l => rfl
  intro fuel
  cases fuel with
  | zero => simp [refill, hl]
  | succ n => simp [refill, hl]

/-- With no `BYSETPOS`, no exceptions and no windows the second loop of `Step`
appends the survivors that are not before the anchor and leaves the flag. -/
theorem secondLoop_plain (ri : RecurrenceIterator) (fcc : Int)
    (hsp : ri.rule.BySetPos = []) (hex : ri.rule.ExceptionsToRule = [])
    (hb : ri.UseUserBefore = false) (ha : ri.UseUserAfter = false) :
    ∀ (l : List Time) (cindex : Int) (acc : List Time × Bool),
      secondLoop ri fcc cindex l acc
        = (acc.1 ++ l.filter (fun d => !d.Before ri.rule.DtStart), acc.2) := by
  intro l
  induction l with
  | nil => intro cindex acc; simp [secondLoop]
  | cons x rest ih =>
    intro cindex acc
    obtain ⟨buffer, sc⟩ := acc
    have hm : survivorMatches ri fcc cindex x = [] := by
      unfold survivorMatches
      simp [hsp, hex, hb, ha]
    simp only [secondLoop, hm, hb, Bool.false_and, Bool.false_eq_true, if_false, List.all_nil,
      Bool.true_and]
    rw [ih]
    by_cases hx : x.Before ri.rule.DtStart = true
    · simp [hx, List.filter]
    · have hx' : x.Before ri.rule.DtStart = false := by simpa using hx
      simp [hx', List.filter]

/-- The loop of `Step` from an empty buffer goes on to the first period up to `K`
that yields something. -/
theorem refill_reach {rule : RecurringRule} {W : Nat} {B : Int → List Time}
    (hp : PeriodYields rule W B) {wfuel : Nat} (hw : W ≤ wfuel) {K : Int} (hK : B K ≠ []) :
    ∀ (p : Nat) (ri : RecurrenceIterator),
      ri.rule = rule → ri.UseUserBefore = false → ri.UseUserAfter = false →
      0 ≤ ri.iterCounter → ri.iterBuffer = [] → ri.iterCounter ≤ K →
      K - ri.iterCounter + 1 ≤ p →
      ∃ i, ri.iterCounter ≤ i ∧ i ≤ K ∧ B i ≠ []
        ∧ refill wfuel p ri false
          = some ({ ri with iterBuffer := B i, iterCounter := i + 1 }, false) := by
  intro p
  induction p with
  | zero =>
    intro ri _ _ _ _ _ hle hp0
    simp only [Nat.cast_zero] at hp0
    omega
  | succ n ih =>
    intro ri hr hb ha h0 hbuf hle hpn
    obtain ⟨hsome, hval⟩ := hp ri false wfuel hr hb ha h0 hbuf
    obtain ⟨q, hq⟩ := Option.isSome_iff_exists.mp (hsome hw)
    have hq' := hval q hq
    subst hq'
    simp only [refill, hbuf, List.length_nil, beq_self_eq_true, Bool.and_self, if_true, hq]
    by_cases hne : B ri.iterCounter = []
    · have hlt : ri.iterCounter < K := by
        rcases lt_or_eq_of_le hle with h | h
        · exact h
        · rw [h] at hne; exact absurd hne hK
      obtain ⟨i, h1, h2, h3, h4⟩ := ih
        { ri with iterBuffer := B ri.iterCounter, iterCounter := ri.iterCounter + 1 }
        hr hb ha (by simp only; omega) hne (by simp only; omega)
        (by simp only; push_cast at hpn; omega)
      exact ⟨i, by simp only at h1; omega, h2, h3, h4⟩
    · exact ⟨ri.iterCounter, le_refl _, hle, hne, refill_nonempty wfuel hne false n⟩

/-- A call of `Step` on an empty buffer whose next period yields something: the call
takes that one period and delivers from it. -/
theorem Step_period {rule : RecurringRule} {W : Nat} {B : Int → List Time}
    (hp : PeriodYields rule W B) {fuel : Nat} (hw : W ≤ fuel) (h1 : 1 ≤ fuel)
    {ri : RecurrenceIterator} (t : Time)
    (hr : ri.rule = rule) (hb : ri.UseUserBefore = false) (ha : ri.UseUserAfter = false)
    (h0 : 0 ≤ ri.iterCounter) (hbuf : ri.iterBuffer = []) (hne : B ri.iterCounter ≠ [])
    (hc : ¬ (0 < ri.rule.Count ∧ ri.rule.Count ≤ ri.ReturnCounter)) :
    Step fuel ri t
      = some (deliver { ri with iterBuffer := B ri.iterCounter,
                                iterCounter := ri.iterCounter + 1 } false t) := by
  obtain ⟨i, hi1, hi2, _, hre⟩ := refill_reach hp hw hne fuel ri hr hb ha h0 hbuf (le_refl _)
    (by omega)
  have hi : i = ri.iterCounter := by omega
  subst hi
  unfold Step
  have hcond : (decide (ri.rule.Count > 0) && decide (ri.ReturnCounter ≥ ri.rule.Count))
      = false := by
    simp only [Bool.and_eq_false_iff, decide_eq_false_iff_not, gt_iff_lt, ge_iff_le]
    exact not_and_or.mp hc
  rw [hcond]
  simp only [Bool.false_eq_true, if_false, hre]


theorem refill_within {rule : RecurringRule} {W : Nat} {B : Int → List Time}
    (hp : PeriodYields rule W B) (wfuel : Nat) :
    ∀ (fuel : Nat) (ri ri' : RecurrenceIterator) (sc sc' : Bool),
      Within rule B ri → refill wfuel fuel ri sc = some (ri', sc') → Within rule B ri' := by
  intro fuel
  induction fuel with
  | zero =>
    intro ri ri' sc sc' hw h
    unfold refill at h
    split at h
    · exact absurd h (by simp)
    · simp only [Option.some.injEq, Prod.mk.injEq] at h
      rw [← h.1]
      exact hw
  | succ n ih =>
    intro ri ri' sc sc' hw h
    unfold refill at h
    split at h
    · rename_i hc
      simp only [Bool.and_eq_true, beq_iff_eq, List.length_eq_zero] at hc
      obtain ⟨hr, hb, ha, h0, hmem⟩ := hw
      cases hq : advancePeriod wfuel ri sc with
      | none => simp [hq] at h
      | some q =>
        have hq' := (hp ri sc wfuel hr hb ha h0 hc.1).2 q hq
        subst hq'
        simp only [hq] at h
        refine ih { ri with iterBuffer := B ri.iterCounter,
                            iterCounter := ri.iterCounter + 1 } ri' sc sc'
          ⟨hr, hb, ha, by simp only; omega, ?_⟩ h
        intro d hd
        exact ⟨ri.iterCounter, h0, hd⟩
    · simp only [Option.some.injEq, Prod.mk.injEq] at h
      rw [← h.1]
      exact hw

theorem Step_within {rule : RecurringRule} {W : Nat} {B : Int → List Time}
    (hp : PeriodYields rule W B) {fuel : Nat} {ri : RecurrenceIterator} {t : Time}
    {r : StepResult} (h : Step fuel ri t = some r) (hw : Within rule B ri) :
    Within rule B r.iter ∧ (r.ok = true → ∃ i : Int, 0 ≤ i ∧ r.out ∈ B i) := by
  rcases Step_cases h with ⟨_, _, hr⟩ | ⟨_, ri₁, sc, hre, hr⟩
  · subst hr
    exact ⟨hw, fun hk => by simp at hk⟩
  · have hw₁ := refill_within hp fuel fuel ri ri₁ false sc hw hre
    obtain ⟨_, _, _, _, hexit⟩ := refill_spec _ _ _ _ _ _ hre
    cases hbuf : ri₁.iterBuffer with
    | nil =>
      have hsc : sc = true := by
        rcases hexit with h1 | h1
        · exact absurd hbuf h1
        · exact h1
      rw [deliver_nil sc t hbuf] at hr
      subst hr
      subst hsc
      exact ⟨hw₁, fun hk => by simp at hk⟩
    | cons head tail =>
      obtain ⟨ho, hbt, hsc, hic, _⟩ := deliver_cons sc t hbuf
      rw [← hr] at ho hbt hsc hic
      obtain ⟨g1, g2, g3, g4, g5⟩ := hw₁
      refine ⟨⟨by rw [← hsc.1]; exact g1, by rw [← hsc.2.2.2.2.1]; exact g2,
        by rw [← hsc.2.2.2.2.2]; exact g3, by rw [hic]; exact g4, ?_⟩, ?_⟩
      · intro d hd
        rw [hbt] at hd
        exact g5 d (by rw [hbuf]; exact List.mem_cons_of_mem _ hd)
      · intro _
        rw [ho]
        exact g5 head (by rw [hbuf]; exact List.mem_cons_self _ _)

/-- Every timestamp that a sequence of calls delivers comes from a period. -/
theorem StepSeq_within {rule : RecurringRule} {W : Nat} {B : Int → List Time}
    (hp : PeriodYields rule W B) :
    ∀ (calls : List (Nat × Time)) (ri : RecurrenceIterator) (rs : List StepResult),
      Within rule B ri → StepSeq calls ri = some rs →
      ∀ d ∈ yielded rs, ∃ i : Int, 0 ≤ i ∧ d ∈ B i := by
  intro calls
  induction calls with
  | nil =>
    intro ri rs _ h d hd
    simp only [StepSeq, Option.some.injEq] at h
    subst h
    simp [yielded] at hd
  | cons c rest ih =>
    intro ri rs hw h d hd
    obtain ⟨fuel, t⟩ := c
    simp only [StepSeq] at h
    cases hs : Step fuel ri t with
    | none => simp [hs] at h
    | some r₁ =>
      simp only [hs] at h
      cases hq : StepSeq rest r₁.iter with
      | none => simp [hq] at h
      | some rs₁ =>
        simp only [hq, Option.some.injEq] at h
        subst h
        obtain ⟨hw₁, hfirst⟩ := Step_within hp hs hw
        rw [yielded_cons] at hd
        by_cases hk : r₁.ok = true
        · simp only [hk, if_true, List.mem_cons] at hd
          rcases hd with h1 | h1
          · rw [h1]; exact hfirst hk
          · exact ih r₁.iter rs₁ hw₁ hq d h1
        · simp only [hk] at hd
          exact ih r₁.iter rs₁ hw₁ hq d hd

theorem Reaches_step {fuel : Nat} {ri : RecurrenceIterator} {t d : Time} {r : StepResult}
    (h : Step fuel ri t = some r) (hd : (r.ok = true ∧ r.out = d) ∨ Reaches r.iter d) :
    Reaches ri d := by
  rcases hd with ⟨hk, ho⟩ | ⟨calls, rs, hs, hmem⟩
  · refine ⟨[(fuel, t)], [r], by simp [StepSeq, h], ?_⟩
    rw [yielded_cons]
    simp [hk, ho]
  · refine ⟨(fuel, t) :: calls, r :: rs, by simp [StepSeq, h, hs], ?_⟩
    rw [yielded_cons]
    by_cases hk : r.ok = true
    · simp only [hk, if_true]
      exact List.mem_cons_of_mem _ hmem
    · simp only [hk]
      exact hmem

theorem deliver_unbounded {ri : RecurrenceIterator} (hu : ri.Unbounded) (sc : Bool) (t : Time)
    {head : Time} {tail : List Time} (h : ri.iterBuffer = head :: tail) :
    deliver ri sc t
      = { ok := true, out := head,
          iter := { ri with iterBuffer := tail, ReturnCounter := ri.ReturnCounter + 1 } } := by
  obtain ⟨_, h2, h3⟩ := hu
  unfold deliver
  rw [h]
  have hl : (decide (ri.UserLimit > 0) && decide (ri.ReturnCounter + 1 > ri.UserLimit))
      = false := by
    simp only [Bool.and_eq_false_iff, decide_eq_false_iff_not, gt_iff_lt]
    exact Or.inl (by omega)
  simp [h2, hl]


theorem Step_unbounded_nonempty {ri : RecurrenceIterator} (hu : ri.Unbounded) (fuel : Nat)
    (t : Time) {head : Time} {tail : List Time} (h : ri.iterBuffer = head :: tail) :
    Step fuel ri t
      = some { ok := true, out := head,
               iter := { ri with iterBuffer := tail,
                                 ReturnCounter := ri.ReturnCounter + 1 } } := by
  unfold Step
  have hcond : (decide (ri.rule.Count > 0) && decide (ri.ReturnCounter ≥ ri.rule.Count))
      = false := by
    simp only [Bool.and_eq_false_iff, decide_eq_false_iff_not, gt_iff_lt]
    exact Or.inl (by have := hu.1; omega)
  rw [hcond]
  simp only [Bool.false_eq_true, if_false]
  rw [refill_nonempty fuel (by rw [h]; simp) false fuel]
  simp only [deliver_unbounded hu false t h]

/-- On an iterator that nothing stops, every timestamp in the buffer and every
timestamp of a period still to come is delivered by some sequence of calls. -/
theorem reaches_of_period {rule : RecurringRule} {W : Nat} {B : Int → List Time}
    (hp : PeriodYields rule W B) {K : Int} {d : Time} (hd : d ∈ B K) :
    ∀ (m : Nat) (buf : List Time) (ri : RecurrenceIterator),
      ri.rule = rule → ri.Unbounded → ri.UseUserBefore = false → ri.UseUserAfter = false →
      0 ≤ ri.iterCounter → ri.iterBuffer = buf → K + 1 ≤ ri.iterCounter + m →
      (d ∈ buf ∨ ri.iterCounter ≤ K) → Reaches ri d := by
  have hK : B K ≠ [] := by
    intro h
    rw [h] at hd
    simp at hd
  intro m
  induction m with
  | zero =>
    intro buf
    induction buf with
    | nil =>
      intro ri _ _ _ _ _ _ hm hor
      rcases hor with h | h
      · simp at h
      · simp only [Nat.cast_zero, add_zero] at hm
        omega
    | cons head tail iht =>
      intro ri hr hu hb ha h0 hbuf hm hor
      have hs := Step_unbounded_nonempty hu 0 EmptyTime hbuf
      refine Reaches_step hs ?_
      by_cases hhd : head = d
      · exact Or.inl ⟨rfl, hhd⟩
      · refine Or.inr (iht _ hr hu hb ha h0 rfl hm ?_)
        rcases hor with h | h
        · rcases List.mem_cons.mp h with h1 | h1
          · exact absurd h1.symm hhd
          · exact Or.inl h1
        · exact Or.inr h
  | succ n ihm =>
    intro buf
    induction buf with
    | nil =>
      intro ri hr hu hb ha h0 hbuf hm hor
      have hle : ri.iterCounter ≤ K := by
        rcases hor with h | h
        · simp at h
        · exact h
      obtain ⟨i, hi1, hi2, hi3, hre⟩ := refill_reach hp (Nat.le_add_right W (n + 1)) hK
        (W + (n + 1)) ri hr hb ha h0 hbuf hle (by push_cast at hm ⊢; omega)
      obtain ⟨head, tail, hbi⟩ := List.exists_cons_of_ne_nil hi3
      have hu₁ : RecurrenceIterator.Unbounded
          { ri with iterBuffer := B i, iterCounter := i + 1 } := hu
      have hs : Step (W + (n + 1)) ri EmptyTime
          = some { ok := true, out := head,
                   iter := { ri with iterBuffer := tail, iterCounter := i + 1,
                                     ReturnCounter := ri.ReturnCounter + 1 } } := by
        unfold Step
        have hcond : (decide (ri.rule.Count > 0) && decide (ri.ReturnCounter ≥ ri.rule.Count))
            = false := by
          simp only [Bool.and_eq_false_iff, decide_eq_false_iff_not, gt_iff_lt]
          exact Or.inl (by have := hu.1; omega)
        rw [hcond]
        simp only [Bool.false_eq_true, if_false, hre]
        rw [deliver_unbounded hu₁ false EmptyTime hbi]
      refine Reaches_step hs ?_
      by_cases hhd : head = d
      · exact Or.inl ⟨rfl, hhd⟩
      · refine Or.inr (ihm tail _ hr hu hb ha (by simp only; omega) rfl
          (by simp only; push_cast at hm; omega) ?_)
        by_cases hiK : i = K
        · subst hiK
          rw [hbi] at hd
          rcases List.mem_cons.mp hd with h1 | h1
          · exact absurd h1.symm hhd
          · exact Or.inl h1
        · exact Or.inr (by simp only; omega)
    | cons head tail iht =>
      intro ri hr hu hb ha h0 hbuf hm hor
      have hs := Step_unbounded_nonempty hu 0 EmptyTime hbuf
      refine Reaches_step hs ?_
      by_cases hhd : head = d
      · exact Or.inl ⟨rfl, hhd⟩
      · refine Or.inr (iht _ hr hu hb ha h0 rfl hm ?_)
        rcases hor with h | h
        · rcases List.mem_cons.mp h with h1 | h1
          · exact absurd h1.symm hhd
          · exact Or.inl h1
        · exact Or.inr h

end RRule

namespace RRule

/-! ## `DAILY`, `HOURLY` and `MINUTELY` without BY-parts -/

/-- Adding a duration of whole seconds to a time with whole seconds. -/
theorem Add_seconds (t : Time) (hns : t.nsec = 0) (s : Int) :
    t.Add (1000000000 * s) = { sec := t.sec + s, nsec := 0, loc := t.loc } := by
  have e1 : Int.tdiv (1000000000 * s) 1000000000 = s := by
    rw [Int.tdiv_eq_ediv_of_dvd (Dvd.intro _ rfl)]
    omega
  have e2 : Int.tmod (1000000000 * s) 1000000000 = 0 := by
    rw [Int.tmod_eq_zero_of_dvd (Dvd.intro _ rfl)]
  unfold Time.Add
  simp only [e1, e2, hns, add_zero]
  rfl

theorem wrap64_fits {v : Int} (h0 : 0 ≤ v) (h1 : v < 2 ^ 63) : wrap64 v = v := by
  unfold wrap64
  have e63 : (2 : Int) ^ 63 = 9223372036854775808 := by norm_num
  have e64 : (2 : Int) ^ 64 = 18446744073709551616 := by norm_num
  rw [e63] at h1 ⊢
  rw [e64]
  omega

theorem periodRoot_plain (rule : RecurringRule)
    (hf : rule.Frequency = .DAILY ∨ rule.Frequency = .HOURLY ∨ rule.Frequency = .MINUTELY)
    (hn : 1 ≤ rule.Interval) (hns : rule.DtStart.nsec = 0) (hfix : rule.DtStart.loc.Fixed)
    (k : Int) (hk : 0 ≤ k) (hfit : rule.Fits k) :
    periodRoot rule k = occurrence rule k := by
  have hm : 0 ≤ rule.Interval * k := mul_nonneg (by omega) hk
  unfold RecurringRule.Fits at hfit
  unfold periodRoot getNextDateByFreqAndInterval occurrence
  rcases hf with hf | hf | hf <;> rw [hf] at hfit ⊢
  · simp only [FrequencyValue.seconds]
    rw [AddDate_days _ hfix, hns]
    simp only [Int.zero_ediv, Int.zero_emod, add_zero, one_mul]
    congr 1
    ring
  · simp only [FrequencyValue.seconds, FrequencyValue.nanoseconds] at hfit ⊢
    rw [wrap64_fits (by omega) hfit]
    have e : (3600000000000 : Int) * (rule.Interval * k)
        = 1000000000 * (3600 * (rule.Interval * k)) := by ring
    rw [e, Add_seconds _ hns]
  · simp only [FrequencyValue.seconds, FrequencyValue.nanoseconds] at hfit ⊢
    rw [wrap64_fits (by omega) hfit]
    have e : (60000000000 : Int) * (rule.Interval * k)
        = 1000000000 * (60 * (rule.Interval * k)) := by ring
    rw [e, Add_seconds _ hns]

theorem occurrence_clock (rule : RecurringRule)
    (hfix : rule.DtStart.loc.Fixed) (k : Int) :
    (rule.Frequency = .DAILY → (occurrence rule k).Hour = rule.DtStart.Hour)
      ∧ (rule.Frequency = .HOURLY → (occurrence rule k).Minute = rule.DtStart.Minute)
      ∧ (rule.Frequency = .MINUTELY → (occurrence rule k).Second = rule.DtStart.Second) := by
  have ha : (occurrence rule k).abs
      = rule.DtStart.abs + rule.Frequency.seconds * (rule.Interval * k) := by
    have h1 : (occurrence rule k).abs
        = (occurrence rule k).sec + (occurrence rule k).loc.offset + unixToAbs :=
      abs_fixed (t := occurrence rule k) hfix
    rw [h1, abs_fixed hfix]
    simp only [occurrence]
    ring
  generalize rule.Interval * k = m at ha
  refine ⟨?_, ?_, ?_⟩
  · intro h
    rw [h] at ha
    simp only [FrequencyValue.seconds] at ha
    unfold Time.Hour
    rw [ha]
    omega
  · intro h
    rw [h] at ha
    simp only [FrequencyValue.seconds] at ha
    unfold Time.Minute
    rw [ha]
    omega
  · intro h
    rw [h] at ha
    simp only [FrequencyValue.seconds] at ha
    unfold Time.Second
    rw [ha]
    omega

theorem occurrence_not_before (rule : RecurringRule)
    (hf : rule.Frequency = .DAILY ∨ rule.Frequency = .HOURLY ∨ rule.Frequency = .MINUTELY)
    (hn : 1 ≤ rule.Interval) (hns : rule.DtStart.nsec = 0) {k : Int} (hk : 0 ≤ k) :
    (occurrence rule k).Before rule.DtStart = false := by
  have hm : 0 ≤ rule.Interval * k := mul_nonneg (by omega) hk
  have hs : 0 ≤ rule.Frequency.seconds := by
    rcases hf with h | h | h <;> rw [h] <;> decide
  have hp : 0 ≤ rule.Frequency.seconds * (rule.Interval * k) := mul_nonneg hs hm
  unfold Time.Before occurrence
  simp only [hns]
  have e1 : decide (rule.DtStart.sec + rule.Frequency.seconds * (rule.Interval * k)
      < rule.DtStart.sec) = false := by
    simp only [decide_eq_false_iff_not]
    omega
  rw [e1]
  simp


/-- The pass of a period of a rule at `DAILY`, `HOURLY` or `MINUTELY` without BY-parts
and exceptions puts one timestamp into the buffer: the anchor moved by the period
index times the interval, as long as that duration fits a `time.Duration`. -/
theorem advancePeriod_plain (ri : RecurrenceIterator)
    (hf : ri.rule.Frequency = .DAILY ∨ ri.rule.Frequency = .HOURLY
      ∨ ri.rule.Frequency = .MINUTELY)
    (hn : 1 ≤ ri.rule.Interval) (hby : ri.rule.NoByParts) (hex : ri.rule.ExceptionsToRule = [])
    (hns : ri.rule.DtStart.nsec = 0) (hfix : ri.rule.DtStart.loc.Fixed)
    (hb : ri.UseUserBefore = false) (ha : ri.UseUserAfter = false)
    (h0 : 0 ≤ ri.iterCounter) (hbuf : ri.iterBuffer = []) (hfit : ri.rule.Fits ri.iterCounter)
    (wfuel : Nat) (sc : Bool) :
    advancePeriod wfuel ri sc
      = some ({ ri with iterBuffer := [occurrence ri.rule ri.iterCounter],
                        iterCounter := ri.iterCounter + 1 }, sc) := by
  obtain ⟨b1, b2, b3, b4, b5, b6, b7, b8, b9⟩ := hby
  have hte : ri.rule.NoTimeExpansion := ⟨fun _ => b3, fun _ => b2, fun _ => b1⟩
  have hf4 : ri.rule.Frequency = .DAILY ∨ ri.rule.Frequency = .HOURLY
      ∨ ri.rule.Frequency = .MINUTELY ∨ ri.rule.Frequency = .SECONDLY := by
    rcases hf with h | h | h
    · exact Or.inl h
    · exact Or.inr (Or.inl h)
    · exact Or.inr (Or.inr (Or.inl h))
  have hroot : getNextDateByFreqAndInterval ri.rule.DtStart ri.rule.Frequency
      (ri.rule.Interval * ri.iterCounter) = occurrence ri.rule ri.iterCounter :=
    periodRoot_plain ri.rule hf hn hns hfix ri.iterCounter h0 hfit
  have hgen : generateCandidates ri.rule wfuel (occurrence ri.rule ri.iterCounter)
      = some [occurrence ri.rule ri.iterCounter] := by
    have h1 : generateCandidates ri.rule wfuel (occurrence ri.rule ri.iterCounter)
        = some (generateTimesForCandidates ri.rule (occurrence ri.rule ri.iterCounter)) := by
      unfold generateCandidates
      rcases hf with h | h | h <;> rw [h]
    have hfix' : (occurrence ri.rule ri.iterCounter).loc.Fixed := hfix
    rw [h1, generateTimes_single ri.rule hte hf4 (occurrence ri.rule ri.iterCounter) hfix']
    rfl
  obtain ⟨c1, c2, c3⟩ := occurrence_clock ri.rule hfix ri.iterCounter
  have hmatch : ∀ cc : Int, candidateMatches ri.rule cc 0 (occurrence ri.rule ri.iterCounter)
      = [true] := by
    intro cc
    unfold candidateMatches
    rcases hf with h | h | h
    · simp [b1, b2, b3, b4, b5, b6, b7, b8, h, c1 h]
    · simp [b1, b2, b3, b4, b5, b6, b7, b8, h, c2 h]
    · simp [b1, b2, b3, b4, b5, b6, b7, b8, h, c3 h]
  have hfinal : ∀ cc : Int, finalSet ri.rule cc 0 [occurrence ri.rule ri.iterCounter]
      = [occurrence ri.rule ri.iterCounter] := by
    intro cc
    simp [finalSet, hmatch cc, firstFinalMatch]
  have hnb := occurrence_not_before ri.rule hf hn hns h0
  unfold advancePeriod
  simp only [hroot, hgen, List.length_singleton, hfinal]
  rw [secondLoop_plain ri _ b9 hex hb ha]
  simp [hbuf, List.filter, hnb]


/-- What a call of `Step` does in the state `rule.after k`. -/
theorem Step_plain (rule : RecurringRule)
    (hf : rule.Frequency = .DAILY ∨ rule.Frequency = .HOURLY ∨ rule.Frequency = .MINUTELY)
    (hn : 1 ≤ rule.Interval) (hby : rule.NoByParts) (hex : rule.ExceptionsToRule = [])
    (hns : rule.DtStart.nsec = 0) (hfix : rule.DtStart.loc.Fixed)
    (k fuel : Nat) (hfuel : 1 ≤ fuel) (hfit : rule.Fits k) (t : Time) :
    Step fuel (rule.after k) t = some
      (if 0 < rule.Count ∧ rule.Count ≤ k then
        { ok := false, out := t, iter := rule.after k }
      else if rule.Until.Equal EmptyTime = false ∧ (occurrence rule k).After rule.Until = true
      then { ok := false, out := occurrence rule k,
             iter := { rule.after k with iterCounter := k + 1 } }
      else { ok := true, out := occurrence rule k, iter := rule.after (k + 1) }) := by
  by_cases hc : 0 < rule.Count ∧ rule.Count ≤ k
  · rw [if_pos hc]
    unfold Step
    have hcond : (decide ((rule.after k).rule.Count > 0)
        && decide ((rule.after k).ReturnCounter ≥ (rule.after k).rule.Count)) = true := by
      simp only [Bool.and_eq_true, decide_eq_true_eq]
      exact hc
    rw [hcond]
    rfl
  · rw [if_neg hc]
    have hadv := advancePeriod_plain (rule.after k) hf hn hby hex hns hfix rfl rfl
      (Int.natCast_nonneg k) rfl hfit
    have hs : Step fuel (rule.after k) t
        = some (deliver { rule.after k with
            iterBuffer := (fun k => [occurrence rule k]) (rule.after k).iterCounter,
            iterCounter := (rule.after k).iterCounter + 1 } false t) := by
      obtain ⟨n, hn'⟩ : ∃ n, fuel = n + 1 := ⟨fuel - 1, by omega⟩
      subst hn'
      unfold Step
      have hcond : (decide ((rule.after k).rule.Count > 0)
          && decide ((rule.after k).ReturnCounter ≥ (rule.after k).rule.Count)) = false := by
        simp only [Bool.and_eq_false_iff, decide_eq_false_iff_not, gt_iff_lt, ge_iff_le]
        exact not_and_or.mp hc
      rw [hcond]
      have hbuf0 : (rule.after k).iterBuffer = [] := rfl
      simp only [Bool.false_eq_true, if_false, refill, hbuf0, List.length_nil,
        beq_self_eq_true, Bool.and_self, if_true, hadv (n + 1) false]
      rw [refill_nonempty (n + 1) (by simp) false n]
      rfl
    rw [hs]
    have hbuf : ({ rule.after k with
        iterBuffer := (fun k => [occurrence rule k]) (rule.after k).iterCounter,
        iterCounter := (rule.after k).iterCounter + 1 } : RecurrenceIterator).iterBuffer
        = occurrence rule k :: [] := rfl
    unfold deliver
    rw [hbuf]
    simp only
    by_cases hu : rule.Until.Equal EmptyTime = false ∧ (occurrence rule k).After rule.Until = true
    · rw [if_pos hu]
      have hu' : (!(rule.after k).rule.Until.Equal EmptyTime
          && (occurrence rule k).After (rule.after k).rule.Until) = true := by
        have e : (rule.after k).rule = rule := rfl
        rw [e, hu.1, hu.2]
        rfl
      rw [if_pos hu']
      rfl
    · rw [if_neg hu]
      have hu' : ¬ (!(rule.after k).rule.Until.Equal EmptyTime
          && (occurrence rule k).After (rule.after k).rule.Until) = true := by
        have e : (rule.after k).rule = rule := rfl
        rw [e]
        simp only [Bool.and_eq_true, Bool.not_eq_true']
        exact hu
      rw [if_neg hu']
      have hl : ¬ (decide ((rule.after k).UserLimit > 0)
          && decide ((rule.after k).ReturnCounter + 1 > (rule.after k).UserLimit)) = true := by
        have e : (rule.after k).UserLimit = 0 := rfl
        rw [e]
        simp
      rw [if_neg hl]
      simp [RecurringRule.after, RecurringRule.Iterator]


theorem StepSeq_plain (rule : RecurringRule)
    (hf : rule.Frequency = .DAILY ∨ rule.Frequency = .HOURLY ∨ rule.Frequency = .MINUTELY)
    (hn : 1 ≤ rule.Interval) (hby : rule.NoByParts) (hex : rule.ExceptionsToRule = [])
    (hns : rule.DtStart.nsec = 0) (hfix : rule.DtStart.loc.Fixed) :
    ∀ (calls : List (Nat × Time)) (j : Nat), (∀ c ∈ calls, 1 ≤ c.1) →
      (rule.Count ≤ 0 ∨ ((j + calls.length : Nat) : Int) ≤ rule.Count) →
      (∀ i : Nat, j ≤ i → i < j + calls.length →
        ¬ (rule.Until.Equal EmptyTime = false ∧ (occurrence rule i).After rule.Until = true)) →
      (∀ i : Nat, j ≤ i → i < j + calls.length → rule.Fits i) →
      StepSeq calls (rule.after j) = some ((List.range calls.length).map fun i =>
        { ok := true, out := occurrence rule ((j + i : Nat) : Int),
          iter := rule.after (j + i + 1) }) := by
  intro calls
  induction calls with
  | nil => intro j _ _ _ _; rfl
  | cons c rest ih =>
    intro j hfuel hcount huntil hfits
    obtain ⟨fuel, t⟩ := c
    have hs := Step_plain rule hf hn hby hex hns hfix j fuel
      (hfuel (fuel, t) (List.mem_cons_self _ _)) (hfits j (le_refl _) (by simp)) t
    have hc : ¬ (0 < rule.Count ∧ rule.Count ≤ j) := by
      simp only [List.length_cons] at hcount
      push_cast at hcount
      omega
    have hu := huntil j (le_refl _) (by simp)
    rw [if_neg hc, if_neg hu] at hs
    have ih₁ := ih (j + 1) (fun c hc => hfuel c (List.mem_cons_of_mem _ hc))
      (by
        simp only [List.length_cons] at hcount
        rcases hcount with h | h
        · exact Or.inl h
        · exact Or.inr (by push_cast at h ⊢; omega))
      (fun i h1 h2 => huntil i (by omega) (by simp only [List.length_cons]; omega))
      (fun i h1 h2 => hfits i (by omega) (by simp only [List.length_cons]; omega))
    simp only [StepSeq, hs, ih₁, List.length_cons, List.range_succ_eq_map, List.map_cons,
      List.map_map, Option.some.injEq, List.cons.injEq]
    refine ⟨rfl, ?_⟩
    apply List.map_congr_left
    intro i _
    simp only [Function.comp_apply]
    have e1 : j + 1 + i = j + Nat.succ i := by omega
    rw [e1]

theorem yielded_map_true (f : Nat → Time) (g : Nat → RecurrenceIterator) :
    ∀ l : List Nat,
      yielded (l.map fun i => { ok := true, out := f i, iter := g i }) = l.map f := by
  intro l
  induction l with
  | nil => rfl
  | cons a rest ih =>
    rw [List.map_cons, yielded_cons, ih]
    rfl

/-- C11 (amended). For a rule at `DAILY`, `HOURLY` or `MINUTELY` with `Interval ≥ 1`, no
BY-part and no exception, whose anchor has whole seconds in a zone without transitions,
on a fresh iterator (no windows, no limit): in the state after `k` deliveries, as long
as `k * Interval` hours or minutes fit a `time.Duration` (are less than `2 ^ 63`
nanoseconds; no bound at `DAILY`), a call of `Step` with fuel for one pass takes
exactly one period and returns true with the anchor moved by `k * Interval` days, hours
or minutes, unless `Count` is reached (the call returns false at once) or that
timestamp is after `Until` (the call returns false); so as long as neither stops them
and the durations fit, `m` calls deliver the anchor moved by `0, 1, ..., m - 1` times
the interval, one period to a call. -/
theorem plain_frequency_yields_multiples (rule : RecurringRule)
    (hf : rule.Frequency = .DAILY ∨ rule.Frequency = .HOURLY ∨ rule.Frequency = .MINUTELY)
    (hn : 1 ≤ rule.Interval) (hby : rule.NoByParts) (hex : rule.ExceptionsToRule = [])
    (hns : rule.DtStart.nsec = 0) (hfix : rule.DtStart.loc.Fixed) :
    rule.after 0 = rule.Iterator
      ∧ (rule.Frequency = .DAILY → ∀ k : Int, rule.Fits k)
      ∧ (∀ k : Int, 0 ≤ k → rule.Fits k →
          getNextDateByFreqAndInterval rule.DtStart rule.Frequency (rule.Interval * k)
            = occurrence rule k)
      ∧ (∀ (k fuel : Nat) (t : Time), 1 ≤ fuel → rule.Fits k →
          Step fuel (rule.after k) t = some
            (if 0 < rule.Count ∧ rule.Count ≤ k then
              { ok := false, out := t, iter := rule.after k }
            else if rule.Until.Equal EmptyTime = false
              ∧ (occurrence rule k).After rule.Until = true
            then { ok := false, out := occurrence rule k,
                   iter := { rule.after k with iterCounter := k + 1 } }
            else { ok := true, out := occurrence rule k, iter := rule.after (k + 1) }))
      ∧ (∀ calls : List (Nat × Time), (∀ c ∈ calls, 1 ≤ c.1) →
          (rule.Count ≤ 0 ∨ (calls.length : Int) ≤ rule.Count) →
          (∀ i : Nat, i < calls.length →
            ¬ (rule.Until.Equal EmptyTime = false
              ∧ (occurrence rule i).After rule.Until = true)) →
          (∀ i : Nat, i < calls.length → rule.Fits i) →
          ∃ rs, StepSeq calls rule.Iterator = some rs
            ∧ yielded rs = (List.range calls.length).map (fun i : Nat => occurrence rule i)
            ∧ ∀ r ∈ rs, r.ok = true ∧ r.iter.iterCounter = r.iter.ReturnCounter) := by
  refine ⟨rfl, ?_, fun k hk hfit => periodRoot_plain rule hf hn hns hfix k hk hfit,
    fun k fuel t h hfit => Step_plain rule hf hn hby hex hns hfix k fuel h hfit t, ?_⟩
  · intro hd k
    unfold RecurringRule.Fits
    rw [hd]
    simp only [FrequencyValue.nanoseconds, zero_mul]
    norm_num
  intro calls hfuel hcount huntil hfits
  have h := StepSeq_plain rule hf hn hby hex hns hfix calls 0 hfuel
    (by simpa using hcount) (fun i _ hi => huntil i (by omega))
    (fun i _ hi => hfits i (by omega))
  refine ⟨_, h, ?_, ?_⟩
  · have := yielded_map_true (fun i => occurrence rule ((0 + i : Nat) : Int))
      (fun i => rule.after (0 + i + 1)) (List.range calls.length)
    simp only [Nat.zero_add] at this ⊢
    exact this
  · intro r hr
    obtain ⟨i, _, hi⟩ := List.mem_map.mp hr
    subst hi
    exact ⟨rfl, rfl⟩

/-- C11 (amended), at the rule of `Test_Interval_And_Count` with the anchor in UTC (every
10 days from 1997-09-02 09:00, five times): in the state after two deliveries the call
delivers 1997-09-22 09:00. The last part is the run of the test itself, in New York
time: five timestamps 10 days apart, then false. -/
theorem plain_frequency_yields_multiples_witness :
    Step 1 (dailyEvery10.after 2) EmptyTime
        = some { ok := true, out := Date 1997 9 22 9 0 0 0 .utc, iter := dailyEvery10.after 3 }
      ∧ (drain 1 10 dailyEvery10NewYork.Iterator EmptyTime).map (List.map StepResult.seen)
        = some [(true, Date 1997 9 2 9 0 0 0 newYork1997, 1),
            (true, Date 1997 9 12 9 0 0 0 newYork1997, 2),
            (true, Date 1997 9 22 9 0 0 0 newYork1997, 3),
            (true, Date 1997 10 2 9 0 0 0 newYork1997, 4),
            (true, Date 1997 10 12 9 0 0 0 newYork1997, 5),
            (false, Date 1997 10 12 9 0 0 0 newYork1997, 5)] :=
  ⟨((plain_frequency_yields_multiples dailyEvery10 (Or.inl rfl) (by decide)
      ⟨rfl, rfl, rfl, rfl, rfl, rfl, rfl, rfl, rfl⟩ rfl rfl trivial).2.2.2.1 2 1 EmptyTime
      (le_refl 1) (by decide!)).trans (by decide!), by decide!⟩

/-- C11, the claim as it stands fails once `k * Interval` hours or minutes no longer fit
a `time.Duration`, an `int64` count of nanoseconds. At `FREQ=MINUTELY;INTERVAL=153722868`
from 1997-09-02 09:00 UTC one interval is just above `2 ^ 63` nanoseconds: the product
`time.Minute * time.Duration(interval)` wraps, the root of period 1 is in the year 1705,
and the second timestamp delivered is 1997-09-02 09:23, found in period 32, not the
anchor moved by 153722868 minutes. The same at `FREQ=HOURLY;INTERVAL=2562048`, where
the second timestamp delivered is 1997-09-03 10:00:51, found in period 118. -/
theorem interval_wraps_after_292_years :
    ¬ minutelyEvery292Years.Fits 1
      ∧ (periodRoot minutelyEvery292Years 1).Year = 1705
      ∧ (occurrence minutelyEvery292Years 1).Year = 2289
      ∧ (StepSeq [(1, EmptyTime), (32, EmptyTime)] minutelyEvery292Years.Iterator).map
          (List.map fun r => (r.ok, r.out, r.iter.iterCounter))
        = some [(true, Date 1997 9 2 9 0 0 0 .utc, 1), (true, Date 1997 9 2 9 23 0 0 .utc, 33)]
      ∧ (StepSeq [(1, EmptyTime), (118, EmptyTime)] hourlyEvery292Years.Iterator).map
          (List.map fun r => (r.ok, r.out, r.iter.iterCounter))
        = some [(true, Date 1997 9 2 9 0 0 0 .utc, 1),
            (true, Date 1997 9 3 10 0 51 0 .utc, 119)] := by
  refine ⟨by decide!, by decide!, by decide!, by decide!, by decide!⟩

end RRule

namespace RRule

/-! ## The candidates and the survivors of a week -/

theorem matchByDay_no_offset (values : List ForDay) (d : Time) (cc cindex : Int)
    (h : ∀ fd ∈ values, fd.Offset = 0) :
    matchByDay values d cc cindex = values.any fun v => v.Weekday == d.Weekday := by
  unfold matchByDay
  induction values with
  | nil => rfl
  | cons v rest ih =>
    have hv := h v (List.mem_cons_self _ _)
    simp only [List.any_cons]
    rw [ih fun fd hfd => h fd (List.mem_cons_of_mem _ hfd)]
    congr 1
    by_cases hw : v.Weekday = d.Weekday <;> simp [hw, hv]

theorem finalSet_weekly (rule : RecurringRule) (hw : rule.WeeklyByDay) (cc : Int) :
    ∀ (l : List Time) (cindex : Int), finalSet rule cc cindex l = l.filter (onByDay rule) := by
  obtain ⟨hf, hne, hoff, b1, b2, b3, b4, b5, b6, b7, _, _⟩ := hw
  have hlen : rule.ByDay.length > 0 := List.length_pos.mpr hne
  have hlen' : (rule.ByDay.length == 0) = false := by
    simp only [beq_eq_false_iff_ne, ne_eq]
    omega
  have hm : ∀ (cindex : Int) (d : Time),
      firstFinalMatch (candidateMatches rule cc cindex d) = onByDay rule d := by
    intro cindex d
    unfold candidateMatches
    simp only [b1, b2, b3, b4, b5, b6, b7, List.length_nil, gt_iff_lt, lt_self_iff_false,
      if_false, hlen, if_true, hf, hlen', Bool.false_and, Bool.false_eq_true,
      List.nil_append, List.append_nil, Bool.and_false, beq_self_eq_true, Bool.and_true,
      Bool.true_and, reduceCtorEq, decide_False, beq_iff_eq]
    rw [matchByDay_no_offset _ _ _ _ hoff]
    simp [firstFinalMatch, onByDay]
  intro l
  induction l with
  | nil => intro cindex; rfl
  | cons d rest ih =>
    intro cindex
    simp only [finalSet, hm, List.filter_cons]
    rw [ih (cindex + 1)]


theorem clock_eq_iff (d t : Time) :
    (d.Hour = t.Hour ∧ d.Minute = t.Minute ∧ d.Second = t.Second)
      ↔ d.abs % 86400 = t.abs % 86400 := by
  constructor
  · rintro ⟨h1, h2, h3⟩
    rw [← clock_sum d, ← clock_sum t, h1, h2, h3]
  · intro h
    unfold Time.Hour Time.Minute Time.Second
    refine ⟨by rw [h], ?_, ?_⟩ <;> omega

end RRule

namespace RRule

/-! ## `IsLeapYear` -/

/-- C30. For every integer year, negative years included, `IsLeapYear` returns 1 when
the year is divisible by 4 and either not divisible by 100 or divisible by 400, and 0
otherwise; so 1600, 2000 and 2400 give 1 and 1700, 1800, 1900 and 2100 give 0. -/
theorem IsLeapYear_is_the_gregorian_rule :
    (∀ y : Int, IsLeapYear y = if 4 ∣ y ∧ (¬ 100 ∣ y ∨ 400 ∣ y) then 1 else 0)
      ∧ [1600, 2000, 2400].map IsLeapYear = [1, 1, 1]
      ∧ [1700, 1800, 1900, 2100].map IsLeapYear = [0, 0, 0, 0] := by
  refine ⟨?_, by decide, by decide⟩
  intro y
  unfold IsLeapYear
  have h4 : (y.tmod 4 == 0) = decide ((4 : Int) ∣ y) := by
    rw [Bool.eq_iff_iff]
    simp only [beq_iff_eq, decide_eq_true_eq]
    exact Int.dvd_iff_tmod_eq_zero.symm
  have h100 : (y.tmod 100 != 0) = decide (¬ (100 : Int) ∣ y) := by
    rw [Bool.eq_iff_iff]
    simp only [bne_iff_ne, ne_eq, decide_eq_true_eq]
    exact not_congr Int.dvd_iff_tmod_eq_zero.symm
  have h400 : (y.tmod 400 == 0) = decide ((400 : Int) ∣ y) := by
    rw [Bool.eq_iff_iff]
    simp only [beq_iff_eq, decide_eq_true_eq]
    exact Int.dvd_iff_tmod_eq_zero.symm
  rw [h4, h100, h400]
  by_cases a : (4 : Int) ∣ y <;> by_cases b : (100 : Int) ∣ y <;> by_cases c : (400 : Int) ∣ y
    <;> simp [a, b, c]

end RRule

namespace RRule

/-! ## How `Parse` fails -/

theorem parseLoop_one_line (db : TzDatabase) (rr : RecurringRule) :
    ∀ (s chunk : List Char), '\n' ∉ s →
      parseLoop db s chunk rr = .ok (rr, chunk.reverse ++ s) := by
  intro s
  induction s with
  | nil => intro chunk _; simp [parseLoop]
  | cons c rest ih =>
    intro chunk h
    have hc : (c == '\n') = false := by
      simp only [beq_eq_false_iff_ne, ne_eq]
      intro hc
      exact h (by rw [hc]; exact List.mem_cons_self _ _)
    simp only [parseLoop, hc, Bool.false_eq_true, if_false]
    rw [ih (c :: chunk) fun hm => h (List.mem_cons_of_mem _ hm)]
    simp

/-- A chunk whose prefix is none of `RRULE:`, `DTSTART;`, `EXDATE;` panics. -/
theorem handle_rule_chunk_unknown (db : TzDatabase) (rr : RecurringRule) (value : List Char)
    (h1 : stringsHasPrefix value "RRULE:".toList = false)
    (h2 : stringsHasPrefix value "DTSTART;".toList = false)
    (h3 : stringsHasPrefix value "EXDATE;".toList = false) :
    rr.handle_rule_chunk db value = .error .panic := by
  unfold RecurringRule.handle_rule_chunk
  simp only [h1, h2, h3, Bool.false_eq_true, if_false]

theorem weekdayFromShort_unknown (s : List Char) (h : s ∉ weekdayNames) :
    weekdayFromShort s = .error .panic := by
  unfold weekdayFromShort
  simp only [weekdayNames, List.mem_cons, List.mem_singleton, List.not_mem_nil, or_false,
    not_or] at h
  obtain ⟨a1, a2, a3, a4, a5, a6, a7⟩ := h
  rw [if_neg a1, if_neg a2, if_neg a3, if_neg a4, if_neg a5, if_neg a6, if_neg a7]

theorem handle_part_freq_unknown (rr : RecurringRule) (value : List Char)
    (h : value ∉ frequencyNames) :
    rr.handle_part_freq value = .error (.error .invalidFreq) := by
  unfold RecurringRule.handle_part_freq
  simp only [frequencyNames, List.mem_cons, List.mem_singleton, List.not_mem_nil, or_false,
    not_or] at h
  obtain ⟨a1, a2, a3, a4, a5, a6, a7⟩ := h
  rw [if_neg a1, if_neg a2, if_neg a3, if_neg a4, if_neg a5, if_neg a6, if_neg a7]

/-- A key that no case of `handle_recur_rule_part` names leaves the rule as it is and
is no error. -/
theorem handle_recur_rule_part_unknown (rr : RecurringRule) (key value : List Char)
    (h : key ∉ knownKeys) : rr.handle_recur_rule_part key value = .ok rr := by
  unfold RecurringRule.handle_recur_rule_part
  simp only [knownKeys, List.mem_cons, List.mem_singleton, List.not_mem_nil, or_false,
    not_or] at h
  obtain ⟨a1, a2, a3, a4, a5, a6, a7, a8, a9, a10, a11, a12, a13, a14⟩ := h
  rw [if_neg a1, if_neg a2, if_neg a3, if_neg a4]
  have hl : (decide (key = "BYSECOND".toList) || decide (key = "BYMINUTE".toList)
      || decide (key = "BYHOUR".toList) || decide (key = "BYMONTHDAY".toList)
      || decide (key = "BYYEARDAY".toList) || decide (key = "BYWEEKNO".toList)
      || decide (key = "BYMONTH".toList) || decide (key = "BYSETPOS".toList)) = false := by
    simp only [a5, a6, a7, a8, a9, a10, a11, a12, decide_False, Bool.or_self]
  rw [if_neg (by rw [hl]; decide), if_neg a13, if_neg a14]

theorem any_eq_false_iff_bounds (l : List Int) (lo hi : Int) :
    l.any (fun item => decide (item < lo) || decide (item > hi)) = false
      ↔ ∀ item ∈ l, lo ≤ item ∧ item ≤ hi := by
  rw [List.any_eq_false]
  constructor
  · intro h item hi'
    have := h item hi'
    simp only [Bool.or_eq_true, decide_eq_true_eq, not_or, not_lt, gt_iff_lt] at this
    exact this
  · intro h item hi'
    have := h item hi'
    simp only [Bool.or_eq_true, decide_eq_true_eq, not_or, not_lt, gt_iff_lt]
    exact this

/-- What `passed_rfc_checks` decides. -/
theorem passed_rfc_checks_iff (rr : RecurringRule) :
    rr.passed_rfc_checks = true ↔ rr.InCheckedBounds := by
  have h1 := any_eq_false_iff_bounds rr.BySecond 0 60
  have h2 := any_eq_false_iff_bounds rr.ByMinute 0 59
  have h3 := any_eq_false_iff_bounds rr.ByHour 0 23
  have h4 : rr.ByDay.any (fun item => decide (item.Offset < -53) || decide (item.Offset > 53))
      = false ↔ ∀ item ∈ rr.ByDay, -53 ≤ item.Offset ∧ item.Offset ≤ 53 := by
    rw [List.any_eq_false]
    constructor
    · intro h item hi'
      have := h item hi'
      simp only [Bool.or_eq_true, decide_eq_true_eq, not_or, not_lt, gt_iff_lt] at this
      exact this
    · intro h item hi'
      have := h item hi'
      simp only [Bool.or_eq_true, decide_eq_true_eq, not_or, not_lt, gt_iff_lt]
      exact this
  unfold RecurringRule.InCheckedBounds
  rw [← h1, ← h2, ← h3, ← h4]
  unfold RecurringRule.passed_rfc_checks
  cases rr.BySecond.any (fun item => decide (item < 0) || decide (item > 60))
    <;> cases rr.ByMinute.any (fun item => decide (item < 0) || decide (item > 59))
    <;> cases rr.ByHour.any (fun item => decide (item < 0) || decide (item > 23))
    <;> cases rr.ByDay.any (fun item => decide (item.Offset < -53) || decide (item.Offset > 53))
    <;> simp


theorem Parse_one_line_unknown (db : TzDatabase) (s : List Char) (hn : '\n' ∉ s)
    (hne : s ≠ [])
    (h1 : stringsHasPrefix s "RRULE:".toList = false)
    (h2 : stringsHasPrefix s "DTSTART;".toList = false)
    (h3 : stringsHasPrefix s "EXDATE;".toList = false) :
    Parse db s = .error .panic := by
  unfold Parse
  simp only [parseLoop_one_line db _ s [] hn, List.reverse_nil, List.nil_append]
  have hl : s.length > 0 := List.length_pos.mpr hne
  simp only [hl, if_true, handle_rule_chunk_unknown db _ s h1 h2 h3]

theorem readZoneParams_unknown (db : TzDatabase) (item : List Char) (rest : List (List Char))
    (loc : Location) (key value : List Char) (hs : stringsSplitN2 item '=' = [key, value])
    (hk : key ≠ ['T', 'Z', 'I', 'D']) :
    readZoneParams db (item :: rest) loc = .error .panic := by
  simp only [readZoneParams, hs, hk, if_false]

theorem LoadLocation_unknown (db : TzDatabase) (name : List Char) (h1 : name ≠ [])
    (h2 : name ≠ ['U', 'T', 'C']) (h3 : ∀ l ∈ db, l.name ≠ name) :
    LoadLocation db name = .error (.error .unknownZone) := by
  unfold LoadLocation
  have hc : (decide (name = []) || decide (name = ['U', 'T', 'C'])) = false := by
    simp only [h1, h2, decide_False, Bool.or_self]
  have hf : db.find? (fun l => l.name == name) = none := by
    rw [List.find?_eq_none]
    intro l hl
    simp only [beq_iff_eq]
    exact h3 l hl
  simp only [hc, Bool.false_eq_true, if_false, hf]

theorem ParseDateTime_short (s : List Char) (loc : Location) (h : s.length < 8) :
    ParseDateTime s loc = .error (.error .badFormat) := by
  unfold ParseDateTime
  simp only [h, if_true]
  rfl

theorem internalParser_out_of_bounds (rr : RecurringRule) (h : ¬ rr.InCheckedBounds) :
    rr.internalParser = .error (.error .rfcCheck) := by
  unfold RecurringRule.internalParser
  have hp : rr.passed_rfc_checks = false := by
    cases hq : rr.passed_rfc_checks with
    | false => rfl
    | true => exact absurd ((passed_rfc_checks_iff rr).mp hq) h
  simp [hp]

/-- C21 (what the code does). `Parse` reports some failures by value and panics on
others. It panics on a line with an unknown prefix (`panic("Unknown control")`), on an
unknown weekday name in `WKST` or `BYDAY` (`panic("Unknown Day")`), on a part without
`=` (the index `args[1]` is out of range) and on the parameter `VALUE=DATE` of a
`DTSTART` line; an invalid `FREQ`, a malformed number and an unknown zone come back as
error values. In general: `handle_rule_chunk`, and `Parse` on a text of one line,
panic on every line whose prefix is none of `RRULE:`, `DTSTART;`, `EXDATE;`;
`weekdayFromShort` panics on every name that is none of the seven; the parameter loop
of `ParseDateTimeChunks` panics on every parameter whose key is not `TZID`; while a
`FREQ` that is no frequency, a `TZID` that the platform does not know, a timestamp
shorter than 8 characters and a rule that fails `passed_rfc_checks` are errors by
value. -/
theorem parse_panics_on_malformed_text :
    Parse [] "FOO:bar".toList = .error .panic
      ∧ Parse [] "RRULE:FREQ=WEEKLY;WKST=XX".toList = .error .panic
      ∧ Parse [] "RRULE:FREQ=WEEKLY;BYDAY=XX".toList = .error .panic
      ∧ Parse [] "RRULE:FREQ".toList = .error .panic
      ∧ Parse [] "DTSTART;VALUE=DATE:19970902".toList = .error .panic
      ∧ Parse [] "RRULE:FREQ=BOGUS".toList = .error (.error .invalidFreq)
      ∧ Parse [] "RRULE:FREQ=DAILY;COUNT=x".toList = .error (.error .numError)
      ∧ Parse [] "DTSTART;TZID=Nowhere/Land:19970902T090000".toList
        = .error (.error .unknownZone)
      ∧ (∀ (db : TzDatabase) (rr : RecurringRule) (value : List Char),
        stringsHasPrefix value "RRULE:".toList = false →
        stringsHasPrefix value "DTSTART;".toList = false →
        stringsHasPrefix value "EXDATE;".toList = false →
        rr.handle_rule_chunk db value = .error .panic)
      ∧ (∀ (db : TzDatabase) (s : List Char), '\n' ∉ s → s ≠ [] →
        stringsHasPrefix s "RRULE:".toList = false →
        stringsHasPrefix s "DTSTART;".toList = false →
        stringsHasPrefix s "EXDATE;".toList = false →
        Parse db s = .error .panic)
      ∧ (∀ s : List Char, s ∉ weekdayNames → weekdayFromShort s = .error .panic)
      ∧ (∀ (db : TzDatabase) (item : List Char) (rest : List (List Char)) (loc : Location)
          (key value : List Char), stringsSplitN2 item '=' = [key, value] →
        key ≠ ['T', 'Z', 'I', 'D'] → readZoneParams db (item :: rest) loc = .error .panic)
      ∧ (∀ (rr : RecurringRule) (value : List Char), value ∉ frequencyNames →
        rr.handle_part_freq value = .error (.error .invalidFreq))
      ∧ (∀ (db : TzDatabase) (name : List Char), name ≠ [] → name ≠ ['U', 'T', 'C'] →
        (∀ l ∈ db, l.name ≠ name) → LoadLocation db name = .error (.error .unknownZone))
      ∧ (∀ (s : List Char) (loc : Location), s.length < 8 →
        ParseDateTime s loc = .error (.error .badFormat))
      ∧ (∀ rr : RecurringRule, ¬ rr.InCheckedBounds →
        rr.internalParser = .error (.error .rfcCheck)) :=
  ⟨rfl, rfl, rfl, rfl, rfl, rfl, rfl, rfl,
    handle_rule_chunk_unknown, Parse_one_line_unknown, weekdayFromShort_unknown,
    readZoneParams_unknown, handle_part_freq_unknown, LoadLocation_unknown,
    ParseDateTime_short, internalParser_out_of_bounds⟩

/-- C22 (what the code does). The `switch` of `handle_recur_rule_part` has no default
case: a key that none of its cases names changes nothing and is no error, so `Parse`
reads `RRULE:FREQ=DAILY;FOO=1` as it reads `RRULE:FREQ=DAILY`. -/
theorem unknown_key_is_ignored :
    (∀ (rr : RecurringRule) (key value : List Char), key ∉ knownKeys →
        rr.handle_recur_rule_part key value = .ok rr)
      ∧ Parse [] "RRULE:FREQ=DAILY;FOO=1".toList = .ok (plainRule EmptyTime .DAILY)
      ∧ Parse [] "RRULE:FREQ=DAILY".toList = .ok (plainRule EmptyTime .DAILY) :=
  ⟨handle_recur_rule_part_unknown, rfl, rfl⟩

theorem toInt16_of_fits (v : Int) (h0 : -32768 ≤ v) (h1 : v ≤ 32767) : toInt16 v = v := by
  unfold toInt16
  omega

/-- C23 (what the code does). The values of an integer BY-list are cut to 16 bits
(`int16(iv)`) before `passed_rfc_checks` reads them: `BYHOUR=65545` becomes 9 and
`Parse` returns a rule, while `BYHOUR=24`, `BYSECOND=61`, `BYMINUTE=60` and the `BYDAY`
offsets 99 and -54 are refused. A `BYDAY` offset of three digits panics, the third
digit being read as the start of the weekday name. A value that fits in 16 bits is
kept as it is, and the check then refuses every rule with a `BYSECOND` outside 0..60,
a `BYMINUTE` outside 0..59, a `BYHOUR` outside 0..23 or a `BYDAY` offset outside
-53..53. -/
theorem wide_values_wrap_before_the_check :
    toInt16 65545 = 9
      ∧ Parse [] "RRULE:FREQ=DAILY;BYHOUR=65545".toList = .ok dailyAtNine
      ∧ Parse [] "RRULE:FREQ=DAILY;BYHOUR=24".toList = .error (.error .rfcCheck)
      ∧ Parse [] "RRULE:FREQ=DAILY;BYSECOND=61".toList = .error (.error .rfcCheck)
      ∧ Parse [] "RRULE:FREQ=DAILY;BYMINUTE=60".toList = .error (.error .rfcCheck)
      ∧ Parse [] "RRULE:FREQ=MONTHLY;BYDAY=99MO".toList = .error (.error .rfcCheck)
      ∧ Parse [] "RRULE:FREQ=MONTHLY;BYDAY=-54MO".toList = .error (.error .rfcCheck)
      ∧ Parse [] "RRULE:FREQ=MONTHLY;BYDAY=100MO".toList = .error .panic
      ∧ (∀ v : Int, -32768 ≤ v → v ≤ 32767 → toInt16 v = v)
      ∧ (∀ rr : RecurringRule, ¬ rr.InCheckedBounds →
          rr.internalParser = .error (.error .rfcCheck)) :=
  ⟨rfl, rfl, rfl, rfl, rfl, rfl, rfl, rfl, toInt16_of_fits, internalParser_out_of_bounds⟩

/-- C24 (what the code does). The method `passed_rfc_checks` reads `BySecond`,
`ByMinute`, `ByHour` and the offsets of `ByDay` and nothing else: it passes exactly
the rules within those four bounds, whatever `ByMonthDay`, `ByYearDay`, `ByWeekNo`,
`ByMonth` and `BySetPos` hold. `Parse` returns a rule for a text with `BYMONTH=13`,
`BYYEARDAY=400,0`, `BYWEEKNO=54`, `BYSETPOS=0` and `BYMONTHDAY=32`. -/
theorem unchecked_by_parts_pass :
    (∀ rr : RecurringRule, rr.passed_rfc_checks = true ↔ rr.InCheckedBounds)
      ∧ (∀ (rr : RecurringRule) (md yd wn mo sp : List Int),
          RecurringRule.passed_rfc_checks
              { rr with ByMonthDay := md, ByYearDay := yd, ByWeekNo := wn, ByMonth := mo,
                        BySetPos := sp }
            = rr.passed_rfc_checks)
      ∧ Parse []
          "RRULE:FREQ=DAILY;BYMONTH=13;BYYEARDAY=400,0;BYWEEKNO=54;BYSETPOS=0;BYMONTHDAY=32".toList
        = .ok outOfBoundsRule :=
  ⟨passed_rfc_checks_iff, fun _ _ _ _ _ _ => rfl, rfl⟩

end RRule

namespace RRule

/-! ## Texts of digits and `strconv.ParseInt` -/

theorem isDigitByte_toNat {c : Char} (h : isDigitByte c = true) :
    48 ≤ c.toNat ∧ c.toNat ≤ 57 := by
  unfold isDigitByte at h
  simp only [Bool.and_eq_true, decide_eq_true_eq] at h
  obtain ⟨h1, h2⟩ := h
  have e1 : ('0' : Char).toNat = 48 := rfl
  have e2 : ('9' : Char).toNat = 57 := rfl
  rw [Char.le_def] at h1 h2
  constructor
  · rw [← e1]
    exact h1
  · rw [← e2]
    exact h2

theorem AllDigits.tail {c : Char} {l : List Char} (h : AllDigits (c :: l)) : AllDigits l :=
  fun x hx => h x (List.mem_cons_of_mem _ hx)

theorem AllDigits.head {c : Char} {l : List Char} (h : AllDigits (c :: l)) :
    isDigitByte c = true :=
  h c (List.mem_cons_self _ _)

theorem AllDigits.append {l₁ l₂ : List Char} (h₁ : AllDigits l₁) (h₂ : AllDigits l₂) :
    AllDigits (l₁ ++ l₂) := by
  intro c hc
  rcases List.mem_append.mp hc with h | h
  · exact h₁ c h
  · exact h₂ c h

theorem digitsValue_eq :
    ∀ (l : List Char) (acc : Nat), AllDigits l → digitsValue l acc = some (decimalFrom acc l) := by
  intro l
  induction l with
  | nil => intro acc _; rfl
  | cons c rest ih =>
    intro acc h
    simp only [digitsValue, h.head, if_true]
    rw [ih _ h.tail]
    rfl

theorem decimalFrom_append (l₁ l₂ : List Char) (acc : Nat) :
    decimalFrom acc (l₁ ++ l₂) = decimalFrom (decimalFrom acc l₁) l₂ := by
  unfold decimalFrom
  rw [List.foldl_append]

/-- A text of digits denotes a number below the power of ten of its length. -/
theorem decimalFrom_lt :
    ∀ (l : List Char) (acc : Nat), AllDigits l →
      decimalFrom acc l < (acc + 1) * 10 ^ l.length := by
  intro l
  induction l with
  | nil => intro acc _; simp [decimalFrom]
  | cons c rest ih =>
    intro acc h
    have hc := isDigitByte_toNat h.head
    have e0 : ('0' : Char).toNat = 48 := rfl
    have hstep : decimalFrom acc (c :: rest) = decimalFrom (acc * 10 + (c.toNat - 48)) rest := by
      unfold decimalFrom
      rw [List.foldl_cons, e0]
    rw [hstep]
    have h1 := ih (acc * 10 + (c.toNat - 48)) h.tail
    have h2 : acc * 10 + (c.toNat - 48) + 1 ≤ (acc + 1) * 10 := by omega
    calc decimalFrom (acc * 10 + (c.toNat - 48)) rest
        < (acc * 10 + (c.toNat - 48) + 1) * 10 ^ rest.length := h1
      _ ≤ (acc + 1) * 10 * 10 ^ rest.length := Nat.mul_le_mul_right _ h2
      _ = (acc + 1) * 10 ^ (c :: rest).length := by
        rw [List.length_cons, pow_succ]
        ring

theorem decimal_lt (l : List Char) (h : AllDigits l) : decimal l < 10 ^ l.length := by
  have := decimalFrom_lt l 0 h
  simpa [decimal] using this

/-- The function `strconv.ParseInt` on a non-empty text of digits: the number the
text denotes, when it fits the size. -/
theorem strconvParseInt_digits (l : List Char) (bitSize : Nat) (h : AllDigits l)
    (hne : l ≠ []) (hfit : (decimal l : Int) < 2 ^ (bitSize - 1)) :
    strconvParseInt l bitSize = .ok (decimal l : Int) := by
  cases l with
  | nil => exact absurd rfl hne
  | cons c rest =>
    have hc := isDigitByte_toNat h.head
    have hp : c ≠ '+' := by
      intro e
      rw [e] at hc
      have : ('+' : Char).toNat = 43 := rfl
      omega
    have hm : c ≠ '-' := by
      intro e
      rw [e] at hc
      have : ('-' : Char).toNat = 45 := rfl
      omega
    have hbody : (match c :: rest with
        | '+' :: r => r
        | '-' :: r => r
        | _ => c :: rest) = c :: rest := by
      split
      · rename_i heq
        exact absurd (List.cons.inj heq).1 hp
      · rename_i heq
        exact absurd (List.cons.inj heq).1 hm
      · rfl
    have hneg : (match c :: rest with
        | '-' :: _ => true
        | _ => false) = false := by
      split
      · rename_i heq
        exact absurd (List.cons.inj heq).1 hm
      · rfl
    unfold strconvParseInt
    simp only [hbody, hneg, digitsValue_eq _ 0 h, Bool.false_eq_true, if_false]
    have hlo : ¬ ((decimalFrom 0 (c :: rest) : Int) < -(2 ^ (bitSize - 1) : Int)) := by
      have : (0 : Int) ≤ (decimalFrom 0 (c :: rest) : Int) := Int.natCast_nonneg _
      have hpos : (0 : Int) < 2 ^ (bitSize - 1) := by positivity
      omega
    have hhi : ¬ ((decimalFrom 0 (c :: rest) : Int) ≥ (2 ^ (bitSize - 1) : Int)) := by
      have : (decimal (c :: rest) : Int) < 2 ^ (bitSize - 1) := hfit
      unfold decimal at this
      omega
    simp only [hlo, hhi, decide_False, Bool.or_self, Bool.false_eq_true, if_false]
    rfl

end RRule

namespace RRule

/-! ## `ParseDuration` -/

theorem wrap64_of_fits {v : Int} (h0 : -(2 ^ 63) ≤ v) (h1 : v < 2 ^ 63) : wrap64 v = v := by
  unfold wrap64
  have e63 : (2 : Int) ^ 63 = 9223372036854775808 := by norm_num
  have e64 : (2 : Int) ^ 64 = 18446744073709551616 := by norm_num
  rw [e63] at h0 h1 ⊢
  rw [e64]
  omega

theorem unicodeIsDigit_of_digit (table : Char → Bool) {c : Char} (h : isDigitByte c = true) :
    unicodeIsDigit table c = true := by
  have hc := isDigitByte_toNat h
  unfold unicodeIsDigit
  rw [if_pos (by omega)]
  exact h

theorem durationLoop_digits (table : Char → Bool) :
    ∀ (ds rest chunk : List Char) (acc : Int), AllDigits ds →
      durationLoop table (ds ++ rest) chunk acc = durationLoop table rest (chunk ++ ds) acc := by
  intro ds
  induction ds with
  | nil => intro rest chunk acc _; simp
  | cons c tl ih =>
    intro rest chunk acc h
    simp only [List.cons_append, durationLoop, unicodeIsDigit_of_digit table h.head, if_true]
    simp only [List.append_eq]
    rw [ih rest (chunk ++ [c]) acc h.tail]
    simp

theorem durationLoop_T (table : Char → Bool) (rest chunk : List Char) (acc : Int) :
    durationLoop table ('T' :: rest) chunk acc = durationLoop table rest chunk acc := by
  have h : unicodeIsDigit table 'T' = false := rfl
  simp only [durationLoop, h, Bool.false_eq_true, if_false, beq_self_eq_true, if_true]

/-- The seconds of one unit of a designator. -/
theorem durationLoop_group (table : Char → Bool) (c : Char) (unit : Int)
    (hc : (c = 'W' ∧ unit = 604800) ∨ (c = 'D' ∧ unit = 86400) ∨ (c = 'H' ∧ unit = 3600)
      ∨ (c = 'M' ∧ unit = 60) ∨ (c = 'S' ∧ unit = 1))
    (ds rest : List Char) (acc : Int) (h : AllDigits ds) (h0 : 0 ≤ acc)
    (hfit : acc + decimal ds * unit < 2 ^ 63) :
    durationLoop table (durationGroup ds c ++ rest) [] acc
      = durationLoop table rest [] (acc + decimal ds * unit) := by
  unfold durationGroup
  by_cases hne : ds = []
  · subst hne
    simp [decimal, decimalFrom]
  · rw [if_neg hne, List.append_assoc, durationLoop_digits table ds _ [] acc h]
    have e63 : (2 : Int) ^ 63 = 9223372036854775808 := by norm_num
    have hv0 : (0 : Int) ≤ (decimal ds : Int) := Int.natCast_nonneg _
    have hu : 1 ≤ unit := by
      rcases hc with ⟨_, h⟩ | ⟨_, h⟩ | ⟨_, h⟩ | ⟨_, h⟩ | ⟨_, h⟩ <;> omega
    have hvu : (decimal ds : Int) ≤ decimal ds * unit := by nlinarith
    have hparse : strconvParseInt ds 64 = .ok (decimal ds : Int) :=
      strconvParseInt_digits ds 64 h hne (by
        have : (2 : Int) ^ (64 - 1) = 9223372036854775808 := by norm_num
        rw [this]
        rw [e63] at hfit
        omega)
    have w : ∀ x : Int, 0 ≤ x → x ≤ acc + decimal ds * unit → wrap64 x = x := by
      intro x hx0 hx1
      exact wrap64_of_fits (by rw [e63]; omega) (by omega)
    generalize (decimal ds : Int) = v at hv0 hvu hparse hfit w ⊢
    rcases hc with ⟨hc, hun⟩ | ⟨hc, hun⟩ | ⟨hc, hun⟩ | ⟨hc, hun⟩ | ⟨hc, hun⟩ <;> subst hc
      <;> subst hun
    · have hd : unicodeIsDigit table 'W' = false := rfl
      simp only [List.nil_append, List.singleton_append, durationLoop, hd, Bool.false_eq_true,
        if_false, hparse]
      have a1 := w (v * 60) (by omega) (by omega)
      have a2 := w (v * 60 * 60) (by omega) (by omega)
      have a3 := w (v * 60 * 60 * 24) (by omega) (by omega)
      have a4 := w (v * 60 * 60 * 24 * 7) (by omega) (by omega)
      have a5 := w (acc + v * 60 * 60 * 24 * 7) (by omega) (by omega)
      have hW : ('W' == 'T') = false := by decide
      simp only [hW, Bool.false_eq_true, if_false, beq_self_eq_true, if_true, a1, a2, a3, a4, a5]
      show durationLoop table rest [] _ = durationLoop table rest [] _
      congr 1
      ring
    · have hd : unicodeIsDigit table 'D' = false := rfl
      simp only [List.nil_append, List.singleton_append, durationLoop, hd, Bool.false_eq_true,
        if_false, hparse]
      have a1 := w (v * 60) (by omega) (by omega)
      have a2 := w (v * 60 * 60) (by omega) (by omega)
      have a3 := w (v * 60 * 60 * 24) (by omega) (by omega)
      have a5 := w (acc + v * 60 * 60 * 24) (by omega) (by omega)
      have h1 : ('D' == 'T') = false := by decide
      have h2 : ('D' == 'W') = false := by decide
      simp only [h1, h2, Bool.false_eq_true, if_false, beq_self_eq_true, if_true, a1, a2, a3, a5]
      show durationLoop table rest [] _ = durationLoop table rest [] _
      congr 1
      ring
    · have hd : unicodeIsDigit table 'H' = false := rfl
      simp only [List.nil_append, List.singleton_append, durationLoop, hd, Bool.false_eq_true,
        if_false, hparse]
      have a1 := w (v * 60) (by omega) (by omega)
      have a2 := w (v * 60 * 60) (by omega) (by omega)
      have a5 := w (acc + v * 60 * 60) (by omega) (by omega)
      have h1 : ('H' == 'T') = false := by decide
      have h2 : ('H' == 'W') = false := by decide
      have h3 : ('H' == 'D') = false := by decide
      simp only [h1, h2, h3, Bool.false_eq_true, if_false, beq_self_eq_true, if_true, a1, a2, a5]
      show durationLoop table rest [] _ = durationLoop table rest [] _
      congr 1
      ring
    · have hd : unicodeIsDigit table 'M' = false := rfl
      simp only [List.nil_append, List.singleton_append, durationLoop, hd, Bool.false_eq_true,
        if_false, hparse]
      have a1 := w (v * 60) (by omega) (by omega)
      have a5 := w (acc + v * 60) (by omega) (by omega)
      have h1 : ('M' == 'T') = false := by decide
      have h2 : ('M' == 'W') = false := by decide
      have h3 : ('M' == 'D') = false := by decide
      have h4 : ('M' == 'H') = false := by decide
      simp only [h1, h2, h3, h4, Bool.false_eq_true, if_false, beq_self_eq_true, if_true, a1, a5]
      rfl
    · have hd : unicodeIsDigit table 'S' = false := rfl
      simp only [List.nil_append, List.singleton_append, durationLoop, hd, Bool.false_eq_true,
        if_false, hparse]
      have a5 := w (acc + v) (by omega) (by omega)
      have h1 : ('S' == 'T') = false := by decide
      have h2 : ('S' == 'W') = false := by decide
      have h3 : ('S' == 'D') = false := by decide
      have h4 : ('S' == 'H') = false := by decide
      have h5 : ('S' == 'M') = false := by decide
      simp only [h1, h2, h3, h4, h5, Bool.false_eq_true, if_false, beq_self_eq_true, if_true, a5]
      show durationLoop table rest [] _ = durationLoop table rest [] _
      congr 1
      ring


/-- The digits of the time part of a duration text, empty when the part is absent. -/
theorem durationLoop_text (table : Char → Bool) (a b : List Char)
    (time : Option (List Char × List Char × List Char))
    (ha : AllDigits a) (hb : AllDigits b)
    (ht : ∀ p, time = some p → AllDigits p.1 ∧ AllDigits p.2.1 ∧ AllDigits p.2.2)
    (hfit : durationTotal (decimal a) (decimal b) (decimal (time.getD ([], [], [])).1)
      (decimal (time.getD ([], [], [])).2.1) (decimal (time.getD ([], [], [])).2.2) < 2 ^ 63) :
    durationLoop table
        (durationGroup a 'W' ++ durationGroup b 'D'
          ++ durationClock time)
        [] 0
      = .ok (durationTotal (decimal a) (decimal b) (decimal (time.getD ([], [], [])).1)
          (decimal (time.getD ([], [], [])).2.1) (decimal (time.getD ([], [], [])).2.2)) := by
  unfold durationTotal at hfit ⊢
  have hA : (0 : Int) ≤ (decimal a : Int) := Int.natCast_nonneg _
  have hB : (0 : Int) ≤ (decimal b : Int) := Int.natCast_nonneg _
  cases time with
  | none =>
    have h0 : decimal ([] : List Char) = 0 := rfl
    simp only [Option.getD_none, h0, Nat.cast_zero, mul_zero, add_zero, List.append_nil,
      durationClock] at hfit ⊢
    rw [durationLoop_group table 'W' 604800 (Or.inl ⟨rfl, rfl⟩) a _ 0 ha (le_refl _) (by omega)]
    have e := durationLoop_group table 'D' 86400 (Or.inr (Or.inl ⟨rfl, rfl⟩)) b []
      (0 + decimal a * 604800) hb (by omega) (by omega)
    rw [List.append_nil] at e
    rw [e]
    simp only [durationLoop]
    congr 1
    ring
  | some p =>
    obtain ⟨c, d, e⟩ := p
    obtain ⟨hc, hd, he⟩ := ht (c, d, e) rfl
    simp only at hc hd he
    simp only [Option.getD_some, durationClock] at hfit ⊢
    have hC : (0 : Int) ≤ (decimal c : Int) := Int.natCast_nonneg _
    have hD : (0 : Int) ≤ (decimal d : Int) := Int.natCast_nonneg _
    have hE : (0 : Int) ≤ (decimal e : Int) := Int.natCast_nonneg _
    have hshape : durationGroup a 'W' ++ durationGroup b 'D'
          ++ (['T'] ++ durationGroup c 'H' ++ durationGroup d 'M' ++ durationGroup e 'S')
        = durationGroup a 'W' ++ (durationGroup b 'D'
          ++ ('T' :: (durationGroup c 'H' ++ (durationGroup d 'M'
            ++ (durationGroup e 'S' ++ []))))) := by
      simp only [List.append_assoc, List.singleton_append, List.append_nil, List.cons_append,
        List.nil_append]
    rw [hshape]
    rw [durationLoop_group table 'W' 604800 (Or.inl ⟨rfl, rfl⟩) a _ 0 ha (le_refl _) (by omega)]
    rw [durationLoop_group table 'D' 86400 (Or.inr (Or.inl ⟨rfl, rfl⟩)) b _ _ hb (by omega)
      (by omega)]
    rw [durationLoop_T]
    rw [durationLoop_group table 'H' 3600 (Or.inr (Or.inr (Or.inl ⟨rfl, rfl⟩))) c _ _ hc
      (by omega) (by omega)]
    rw [durationLoop_group table 'M' 60 (Or.inr (Or.inr (Or.inr (Or.inl ⟨rfl, rfl⟩)))) d _ _ hd
      (by omega) (by omega)]
    rw [durationLoop_group table 'S' 1 (Or.inr (Or.inr (Or.inr (Or.inr ⟨rfl, rfl⟩)))) e _ _ he
      (by omega) (by omega)]
    simp only [durationLoop]
    congr 1
    ring

end RRule
namespace RRule

/-- A duration text without a sign: the loop runs over what follows the `P`. -/
theorem ParseDuration_unsigned (table : Char → Bool) (body : List Char) (total : Int)
    (h : durationLoop table body [] 0 = .ok total) :
    ParseDuration table ('P' :: body) = .ok (wrap64 (wrap64 (total * 1) * 1000000000)) := by
  simp [ParseDuration, h]

/-- A duration text with a leading minus sign. -/
theorem ParseDuration_signed (table : Char → Bool) (body : List Char) (total : Int)
    (h : durationLoop table body [] 0 = .ok total) :
    ParseDuration table ('-' :: 'P' :: body) = .ok (wrap64 (wrap64 (total * -1) * 1000000000)) := by
  simp [ParseDuration, h]

/-- C27. For every duration text `[-]P[aW][bD][T[cH][dM][eS]]` with decimal digit groups
(an absent group counting as 0) whose total in nanoseconds fits in 64 bits, `ParseDuration`
returns without error exactly `sign * (604800*a + 86400*b + 3600*c + 60*d + e)` seconds. -/
theorem ParseDuration_of_grammar (table : Char → Bool) (negative : Bool) (a b : List Char)
    (time : Option (List Char × List Char × List Char))
    (ha : AllDigits a) (hb : AllDigits b)
    (ht : ∀ p, time = some p → AllDigits p.1 ∧ AllDigits p.2.1 ∧ AllDigits p.2.2)
    (hfit : durationTotal (decimal a) (decimal b) (decimal (time.getD ([], [], [])).1)
      (decimal (time.getD ([], [], [])).2.1) (decimal (time.getD ([], [], [])).2.2)
        * 1000000000 < 2 ^ 63) :
    ParseDuration table (durationText negative a b time)
      = .ok ((if negative then -1 else 1)
          * durationTotal (decimal a) (decimal b) (decimal (time.getD ([], [], [])).1)
              (decimal (time.getD ([], [], [])).2.1) (decimal (time.getD ([], [], [])).2.2)
          * 1000000000) := by
  have hnn : 0 ≤ durationTotal (decimal a) (decimal b) (decimal (time.getD ([], [], [])).1)
      (decimal (time.getD ([], [], [])).2.1) (decimal (time.getD ([], [], [])).2.2) := by
    unfold durationTotal
    positivity
  have e63 : (2 : Int) ^ 63 = 9223372036854775808 := by norm_num
  rw [e63] at hfit
  have hbody := durationLoop_text table a b time ha hb ht (by rw [e63]; omega)
  generalize durationTotal (decimal a) (decimal b) (decimal (time.getD ([], [], [])).1)
      (decimal (time.getD ([], [], [])).2.1) (decimal (time.getD ([], [], [])).2.2) = total
    at hfit hnn hbody ⊢
  cases negative with
  | false =>
    have hshape : durationText false a b time
        = 'P' :: (durationGroup a 'W' ++ durationGroup b 'D'
          ++ durationClock time) := by
      simp [durationText]
    rw [hshape, ParseDuration_unsigned table _ total hbody, mul_one,
      @wrap64_of_fits total (by rw [e63]; omega) (by rw [e63]; omega),
      wrap64_of_fits (by rw [e63]; omega) (by rw [e63]; omega)]
    simp
  | true =>
    have hshape : durationText true a b time
        = '-' :: 'P' :: (durationGroup a 'W' ++ durationGroup b 'D'
          ++ durationClock time) := by
      simp [durationText]
    rw [hshape, ParseDuration_signed table _ total hbody,
      @wrap64_of_fits (total * -1) (by rw [e63]; omega) (by rw [e63]; omega),
      wrap64_of_fits (by rw [e63]; omega) (by rw [e63]; omega)]
    simp

/-- C27, at the text of `Test_Parse_Duration_Complex`: `P15DT5H0M20S` is 15 days, 5 hours
and 20 seconds. -/
theorem ParseDuration_of_grammar_witness :
    durationText false [] ['1', '5'] (some (['5'], ['0'], ['2', '0'])) = "P15DT5H0M20S".toList
      ∧ ParseDuration (fun _ => false) (durationText false [] ['1', '5'] (some (['5'], ['0'], ['2', '0'])))
        = .ok ((if false then -1 else 1) * durationTotal 0 15 5 0 20 * 1000000000)
      ∧ durationTotal 0 15 5 0 20 = 15 * 86400 + 5 * 3600 + 20 :=
  ⟨by decide,
    ParseDuration_of_grammar (fun _ => false) false [] ['1', '5'] (some (['5'], ['0'], ['2', '0']))
      (by simp [AllDigits]) (by simp [AllDigits, isDigitByte])
      (by intro p hp; cases hp; simp [AllDigits, isDigitByte])
      (by decide),
    by decide⟩

/-- C28 (what the code does). A text outside the duration grammar is not always refused with a bad-format
error. The empty text and a lone minus sign panic (the first byte is read unchecked); an
unknown designator (`P5X`) and digits with no designator (`P5`) are accepted as the zero
duration. A missing `P` is refused as the claim says. -/
theorem ParseDuration_accepts_or_panics_outside_grammar (table : Char → Bool) :
    ParseDuration table [] = .error .panic
      ∧ ParseDuration table "-".toList = .error .panic
      ∧ ParseDuration table "P5X".toList = .ok 0
      ∧ ParseDuration table "P5".toList = .ok 0
      ∧ ParseDuration table "P5X3D".toList = .ok (259200 * 1000000000)
      ∧ ParseDuration table "5D".toList = .error (.error .badFormat)
      ∧ (∀ c rest, c ≠ '-' → c ≠ 'P' →
          ParseDuration table (c :: rest) = .error (.error .badFormat)) := by
  refine ⟨rfl, rfl, rfl, rfl, rfl, rfl, ?_⟩
  · intro c rest h1 h2
    simp [ParseDuration, h1, h2]

end RRule
namespace RRule

theorem length_four {α : Type} {l : List α} (h : l.length = 4) :
    ∃ a b c d, l = [a, b, c, d] :=
  match l, h with
  | [a, b, c, d], _ => ⟨a, b, c, d, rfl⟩

theorem length_two {α : Type} {l : List α} (h : l.length = 2) : ∃ a b, l = [a, b] :=
  match l, h with
  | [a, b], _ => ⟨a, b, rfl⟩

/-- A run of at most nine digits is read by `strconv.ParseInt` with 32 bits. -/
theorem strconvParseInt_width {n : Nat} {l : List Char} (h : DigitsOfWidth n l) (h0 : 0 < n)
    (h9 : n ≤ 9) : strconvParseInt l 32 = .ok (decimal l : Int) := by
  obtain ⟨hlen, hd⟩ := h
  apply strconvParseInt_digits l 32 hd
  · intro e
    rw [e] at hlen
    simp at hlen
    omega
  · have h1 := decimal_lt l hd
    rw [hlen] at h1
    have h2 : 10 ^ n ≤ 10 ^ 9 := Nat.pow_le_pow_right (by norm_num) h9
    have h3 : decimal l < 10 ^ 9 := lt_of_lt_of_le h1 h2
    have h4 : ((decimal l : Nat) : Int) < ((10 ^ 9 : Nat) : Int) := by exact_mod_cast h3
    norm_num at h4 ⊢
    omega

theorem digit_ne_Z {c : Char} (h : isDigitByte c = true) : ('Z' == c) = false := by
  cases hc : ('Z' == c) with
  | false => rfl
  | true =>
    have e : 'Z' = c := by simpa using hc
    rw [← e] at h
    exact absurd h (by decide)

theorem hasSuffix_snoc (l : List Char) (c z : Char) :
    stringsHasSuffix (l ++ [c]) [z] = (z == c) := by
  simp [stringsHasSuffix, List.isSuffixOf, List.reverse_append, List.isPrefixOf]

/-- The date-only form is read as midnight in UTC, whatever the location given. -/
theorem ParseDateTime_dateText (Y M D : List Char) (loc : Location)
    (hY : DigitsOfWidth 4 Y) (hM : DigitsOfWidth 2 M) (hD : DigitsOfWidth 2 D) :
    ParseDateTime (dateText Y M D) loc
      = .ok (Date (decimal Y) (decimal M) (decimal D) 0 0 0 0 .utc) := by
  have eY := strconvParseInt_width hY (by norm_num) (by norm_num)
  have eM := strconvParseInt_width hM (by norm_num) (by norm_num)
  have eD := strconvParseInt_width hD (by norm_num) (by norm_num)
  obtain ⟨y1, y2, y3, y4, rfl⟩ := length_four hY.1
  obtain ⟨m1, m2, rfl⟩ := length_two hM.1
  obtain ⟨d1, d2, rfl⟩ := length_two hD.1
  simp [ParseDateTime, dateText, eY, eM, eD]
  rfl

/-- The form with a time of day is read in the location given, or in UTC when the text
ends in `Z`. -/
theorem ParseDateTime_stampText (Y M D h mi s : List Char) (z : Bool) (loc : Location)
    (hY : DigitsOfWidth 4 Y) (hM : DigitsOfWidth 2 M) (hD : DigitsOfWidth 2 D)
    (hh : DigitsOfWidth 2 h) (hmi : DigitsOfWidth 2 mi) (hs : DigitsOfWidth 2 s) :
    ParseDateTime (stampText Y M D h mi s z) loc
      = .ok (Date (decimal Y) (decimal M) (decimal D) (decimal h) (decimal mi) (decimal s) 0
          (if z then .utc else loc)) := by
  have eY := strconvParseInt_width hY (by norm_num) (by norm_num)
  have eM := strconvParseInt_width hM (by norm_num) (by norm_num)
  have eD := strconvParseInt_width hD (by norm_num) (by norm_num)
  have eh := strconvParseInt_width hh (by norm_num) (by norm_num)
  have emi := strconvParseInt_width hmi (by norm_num) (by norm_num)
  have es := strconvParseInt_width hs (by norm_num) (by norm_num)
  obtain ⟨y1, y2, y3, y4, rfl⟩ := length_four hY.1
  obtain ⟨m1, m2, rfl⟩ := length_two hM.1
  obtain ⟨d1, d2, rfl⟩ := length_two hD.1
  obtain ⟨h1, h2, rfl⟩ := length_two hh.1
  obtain ⟨i1, i2, rfl⟩ := length_two hmi.1
  obtain ⟨s1, s2, rfl⟩ := length_two hs.1
  have hz : ('Z' == s2) = false := digit_ne_Z (hs.2 s2 (by simp))
  cases z with
  | false =>
    have hsuf : stringsHasSuffix
        [y1, y2, y3, y4, m1, m2, d1, d2, 'T', h1, h2, i1, i2, s1, s2] ['Z'] = false := by
      have e := hasSuffix_snoc [y1, y2, y3, y4, m1, m2, d1, d2, 'T', h1, h2, i1, i2, s1] s2 'Z'
      rw [hz] at e
      exact e
    simp [ParseDateTime, stampText, eY, eM, eD, eh, emi, es, hsuf]
    rfl
  | true =>
    have hsuf : stringsHasSuffix
        [y1, y2, y3, y4, m1, m2, d1, d2, 'T', h1, h2, i1, i2, s1, s2, 'Z'] ['Z'] = true :=
      hasSuffix_snoc [y1, y2, y3, y4, m1, m2, d1, d2, 'T', h1, h2, i1, i2, s1, s2] 'Z' 'Z'
    simp [ParseDateTime, stampText, eY, eM, eD, eh, emi, es, hsuf]
    rfl

/-- The time of day of a time built from an hour, a minute and a second in range, in a
zone without transitions. -/
theorem clock_of_Date {loc : Location} (hfix : loc.Fixed) {y m d h mi s : Int}
    (hm1 : 1 ≤ m) (hm2 : m ≤ 12) (hd1 : 1 ≤ d) (hd2 : d ≤ monthLen y m)
    (hh0 : 0 ≤ h) (hh1 : h < 24) (hmi0 : 0 ≤ mi) (hmi1 : mi < 60) (hs0 : 0 ≤ s) (hs1 : s < 60) :
    (Date y m d h mi s 0 loc).Hour = h ∧ (Date y m d h mi s 0 loc).Minute = mi
      ∧ (Date y m d h mi s 0 loc).Second = s := by
  obtain ⟨_, _, _, hc, _, _⟩ :=
    @fields_of_Date loc hfix y m d h mi s hm1 hm2 hd1 hd2 (by omega) (by omega)
  unfold Time.Hour Time.Minute Time.Second
  generalize (Date y m d h mi s 0 loc).abs = a at hc
  refine ⟨?_, ?_, ?_⟩ <;> omega

/-- What a successful call of `ParseDateTime` says about the shape of its input. -/
theorem ParseDateTime_ok_shape (s : List Char) (loc : Location) (t : Time)
    (h : ParseDateTime s loc = .ok t) :
    s.length = 8 ∨ ((s.drop 8).head? = some 'T' ∧ (s.length = 15 ∨ s.length = 16)) := by
  by_cases h8 : s.length = 8
  · exact Or.inl h8
  right
  by_cases hlt : s.length < 8
  · rw [ParseDateTime_short s loc hlt] at h
    cases h
  unfold ParseDateTime at h
  cases hy : strconvParseInt (List.take 4 s) 32 with
  | error e => simp [hy, hlt, bind, Except.bind, pure, Except.pure] at h
  | ok y =>
    cases hm : strconvParseInt (List.take 2 (List.drop 4 s)) 32 with
    | error e => simp [hy, hm, hlt, bind, Except.bind, pure, Except.pure] at h
    | ok m =>
      cases hd : strconvParseInt (List.take 2 (List.drop 6 s)) 32 with
      | error e => simp [hy, hm, hd, hlt, bind, Except.bind, pure, Except.pure] at h
      | ok d =>
        by_cases hT : (s.drop 8).head? = some 'T'
        · refine ⟨hT, ?_⟩
          by_contra hlen
          have hlen2 : s.length < 15 ∨ 16 < s.length := by omega
          have hT2 : s[8]? = some 'T' := by
            rw [← List.head?_drop]
            exact hT
          simp [hy, hm, hd, hlt, h8, hT2, hlen2, bind, Except.bind, pure, Except.pure, throw,
            throwThe, MonadExceptOf.throw] at h
        · have hT2 : ¬ s[8]? = some 'T' := by
            rw [← List.head?_drop]
            exact hT
          simp [hy, hm, hd, hlt, h8, hT2, bind, Except.bind, pure, Except.pure, throw,
            throwThe, MonadExceptOf.throw] at h

/-- C25 (what the code does). The date-only branch of `ParseDateTime` builds the time
with the literal `time.UTC`, while the branch for `YYYYMMDDThhmmss` passes the location
given: every date-only text `YYYYMMDD` is read as midnight of that date in UTC whatever
the location, every text `YYYYMMDDThhmmss` as that wall clock in the location given, and
with a trailing `Z` in UTC. The text `19970714` read with the location New York is
midnight in UTC, four hours before midnight of that date in New York, and shows July 13
in New York; `19980119T070000`, the timestamp of `Test_DateTime_Parser_Local`, is read
in New York as 07:00 there. -/
theorem ParseDateTime_date_only_is_utc :
    ParseDateTime "19970714".toList newYork1997
        = .ok { sec := 868838400, nsec := 0, loc := .utc }
      ∧ Date 1997 7 14 0 0 0 0 newYork1997
        = { sec := 868852800, nsec := 0, loc := newYork1997 }
      ∧ (Date 1997 7 14 0 0 0 0 newYork1997).Day = 14
      ∧ ({ sec := 868838400, nsec := 0, loc := newYork1997 } : Time).Day = 13
      ∧ ParseDateTime "19980119T070000".toList newYork1997
        = .ok (Date 1998 1 19 7 0 0 0 newYork1997)
      ∧ (∀ (Y M D : List Char) (loc : Location), DigitsOfWidth 4 Y → DigitsOfWidth 2 M →
          DigitsOfWidth 2 D →
          ParseDateTime (dateText Y M D) loc
            = .ok (Date (decimal Y) (decimal M) (decimal D) 0 0 0 0 .utc))
      ∧ (∀ (Y M D h mi s : List Char) (loc : Location), DigitsOfWidth 4 Y →
          DigitsOfWidth 2 M → DigitsOfWidth 2 D → DigitsOfWidth 2 h → DigitsOfWidth 2 mi →
          DigitsOfWidth 2 s →
          ParseDateTime (stampText Y M D h mi s false) loc
              = .ok (Date (decimal Y) (decimal M) (decimal D) (decimal h) (decimal mi)
                  (decimal s) 0 loc)
            ∧ ParseDateTime (stampText Y M D h mi s true) loc
              = .ok (Date (decimal Y) (decimal M) (decimal D) (decimal h) (decimal mi)
                  (decimal s) 0 .utc)) := by
  refine ⟨rfl, by decide!, by decide!, by decide!, rfl, ?_, ?_⟩
  · intro Y M D loc hY hM hD
    exact ParseDateTime_dateText Y M D loc hY hM hD
  · intro Y M D h mi s loc hY hM hD hh hmi hs
    exact ⟨ParseDateTime_stampText Y M D h mi s false loc hY hM hD hh hmi hs,
      ParseDateTime_stampText Y M D h mi s true loc hY hM hD hh hmi hs⟩

/-- C26 (what the code does). `ParseDateTime` succeeds on texts outside the grammar. A sixteenth character
other than `Z` is never looked at, and a sign is accepted in every numeric field. The
other refusals of the claim hold: a text shorter than 8 is refused, a success means the
length is 8 or there is a `T` at index 8 and the length is 15 or 16, and every text of
the grammar is accepted. -/
theorem ParseDateTime_accepts_signs_and_any_last_character (loc : Location) :
    ParseDateTime "19980119T070000X".toList loc = .ok (Date 1998 1 19 7 0 0 0 loc)
      ∧ ParseDateTime "+9970714".toList loc = .ok (Date 997 7 14 0 0 0 0 .utc)
      ∧ ParseDateTime "19970714T-70000".toList loc = .ok (Date 1997 7 14 (-7) 0 0 0 loc)
      ∧ ParseDateTime "1997-714".toList loc = .ok (Date 1997 (-7) 14 0 0 0 0 .utc)
      ∧ (∀ s, s.length < 8 → ParseDateTime s loc = .error (.error .badFormat))
      ∧ (∀ s t, ParseDateTime s loc = .ok t →
          s.length = 8 ∨ ((s.drop 8).head? = some 'T' ∧ (s.length = 15 ∨ s.length = 16)))
      ∧ (∀ Y M D h mi s z, DigitsOfWidth 4 Y → DigitsOfWidth 2 M → DigitsOfWidth 2 D →
          DigitsOfWidth 2 h → DigitsOfWidth 2 mi → DigitsOfWidth 2 s →
          (∃ t, ParseDateTime (stampText Y M D h mi s z) loc = .ok t)
            ∧ ∃ t, ParseDateTime (dateText Y M D) loc = .ok t) := by
  refine ⟨rfl, rfl, rfl, rfl, fun s h => ParseDateTime_short s loc h,
    fun s t h => ParseDateTime_ok_shape s loc t h, ?_⟩
  intro Y M D h mi s z hY hM hD hh hmi hs
  exact ⟨⟨_, ParseDateTime_stampText Y M D h mi s z loc hY hM hD hh hmi hs⟩,
    ⟨_, ParseDateTime_dateText Y M D loc hY hM hD⟩⟩

end RRule
namespace RRule

/-! ## `DateTimeToString` and `ParseDateTime` -/

theorem digitChar {k : Nat} (h : k < 10) :
    isDigitByte (Char.ofNat ('0'.toNat + k)) = true
      ∧ (Char.ofNat ('0'.toNat + k)).toNat - '0'.toNat = k := by
  interval_cases k <;> exact ⟨by decide, by decide⟩

theorem decimal_snoc (l : List Char) (c : Char) :
    decimal (l ++ [c]) = decimal l * 10 + (c.toNat - '0'.toNat) := by
  unfold decimal
  rw [decimalFrom_append]
  rfl

/-- The digits written for a natural number: digits only, at least one, denoting the
number, and no more of them than the number needs. -/
theorem natDigitsAux_spec :
    ∀ (fuel n : Nat) (acc : List Char), n < fuel →
      ∃ ds, natDigitsAux fuel n acc = ds ++ acc ∧ AllDigits ds ∧ ds ≠ [] ∧ decimal ds = n
        ∧ ∀ w, 0 < w → n < 10 ^ w → ds.length ≤ w := by
  intro fuel
  induction fuel with
  | zero => intro n acc h; omega
  | succ fuel ih =>
    intro n acc h
    obtain ⟨hd1, hd2⟩ := @digitChar (n % 10) (Nat.mod_lt _ (by norm_num))
    unfold natDigitsAux
    simp only
    by_cases h0 : n / 10 = 0
    · rw [if_pos h0]
      refine ⟨[Char.ofNat ('0'.toNat + n % 10)], rfl, ?_, by simp, ?_, ?_⟩
      · intro c hc
        rw [List.mem_singleton] at hc
        rw [hc]
        exact hd1
      · have e : decimal [Char.ofNat ('0'.toNat + n % 10)]
            = 0 * 10 + ((Char.ofNat ('0'.toNat + n % 10)).toNat - '0'.toNat) := rfl
        rw [e, hd2]
        omega
      · intro w hw _
        simpa using hw
    · rw [if_neg h0]
      obtain ⟨ds, e, hall, _, hval, hlen⟩ :=
        ih (n / 10) (Char.ofNat ('0'.toNat + n % 10) :: acc) (by omega)
      refine ⟨ds ++ [Char.ofNat ('0'.toNat + n % 10)], ?_, ?_, by simp, ?_, ?_⟩
      · rw [e, List.append_assoc]
        rfl
      · exact AllDigits.append hall (by
          intro c hc
          rw [List.mem_singleton] at hc
          rw [hc]
          exact hd1)
      · rw [decimal_snoc, hval, hd2]
        omega
      · intro w hw hn
        have hw2 : 2 ≤ w := by
          by_contra hlt
          have hw1 : w = 1 := by omega
          rw [hw1] at hn
          omega
        have hn2 : n / 10 < 10 ^ (w - 1) := by
          have e10 : 10 ^ w = 10 ^ (w - 1) * 10 := by
            rw [← pow_succ]
            congr 1
            omega
          rw [e10] at hn
          exact Nat.div_lt_of_lt_mul (by rw [mul_comm]; exact hn)
        have := hlen (w - 1) (by omega) hn2
        rw [List.length_append]
        simp only [List.length_singleton]
        omega

theorem natDigits_spec (n : Nat) :
    AllDigits (natDigits n) ∧ natDigits n ≠ [] ∧ decimal (natDigits n) = n
      ∧ ∀ w, 0 < w → n < 10 ^ w → (natDigits n).length ≤ w := by
  obtain ⟨ds, e, h1, h2, h3, h4⟩ := natDigitsAux_spec (n + 1) n [] (by omega)
  unfold natDigits
  rw [e, List.append_nil]
  exact ⟨h1, h2, h3, h4⟩

theorem decimalFrom_zeros (k : Nat) : decimalFrom 0 (List.replicate k '0') = 0 := by
  induction k with
  | zero => rfl
  | succ k ih =>
    rw [List.replicate_succ]
    exact ih

/-- The verbs `%02d` and `%04d` on a number that fits the width: exactly that many
digits, denoting the number. -/
theorem formatIntPadded_spec (w : Nat) (v : Int) (hw : 0 < w) (h0 : 0 ≤ v)
    (h1 : v < 10 ^ w) :
    DigitsOfWidth w (formatIntPadded w v) ∧ (decimal (formatIntPadded w v) : Int) = v := by
  obtain ⟨a1, _, a3, a4⟩ := natDigits_spec v.natAbs
  have hv : (v.natAbs : Int) = v := Int.natAbs_of_nonneg h0
  have hlt : v.natAbs < 10 ^ w := by
    have : ((v.natAbs : Nat) : Int) < ((10 ^ w : Nat) : Int) := by
      rw [hv]
      exact_mod_cast h1
    exact_mod_cast this
  have hlen := a4 w hw hlt
  unfold formatIntPadded
  simp only
  rw [if_neg (by omega)]
  refine ⟨⟨?_, ?_⟩, ?_⟩
  · rw [List.length_append, List.length_replicate]
    omega
  · apply AllDigits.append _ a1
    intro c hc
    rw [List.eq_of_mem_replicate hc]
    decide
  · unfold decimal
    rw [decimalFrom_append, decimalFrom_zeros]
    show ((decimal (natDigits v.natAbs) : Nat) : Int) = v
    rw [a3, hv]

theorem monthLen_le (y m : Int) : monthLen y m ≤ 31 := by
  unfold monthLen
  split_ifs <;> omega

/-- The text written by `DateTimeToString` for a year of at most four digits: six digit
groups, and `Z` exactly for a time in UTC. -/
theorem DateTimeToString_shape (t : Time) (hy0 : 0 ≤ t.Year) (hy1 : t.Year ≤ 9999) :
    DateTimeToString t
        = stampText (formatIntPadded 4 t.Year) (formatIntPadded 2 t.Month)
            (formatIntPadded 2 t.Day) (formatIntPadded 2 t.Hour) (formatIntPadded 2 t.Minute)
            (formatIntPadded 2 t.Second) (decide (t.loc = .utc))
      ∧ (DigitsOfWidth 4 (formatIntPadded 4 t.Year)
          ∧ (decimal (formatIntPadded 4 t.Year) : Int) = t.Year)
      ∧ (DigitsOfWidth 2 (formatIntPadded 2 t.Month)
          ∧ (decimal (formatIntPadded 2 t.Month) : Int) = t.Month)
      ∧ (DigitsOfWidth 2 (formatIntPadded 2 t.Day)
          ∧ (decimal (formatIntPadded 2 t.Day) : Int) = t.Day)
      ∧ (DigitsOfWidth 2 (formatIntPadded 2 t.Hour)
          ∧ (decimal (formatIntPadded 2 t.Hour) : Int) = t.Hour)
      ∧ (DigitsOfWidth 2 (formatIntPadded 2 t.Minute)
          ∧ (decimal (formatIntPadded 2 t.Minute) : Int) = t.Minute)
      ∧ (DigitsOfWidth 2 (formatIntPadded 2 t.Second)
          ∧ (decimal (formatIntPadded 2 t.Second) : Int) = t.Second) := by
  obtain ⟨m1, m2, d1, d2, _⟩ := fields_valid t
  have d3 := monthLen_le t.Year t.Month
  refine ⟨?_, formatIntPadded_spec 4 _ (by norm_num) hy0 (by norm_num; omega),
    formatIntPadded_spec 2 _ (by norm_num) (by omega) (by norm_num; omega),
    formatIntPadded_spec 2 _ (by norm_num) (by omega) (by norm_num; omega),
    formatIntPadded_spec 2 _ (by norm_num) (by unfold Time.Hour; omega)
      (by unfold Time.Hour; norm_num; omega),
    formatIntPadded_spec 2 _ (by norm_num) (by unfold Time.Minute; omega)
      (by unfold Time.Minute; norm_num; omega),
    formatIntPadded_spec 2 _ (by norm_num) (by unfold Time.Second; omega)
      (by unfold Time.Second; norm_num; omega)⟩
  unfold DateTimeToString stampText
  by_cases hu : t.loc = .utc
  · simp [hu]
  · simp [hu]

/-- Reading back what `DateTimeToString` wrote, in the zone of the time or, for a time
in UTC, in any zone. -/
theorem ParseDateTime_DateTimeToString (t : Time) (loc : Location) (hns : t.nsec = 0)
    (hy0 : 0 ≤ t.Year) (hy1 : t.Year ≤ 9999) (hfix : t.loc.Fixed)
    (hloc : t.loc = .utc ∨ loc = t.loc) :
    ParseDateTime (DateTimeToString t) loc = .ok t := by
  obtain ⟨e, ⟨wY, vY⟩, ⟨wM, vM⟩, ⟨wD, vD⟩, ⟨wh, vh⟩, ⟨wmi, vmi⟩, ⟨ws, vs⟩⟩ :=
    DateTimeToString_shape t hy0 hy1
  rw [e, ParseDateTime_stampText _ _ _ _ _ _ _ loc wY wM wD wh wmi ws, vY, vM, vD, vh, vmi, vs]
  have hz : (if decide (t.loc = .utc) = true then Location.utc else loc) = t.loc := by
    by_cases hu : t.loc = .utc
    · simp [hu]
    · simp only [hu, decide_False, Bool.false_eq_true, if_false]
      exact hloc.resolve_left hu
  rw [hz]
  have hD := Date_of_fields t hfix 0 0
  rw [add_zero] at hD
  rw [hD]
  congr 1
  cases t
  simp only at hns
  simp [hns]

end RRule
namespace RRule

/-! ## `UNTIL` through `String` and `Parse` -/

theorem stringsSplit_of_not_mem (sep : Char) :
    ∀ a : List Char, sep ∉ a → stringsSplit a sep = [a] := by
  intro a
  induction a with
  | nil => intro _; rfl
  | cons c rest ih =>
    intro h
    have hc : (c == sep) = false := by
      simp only [beq_eq_false_iff_ne, ne_eq]
      intro e
      exact h (by rw [e]; exact List.mem_cons_self _ _)
    simp only [stringsSplit, hc, Bool.false_eq_true, if_false,
      ih fun hm => h (List.mem_cons_of_mem _ hm)]

theorem stringsSplit_append (sep : Char) (b : List Char) :
    ∀ a : List Char, sep ∉ a → stringsSplit (a ++ sep :: b) sep = a :: stringsSplit b sep := by
  intro a
  induction a with
  | nil =>
    intro _
    simp [stringsSplit]
  | cons c rest ih =>
    intro h
    have hc : (c == sep) = false := by
      simp only [beq_eq_false_iff_ne, ne_eq]
      intro e
      exact h (by rw [e]; exact List.mem_cons_self _ _)
    simp only [List.cons_append, stringsSplit, hc, Bool.false_eq_true, if_false]
    simp only [List.append_eq]
    rw [ih fun hm => h (List.mem_cons_of_mem _ hm)]

theorem stringsSplitN2_append (sep : Char) (b : List Char) :
    ∀ a : List Char, sep ∉ a → stringsSplitN2 (a ++ sep :: b) sep = [a, b] := by
  intro a
  induction a with
  | nil =>
    intro _
    simp [stringsSplitN2]
  | cons c rest ih =>
    intro h
    have hc : (c == sep) = false := by
      simp only [beq_eq_false_iff_ne, ne_eq]
      intro e
      exact h (by rw [e]; exact List.mem_cons_self _ _)
    simp only [List.cons_append, stringsSplitN2, hc, Bool.false_eq_true, if_false]
    simp only [List.append_eq]
    rw [ih fun hm => h (List.mem_cons_of_mem _ hm)]

/-- The characters of a timestamp text: digits, `T` and `Z`. -/
theorem mem_stampText {Y M D h mi s : List Char} {z : Bool} (hY : AllDigits Y)
    (hM : AllDigits M) (hD : AllDigits D) (hh : AllDigits h) (hmi : AllDigits mi)
    (hs : AllDigits s) {c : Char} (hc : c ∈ stampText Y M D h mi s z) :
    isDigitByte c = true ∨ c = 'T' ∨ c = 'Z' := by
  unfold stampText at hc
  simp only [List.mem_append, List.mem_singleton] at hc
  rcases hc with ((((((hc | hc) | hc) | hc) | hc) | hc) | hc) | hc
  · exact Or.inl (hY c hc)
  · exact Or.inl (hM c hc)
  · exact Or.inl (hD c hc)
  · exact Or.inr (Or.inl hc)
  · exact Or.inl (hh c hc)
  · exact Or.inl (hmi c hc)
  · exact Or.inl (hs c hc)
  · cases z with
    | false => simp at hc
    | true =>
      simp only [if_true, List.mem_singleton] at hc
      exact Or.inr (Or.inr hc)

/-- A timestamp text holds none of the separators of the rule text. -/
theorem not_mem_DateTimeToString (t : Time) (hy0 : 0 ≤ t.Year) (hy1 : t.Year ≤ 9999)
    (c : Char) (hc : c = '\n' ∨ c = ';' ∨ c = '=') : c ∉ DateTimeToString t := by
  obtain ⟨e, ⟨wY, _⟩, ⟨wM, _⟩, ⟨wD, _⟩, ⟨wh, _⟩, ⟨wmi, _⟩, ⟨ws, _⟩⟩ :=
    DateTimeToString_shape t hy0 hy1
  rw [e]
  intro hm
  have h := mem_stampText wY.2 wM.2 wD.2 wh.2 wmi.2 ws.2 hm
  rcases hc with rfl | rfl | rfl <;> revert h <;> decide

/-- The part `UNTIL=...` that `String` writes is read back as the same time, when the
time is in UTC or in the zone of `DtStart`. -/
theorem handle_until_part (rr : RecurringRule) (t : Time) (hns : t.nsec = 0)
    (hy0 : 0 ≤ t.Year) (hy1 : t.Year ≤ 9999) (hfix : t.loc.Fixed)
    (hloc : t.loc = .utc ∨ rr.DtStart.loc = t.loc) :
    rr.handle_recur_rule_part "UNTIL".toList (DateTimeToString t)
      = .ok { rr with Until := t } := by
  unfold RecurringRule.handle_recur_rule_part
  rw [if_neg (by decide), if_pos rfl,
    ParseDateTime_DateTimeToString t rr.DtStart.loc hns hy0 hy1 hfix hloc]

/-- The rule of `Test_Parse_set_until_render` with any `UNTIL` in UTC: its text. -/
theorem workdays_String (u : Time) (hne : u.Equal EmptyTime = false) :
    RecurringRule.String { workdays with Until := u }
      = .ok ("RRULE:FREQ=WEEKLY".toList ++ (';' :: ("UNTIL".toList
          ++ ('=' :: (DateTimeToString u ++ (';' :: "BYDAY=MO,TU,WE,TH,FR".toList)))))) := by
  simp [RecurringRule.String, RecurringRule.RecurString, workdays, plainRule, hne,
    FrequencyValue.String, frequencyString, FrequencyValue.toNat, daysAsStrings,
    ForDay.String, shortFromWeekday, stringsJoin, Except.map]

/-- The rule of `Test_Parse_set_until_render` with any `UNTIL` in UTC: reading its text
gives the rule back. -/
theorem workdays_Parse (db : TzDatabase) (u : Time) (hns : u.nsec = 0) (hy0 : 0 ≤ u.Year)
    (hy1 : u.Year ≤ 9999) (hutc : u.loc = .utc) :
    Parse db ("RRULE:FREQ=WEEKLY".toList ++ (';' :: ("UNTIL".toList
        ++ ('=' :: (DateTimeToString u ++ (';' :: "BYDAY=MO,TU,WE,TH,FR".toList))))))
      = .ok { workdays with Until := u } := by
  have hfix : u.loc.Fixed := by rw [hutc]; trivial
  have hn := not_mem_DateTimeToString u hy0 hy1 '\n' (Or.inl rfl)
  have hsc := not_mem_DateTimeToString u hy0 hy1 ';' (Or.inr (Or.inl rfl))
  have hline : '\n' ∉ "RRULE:FREQ=WEEKLY".toList ++ (';' :: ("UNTIL".toList
        ++ ('=' :: (DateTimeToString u ++ (';' :: "BYDAY=MO,TU,WE,TH,FR".toList))))) := by
    simp only [List.mem_append, List.mem_cons, not_or]
    exact ⟨by decide, by decide, by decide, by decide, hn, by decide, by decide⟩
  unfold Parse
  simp only
  rw [parseLoop_one_line db _ _ [] hline]
  simp only [List.reverse_nil, List.nil_append]
  have hsplit : stringsSplit ("FREQ=WEEKLY".toList ++ (';' :: ("UNTIL".toList
        ++ ('=' :: (DateTimeToString u ++ (';' :: "BYDAY=MO,TU,WE,TH,FR".toList)))))) ';'
      = ["FREQ=WEEKLY".toList, "UNTIL".toList ++ ('=' :: DateTimeToString u),
          "BYDAY=MO,TU,WE,TH,FR".toList] := by
    rw [stringsSplit_append ';' _ _ (by decide)]
    have e : "UNTIL".toList ++ ('=' :: (DateTimeToString u
          ++ (';' :: "BYDAY=MO,TU,WE,TH,FR".toList)))
        = ("UNTIL".toList ++ ('=' :: DateTimeToString u))
          ++ (';' :: "BYDAY=MO,TU,WE,TH,FR".toList) := by
      simp
    rw [e, stringsSplit_append ';' _ _ (by
      simp only [List.mem_append, List.mem_cons, not_or]
      exact ⟨by decide, by decide, hsc⟩)]
    rfl
  have hchunk : RecurringRule.handle_rule_chunk db
        { plainRule EmptyTime .YEARLY with Interval := 1, WorkWeekStart := 1 }
        ("RRULE:FREQ=WEEKLY".toList ++ (';' :: ("UNTIL".toList
          ++ ('=' :: (DateTimeToString u ++ (';' :: "BYDAY=MO,TU,WE,TH,FR".toList))))))
      = .ok { workdays with Until := u } := by
    have hp : stringsHasPrefix ("RRULE:FREQ=WEEKLY".toList ++ (';' :: ("UNTIL".toList
          ++ ('=' :: (DateTimeToString u ++ (';' :: "BYDAY=MO,TU,WE,TH,FR".toList))))))
        "RRULE:".toList = true := rfl
    unfold RecurringRule.handle_rule_chunk
    rw [if_pos hp]
    show RecurringRule.handle_parts _ (stringsSplit ("FREQ=WEEKLY".toList ++ (';' ::
      ("UNTIL".toList ++ ('=' :: (DateTimeToString u
        ++ (';' :: "BYDAY=MO,TU,WE,TH,FR".toList)))))) ';') = _
    rw [hsplit]
    simp only [RecurringRule.handle_parts]
    rw [show stringsSplitN2 "FREQ=WEEKLY".toList '=' = ["FREQ".toList, "WEEKLY".toList] from rfl]
    simp only
    rw [show RecurringRule.handle_recur_rule_part
        { plainRule EmptyTime .YEARLY with Interval := 1, WorkWeekStart := 1 }
        "FREQ".toList "WEEKLY".toList = .ok (plainRule EmptyTime .WEEKLY) from rfl]
    simp only
    rw [stringsSplitN2_append '=' _ _ (by decide)]
    simp only
    rw [handle_until_part _ u hns hy0 hy1 hfix (Or.inl hutc)]
    simp only
    rfl
  have hlen : ("RRULE:FREQ=WEEKLY".toList ++ (';' :: ("UNTIL".toList
        ++ ('=' :: (DateTimeToString u ++ (';' :: "BYDAY=MO,TU,WE,TH,FR".toList)))))).length
      > 0 := by
    simp
  rw [if_pos hlen, hchunk]
  rfl

end RRule
namespace RRule

/-! ## The time-of-day expansion -/

theorem flatMap_single {α β : Type} (f : α → β) (l : List α) :
    (l.flatMap fun x => [f x]) = l.map f := by
  induction l with
  | nil => rfl
  | cons a rest ih => simp [List.flatMap_cons, ih]

/-- The lists that `generateTimesForCandidates` expands at each of the four frequencies
that call it. -/
theorem generateTimes_by_frequency (rule : RecurringRule) (root : Time) :
    (rule.Frequency = .DAILY →
        generateTimesForCandidates rule root = expansion rule root true true true)
      ∧ (rule.Frequency = .HOURLY →
        generateTimesForCandidates rule root = expansion rule root false true true)
      ∧ (rule.Frequency = .MINUTELY →
        generateTimesForCandidates rule root = expansion rule root false true true)
      ∧ (rule.Frequency = .SECONDLY →
        generateTimesForCandidates rule root = expansion rule root false false true) := by
  refine ⟨?_, ?_, ?_, ?_⟩ <;> intro hf <;>
    simp [generateTimesForCandidates, expansion, itemsOr, hf, FrequencyValue.toNat]

/-- C36 (what the code does). `generateTimesForCandidates` tests `Frequency <= DAILY`
for BYHOUR, `Frequency <= MINUTELY` for BYMINUTE and `Frequency <= SECONDLY` for
BYSECOND. BYHOUR is expanded at `DAILY` only, but BYMINUTE is expanded at `MINUTELY`
as well and BYSECOND at `SECONDLY` as well. At `FREQ=MINUTELY;BYMINUTE=0,20,40` every
period of one minute has the three candidates 09:00, 09:20 and 09:40, which the calls
deliver again and again; at `FREQ=SECONDLY;BYSECOND=0,30` every period has the two
candidates 09:00:00 and 09:00:30. -/
theorem minutes_and_seconds_expand_at_their_own_frequency :
    (∀ (rule : RecurringRule) (root : Time),
        (rule.Frequency = .DAILY →
          generateTimesForCandidates rule root = expansion rule root true true true)
        ∧ (rule.Frequency = .HOURLY →
          generateTimesForCandidates rule root = expansion rule root false true true)
        ∧ (rule.Frequency = .MINUTELY →
          generateTimesForCandidates rule root = expansion rule root false true true)
        ∧ (rule.Frequency = .SECONDLY →
          generateTimesForCandidates rule root = expansion rule root false false true))
      ∧ (∀ (rule : RecurringRule) (root : Time), rule.Frequency = .MINUTELY →
          rule.ByMinute ≠ [] → rule.BySecond = [] →
          generateTimesForCandidates rule root
            = rule.ByMinute.map fun m =>
                Date root.Year root.Month root.Day root.Hour m root.Second 0 root.loc)
      ∧ (∀ (rule : RecurringRule) (root : Time), rule.Frequency = .SECONDLY →
          rule.BySecond ≠ [] →
          generateTimesForCandidates rule root
            = rule.BySecond.map fun s =>
                Date root.Year root.Month root.Day root.Hour root.Minute s 0 root.loc)
      ∧ generateTimesForCandidates minutelyByMinute (periodRoot minutelyByMinute 1)
          = [Date 1997 9 2 9 0 0 0 .utc, Date 1997 9 2 9 20 0 0 .utc,
              Date 1997 9 2 9 40 0 0 .utc]
      ∧ (StepSeq fiveCalls8 minutelyByMinute.Iterator).map (List.map StepResult.returned)
          = some [(true, Date 1997 9 2 9 0 0 0 .utc), (true, Date 1997 9 2 9 20 0 0 .utc),
                  (true, Date 1997 9 2 9 40 0 0 .utc), (true, Date 1997 9 2 9 0 0 0 .utc),
                  (true, Date 1997 9 2 9 20 0 0 .utc)]
      ∧ (StepSeq fiveCalls8 secondlyBySecond.Iterator).map (List.map StepResult.returned)
          = some [(true, Date 1997 9 2 9 0 0 0 .utc), (true, Date 1997 9 2 9 0 30 0 .utc),
                  (true, Date 1997 9 2 9 0 0 0 .utc), (true, Date 1997 9 2 9 0 30 0 .utc),
                  (true, Date 1997 9 2 9 0 0 0 .utc)] := by
  refine ⟨generateTimes_by_frequency, ?_, ?_, by decide!, by decide!, by decide!⟩
  · intro rule root hf hm hs
    have hlen : 0 < rule.ByMinute.length := List.length_pos.mpr hm
    simp [generateTimesForCandidates, hf, hs, hlen, FrequencyValue.toNat, flatMap_single]
  · intro rule root hf hs
    have hlen : 0 < rule.BySecond.length := List.length_pos.mpr hs
    simp [generateTimesForCandidates, hf, hlen, FrequencyValue.toNat]

end RRule
namespace RRule

/-! ## The implicit filter of `WEEKLY` -/

/-- For a `WEEKLY` rule without any BY-part the only entry of `matches` comes from the
implicit filter: the candidates on the weekday of the anchor survive, no other does. -/
theorem weekly_plain_filter (rule : RecurringRule) (hf : rule.Frequency = .WEEKLY)
    (hby : rule.NoByParts) (cc cindex : Int) (d : Time) :
    firstFinalMatch (candidateMatches rule cc cindex d)
      = (d.Weekday == rule.DtStart.Weekday) := by
  obtain ⟨h1, h2, h3, h4, h5, h6, h7, h8, _⟩ := hby
  unfold candidateMatches firstFinalMatch
  simp only [h1, h2, h3, h4, h5, h6, h7, h8, hf]
  by_cases hw : d.Weekday = rule.DtStart.Weekday
  · simp [hw]
  · have hw2 : (d.Weekday == rule.DtStart.Weekday) = false := by simpa using hw
    simp [hw2]

/-- For a `WEEKLY` rule whose only BY-part is BYMONTH the implicit filter never rejects:
a candidate survives exactly when its month matches, whatever its weekday. -/
theorem weekly_bymonth_filter (rule : RecurringRule) (hf : rule.Frequency = .WEEKLY)
    (hm : rule.ByMonth ≠ []) (h1 : rule.BySecond = []) (h2 : rule.ByMinute = [])
    (h3 : rule.ByHour = []) (h4 : rule.ByDay = []) (h5 : rule.ByMonthDay = [])
    (h6 : rule.ByYearDay = []) (h7 : rule.ByWeekNo = []) (cc cindex : Int) (d : Time) :
    firstFinalMatch (candidateMatches rule cc cindex d)
      = matchSigned rule.ByMonth d.Month cc cindex := by
  have hlen : 0 < rule.ByMonth.length := List.length_pos.mpr hm
  unfold candidateMatches firstFinalMatch
  simp only [h1, h2, h3, h4, h5, h6, h7, hf]
  by_cases hw : d.Weekday = rule.DtStart.Weekday
  · cases hb : matchSigned rule.ByMonth d.Month cc cindex <;> simp [hw, hlen, hb]
  · have hw2 : (d.Weekday == rule.DtStart.Weekday) = false := by simpa using hw
    cases hb : matchSigned rule.ByMonth d.Month cc cindex <;> simp [hw2, hlen, hb]

/-- C35 (what the code does). The implicit filter of `WEEKLY` appends `true` to `matches`
for a candidate on the weekday of the anchor and appends nothing for any other
candidate. Without a BY-part the other candidates have an empty `matches` and are
dropped; with another BY-part, such as BYMONTH, they are kept whenever that part
matches. The rule `FREQ=WEEKLY;BYMONTH=9` from Tuesday 1997-09-02 delivers September 2,
3, 4, 5 and 6, a Tuesday, a Wednesday, a Thursday, a Friday and a Saturday. -/
theorem weekly_anchor_weekday_is_not_enforced :
    (∀ (rule : RecurringRule), rule.Frequency = .WEEKLY → rule.NoByParts →
        ∀ (cc cindex : Int) (d : Time),
          firstFinalMatch (candidateMatches rule cc cindex d)
            = (d.Weekday == rule.DtStart.Weekday))
      ∧ (∀ (rule : RecurringRule), rule.Frequency = .WEEKLY → rule.ByMonth ≠ [] →
          rule.BySecond = [] → rule.ByMinute = [] → rule.ByHour = [] → rule.ByDay = [] →
          rule.ByMonthDay = [] → rule.ByYearDay = [] → rule.ByWeekNo = [] →
          ∀ (cc cindex : Int) (d : Time),
            firstFinalMatch (candidateMatches rule cc cindex d)
              = matchSigned rule.ByMonth d.Month cc cindex)
      ∧ (StepSeq fiveCalls8 weeklyInSeptember.Iterator).map (List.map StepResult.returned)
          = some [(true, Date 1997 9 2 9 0 0 0 .utc), (true, Date 1997 9 3 9 0 0 0 .utc),
                  (true, Date 1997 9 4 9 0 0 0 .utc), (true, Date 1997 9 5 9 0 0 0 .utc),
                  (true, Date 1997 9 6 9 0 0 0 .utc)]
      ∧ weeklyInSeptember.DtStart.Weekday = 2
      ∧ [Date 1997 9 2 9 0 0 0 .utc, Date 1997 9 3 9 0 0 0 .utc, Date 1997 9 4 9 0 0 0 .utc,
          Date 1997 9 5 9 0 0 0 .utc, Date 1997 9 6 9 0 0 0 .utc].map Time.Weekday
          = [2, 3, 4, 5, 6] := by
  refine ⟨weekly_plain_filter, ?_, by decide!, by decide!, by decide!⟩
  intro rule hf hm h1 h2 h3 h4 h5 h6 h7 cc cindex d
  exact weekly_bymonth_filter rule hf hm h1 h2 h3 h4 h5 h6 h7 cc cindex d

end RRule
namespace RRule

/-! ## What follows a call that returned false -/

/-- Once `Count` is reached every call returns false and leaves the iterator as it
is. -/
theorem StepSeq_count_reached :
    ∀ (calls : List (Nat × Time)) (ri : RecurrenceIterator), 0 < ri.rule.Count →
      ri.rule.Count ≤ ri.ReturnCounter →
      StepSeq calls ri
        = some (calls.map fun c => { ok := false, out := c.2, iter := ri }) := by
  intro calls
  induction calls with
  | nil => intro ri _ _; rfl
  | cons c rest ih =>
    intro ri h0 h1
    obtain ⟨fuel, t⟩ := c
    have hs : Step fuel ri t = some { ok := false, out := t, iter := ri } := by
      unfold Step
      have hc : (decide (ri.rule.Count > 0) && decide (ri.ReturnCounter ≥ ri.rule.Count))
          = true := by
        simp only [Bool.and_eq_true, decide_eq_true_eq]
        exact ⟨h0, h1⟩
      rw [if_pos hc]
    simp only [StepSeq, hs, ih ri h0 h1, List.map_cons]

/-- A call on an iterator whose counter is past the user limit returns false, and the
counter stays past the limit. -/
theorem Step_past_limit {fuel : Nat} {ri : RecurrenceIterator} {t : Time} {r : StepResult}
    (h : Step fuel ri t = some r) (h0 : 0 < ri.UserLimit)
    (h1 : ri.UserLimit < ri.ReturnCounter) :
    r.ok = false ∧ r.iter.UserLimit = ri.UserLimit ∧ ri.UserLimit < r.iter.ReturnCounter := by
  rcases Step_cases h with ⟨_, _, hr⟩ | ⟨_, ri₁, sc, hre, hr⟩
  · subst hr
    exact ⟨rfl, rfl, h1⟩
  · obtain ⟨hc, hrc, _, _, hexit⟩ := refill_spec _ _ _ _ _ _ hre
    have hl : ri₁.UserLimit = ri.UserLimit := hc.2.1.symm
    subst hr
    cases hbuf : ri₁.iterBuffer with
    | nil =>
      have hsc : sc = true := by
        rcases hexit with h2 | h2
        · exact absurd hbuf h2
        · exact h2
      rw [deliver_nil sc t hbuf, hsc]
      exact ⟨rfl, hl, by rw [hrc]; exact h1⟩
    | cons head tail =>
      obtain ⟨_, _, hcfg, _, hle, _, hok⟩ := deliver_cons sc t hbuf
      refine ⟨?_, ?_, ?_⟩
      · cases hk : (deliver ri₁ sc t).ok with
        | false => rfl
        | true =>
          have := (hok hk).2.2 (by rw [hl]; exact h0)
          omega
      · rw [← hcfg.2.1, hl]
      · omega

/-- Once the counter is past the user limit every call that returns returns false. -/
theorem StepSeq_past_limit :
    ∀ (calls : List (Nat × Time)) (ri : RecurrenceIterator) (rs : List StepResult),
      0 < ri.UserLimit → ri.UserLimit < ri.ReturnCounter → StepSeq calls ri = some rs →
      ∀ r ∈ rs, r.ok = false := by
  intro calls
  induction calls with
  | nil =>
    intro ri rs _ _ h r hr
    simp only [StepSeq, Option.some.injEq] at h
    rw [← h] at hr
    cases hr
  | cons c rest ih =>
    intro ri rs h0 h1 h r hr
    obtain ⟨fuel, t⟩ := c
    simp only [StepSeq] at h
    cases hs : Step fuel ri t with
    | none => simp [hs] at h
    | some r₁ =>
      obtain ⟨a1, a2, a3⟩ := Step_past_limit hs h0 h1
      cases hq : StepSeq rest r₁.iter with
      | none => simp [hs, hq] at h
      | some rs' =>
        simp only [hs, hq, Option.some.injEq] at h
        rw [← h] at hr
        rcases List.mem_cons.mp hr with e | hm
        · rw [e]; exact a1
        · exact ih r₁.iter rs' (by rw [a2]; exact h0) (by rw [a2]; exact a3) hq r hm

/-- C34 (what the code does). A call that returns false because the timestamp it took
from the buffer is after `Until` marks nothing: the next call takes the next timestamp
and returns true when that one is not after `Until`. At
`FREQ=DAILY;UNTIL=20200102T093000Z;BYHOUR=10,9` from 2020-01-02 09:00 the first call
returns false (10:00 is after `Until`) and the second returns true with 09:00. The
refusals for `Count` and for the user limit are final: once `Count` is reached every
call returns false and leaves the iterator as it is, and once the counter is past the
user limit every call that returns returns false. -/
theorem until_refusal_is_not_final :
    (StepSeq [(8, EmptyTime), (8, EmptyTime)] dailyDescendingUntil.Iterator).map
          (List.map StepResult.returned)
        = some [(false, Date 2020 1 2 10 0 0 0 .utc), (true, Date 2020 1 2 9 0 0 0 .utc)]
      ∧ (∀ (calls : List (Nat × Time)) (ri : RecurrenceIterator), 0 < ri.rule.Count →
          ri.rule.Count ≤ ri.ReturnCounter →
          StepSeq calls ri
            = some (calls.map fun c => { ok := false, out := c.2, iter := ri }))
      ∧ (∀ (calls : List (Nat × Time)) (ri : RecurrenceIterator) (rs : List StepResult),
          0 < ri.UserLimit → ri.UserLimit < ri.ReturnCounter → StepSeq calls ri = some rs →
          ∀ r ∈ rs, r.ok = false) :=
  ⟨by decide!, StepSeq_count_reached, StepSeq_past_limit⟩

end RRule
namespace RRule

/-! ## BYSETPOS -/

/-- The test of the BYSETPOS block of `Step`, as the positions it names. -/
theorem matchSetPos_eq (values : List Int) (len i : Int) :
    matchSetPos values len i = atSetPos values len i := by
  unfold matchSetPos atSetPos
  congr 1
  funext V
  by_cases h1 : 0 < V
  · have h2 : ¬ V < 0 := by omega
    simp [h1, h2]
  · by_cases h2 : V < 0
    · have e : ((len - i + V == 0) : Bool) = (i == len + V) := by
        by_cases h3 : i = len + V
        · have : len - i + V = 0 := by omega
          simp [h3, this]
        · have : ¬ len - i + V = 0 := by omega
          simp [h3, this]
      simp [h1, h2, e]
    · simp [h1, h2]

theorem atSetPos_iff (values : List Int) (len i : Int) :
    atSetPos values len i = true
      ↔ ∃ V ∈ values, (0 < V ∧ i = V - 1) ∨ (V < 0 ∧ i = len + V) := by
  unfold atSetPos
  simp only [List.any_eq_true, Bool.or_eq_true, Bool.and_eq_true, decide_eq_true_eq,
    beq_iff_eq]

/-- The indices that `withIndex` gives: the position in the list, counted from `i`. -/
theorem mem_withIndex (l : List Time) :
    ∀ (i j : Int) (d : Time),
      (j, d) ∈ withIndex i l ↔ ∃ n : Nat, j = i + n ∧ l[n]? = some d := by
  induction l with
  | nil =>
    intro i j d
    simp [withIndex]
  | cons a rest ih =>
    intro i j d
    simp only [withIndex, List.mem_cons, Prod.mk.injEq, ih]
    constructor
    · rintro (⟨rfl, rfl⟩ | ⟨n, hn, hd⟩)
      · exact ⟨0, by simp, by simp⟩
      · exact ⟨n + 1, by push_cast; omega, by simpa using hd⟩
    · rintro ⟨n, hn, hd⟩
      cases n with
      | zero =>
        left
        simp only [List.getElem?_cons_zero, Option.some.injEq] at hd
        exact ⟨by simpa using hn, hd.symm⟩
      | succ n =>
        right
        exact ⟨n, by push_cast at hn; omega, by simpa using hd⟩

/-- The list `matches` of the second loop: the BYSETPOS test, when the list is not
empty, and the tests of the exceptions and the windows. -/
theorem survivorMatches_all_eq (ri : RecurrenceIterator) (fcc cindex : Int) (d : Time) :
    ((survivorMatches ri fcc cindex d).all id && !d.Before ri.rule.DtStart)
      = ((decide (ri.rule.BySetPos.length = 0) || matchSetPos ri.rule.BySetPos fcc cindex)
          && passesExclusion ri d) := by
  unfold survivorMatches passesExclusion
  have hex : ((ri.rule.ExceptionsToRule.filter fun exDate => exDate.Equal d).map
        fun _ => false).all id
      = ri.rule.ExceptionsToRule.all fun e => !e.Equal d := by
    induction ri.rule.ExceptionsToRule with
    | nil => rfl
    | cons e rest ih =>
      cases he : e.Equal d with
      | true =>
        simp only [List.filter_cons, he, if_true, List.map_cons, List.all_cons, id_eq,
          Bool.false_and, Bool.not_true]
      | false =>
        simp only [List.filter_cons, he, Bool.false_eq_true, if_false, List.all_cons,
          Bool.not_false, Bool.true_and]
        exact ih
  simp only [List.all_append, hex]
  by_cases hs : ri.rule.BySetPos.length = 0
  · cases ri.UseUserBefore <;> cases ri.UseUserAfter <;> simp [hs]
  · have hpos : 0 < ri.rule.BySetPos.length := Nat.pos_of_ne_zero hs
    cases ri.UseUserBefore <;> cases ri.UseUserAfter <;> simp [hs, hpos, Bool.and_assoc]

/-- The buffer after the second loop: what it held, followed by the survivors that
pass the tests of the loop, in order. -/
theorem secondLoop_filter (ri : RecurrenceIterator) (fcc : Int) :
    ∀ (l : List Time) (cindex : Int) (acc : List Time × Bool),
      (secondLoop ri fcc cindex l acc).1
        = acc.1 ++ ((withIndex cindex l).filter fun p =>
            (decide (ri.rule.BySetPos.length = 0) || matchSetPos ri.rule.BySetPos fcc p.1)
              && passesExclusion ri p.2).map Prod.snd := by
  intro l
  induction l with
  | nil =>
    intro cindex acc
    obtain ⟨buf, sc⟩ := acc
    simp [secondLoop, withIndex]
  | cons d rest ih =>
    intro cindex acc
    obtain ⟨buf, sc⟩ := acc
    have hm := survivorMatches_all_eq ri fcc cindex d
    simp only [secondLoop, withIndex, ih, List.filter_cons]
    rw [hm]
    cases hk : ((decide (ri.rule.BySetPos.length = 0)
        || matchSetPos ri.rule.BySetPos fcc cindex) && passesExclusion ri d)
    · simp
    · simp

theorem filter_filter_and {α : Type} (p q : α → Bool) (l : List α) :
    (l.filter fun x => p x && q x) = (l.filter p).filter q := by
  rw [List.filter_filter]
  congr 1
  funext x
  exact Bool.and_comm _ _

/-- C33. For a rule with a non-empty `BySetPos`: the second loop of `Step`, run over a
survivor list `S` with `final_candidate_count` its length, adds to the buffer the
elements of `S` at the indices that BYSETPOS names (`V - 1` for `V > 0`, `len + V` for
`V < 0`), each once and in the order of `S`, less those that the exclusion tests of the
same loop drop; every index named lies in `0..len-1`, so a position out of range selects
nothing; and each pass of the period loop of `Step` runs the second loop in that way
over the survivors of its first loop. -/
theorem bysetpos_selects_by_index (ri : RecurrenceIterator) (hs : ri.rule.BySetPos ≠ []) :
    (∀ (S : List Time) (acc : List Time × Bool),
        (secondLoop ri S.length 0 S acc).1
          = acc.1 ++ (picked ri.rule.BySetPos S).filter (passesExclusion ri))
      ∧ (∀ (S : List Time) (d : Time), d ∈ picked ri.rule.BySetPos S ↔
          ∃ n : Nat, S[n]? = some d
            ∧ ∃ V ∈ ri.rule.BySetPos,
                (0 < V ∧ (n : Int) = V - 1) ∨ (V < 0 ∧ (n : Int) = S.length + V))
      ∧ (∀ S : List Time, (picked ri.rule.BySetPos S).Sublist S)
      ∧ (∀ (wfuel : Nat) (sc : Bool) (p : RecurrenceIterator × Bool),
          advancePeriod wfuel ri sc = some p →
          ∃ candidates,
            generateCandidates ri.rule wfuel (periodRoot ri.rule ri.iterCounter)
                = some candidates
              ∧ p.1.iterBuffer
                = ri.iterBuffer
                  ++ (picked ri.rule.BySetPos
                        (finalSet ri.rule candidates.length 0 candidates)).filter
                      (passesExclusion ri)) := by
  have hlen : ¬ ri.rule.BySetPos.length = 0 := by
    intro h
    exact hs (List.length_eq_zero.mp h)
  have hloop : ∀ (S : List Time) (acc : List Time × Bool),
      (secondLoop ri S.length 0 S acc).1
        = acc.1 ++ (picked ri.rule.BySetPos S).filter (passesExclusion ri) := by
    intro S acc
    rw [secondLoop_filter]
    congr 1
    unfold picked
    have e : (fun p : Int × Time =>
          (decide (ri.rule.BySetPos.length = 0) || matchSetPos ri.rule.BySetPos S.length p.1)
            && passesExclusion ri p.2)
        = fun p => atSetPos ri.rule.BySetPos S.length p.1 && passesExclusion ri p.2 := by
      funext p
      simp [hlen, matchSetPos_eq]
    rw [e, filter_filter_and, List.filter_map]
    rfl
  refine ⟨hloop, ?_, ?_, ?_⟩
  · intro S d
    unfold picked
    simp only [List.mem_map, List.mem_filter, Prod.exists, exists_and_right, exists_eq_right]
    constructor
    · rintro ⟨j, hm, hp⟩
      obtain ⟨n, hn, hd⟩ := (mem_withIndex S 0 j d).mp hm
      obtain ⟨V, hV, hc⟩ := (atSetPos_iff _ _ _).mp hp
      refine ⟨n, hd, V, hV, ?_⟩
      rcases hc with ⟨a, b⟩ | ⟨a, b⟩
      · exact Or.inl ⟨a, by omega⟩
      · exact Or.inr ⟨a, by omega⟩
    · rintro ⟨n, hd, V, hV, hc⟩
      refine ⟨(n : Int), (mem_withIndex S 0 n d).mpr ⟨n, by simp, hd⟩, ?_⟩
      exact (atSetPos_iff _ _ _).mpr ⟨V, hV, hc⟩
  · intro S
    unfold picked
    have hsub : ∀ (l : List Time) (i : Int), (withIndex i l).map Prod.snd = l := by
      intro l
      induction l with
      | nil => intro i; rfl
      | cons a rest ih => intro i; simp [withIndex, ih]
    have h1 : (((withIndex 0 S).filter fun p =>
        atSetPos ri.rule.BySetPos S.length p.1).map Prod.snd).Sublist
          ((withIndex 0 S).map Prod.snd) :=
      List.Sublist.map _ (List.filter_sublist _)
    rw [hsub] at h1
    exact h1
  · intro wfuel sc p h
    unfold advancePeriod at h
    simp only at h
    cases hg : generateCandidates ri.rule wfuel
        (getNextDateByFreqAndInterval ri.rule.DtStart ri.rule.Frequency
          (ri.rule.Interval * ri.iterCounter)) with
    | none => simp [hg] at h
    | some candidates =>
      refine ⟨candidates, hg, ?_⟩
      simp only [hg, Option.some.injEq] at h
      rw [← h]
      simp only
      have := hloop (finalSet ri.rule candidates.length 0 candidates) (ri.iterBuffer, sc)
      simpa using this

/-- C33, at the rules of `Test_BySetPos`: of the Tuesdays, Wednesdays and Thursdays of
September 1997 the third is Thursday the 4th, and the runs deliver the timestamps that
the test lists. -/
theorem bysetpos_selects_by_index_witness :
    midweekDaysOfSeptember.length = 13
      ∧ picked [3] midweekDaysOfSeptember = [Date 1997 9 4 9 0 0 0 newYork1997]
      ∧ (secondLoop thirdMidweekDay.Iterator midweekDaysOfSeptember.length 0
            midweekDaysOfSeptember ([], false)).1
          = [] ++ (picked thirdMidweekDay.Iterator.rule.BySetPos midweekDaysOfSeptember).filter
              (passesExclusion thirdMidweekDay.Iterator)
      ∧ (drain 1 10 thirdMidweekDay.Iterator EmptyTime).map (List.map StepResult.returned)
          = some [(true, Date 1997 9 4 9 0 0 0 newYork1997),
              (true, Date 1997 10 7 9 0 0 0 newYork1997),
              (true, Date 1997 11 6 9 0 0 0 newYork1997),
              (false, Date 1997 11 6 9 0 0 0 newYork1997)]
      ∧ (StepSeq fiveCalls8 secondToLastWorkday.Iterator).map (List.map StepResult.returned)
          = some [(true, Date 1997 9 29 9 0 0 0 newYork1997),
              (true, Date 1997 10 30 9 0 0 0 newYork1997),
              (true, Date 1997 11 27 9 0 0 0 newYork1997),
              (true, Date 1997 12 30 9 0 0 0 newYork1997),
              (true, Date 1998 1 29 9 0 0 0 newYork1997)] :=
  ⟨by decide!, by decide!,
    (bysetpos_selects_by_index thirdMidweekDay.Iterator (by decide)).1
      midweekDaysOfSeptember ([], false), by decide!, by decide!⟩

end RRule
namespace RRule

/-! ## Strictly increasing timestamps at the coarse frequencies -/

/-- At `YEARLY`, `MONTHLY` and `WEEKLY` the method `generateTimesForCandidates` is not
called, so no time-of-day list is expanded. -/
theorem noTimeExpansion_of_coarse (rule : RecurringRule)
    (hf : rule.Frequency = .YEARLY ∨ rule.Frequency = .MONTHLY ∨ rule.Frequency = .WEEKLY) :
    rule.NoTimeExpansion := by
  unfold RecurringRule.NoTimeExpansion
  rcases hf with h | h | h <;> rw [h] <;> simp

/-- C40. For a rule at `YEARLY`, `MONTHLY` or `WEEKLY` with `Interval ≥ 1` whose anchor
is in UTC or in a zone with one fixed offset, whatever its BY-parts and exceptions:
the candidates of each period have whole seconds and are strictly increasing; every
candidate of a period is before every candidate of a later period; and on an iterator
over the rule that starts with an empty buffer and a period counter that is not
negative (a fresh iterator, whatever its limit and its windows) the timestamps that a
sequence of `Step` calls delivers are strictly increasing, so none is delivered
twice. -/
theorem coarse_frequencies_yield_increasing (rule : RecurringRule)
    (hf : rule.Frequency = .YEARLY ∨ rule.Frequency = .MONTHLY ∨ rule.Frequency = .WEEKLY)
    (hfix : rule.DtStart.loc.Fixed) (hn : 1 ≤ rule.Interval) :
    (∀ (k : Int) (wfuel : Nat) (c : List Time), 0 ≤ k →
        generateCandidates rule wfuel (periodRoot rule k) = some c →
        c.Pairwise (fun a b => a.Before b = true) ∧ ∀ d ∈ c, d.nsec = 0)
      ∧ (∀ (k k' : Int) (wfuel wfuel' : Nat) (c c' : List Time), 0 ≤ k → k < k' →
          generateCandidates rule wfuel (periodRoot rule k) = some c →
          generateCandidates rule wfuel' (periodRoot rule k') = some c' →
          ∀ d ∈ c, ∀ d' ∈ c', d.Before d' = true)
      ∧ (∀ (ri : RecurrenceIterator) (calls : List (Nat × Time)) (rs : List StepResult),
          ri.rule = rule → ri.iterBuffer = [] → 0 ≤ ri.iterCounter →
          StepSeq calls ri = some rs →
          (yielded rs).Pairwise (fun a b => a.Before b = true) ∧ (yielded rs).Nodup) := by
  have hte := noTimeExpansion_of_coarse rule hf
  have hf4 : rule.Frequency = .YEARLY ∨ rule.Frequency = .MONTHLY ∨ rule.Frequency = .WEEKLY
      ∨ rule.Frequency = .DAILY := by
    rcases hf with h | h | h
    · exact Or.inl h
    · exact Or.inr (Or.inl h)
    · exact Or.inr (Or.inr (Or.inl h))
  obtain ⟨L, hp⟩ := periods_ordered rule hf4 hfix hn hte
  have hbefore : ∀ a b : Time, a.sec < b.sec → a.Before b = true := by
    intro a b h
    unfold Time.Before
    simp [h]
  refine ⟨?_, ?_, ?_⟩
  · intro k wfuel c hk hg
    obtain ⟨_, hc⟩ := hp k hk
    obtain ⟨h1, h2⟩ := hc wfuel c hg
    exact ⟨h1.imp (fun {a b} h => hbefore a b h), fun d hd => (h2 d hd).1⟩
  · intro k k' wfuel wfuel' c c' hk hlt hg hg' d hd d' hd'
    obtain ⟨_, hc⟩ := hp k hk
    obtain ⟨_, hc'⟩ := hp k' (by omega)
    obtain ⟨_, h2⟩ := hc wfuel c hg
    obtain ⟨_, h2'⟩ := hc' wfuel' c' hg'
    have hmono : L (k + 1) ≤ L k' :=
      bound_mono (fun j hj => (hp j hj).1) (by omega) (by omega)
    have a1 := (h2 d hd).2.2
    have a2 := (h2' d' hd').2.1
    exact hbefore d d' (by omega)
  · intro ri calls rs hr hb hk hs
    obtain ⟨h1, _⟩ := yielded_strictly_increasing rule hf4 hfix hn hte ri hr hb hk calls rs hs
    refine ⟨h1.imp (fun {a b} h => hbefore a b h), ?_⟩
    unfold List.Nodup
    refine h1.imp ?_
    intro a b h e
    rw [e] at h
    exact lt_irrefl _ h

/-- C40, at the rule of `Test_WKST_Change` with the week starting on Sunday, in UTC and
without `COUNT`: five calls deliver five timestamps, each before the next. -/
theorem coarse_frequencies_yield_increasing_witness :
    ∃ rs, StepSeq fiveCalls8 everyOtherWeekSunday.Iterator = some rs
      ∧ (yielded rs).length = 5
      ∧ (yielded rs).Pairwise (fun a b => a.Before b = true) ∧ (yielded rs).Nodup :=
  ⟨(StepSeq fiveCalls8 everyOtherWeekSunday.Iterator).getD [], by decide!, by decide!,
    (coarse_frequencies_yield_increasing everyOtherWeekSunday (Or.inr (Or.inr rfl)) trivial
      (by decide)).2.2 everyOtherWeekSunday.Iterator fiveCalls8
        ((StepSeq fiveCalls8 everyOtherWeekSunday.Iterator).getD []) rfl rfl (le_refl 0)
        (by decide!)⟩

end RRule
namespace RRule

/-! ## `time.Date` in a zone with transitions -/

/-- The function `Date` with whole seconds, whatever the month number: the wall clock
asked for, resolved in the location. -/
theorem Date_wall (y m d h mi s : Int) (loc : Location) :
    Date y m d h mi s 0 loc
      = atWall loc ((monthStart (12 * y + (m - 1)) + (d - 1)) * 86400 + h * 3600 + mi * 60 + s) := by
  have hm1 : 1 ≤ (m - 1) % 12 + 1 := by omega
  have hm2 : (m - 1) % 12 + 1 ≤ 12 := by omega
  have hc := civilDays_monthStart (y := y + (m - 1) / 12) hm1 hm2 d
  have e : 12 * (y + (m - 1) / 12) + ((m - 1) % 12 + 1 - 1) = 12 * y + (m - 1) := by omega
  rw [e] at hc
  unfold Date atWall Location.resolve
  simp only [Int.zero_ediv, Int.zero_emod, add_zero, hc]

/-- The function `Date` with the nanoseconds of a time. -/
theorem Date_wall_nsec (y m d h mi s ns : Int) (loc : Location) (h0 : 0 ≤ ns)
    (h1 : ns < 1000000000) :
    Date y m d h mi s ns loc = { Date y m d h mi s 0 loc with nsec := ns } := by
  have e1 : ns / 1000000000 = 0 := by omega
  have e2 : ns % 1000000000 = ns := by omega
  unfold Date
  simp only [e1, e2, Int.zero_ediv, Int.zero_emod, add_zero]

theorem atWall_loc (loc : Location) (w : Int) : (atWall loc w).loc = loc := rfl

theorem atWall_nsec (loc : Location) (w : Int) : (atWall loc w).nsec = 0 := rfl

theorem abs_with_nsec (t : Time) (ns : Int) : ({ t with nsec := ns } : Time).abs = t.abs := rfl

/-- In a zone without transitions every wall clock exists. -/
theorem shows_of_fixed {loc : Location} (hfix : loc.Fixed) (w : Int) : loc.Shows w := by
  unfold Location.Shows
  have ha : (atWall loc w).abs = (atWall loc w).sec + (atWall loc w).loc.offset + unixToAbs :=
    abs_fixed (t := atWall loc w) hfix
  rw [ha]
  unfold atWall Location.resolve
  simp only [lookup_fixed hfix]
  split_ifs <;> simp_all

/-- Building a time from the fields of a time `t` with the day moved by `e`: the wall
clock of `t` moved by `e` days, resolved in the location of `t`. -/
theorem Date_of_fields_wall (t : Time) (e : Int) :
    Date t.Year t.Month (t.Day + e) t.Hour t.Minute t.Second 0 t.loc
      = atWall t.loc (t.abs + e * 86400) := by
  obtain ⟨h1, h2, _, _, h5⟩ := fields_valid t
  have hc := clock_sum t
  rw [Date_wall, ← civilDays_monthStart h1 h2, civilDays_add, h5]
  congr 1
  omega

/-- The method `AddDate` by whole days, whatever the zone. -/
theorem AddDate_wall (t : Time) (h0 : 0 ≤ t.nsec) (h1 : t.nsec < 1000000000) (e : Int) :
    t.AddDate 0 0 e = { atWall t.loc (t.abs + e * 86400) with nsec := t.nsec } := by
  unfold Time.AddDate
  simp only [add_zero]
  rw [Date_wall_nsec _ _ _ _ _ _ _ _ h0 h1, Date_of_fields_wall]

/-- The fields of a time whose wall clock is known. -/
theorem fields_of_abs {t : Time} {i j c : Int} (ha : t.abs = wallOf i j c)
    (hj0 : 0 ≤ j) (hj1 : j < monthLen (i / 12) (i % 12 + 1)) (hc0 : 0 ≤ c) (hc1 : c < 86400) :
    t.Year = i / 12 ∧ t.Month = i % 12 + 1 ∧ t.Day = j + 1 ∧ t.monthIndex = i
      ∧ t.days = monthStart i + j ∧ t.Weekday = (monthStart i + j + 1) % 7
      ∧ t.clock = c ∧ t.Hour = c / 3600 ∧ t.Minute = c % 3600 / 60 ∧ t.Second = c % 60 := by
  unfold wallOf at ha
  have hm1 : 1 ≤ i % 12 + 1 := by omega
  have hm2 : i % 12 + 1 ≤ 12 := by omega
  have hdays : t.abs / 86400 = civilDays (i / 12) (i % 12 + 1) (j + 1) := by
    rw [civilDays_monthStart hm1 hm2]
    have e : 12 * (i / 12) + (i % 12 + 1 - 1) = i := by omega
    rw [e, ha]
    omega
  have hclock : t.abs % 86400 = c := by rw [ha]; omega
  obtain ⟨r1, r2⟩ := absDate_civilDays (y := i / 12) (m := i % 12 + 1) (d := j + 1) hm1 hm2
    (by omega) (by omega)
  have hY : t.Year = i / 12 := by unfold Time.Year; rw [hdays, r1]
  have hM : t.Month = i % 12 + 1 := by
    unfold Time.Month; simp only; rw [hdays, r1]; simp only; rw [r2]
  have hD : t.Day = j + 1 := by
    unfold Time.Day; simp only; rw [hdays, r1]; simp only; rw [r2]
  have hd2 : t.abs / 86400 = monthStart i + j := by rw [ha]; omega
  refine ⟨hY, hM, hD, ?_, hd2, ?_, hclock, ?_, ?_, ?_⟩
  · unfold Time.monthIndex
    rw [hY, hM]
    omega
  · unfold Time.Weekday
    rw [hd2]
  · unfold Time.Hour
    rw [hclock]
  · unfold Time.Minute
    rw [ha]
    omega
  · unfold Time.Second
    rw [ha]
    omega

/-- The wall clock of a time, by the index of its month. -/
theorem abs_eq_wallOf (t : Time) : t.abs = wallOf t.monthIndex (t.Day - 1) t.clock := by
  obtain ⟨h1, h2, _, _, h5⟩ := fields_valid t
  unfold wallOf Time.monthIndex Time.clock
  rw [← civilDays_monthStart h1 h2, h5]
  omega

theorem clock_range' (t : Time) : 0 ≤ t.clock ∧ t.clock < 86400 := by
  unfold Time.clock
  omega

theorem clock_fields (t : Time) :
    t.Hour = t.clock / 3600 ∧ t.Minute = t.clock % 3600 / 60 ∧ t.Second = t.clock % 60 := by
  unfold Time.Hour Time.Minute Time.Second Time.clock
  omega

/-- The function `Date` at the clock of a time `R`, in the zone of `R`. -/
theorem Date_at_clock (R : Time) (y m d : Int) :
    Date y m d R.Hour R.Minute R.Second 0 R.loc
      = atWall R.loc (wallOf (12 * y + (m - 1)) (d - 1) R.clock) := by
  have hc := clock_sum R
  rw [Date_wall]
  unfold wallOf Time.clock
  congr 1
  omega

end RRule
namespace RRule

/-! ## The candidates of a week, for any root -/

/-- More fuel does not change the result of the walk back. -/
theorem walkBack_mono (wkst : Int) :
    ∀ (fuel : Nat) (t t' : Time), walkBack wkst fuel t = some t' →
      ∀ m : Nat, walkBack wkst (fuel + m) t = some t' := by
  intro fuel
  induction fuel with
  | zero => intro t t' h; simp [walkBack] at h
  | succ n ih =>
    intro t t' h m
    have e : n + 1 + m = (n + m) + 1 := by omega
    rw [e]
    simp only [walkBack] at h ⊢
    split
    · rename_i hc
      rw [if_pos hc] at h
      exact ih _ _ h m
    · rename_i hc
      rw [if_neg hc] at h
      exact h

/-- The walk back from a wall clock `n` days after the start of its week, when the wall
clock exists on each of the days walked: it ends after `n` steps, on the first day of
the week. -/
theorem walkBack_wall {wkst : Int} (h0 : 0 ≤ wkst) (h6 : wkst ≤ 6) (loc : Location) :
    ∀ (n fuel : Nat) (w : Int),
      (∀ i : Nat, i ≤ n → loc.Shows (w - (i : Int) * 86400)) →
      (w / 86400 + 1 - wkst) % 7 = (n : Int) → n < fuel →
      walkBack wkst fuel (atWall loc w) = some (atWall loc (w - (n : Int) * 86400)) := by
  intro n
  induction n with
  | zero =>
    intro fuel w hs hn hf
    obtain ⟨f, rfl⟩ : ∃ f, fuel = f + 1 := ⟨fuel - 1, by omega⟩
    have ha : (atWall loc w).abs = w := by
      have := hs 0 (le_refl _)
      simpa [Location.Shows] using this
    have hw : (atWall loc w).Weekday = wkst := by
      unfold Time.Weekday
      rw [ha]
      simp only [Nat.cast_zero] at hn
      omega
    simp [walkBack, hw]
  | succ n ih =>
    intro fuel w hs hn hf
    obtain ⟨f, rfl⟩ : ∃ f, fuel = f + 1 := ⟨fuel - 1, by omega⟩
    have ha : (atWall loc w).abs = w := by
      have := hs 0 (Nat.zero_le _)
      simpa [Location.Shows] using this
    have hw : ¬ (atWall loc w).Weekday = wkst := by
      unfold Time.Weekday
      rw [ha]
      push_cast at hn
      omega
    have hne : ((atWall loc w).Weekday != wkst) = true := by simp [hw]
    have hadd : (atWall loc w).AddDate 0 0 (-1) = atWall loc (w - 86400) := by
      rw [AddDate_wall _ (le_refl _) (by show (0 : Int) < 1000000000; norm_num), ha]
      have e : w + -1 * 86400 = w - 86400 := by ring
      rw [e]
      rfl
    simp only [walkBack, hne, if_true, hadd]
    rw [ih f (w - 86400) ?_ ?_ (by omega)]
    · congr 2
      push_cast
      ring
    · intro i hi
      have := hs (i + 1) (by omega)
      have e : w - ((i + 1 : Nat) : Int) * 86400 = w - 86400 - (i : Int) * 86400 := by
        push_cast
        ring
      rw [e] at this
      exact this
    · push_cast at hn
      omega

/-- The loop that builds the candidates of a week from the first, when the wall clock
exists on each day from which the next is built. -/
theorem weekCandidates_wall (loc : Location) :
    ∀ (cnt : Nat) (w : Int),
      (∀ j : Nat, j + 1 < cnt → loc.Shows (w + (j : Int) * 86400)) →
      weekCandidates cnt (atWall loc w)
        = (List.range cnt).map fun j : Nat => atWall loc (w + (j : Int) * 86400) := by
  intro cnt
  induction cnt with
  | zero => intro w _; rfl
  | succ n ih =>
    intro w hs
    rw [List.range_succ_eq_map, List.map_cons, List.map_map]
    simp only [weekCandidates]
    congr 1
    · simp
    · cases n with
      | zero => rfl
      | succ m =>
        have ha : (atWall loc w).abs = w := by
          have := hs 0 (by omega)
          simpa [Location.Shows] using this
        have hadd : (atWall loc w).AddDate 0 0 1 = atWall loc (w + 86400) := by
          rw [AddDate_wall _ (le_refl _) (by show (0 : Int) < 1000000000; norm_num), ha]
          have e : w + 1 * 86400 = w + 86400 := by ring
          rw [e]
          rfl
        rw [hadd, ih (w + 86400)]
        · apply List.map_congr_left
          intro j _
          simp only [Function.comp_apply, Nat.succ_eq_add_one]
          congr 1
          push_cast
          ring
        · intro j hj
          have := hs (j + 1) (by omega)
          have e : w + ((j + 1 : Nat) : Int) * 86400 = w + 86400 + (j : Int) * 86400 := by
            push_cast
            ring
          rw [e] at this
          exact this

theorem days_clock (t : Time) : t.abs = t.days * 86400 + t.clock := by
  unfold Time.days Time.clock
  omega

/-- The candidates of a `WEEKLY` rule for a root whose wall clock exists on each day of
its week. -/
theorem generateCandidates_week (rule : RecurringRule) (hf : rule.Frequency = .WEEKLY)
    (h0 : 0 ≤ rule.WorkWeekStart) (h6 : rule.WorkWeekStart ≤ 6) (R : Time)
    (hs : WeekShown rule.WorkWeekStart R) :
    generateCandidates rule 7 R = some (weekAt rule.WorkWeekStart R)
      ∧ ∀ (wfuel : Nat) (c : List Time), generateCandidates rule wfuel R = some c →
          c = weekAt rule.WorkWeekStart R := by
  have ht0 := Date_of_fields_wall R 0
  simp only [add_zero, zero_mul] at ht0
  have hgen : ∀ wfuel, generateCandidates rule wfuel R
      = (walkBack rule.WorkWeekStart wfuel (atWall R.loc R.abs)).map (weekCandidates 7) := by
    intro wfuel
    unfold generateCandidates
    rw [hf]
    simp only [ht0]
  have hi : 0 ≤ daysIntoWeek rule.WorkWeekStart R ∧ daysIntoWeek rule.WorkWeekStart R < 7 := by
    unfold daysIntoWeek
    omega
  obtain ⟨n, hn⟩ : ∃ n : Nat, (n : Int) = daysIntoWeek rule.WorkWeekStart R :=
    ⟨(daysIntoWeek rule.WorkWeekStart R).toNat, Int.toNat_of_nonneg hi.1⟩
  have hn7 : n < 7 := by omega
  have hdc := days_clock R
  obtain ⟨c0, c1⟩ := clock_range' R
  have hstart : R.abs - (n : Int) * 86400
      = weekStart rule.WorkWeekStart R.days * 86400 + R.clock := by
    rw [hn, hdc]
    unfold weekStart daysIntoWeek
    ring
  have hwb : walkBack rule.WorkWeekStart 7 (atWall R.loc R.abs)
      = some (atWall R.loc (R.abs - (n : Int) * 86400)) := by
    apply walkBack_wall h0 h6 R.loc n 7 R.abs
    · intro i hi'
      have := hs (n - i) (by omega)
      have e : (weekStart rule.WorkWeekStart R.days + ((n - i : Nat) : Int)) * 86400 + R.clock
          = R.abs - (i : Int) * 86400 := by
        have : ((n - i : Nat) : Int) = (n : Int) - i := by omega
        rw [this, hdc, hn]
        unfold weekStart daysIntoWeek
        ring
      rw [e] at this
      exact this
    · rw [hn]
      unfold daysIntoWeek Time.days
      rfl
    · exact hn7
  have hwc : weekCandidates 7 (atWall R.loc (R.abs - (n : Int) * 86400))
      = weekAt rule.WorkWeekStart R := by
    rw [weekCandidates_wall R.loc 7 _ ?_]
    · unfold weekAt
      apply List.map_congr_left
      intro j _
      rw [hstart]
      congr 1
      ring
    · intro j hj
      have := hs j (by omega)
      rw [hstart]
      have e : weekStart rule.WorkWeekStart R.days * 86400 + R.clock + (j : Int) * 86400
          = (weekStart rule.WorkWeekStart R.days + (j : Int)) * 86400 + R.clock := by ring
      rw [e]
      exact this
  have h7 : generateCandidates rule 7 R = some (weekAt rule.WorkWeekStart R) := by
    rw [hgen, hwb]
    simp only [Option.map_some', hwc]
  refine ⟨h7, ?_⟩
  intro wfuel c hc
  rw [hgen] at hc
  cases hw : walkBack rule.WorkWeekStart wfuel (atWall R.loc R.abs) with
  | none => rw [hw] at hc; simp at hc
  | some tw =>
    rw [hw] at hc
    simp only [Option.map_some', Option.some.injEq] at hc
    have e1 := walkBack_mono _ _ _ _ hw 7
    have e2 := walkBack_mono _ _ _ _ hwb wfuel
    have e3 : wfuel + 7 = 7 + wfuel := by omega
    rw [e3, e2, Option.some.injEq] at e1
    rw [← hc, ← e1, hwc]

/-- The fields of the candidates of `weekAt`. -/
theorem weekAt_fields (wkst : Int) (R : Time) (hs : WeekShown wkst R) (j : Nat) (x : Time)
    (hx : (weekAt wkst R)[j]? = some x) :
    j < 7 ∧ x.days = weekStart wkst R.days + j ∧ x.Weekday = (wkst + j) % 7
      ∧ x.clock = R.clock ∧ x.Hour = R.Hour ∧ x.Minute = R.Minute ∧ x.Second = R.Second
      ∧ x.nsec = 0 ∧ x.loc = R.loc := by
  have hj : j < 7 := by
    by_contra hge
    have hlen : (weekAt wkst R).length = 7 := by simp [weekAt]
    have : (weekAt wkst R)[j]? = none := List.getElem?_eq_none (by rw [hlen]; omega)
    rw [this] at hx
    cases hx
  unfold weekAt at hx
  rw [List.getElem?_map, List.getElem?_range hj] at hx
  simp only [Option.map_some', Option.some.injEq] at hx
  have ha : x.abs = (weekStart wkst R.days + (j : Int)) * 86400 + R.clock := by
    rw [← hx]
    exact hs j hj
  obtain ⟨c0, c1⟩ := clock_range' R
  have hj0 : (0 : Int) ≤ j := Int.natCast_nonneg _
  have hjj : (j : Int) < 7 := by exact_mod_cast hj
  have hd : x.abs / 86400 = weekStart wkst R.days + (j : Int) := by rw [ha]; omega
  have hc : x.abs % 86400 = R.abs % 86400 := by
    rw [ha]
    unfold Time.clock at c0 c1 ⊢
    omega
  refine ⟨hj, hd, ?_, hc, ?_, ?_, ?_, by rw [← hx]; rfl, by rw [← hx]; rfl⟩
  · show (x.abs / 86400 + 1) % 7 = (wkst + (j : Int)) % 7
    rw [hd]
    unfold weekStart
    omega
  · show x.abs % 86400 / 3600 = R.abs % 86400 / 3600
    rw [hc]
  · show x.abs % 3600 / 60 = R.abs % 3600 / 60
    omega
  · show x.abs % 60 = R.abs % 60
    omega

/-- C38 (amended). For a `WEEKLY` rule whose `WorkWeekStart` is one of the seven
weekdays and every root `R` whose wall clock exists on each of the seven days of its
week (no hour that the zone skips holds it): the walk back of `generateCandidates` ends
after at most six steps (the seventh test of the loop condition at the latest is
false), and the candidates are the seven times of `weekAt`: consecutive days at the
hour, minute and second of `R`, with whole seconds, in the zone of `R`; the first
falls on `WorkWeekStart` and is at most six days before the day of `R`, so that the
date of `R` at the clock of `R` is among the seven. In UTC and in a zone with one
fixed offset every wall clock exists, and that candidate is the instant of `R` without
its nanoseconds. -/
theorem week_candidates_of_any_root (rule : RecurringRule) (hf : rule.Frequency = .WEEKLY)
    (h0 : 0 ≤ rule.WorkWeekStart) (h6 : rule.WorkWeekStart ≤ 6) (R : Time)
    (hs : WeekShown rule.WorkWeekStart R) :
    generateCandidates rule 7 R = some (weekAt rule.WorkWeekStart R)
      ∧ (∀ (wfuel : Nat) (c : List Time), generateCandidates rule wfuel R = some c →
          c = weekAt rule.WorkWeekStart R)
      ∧ (weekAt rule.WorkWeekStart R).length = 7
      ∧ (∀ (j : Nat) (x : Time), (weekAt rule.WorkWeekStart R)[j]? = some x →
          x.days = weekStart rule.WorkWeekStart R.days + j
            ∧ x.Weekday = (rule.WorkWeekStart + j) % 7
            ∧ x.Hour = R.Hour ∧ x.Minute = R.Minute ∧ x.Second = R.Second
            ∧ x.nsec = 0 ∧ x.loc = R.loc)
      ∧ weekStart rule.WorkWeekStart R.days ≤ R.days
      ∧ R.days < weekStart rule.WorkWeekStart R.days + 7
      ∧ (weekAt rule.WorkWeekStart R)[(daysIntoWeek rule.WorkWeekStart R).toNat]?
          = some (atWall R.loc R.abs)
      ∧ (atWall R.loc R.abs).abs = R.abs
      ∧ (R.loc.Fixed → atWall R.loc R.abs = { sec := R.sec, nsec := 0, loc := R.loc }) := by
  have hsteps : 0 ≤ daysIntoWeek rule.WorkWeekStart R ∧ daysIntoWeek rule.WorkWeekStart R < 7 := by
    unfold daysIntoWeek
    omega
  obtain ⟨g1, g2⟩ := generateCandidates_week rule hf h0 h6 R hs
  have hlt : (daysIntoWeek rule.WorkWeekStart R).toNat < 7 := by omega
  have e : (((daysIntoWeek rule.WorkWeekStart R).toNat : Nat) : Int)
      = daysIntoWeek rule.WorkWeekStart R := Int.toNat_of_nonneg hsteps.1
  have hw : (weekStart rule.WorkWeekStart R.days
      + (((daysIntoWeek rule.WorkWeekStart R).toNat : Nat) : Int)) * 86400 + R.clock = R.abs := by
    rw [e, days_clock R]
    unfold weekStart daysIntoWeek
    ring
  refine ⟨g1, g2, by simp [weekAt], ?_, ?_, ?_, ?_, ?_, ?_⟩
  · intro j x hx
    obtain ⟨_, f1, f2, _, f4, f5, f6, f7, f8⟩ := weekAt_fields _ R hs j x hx
    exact ⟨f1, f2, f4, f5, f6, f7, f8⟩
  · unfold weekStart
    omega
  · unfold weekStart
    omega
  · unfold weekAt
    rw [List.getElem?_map, List.getElem?_range hlt]
    simp only [Option.map_some', hw]
  · have := hs _ hlt
    rw [hw] at this
    exact this
  · intro hfix
    unfold atWall Location.resolve
    simp only [lookup_fixed hfix]
    have ha := abs_fixed (t := R) hfix
    congr 1
    split_ifs <;> simp_all

/-- C38 (amended), at the second week of `Test_WKST_Change` with the week starting on
Sunday, in New York time: 09:00 exists on each day of the week of Tuesday 1997-08-19,
the walk back from that root ends on Sunday the 17th and the candidates are the days 17
to 23 at 09:00. -/
theorem week_candidates_of_any_root_witness :
    generateCandidates everyOtherWeekSunday 7 (Date 1997 8 19 9 0 0 0 newYork1997)
        = some (weekAt everyOtherWeekSunday.WorkWeekStart (Date 1997 8 19 9 0 0 0 newYork1997))
      ∧ (weekAt everyOtherWeekSunday.WorkWeekStart (Date 1997 8 19 9 0 0 0 newYork1997)).map
          Time.dayAndClock
        = [(17, 9, 0), (18, 9, 0), (19, 9, 0), (20, 9, 0), (21, 9, 0), (22, 9, 0), (23, 9, 0)]
      ∧ daysIntoWeek everyOtherWeekSunday.WorkWeekStart (Date 1997 8 19 9 0 0 0 newYork1997)
        = 2 :=
  ⟨(week_candidates_of_any_root everyOtherWeekSunday rfl (by decide) (by decide)
      (Date 1997 8 19 9 0 0 0 newYork1997) (by decide!)).1, by decide!, by decide!⟩

/-- C38, the claim as it stands fails in a zone with daylight saving time. In New York
the clocks go from 02:00 to 03:00 on Sunday 2020-03-08, so 02:30 does not exist on that
day. From the root Wednesday 2020-03-11 02:30, with the week starting on Sunday, the
walk back reaches Sunday the 8th, where `AddDate` gives 01:30; the seven candidates,
built one from the other, are the days 8 to 14 at 01:30, not at the 02:30 of the root,
and the root itself is not among them. -/
theorem week_candidates_lose_the_clock_at_a_dst_gap :
    (Date 2020 3 11 2 30 0 0 newYork2020).dayAndClock = (11, 2, 30)
      ∧ (generateCandidates weeklyAcrossGap 7 (Date 2020 3 11 2 30 0 0 newYork2020)).map
          (List.map Time.dayAndClock)
        = some [(8, 1, 30), (9, 1, 30), (10, 1, 30), (11, 1, 30), (12, 1, 30), (13, 1, 30),
            (14, 1, 30)]
      ∧ (generateCandidates weeklyAcrossGap 7 (Date 2020 3 11 2 30 0 0 newYork2020)).map
          (fun c => c.contains (Date 2020 3 11 2 30 0 0 newYork2020))
        = some false
      ∧ ¬ WeekShown weeklyAcrossGap.WorkWeekStart (Date 2020 3 11 2 30 0 0 newYork2020) :=
  ⟨by decide!, by decide!, by decide!, by decide!⟩

end RRule
namespace RRule

/-! ## The roots of the `MONTHLY` and `YEARLY` periods -/

theorem clock_fields_range (t : Time) :
    0 ≤ t.Hour ∧ t.Hour < 24 ∧ 0 ≤ t.Minute ∧ t.Minute < 60 ∧ 0 ≤ t.Second ∧ t.Second < 60 := by
  unfold Time.Hour Time.Minute Time.Second
  omega

/-- The time to which the `YEARLY` and `MONTHLY` cases of
`getNextDateByFreqAndInterval` move the anchor first. -/
theorem firstOfMonth_wall (s : Time) :
    Date s.Year s.Month 1 s.Hour s.Minute s.Second 0 s.loc
      = atWall s.loc (wallOf s.monthIndex 0 s.clock) := by
  rw [Date_at_clock]
  rfl

/-- The root of period `k` of a `MONTHLY` or `YEARLY` rule, when the first day of the
month of the anchor exists at the clock of the anchor: what `time.Date` gives for the
first day of the month of the period at that clock. -/
theorem root_wall (rule : RecurringRule)
    (hf : rule.Frequency = .MONTHLY ∨ rule.Frequency = .YEARLY)
    (h0 : rule.DtStart.loc.Shows (rule.rootWall 0)) (k : Int) :
    periodRoot rule k = atWall rule.DtStart.loc (rule.rootWall k) := by
  have hw0 : rule.rootWall 0 = wallOf rule.DtStart.monthIndex 0 rule.DtStart.clock := by
    unfold RecurringRule.rootWall
    simp
  rw [hw0] at h0
  obtain ⟨c0, c1⟩ := clock_range' rule.DtStart
  have hlen := monthLen_pos (rule.DtStart.monthIndex / 12) (rule.DtStart.monthIndex % 12 + 1)
  obtain ⟨f1, f2, f3, _, _, _, f7, _⟩ :=
    fields_of_abs (t := atWall rule.DtStart.loc (wallOf rule.DtStart.monthIndex 0 rule.DtStart.clock))
      h0 (le_refl _) (by omega) c0 c1
  have key : ∀ a n : Int,
      (atWall rule.DtStart.loc (wallOf rule.DtStart.monthIndex 0 rule.DtStart.clock)).AddDate a n 0
        = atWall rule.DtStart.loc
            (wallOf (rule.DtStart.monthIndex + (12 * a + n)) 0 rule.DtStart.clock) := by
    intro a n
    unfold Time.AddDate
    rw [atWall_nsec, Date_at_clock, f1, f2, f3, f7]
    have e1 : 12 * (rule.DtStart.monthIndex / 12 + a) + (rule.DtStart.monthIndex % 12 + 1 + n - 1)
        = rule.DtStart.monthIndex + (12 * a + n) := by omega
    have e2 : (0 : Int) + 1 + 0 - 1 = 0 := by norm_num
    rw [e1, e2]
    rfl
  unfold periodRoot getNextDateByFreqAndInterval RecurringRule.rootWall
  rcases hf with hf | hf <;> rw [hf] <;> simp only [firstOfMonth_wall, key]
  · congr 2
    simp
  · congr 2
    simp only [if_true]
    ring

/-- The fields of the root of period `k` of a `MONTHLY` or `YEARLY` rule, when the wall
clocks asked of `time.Date` exist. -/
theorem root_fields (rule : RecurringRule)
    (hf : rule.Frequency = .MONTHLY ∨ rule.Frequency = .YEARLY)
    (h0 : rule.DtStart.loc.Shows (rule.rootWall 0)) (k : Int)
    (hk : rule.DtStart.loc.Shows (rule.rootWall k)) :
    (periodRoot rule k).Day = 1
      ∧ (periodRoot rule k).monthIndex
          = rule.DtStart.monthIndex
            + (if rule.Frequency = .YEARLY then 12 else 1) * (rule.Interval * k)
      ∧ (periodRoot rule k).clock = rule.DtStart.clock
      ∧ (periodRoot rule k).Hour = rule.DtStart.Hour
      ∧ (periodRoot rule k).Minute = rule.DtStart.Minute
      ∧ (periodRoot rule k).Second = rule.DtStart.Second
      ∧ (periodRoot rule k).nsec = 0 ∧ (periodRoot rule k).loc = rule.DtStart.loc := by
  rw [root_wall rule hf h0 k]
  obtain ⟨c0, c1⟩ := clock_range' rule.DtStart
  obtain ⟨g1, g2, g3⟩ := clock_fields rule.DtStart
  have hlen := monthLen_pos
    ((rule.DtStart.monthIndex
        + (if rule.Frequency = .YEARLY then 12 else 1) * (rule.Interval * k)) / 12)
    ((rule.DtStart.monthIndex
        + (if rule.Frequency = .YEARLY then 12 else 1) * (rule.Interval * k)) % 12 + 1)
  obtain ⟨_, _, f3, f4, _, _, f7, f8, f9, f10⟩ :=
    fields_of_abs (t := atWall rule.DtStart.loc (rule.rootWall k)) hk (le_refl _)
      (by omega) c0 c1
  exact ⟨by rw [f3]; rfl, f4, f7, by rw [f8, g1], by rw [f9, g2], by rw [f10, g3], rfl, rfl⟩

/-- C37 (amended). For a rule whose anchor shows a wall clock that exists on the first
day of the month of the anchor (`time.Date` does not move it out of an hour that the
zone skips), whatever the day of the anchor, and for every period `k` whose first day
of the month has that wall clock too. At `MONTHLY` the root of period `k` shows day 1
of the month `k * Interval` months after the month of the anchor, at the hour, minute
and second of the anchor, with whole seconds, and with `Interval` not 0 two such
periods never have the same month. At `YEARLY` the root of period `k` shows day 1 of
the month of the anchor in the year of the anchor plus `k * Interval`, at the clock of
the anchor. In UTC and in a zone with one fixed offset every wall clock exists. -/
theorem roots_fall_on_the_first_of_the_month (rule : RecurringRule)
    (h0 : rule.DtStart.loc.Shows (rule.rootWall 0)) :
    (rule.Frequency = .MONTHLY → ∀ k : Int, rule.DtStart.loc.Shows (rule.rootWall k) →
        (periodRoot rule k).Day = 1
          ∧ 1 ≤ (periodRoot rule k).Month ∧ (periodRoot rule k).Month ≤ 12
          ∧ (periodRoot rule k).monthIndex = rule.DtStart.monthIndex + rule.Interval * k
          ∧ (periodRoot rule k).Hour = rule.DtStart.Hour
          ∧ (periodRoot rule k).Minute = rule.DtStart.Minute
          ∧ (periodRoot rule k).Second = rule.DtStart.Second
          ∧ (periodRoot rule k).nsec = 0 ∧ (periodRoot rule k).loc = rule.DtStart.loc)
      ∧ (rule.Frequency = .MONTHLY → rule.Interval ≠ 0 → ∀ k k' : Int,
          rule.DtStart.loc.Shows (rule.rootWall k) →
          rule.DtStart.loc.Shows (rule.rootWall k') →
          (periodRoot rule k).monthIndex = (periodRoot rule k').monthIndex → k = k')
      ∧ (rule.Frequency = .YEARLY → ∀ k : Int, rule.DtStart.loc.Shows (rule.rootWall k) →
          (periodRoot rule k).Day = 1
            ∧ (periodRoot rule k).Month = rule.DtStart.Month
            ∧ (periodRoot rule k).Year = rule.DtStart.Year + rule.Interval * k
            ∧ (periodRoot rule k).Hour = rule.DtStart.Hour
            ∧ (periodRoot rule k).Minute = rule.DtStart.Minute
            ∧ (periodRoot rule k).Second = rule.DtStart.Second
            ∧ (periodRoot rule k).nsec = 0 ∧ (periodRoot rule k).loc = rule.DtStart.loc)
      ∧ (rule.DtStart.loc.Fixed → ∀ k : Int, rule.DtStart.loc.Shows (rule.rootWall k)) := by
  refine ⟨?_, ?_, ?_, fun hfix k => shows_of_fixed hfix _⟩
  · intro hf k hk
    obtain ⟨r1, r2, _, r4, r5, r6, r7, r8⟩ := root_fields rule (Or.inl hf) h0 k hk
    obtain ⟨m1, m2, _⟩ := fields_valid (periodRoot rule k)
    rw [hf] at r2
    simp only [reduceCtorEq, if_false, one_mul] at r2
    exact ⟨r1, m1, m2, r2, r4, r5, r6, r7, r8⟩
  · intro hf hi k k' hk hk' h
    obtain ⟨_, e1, _⟩ := root_fields rule (Or.inl hf) h0 k hk
    obtain ⟨_, e2, _⟩ := root_fields rule (Or.inl hf) h0 k' hk'
    rw [e1, e2, hf] at h
    simp only [reduceCtorEq, if_false, one_mul] at h
    have : rule.Interval * k = rule.Interval * k' := by omega
    exact mul_left_cancel₀ hi this
  · intro hf k hk
    obtain ⟨r1, r2, _, r4, r5, r6, r7, r8⟩ := root_fields rule (Or.inr hf) h0 k hk
    obtain ⟨m1, m2, _⟩ := fields_valid (periodRoot rule k)
    obtain ⟨n1, n2, _⟩ := fields_valid rule.DtStart
    rw [hf] at r2
    simp only [if_true] at r2
    unfold Time.monthIndex at r2
    exact ⟨r1, by omega, by omega, r4, r5, r6, r7, r8⟩

/-- C37 (amended), at the rule of `Test_FirstAndLastDayOfMonth`, in New York time, whose
anchor falls on the 30th: 09:00 exists on the first day of September 1997 and of
February 1998, and the root of period 5 shows 1998-02-01 09:00. The roots of the
periods 0 to 5 show the first day of September 1997 to February 1998 at 09:00, and the
run of the test delivers the timestamps that the test lists. -/
theorem roots_fall_on_the_first_of_the_month_witness :
    ((periodRoot firstAndLastDayNewYork 5).Day = 1
        ∧ 1 ≤ (periodRoot firstAndLastDayNewYork 5).Month
        ∧ (periodRoot firstAndLastDayNewYork 5).Month ≤ 12
        ∧ (periodRoot firstAndLastDayNewYork 5).monthIndex
            = firstAndLastDayNewYork.DtStart.monthIndex + firstAndLastDayNewYork.Interval * 5
        ∧ (periodRoot firstAndLastDayNewYork 5).Hour = firstAndLastDayNewYork.DtStart.Hour
        ∧ (periodRoot firstAndLastDayNewYork 5).Minute = firstAndLastDayNewYork.DtStart.Minute
        ∧ (periodRoot firstAndLastDayNewYork 5).Second = firstAndLastDayNewYork.DtStart.Second
        ∧ (periodRoot firstAndLastDayNewYork 5).nsec = 0
        ∧ (periodRoot firstAndLastDayNewYork 5).loc = firstAndLastDayNewYork.DtStart.loc)
      ∧ [0, 1, 2, 3, 4, 5].map
            (fun k : Int => (periodRoot firstAndLastDayNewYork k).monthDayClock)
          = [(9, 1, 9, 0), (10, 1, 9, 0), (11, 1, 9, 0), (12, 1, 9, 0), (1, 1, 9, 0),
              (2, 1, 9, 0)]
      ∧ (drain 1 20 firstAndLastDayNewYork.Iterator EmptyTime).map
            (List.map StepResult.returned)
          = some [(true, Date 1997 9 30 9 0 0 0 newYork1997),
              (true, Date 1997 10 1 9 0 0 0 newYork1997),
              (true, Date 1997 10 31 9 0 0 0 newYork1997),
              (true, Date 1997 11 1 9 0 0 0 newYork1997),
              (true, Date 1997 11 30 9 0 0 0 newYork1997),
              (true, Date 1997 12 1 9 0 0 0 newYork1997),
              (true, Date 1997 12 31 9 0 0 0 newYork1997),
              (true, Date 1998 1 1 9 0 0 0 newYork1997),
              (true, Date 1998 1 31 9 0 0 0 newYork1997),
              (true, Date 1998 2 1 9 0 0 0 newYork1997),
              (false, Date 1998 2 1 9 0 0 0 newYork1997)] :=
  ⟨(roots_fall_on_the_first_of_the_month firstAndLastDayNewYork (by decide!)).1 rfl 5
      (by decide!), by decide!, by decide!⟩

/-- C37, the claim as it stands fails in a zone whose clocks skip an hour at midnight of
the first day of a month. In Asuncion the clocks go from 00:00 to 01:00 on 2017-10-01,
so the wall clock 2017-10-01 00:30 does not exist. For `FREQ=MONTHLY;BYMONTHDAY=15`
from 2017-09-15 00:30 the root of period 1 is `time.Date(2017, 10, 1, 0, 30, ...)`,
which is 2017-09-30 23:30: the period walks September again, at 23:30, and October is
never walked. The calls deliver September 15 at 00:30, September 15 at 23:30 and then
November 15. The same rule anchored one month later, on 2017-10-15 at 00:30, loses its
clock at the first step, the move to the first day of the month of the anchor: the
roots of the periods 0, 1 and 2 are the 30th of September, October and November at
23:30, although 00:30 exists on the first day of November, and the calls deliver the
15th of October, November and December at 23:30. -/
theorem monthly_root_slips_back_at_a_midnight_gap :
    [0, 1, 2].map (fun k : Int => (periodRoot monthlyOn15Asuncion k).monthDayClock)
        = [(9, 1, 0, 30), (9, 30, 23, 30), (11, 1, 0, 30)]
      ∧ (StepSeq [(8, EmptyTime), (8, EmptyTime), (8, EmptyTime)]
            monthlyOn15Asuncion.Iterator).map
          (List.map fun r => (r.ok, r.out.monthDayClock))
        = some [(true, 9, 15, 0, 30), (true, 9, 15, 23, 30), (true, 11, 15, 0, 30)]
      ∧ monthlyOn15Asuncion.DtStart.loc.Shows (monthlyOn15Asuncion.rootWall 0)
      ∧ ¬ monthlyOn15Asuncion.DtStart.loc.Shows (monthlyOn15Asuncion.rootWall 1)
      ∧ monthlyOn15Asuncion.DtStart.loc.Shows (monthlyOn15Asuncion.rootWall 2)
      ∧ [0, 1, 2].map (fun k : Int => (periodRoot monthlyFromOctoberAsuncion k).monthDayClock)
        = [(9, 30, 23, 30), (10, 30, 23, 30), (11, 30, 23, 30)]
      ∧ (StepSeq [(8, EmptyTime), (8, EmptyTime), (8, EmptyTime)]
            monthlyFromOctoberAsuncion.Iterator).map
          (List.map fun r => (r.ok, r.out.monthDayClock))
        = some [(true, 10, 15, 23, 30), (true, 11, 15, 23, 30), (true, 12, 15, 23, 30)]
      ∧ ¬ monthlyFromOctoberAsuncion.DtStart.loc.Shows (monthlyFromOctoberAsuncion.rootWall 0)
      ∧ monthlyFromOctoberAsuncion.DtStart.loc.Shows (monthlyFromOctoberAsuncion.rootWall 1) :=
  ⟨by decide!, by decide!, by decide!, by decide!, by decide!, by decide!, by decide!,
    by decide!, by decide!⟩

end RRule
namespace RRule

/-! ## The candidates of a month and of a year, by index -/

theorem withIndex_map_snd : ∀ (l : List Time) (i : Int), (withIndex i l).map Prod.snd = l := by
  intro l
  induction l with
  | nil => intro i; rfl
  | cons a rest ih => intro i; simp [withIndex, ih]

/-- The first loop of `Step` as a filter over the candidates with their indices. -/
theorem finalSet_withIndex (rule : RecurringRule) (cc : Int) :
    ∀ (l : List Time) (i : Int),
      finalSet rule cc i l
        = ((withIndex i l).filter fun p =>
            firstFinalMatch (candidateMatches rule cc p.1 p.2)).map Prod.snd := by
  intro l
  induction l with
  | nil => intro i; rfl
  | cons d rest ih =>
    intro i
    simp only [finalSet, withIndex, List.filter_cons]
    cases hm : firstFinalMatch (candidateMatches rule cc i d)
    · simp [ih]
    · simp [ih]

/-- A filter by index and element that depends on the element only. -/
theorem filter_withIndex_congr (p : Int × Time → Bool) (q : Time → Bool) :
    ∀ (l : List Time) (i : Int),
      (∀ (n : Nat) (d : Time), l[n]? = some d → p (i + (n : Int), d) = q d) →
      ((withIndex i l).filter p).map Prod.snd = l.filter q := by
  intro l
  induction l with
  | nil => intro i _; rfl
  | cons a rest ih =>
    intro i h
    have h0 : p (i, a) = q a := by
      have := h 0 a (by simp)
      simpa using this
    have hrest : ∀ (n : Nat) (d : Time), rest[n]? = some d → p (i + 1 + (n : Int), d) = q d := by
      intro n d hd
      have := h (n + 1) d (by simpa using hd)
      have e : i + ((n + 1 : Nat) : Int) = i + 1 + (n : Int) := by push_cast; ring
      rw [e] at this
      exact this
    simp only [withIndex, List.filter_cons, h0]
    cases q a
    · simpa using ih (i + 1) hrest
    · simpa using ih (i + 1) hrest

theorem monthCandidates_length (root : Time) (y m : Int) :
    ∀ (n : Nat) (d0 : Int), (monthCandidates root y m n d0).length = n := by
  intro n
  induction n with
  | zero => intro d0; rfl
  | succ n ih => intro d0; simp [monthCandidates, ih]

theorem monthCandidates_getElem (root : Time) (y m : Int) :
    ∀ (n : Nat) (d0 : Int) (j : Nat) (x : Time),
      (monthCandidates root y m n d0)[j]? = some x →
      j < n ∧ x = Date y m (d0 + (j : Int)) root.Hour root.Minute root.Second 0 root.loc := by
  intro n
  induction n with
  | zero =>
    intro d0 j x h
    simp [monthCandidates] at h
  | succ n ih =>
    intro d0 j x h
    cases j with
    | zero =>
      simp only [monthCandidates, List.getElem?_cons_zero, Option.some.injEq] at h
      exact ⟨Nat.succ_pos _, by rw [← h]; simp⟩
    | succ j =>
      simp only [monthCandidates, List.getElem?_cons_succ] at h
      obtain ⟨h1, h2⟩ := ih (d0 + 1) j x h
      refine ⟨Nat.succ_lt_succ h1, ?_⟩
      rw [h2]
      congr 1
      push_cast
      ring

/-- The candidates of a `MONTHLY` rule: the days of the month of the root. -/
theorem generateCandidates_monthly (rule : RecurringRule) (hf : rule.Frequency = .MONTHLY)
    (wfuel : Nat) (R : Time) :
    generateCandidates rule wfuel R
      = some (monthCandidates R R.Year R.Month (monthLen R.Year R.Month).toNat 1) := by
  obtain ⟨h1, h2, _, _, _⟩ := fields_valid R
  unfold generateCandidates
  rw [hf]
  simp only
  rw [daysInMonth_eq h1 h2]

/-- The candidate at index `j` of the month of `R`: what `time.Date` gives for day
`j + 1` of that month at the clock of `R`. -/
theorem monthCandidates_wall (R : Time) (j : Nat) (x : Time)
    (h : (monthCandidates R R.Year R.Month (monthLen R.Year R.Month).toNat 1)[j]? = some x) :
    j < (monthLen R.Year R.Month).toNat ∧ x = atWall R.loc (wallOf R.monthIndex j R.clock) := by
  obtain ⟨hj, hx⟩ := monthCandidates_getElem R R.Year R.Month _ 1 j x h
  refine ⟨hj, ?_⟩
  rw [hx, Date_at_clock]
  have e : (1 : Int) + (j : Int) - 1 = j := by ring
  rw [e]
  rfl

/-- The fields of the candidate at index `j` of a month on every day of which the clock
of the root exists. -/
theorem monthCandidates_fields (R : Time) (hs : MonthShown R) (j : Nat) (x : Time)
    (h : (monthCandidates R R.Year R.Month (monthLen R.Year R.Month).toNat 1)[j]? = some x) :
    (j : Int) < monthLen R.Year R.Month
      ∧ x.Year = R.Year ∧ x.Month = R.Month ∧ x.Day = (j : Int) + 1
      ∧ x.Hour = R.Hour ∧ x.Minute = R.Minute ∧ x.Second = R.Second
      ∧ x.nsec = 0 ∧ x.loc = R.loc := by
  obtain ⟨h1, h2, _, _, _⟩ := fields_valid R
  obtain ⟨c0, c1⟩ := clock_range' R
  obtain ⟨g1, g2, g3⟩ := clock_fields R
  have hlen := monthLen_pos R.Year R.Month
  obtain ⟨hj, hx⟩ := monthCandidates_wall R j x h
  have hj' : (j : Int) < monthLen R.Year R.Month := by
    have : ((j : Nat) : Int) < (((monthLen R.Year R.Month).toNat : Nat) : Int) := by
      exact_mod_cast hj
    rw [Int.toNat_of_nonneg (by omega)] at this
    exact this
  have hj0 : (0 : Int) ≤ j := Int.natCast_nonneg _
  have e1 : R.monthIndex / 12 = R.Year := by unfold Time.monthIndex; omega
  have e2 : R.monthIndex % 12 + 1 = R.Month := by unfold Time.monthIndex; omega
  have ha : x.abs = wallOf R.monthIndex j R.clock := by
    rw [hx]
    exact hs j hj
  obtain ⟨f1, f2, f3, _, _, _, _, f8, f9, f10⟩ :=
    fields_of_abs ha hj0 (by rw [e1, e2]; exact hj') c0 c1
  refine ⟨hj', by rw [f1, e1], by rw [f2, e2], f3, by rw [f8, g1], by rw [f9, g2],
    by rw [f10, g3], by rw [hx]; rfl, by rw [hx]; rfl⟩

/-- In a zone without transitions the clock of a root exists on every day. -/
theorem monthShown_of_fixed (R : Time) (hfix : R.loc.Fixed) : MonthShown R :=
  fun _ _ => shows_of_fixed hfix _

end RRule
namespace RRule

/-! ## BYMONTHDAY at `MONTHLY` -/

/-- For a `MONTHLY` rule whose only BY-part is BYMONTHDAY the list `matches` has the one
entry of the BYMONTHDAY block. -/
theorem monthday_filter (rule : RecurringRule) (hf : rule.Frequency = .MONTHLY)
    (hby : rule.OnlyByMonthDay) (cc cindex : Int) (d : Time) :
    firstFinalMatch (candidateMatches rule cc cindex d)
      = matchSigned rule.ByMonthDay d.Day cc cindex := by
  obtain ⟨h0, h1, h2, h3, h4, h5, h6, h7, _⟩ := hby
  have hlen : 0 < rule.ByMonthDay.length := List.length_pos.mpr h0
  unfold candidateMatches firstFinalMatch
  simp only [h1, h2, h3, h4, h5, h6, h7, hf]
  cases hb : matchSigned rule.ByMonthDay d.Day cc cindex <;> simp [hlen, hb]

/-- The test of the BYMONTHDAY block on the candidate at index `j` of a month of `L`
days, which shows day `j + 1`. -/
theorem matchSigned_day (values : List Int) (L j : Int) :
    matchSigned values (j + 1) L j = daySelected values L (j + 1) := by
  unfold matchSigned daySelected
  congr 1
  funext V
  by_cases h1 : 0 < V
  · have h2 : ¬ V < 0 := by omega
    simp [h1, h2]
  · by_cases h2 : V < 0
    · have e : ((L - j + V == 0) : Bool) = (j + 1 == L + V + 1) := by
        by_cases h3 : j + 1 = L + V + 1
        · have : L - j + V = 0 := by omega
          simp [h3, this]
        · have : ¬ L - j + V = 0 := by omega
          simp [h3, this]
      simp [h1, h2, e]
    · simp [h1, h2]

theorem daySelected_iff (values : List Int) (L day : Int) :
    daySelected values L day = true
      ↔ ∃ V ∈ values, (0 < V ∧ day = V) ∨ (V < 0 ∧ day = L + V + 1) := by
  unfold daySelected
  simp only [List.any_eq_true, Bool.or_eq_true, Bool.and_eq_true, decide_eq_true_eq,
    beq_iff_eq]

theorem monthOf_length (R : Time) : ((monthOf R).length : Int) = monthLen R.Year R.Month := by
  unfold monthOf
  rw [monthCandidates_length]
  exact Int.toNat_of_nonneg (le_trans (by norm_num) (monthLen_pos _ _))

/-- The survivors of the first loop of `Step` in one period of a `MONTHLY` rule whose
only BY-part is BYMONTHDAY, for a root whose clock exists on every day of its month. -/
theorem finalSet_monthday (rule : RecurringRule) (hf : rule.Frequency = .MONTHLY)
    (hby : rule.OnlyByMonthDay) (R : Time) (hs : MonthShown R) :
    finalSet rule (monthOf R).length 0 (monthOf R)
      = (monthOf R).filter fun x =>
          daySelected rule.ByMonthDay (monthLen R.Year R.Month) x.Day := by
  rw [finalSet_withIndex]
  apply filter_withIndex_congr
  intro n d hd
  obtain ⟨_, _, _, f3, _⟩ := monthCandidates_fields R hs n d hd
  simp only [zero_add]
  rw [monthday_filter rule hf hby, monthOf_length, f3, matchSigned_day]

/-- The root of a period of a `MONTHLY` rule on every day of which the clock of the
anchor exists. -/
theorem monthShown_of_period (rule : RecurringRule) (hf : rule.Frequency = .MONTHLY)
    (h0 : rule.DtStart.loc.Shows (rule.rootWall 0)) (k : Int) (hk : rule.PeriodShown k) :
    MonthShown (periodRoot rule k)
      ∧ (periodRoot rule k).monthIndex = rule.DtStart.monthIndex + rule.Interval * k
      ∧ (periodRoot rule k).Hour = rule.DtStart.Hour
      ∧ (periodRoot rule k).Minute = rule.DtStart.Minute
      ∧ (periodRoot rule k).Second = rule.DtStart.Second
      ∧ (periodRoot rule k).loc = rule.DtStart.loc := by
  have hidx : rule.periodIndex k = rule.DtStart.monthIndex + rule.Interval * k := by
    unfold RecurringRule.periodIndex
    rw [hf]
  have hlen : rule.periodLength k
      = monthLen (rule.periodIndex k / 12) (rule.periodIndex k % 12 + 1) := by
    unfold RecurringRule.periodLength
    rw [hf]
  have hpos := monthLen_pos (rule.periodIndex k / 12) (rule.periodIndex k % 12 + 1)
  have hroot : rule.rootWall k = wallOf (rule.periodIndex k) 0 rule.DtStart.clock := by
    unfold RecurringRule.rootWall
    rw [hf, hidx]
    simp
  have hk0 : rule.DtStart.loc.Shows (rule.rootWall k) := by
    rw [hroot]
    have := hk 0 (by rw [hlen]; omega)
    simpa using this
  obtain ⟨_, r2, r3, r4, r5, r6, _, r8⟩ := root_fields rule (Or.inl hf) h0 k hk0
  rw [hf] at r2
  simp only [reduceCtorEq, if_false, one_mul] at r2
  obtain ⟨m1, m2, _⟩ := fields_valid (periodRoot rule k)
  have e1 : (periodRoot rule k).Year = rule.periodIndex k / 12 := by
    rw [hidx, ← r2]; unfold Time.monthIndex; omega
  have e2 : (periodRoot rule k).Month = rule.periodIndex k % 12 + 1 := by
    rw [hidx, ← r2]; unfold Time.monthIndex; omega
  refine ⟨?_, r2, r4, r5, r6, r8⟩
  intro j hj
  rw [r8, r2, r3, ← hidx]
  apply hk j
  rw [hlen, ← e1, ← e2]
  exact hj

/-- C31 (amended). For a `MONTHLY` rule whose only BY-part is BYMONTHDAY, in every period
`k` on every day of whose month the wall clock of the root of the period exists (no
candidate of the period is asked for inside an hour that the zone skips): the
candidates are the days 1 to `L` of the month of the root, `L` being the number of days
of that month, each at the clock of the root; and the candidates that survive the
BY-part are those whose day of the month is `V` for a positive value `V` of BYMONTHDAY
or `L + V + 1` for a negative one. A value that names no day of the month (0, a `V`
above `L`, a `-k` with `k` above `L`) selects nothing. The condition holds, and the
root shows the clock of the anchor in the month `k * Interval` months after the month
of the anchor, when the wall clock of the anchor exists on the first day of the month
of the anchor and on every day of that month. In UTC and in a zone with one fixed
offset every wall clock exists. -/
theorem bymonthday_selects_the_days (rule : RecurringRule) (hf : rule.Frequency = .MONTHLY)
    (hby : rule.OnlyByMonthDay) (k : Int) (hs : MonthShown (periodRoot rule k)) :
    (∀ wfuel : Nat,
        generateCandidates rule wfuel (periodRoot rule k) = some (monthOf (periodRoot rule k)))
      ∧ ((monthOf (periodRoot rule k)).length : Int)
          = monthLen (periodRoot rule k).Year (periodRoot rule k).Month
      ∧ (∀ (j : Nat) (x : Time), (monthOf (periodRoot rule k))[j]? = some x →
          x.Year = (periodRoot rule k).Year ∧ x.Month = (periodRoot rule k).Month
            ∧ x.Day = (j : Int) + 1
            ∧ x.Hour = (periodRoot rule k).Hour ∧ x.Minute = (periodRoot rule k).Minute
            ∧ x.Second = (periodRoot rule k).Second ∧ x.nsec = 0
            ∧ x.loc = (periodRoot rule k).loc)
      ∧ finalSet rule (monthOf (periodRoot rule k)).length 0 (monthOf (periodRoot rule k))
          = (monthOf (periodRoot rule k)).filter (fun x =>
              daySelected rule.ByMonthDay
                (monthLen (periodRoot rule k).Year (periodRoot rule k).Month) x.Day)
      ∧ (∀ x : Time,
          x ∈ finalSet rule (monthOf (periodRoot rule k)).length 0 (monthOf (periodRoot rule k))
            ↔ x ∈ monthOf (periodRoot rule k)
              ∧ ∃ V ∈ rule.ByMonthDay,
                  (0 < V ∧ x.Day = V)
                    ∨ (V < 0 ∧ x.Day
                        = monthLen (periodRoot rule k).Year (periodRoot rule k).Month
                            + V + 1))
      ∧ (∀ k' : Int, rule.DtStart.loc.Shows (rule.rootWall 0) → rule.PeriodShown k' →
          MonthShown (periodRoot rule k')
            ∧ (periodRoot rule k').monthIndex = rule.DtStart.monthIndex + rule.Interval * k'
            ∧ (periodRoot rule k').Hour = rule.DtStart.Hour
            ∧ (periodRoot rule k').Minute = rule.DtStart.Minute
            ∧ (periodRoot rule k').Second = rule.DtStart.Second
            ∧ (periodRoot rule k').loc = rule.DtStart.loc)
      ∧ (rule.DtStart.loc.Fixed →
          rule.DtStart.loc.Shows (rule.rootWall 0) ∧ ∀ k' : Int, rule.PeriodShown k') := by
  have hfs := finalSet_monthday rule hf hby (periodRoot rule k) hs
  refine ⟨fun wfuel => generateCandidates_monthly rule hf wfuel _, monthOf_length _, ?_, hfs,
    ?_, fun k' h0 hk' => monthShown_of_period rule hf h0 k' hk',
    fun hfix => ⟨shows_of_fixed hfix _, fun _ _ _ => shows_of_fixed hfix _⟩⟩
  · intro j x hx
    obtain ⟨_, f1, f2, f3, f4, f5, f6, f7, f8⟩ := monthCandidates_fields _ hs j x hx
    exact ⟨f1, f2, f3, f4, f5, f6, f7, f8⟩
  · intro x
    rw [hfs, List.mem_filter, daySelected_iff]

/-- C31 (amended), at the rule of `Test_Monthly_on_the_third_to_last_day_of_month`, in
New York time: the root of period 1 shows 1997-10-01 09:00, and 09:00 exists on every
day of October 1997; of the 31 days of October the value -3 leaves the 29th. The runs
of that test and of `Test_Dont_Return_Invalid_Date` deliver the timestamps that the
tests list. -/
theorem bymonthday_selects_the_days_witness :
    finalSet thirdToLastDay (monthOf (periodRoot thirdToLastDay 1)).length 0
          (monthOf (periodRoot thirdToLastDay 1))
        = (monthOf (periodRoot thirdToLastDay 1)).filter (fun x =>
            daySelected thirdToLastDay.ByMonthDay
              (monthLen (periodRoot thirdToLastDay 1).Year
                (periodRoot thirdToLastDay 1).Month) x.Day)
      ∧ (monthOf (periodRoot thirdToLastDay 1)).filter (fun x =>
            daySelected thirdToLastDay.ByMonthDay
              (monthLen (periodRoot thirdToLastDay 1).Year
                (periodRoot thirdToLastDay 1).Month) x.Day)
        = [Date 1997 10 29 9 0 0 0 newYork1997to1999]
      ∧ (StepSeq [(1, EmptyTime), (1, EmptyTime), (1, EmptyTime), (1, EmptyTime),
            (1, EmptyTime), (1, EmptyTime)] thirdToLastDay.Iterator).map
          (List.map StepResult.returned)
        = some [(true, Date 1997 9 28 9 0 0 0 newYork1997to1999),
            (true, Date 1997 10 29 9 0 0 0 newYork1997to1999),
            (true, Date 1997 11 28 9 0 0 0 newYork1997to1999),
            (true, Date 1997 12 29 9 0 0 0 newYork1997to1999),
            (true, Date 1998 1 29 9 0 0 0 newYork1997to1999),
            (true, Date 1998 2 26 9 0 0 0 newYork1997to1999)]
      ∧ (drain 1 10 day15And30.Iterator EmptyTime).map (List.map StepResult.returned)
        = some [(true, Date 2007 1 15 9 0 0 0 newYork2007),
            (true, Date 2007 1 30 9 0 0 0 newYork2007),
            (true, Date 2007 2 15 9 0 0 0 newYork2007),
            (true, Date 2007 3 15 9 0 0 0 newYork2007),
            (true, Date 2007 3 30 9 0 0 0 newYork2007),
            (false, Date 2007 3 30 9 0 0 0 newYork2007)] :=
  ⟨(bymonthday_selects_the_days thirdToLastDay rfl
      ⟨by decide, rfl, rfl, rfl, rfl, rfl, rfl, rfl, rfl⟩ 1 (by decide!)).2.2.2.1,
    by decide!, by decide!, by decide!⟩

/-- C31, the claim as it stands fails in a zone whose clocks skip an hour at midnight. In
Sao Paulo the clocks go from 00:00 to 01:00 on 2018-11-04, so the wall clock 00:30 does
not exist on that day. For a rule anchored on 2018-11-01 at 00:30 the candidate of
November 4 is `time.Date(2018, 11, 4, 0, 30, ...)`, which is 2018-11-03 23:30 and shows
day 3. With `BYMONTHDAY=4` nothing is selected in November, a month of 30 days, and the
first timestamp delivered is December 4; with `BYMONTHDAY=3` two candidates are
selected in November, the 3rd at 00:30 and at 23:30. -/
theorem bymonthday_misses_a_day_at_a_midnight_gap :
    ((monthOf (periodRoot monthlyOn4SaoPaulo 0)).map Time.monthDayClock).take 5
        = [(11, 1, 0, 30), (11, 2, 0, 30), (11, 3, 0, 30), (11, 3, 23, 30), (11, 5, 0, 30)]
      ∧ generateCandidates monthlyOn4SaoPaulo 0 (periodRoot monthlyOn4SaoPaulo 0)
        = some (monthOf (periodRoot monthlyOn4SaoPaulo 0))
      ∧ (monthOf (periodRoot monthlyOn4SaoPaulo 0)).length = 30
      ∧ finalSet monthlyOn4SaoPaulo 30 0 (monthOf (periodRoot monthlyOn4SaoPaulo 0)) = []
      ∧ (finalSet monthlyOn3SaoPaulo 30 0 (monthOf (periodRoot monthlyOn3SaoPaulo 0))).map
          Time.monthDayClock
        = [(11, 3, 0, 30), (11, 3, 23, 30)]
      ∧ (StepSeq [(8, EmptyTime), (8, EmptyTime)] monthlyOn4SaoPaulo.Iterator).map
          (List.map fun r => (r.ok, r.out.monthDayClock))
        = some [(true, 12, 4, 0, 30), (true, 1, 4, 0, 30)]
      ∧ (StepSeq [(8, EmptyTime), (8, EmptyTime)] monthlyOn3SaoPaulo.Iterator).map
          (List.map fun r => (r.ok, r.out.monthDayClock))
        = some [(true, 11, 3, 0, 30), (true, 11, 3, 23, 30)]
      ∧ ¬ monthlyOn4SaoPaulo.DtStart.loc.Shows
          (wallOf (monthlyOn4SaoPaulo.periodIndex 0) 3 monthlyOn4SaoPaulo.DtStart.clock)
      ∧ ¬ monthlyOn4SaoPaulo.PeriodShown 0
      ∧ monthlyOn4SaoPaulo.PeriodShown 1
      ∧ ¬ MonthShown (periodRoot monthlyOn4SaoPaulo 0)
      ∧ MonthShown (periodRoot monthlyOn4SaoPaulo 1) :=
  ⟨by decide!, by decide!, by decide!, by decide!, by decide!, by decide!, by decide!,
    by decide!, by decide!, by decide!, by decide!, by decide!⟩

end RRule
namespace RRule

/-! ## The window `Before` and the end of the period loop -/

/-- A pass of the period loop over a period without survivors leaves the buffer and the
flag as they are. -/
theorem advancePeriod_noSurvivors {ri ri' : RecurrenceIterator} {wfuel : Nat} {sc sc' : Bool}
    (hn : ri.rule.NoSurvivors) (h : advancePeriod wfuel ri sc = some (ri', sc')) :
    ri'.iterBuffer = ri.iterBuffer ∧ sc' = sc ∧ ri'.rule = ri.rule := by
  unfold advancePeriod at h
  simp only at h
  cases hg : generateCandidates ri.rule wfuel
      (getNextDateByFreqAndInterval ri.rule.DtStart ri.rule.Frequency
        (ri.rule.Interval * ri.iterCounter)) with
  | none => simp [hg] at h
  | some c =>
    have he := hn ri.iterCounter wfuel c hg
    simp only [hg, he, secondLoop, Option.some.injEq, Prod.mk.injEq] at h
    obtain ⟨h1, h2⟩ := h
    subst h1
    exact ⟨rfl, h2.symm, rfl⟩

theorem refill_noSurvivors (wfuel : Nat) :
    ∀ (fuel : Nat) (ri : RecurrenceIterator), ri.rule.NoSurvivors → ri.iterBuffer = [] →
      refill wfuel fuel ri false = none := by
  intro fuel
  induction fuel with
  | zero =>
    intro ri _ hb
    simp [refill, hb]
  | succ n ih =>
    intro ri hn hb
    simp only [refill, hb, List.length_nil, beq_self_eq_true, Bool.and_self, if_true]
    cases ha : advancePeriod wfuel ri false with
    | none => rfl
    | some p =>
      obtain ⟨ri', sc'⟩ := p
      obtain ⟨h1, h2, h3⟩ := advancePeriod_noSurvivors hn ha
      subst h2
      simp only
      exact ih ri' (by rw [h3]; exact hn) (by rw [h1]; exact hb)

/-- On a rule without survivors a call of `Step` does not return, whatever the windows
of the iterator. -/
theorem Step_noSurvivors {ri : RecurrenceIterator} (hn : ri.rule.NoSurvivors)
    (hb : ri.iterBuffer = [])
    (hc : ¬ (0 < ri.rule.Count ∧ ri.rule.Count ≤ ri.ReturnCounter)) (fuel : Nat) (t : Time) :
    Step fuel ri t = none := by
  unfold Step
  have hcond : (decide (ri.rule.Count > 0) && decide (ri.ReturnCounter ≥ ri.rule.Count))
      = false := by
    simp only [Bool.and_eq_false_iff, decide_eq_false_iff_not, gt_iff_lt, ge_iff_le, not_lt,
      not_le]
    by_contra hcon
    push_neg at hcon
    exact hc ⟨by omega, by omega⟩
  rw [hcond]
  simp only [Bool.false_eq_true, if_false]
  rw [refill_noSurvivors fuel fuel ri hn hb]

/-- No day is the 30th of a February: the rule `FREQ=MONTHLY;BYMONTH=2;BYMONTHDAY=30` has
no survivor in any period. -/
theorem february30_noSurvivors : february30.NoSurvivors := by
  intro k wfuel c hc
  have hf : february30.Frequency = .MONTHLY := rfl
  rw [generateCandidates_monthly february30 hf, Option.some.injEq] at hc
  subst hc
  have hfix : february30.DtStart.loc.Fixed := trivial
  obtain ⟨_, _, _, _, _, _, _, r5⟩ :=
    root_fields february30 (Or.inl hf) (shows_of_fixed hfix _) k (shows_of_fixed hfix _)
  have hrfix : (periodRoot february30 k).loc.Fixed := by rw [r5]; trivial
  rw [finalSet_withIndex]
  have hnone : ∀ (cc : Int), ∀ p ∈ withIndex 0
      (monthCandidates (periodRoot february30 k) (periodRoot february30 k).Year
        (periodRoot february30 k).Month
        (monthLen (periodRoot february30 k).Year (periodRoot february30 k).Month).toNat 1),
      firstFinalMatch (candidateMatches february30 cc p.1 p.2) = false := by
    intro cc p hp
    obtain ⟨j, d⟩ := p
    obtain ⟨n, hj, hd⟩ := (mem_withIndex _ 0 j d).mp hp
    obtain ⟨hlt, _, f2, f3, _⟩ := monthCandidates_fields _ (monthShown_of_fixed _ hrfix) n d hd
    have hlen : monthLen (periodRoot february30 k).Year 2 ≤ 29 := by
      unfold monthLen
      split_ifs <;> omega
    have hday : ¬ (d.Day = 30 ∧ d.Month = 2) := by
      rintro ⟨e1, e2⟩
      rw [f2] at e2
      rw [e2] at hlt
      omega
    unfold candidateMatches firstFinalMatch matchSigned february30 plainRule
    simp only [List.length_nil, List.length_cons, List.any_cons, List.any_nil]
    by_cases e1 : d.Day = 30
    · have e2 : ¬ d.Month = 2 := fun e => hday ⟨e1, e⟩
      simp [e1, e2]
    · simp [e1]
  rw [List.filter_eq_nil_iff.mpr (fun p hp => by rw [hnone _ p hp]; simp)]
  rfl

/-- C39, the claim as it stands fails for a rule of which no candidate ever survives the
BY-filters. The window `Before` is tested in the second loop of `Step`, on the
survivors of the first loop only. On a rule without survivors the flag
`shortcircuit_finish` is never set and the period loop does not end: the call does not
return within any fuel, whatever the bound. So it is for
`FREQ=MONTHLY;BYMONTH=2;BYMONTHDAY=30`, a rule with `Interval` 1 that no date matches
(no period of it has a survivor that is not before the bound), and for every `MONTHLY`
rule without BY-part. Where the periods do have survivors the window ends the run:
`FREQ=DAILY` from 1997-09-02 09:00 with `Before` two days later delivers two timestamps
and then returns false. -/
theorem before_is_not_tested_without_survivors :
    (∀ ri : RecurrenceIterator, ri.rule.NoSurvivors → ri.iterBuffer = [] →
        ¬ (0 < ri.rule.Count ∧ ri.rule.Count ≤ ri.ReturnCounter) →
        ∀ (fuel : Nat) (t : Time), Step fuel ri t = none)
      ∧ february30.NoSurvivors
      ∧ february30.Interval = 1
      ∧ (∀ (B : Time) (fuel : Nat) (t : Time),
          Step fuel (february30.Iterator.Before B) t = none)
      ∧ (∀ B : Time, ¬ february30.StopsAgain B)
      ∧ (∀ rule : RecurringRule, rule.Frequency = .MONTHLY → rule.NoByParts → rule.Count = 0 →
          ∀ (B : Time) (fuel : Nat) (t : Time), Step fuel (rule.Iterator.Before B) t = none)
      ∧ (drain 2 10 ((plainRule (Date 1997 9 2 9 0 0 0 .utc) .DAILY).Iterator.Before
            (Date 1997 9 4 9 0 0 0 .utc)) EmptyTime).map (List.map StepResult.returned)
          = some [(true, Date 1997 9 2 9 0 0 0 .utc), (true, Date 1997 9 3 9 0 0 0 .utc),
              (false, Date 1997 9 3 9 0 0 0 .utc)] := by
  refine ⟨fun ri hn hb hc fuel t => Step_noSurvivors hn hb hc fuel t, february30_noSurvivors,
    rfl, ?_, ?_, ?_, by decide!⟩
  · intro B fuel t
    exact @Step_noSurvivors (february30.Iterator.Before B) february30_noSurvivors rfl
      (by
        rintro ⟨h, _⟩
        have e : (february30.Iterator.Before B).rule.Count = 0 := rfl
        rw [e] at h
        exact absurd h (by decide)) fuel t
  · intro B h
    obtain ⟨n, hn⟩ := h 0 (le_refl _)
    obtain ⟨c, hc⟩ := Option.isSome_iff_exists.mp
      (@generateCandidates_isSome_of_ne_weekly february30 (by decide) 0
        (periodRoot february30 (0 + (n : Int))))
    obtain ⟨d, hd, _⟩ := hn 0 c hc
    rw [february30_noSurvivors _ _ _ hc] at hd
    simp at hd
  · intro rule hf hby hc B fuel t
    exact @Step_no_survivor (rule.Iterator.Before B) hby (Or.inl hf) rfl
      (by
        rintro ⟨h, _⟩
        have : (rule.Iterator.Before B).rule.Count = rule.Count := rfl
        rw [this, hc] at h
        exact absurd h (by decide)) fuel t

end RRule
namespace RRule

/-! ## Consecutive days -/

theorem daysFrom_succ (R : Time) (D : Int) (n : Nat) :
    daysFrom R D (n + 1) = dayAt R D :: daysFrom R (D + 1) n := by
  unfold daysFrom
  rw [List.range_succ_eq_map, List.map_cons, List.map_map]
  congr 1
  · simp
  · apply List.map_congr_left
    intro i _
    simp only [Function.comp]
    congr 1
    push_cast
    ring

theorem daysFrom_append (R : Time) :
    ∀ (a : Nat) (D : Int) (b : Nat),
      daysFrom R D a ++ daysFrom R (D + (a : Int)) b = daysFrom R D (a + b) := by
  intro a
  induction a with
  | zero =>
    intro D b
    simp [daysFrom]
  | succ a ih =>
    intro D b
    have e : a + 1 + b = (a + b) + 1 := by omega
    rw [e, daysFrom_succ, daysFrom_succ, List.cons_append]
    congr 1
    rw [← ih (D + 1) b]
    congr 2
    push_cast
    ring

theorem daysFrom_length (R : Time) (D : Int) (n : Nat) : (daysFrom R D n).length = n := by
  simp [daysFrom]

theorem daysFrom_getElem (R : Time) (D : Int) (n j : Nat) (x : Time)
    (h : (daysFrom R D n)[j]? = some x) : j < n ∧ x = dayAt R (D + (j : Int)) := by
  unfold daysFrom at h
  rw [List.getElem?_map] at h
  by_cases hj : j < n
  · rw [List.getElem?_range hj] at h
    simp only [Option.map_some', Option.some.injEq] at h
    exact ⟨hj, h.symm⟩
  · rw [List.getElem?_eq_none (by simpa using hj)] at h
    simp at h

/-- The fields of `dayAt` on a day on which the clock of `R` exists. -/
theorem dayAt_fields (R : Time) (D : Int) (hs : R.loc.Shows (D * 86400 + R.clock)) :
    (dayAt R D).days = D ∧ (dayAt R D).Weekday = (D + 1) % 7
      ∧ (dayAt R D).Hour = R.Hour ∧ (dayAt R D).Minute = R.Minute
      ∧ (dayAt R D).Second = R.Second ∧ (dayAt R D).nsec = 0 ∧ (dayAt R D).loc = R.loc := by
  have ha : (dayAt R D).abs = D * 86400 + R.abs % 86400 := hs
  unfold Time.days Time.Weekday Time.Hour Time.Minute Time.Second
  rw [ha]
  generalize R.abs = a
  refine ⟨?_, ?_, ?_, ?_, ?_, rfl, rfl⟩ <;> omega

/-- A call of `time.Date` with the clock of `R` in the zone of `R`. -/
theorem Date_eq_dayAt (R : Time) (y m d : Int) :
    Date y m d R.Hour R.Minute R.Second 0 R.loc
      = dayAt R (monthStart (12 * y + (m - 1)) + (d - 1)) := by
  rw [Date_at_clock]
  rfl

theorem monthCandidates_eq_daysFrom (R : Time) (y m : Int) :
    ∀ (n : Nat) (d0 : Int),
      monthCandidates R y m n d0 = daysFrom R (monthStart (12 * y + (m - 1)) + (d0 - 1)) n := by
  intro n
  induction n with
  | zero => intro d0; rfl
  | succ n ih =>
    intro d0
    rw [daysFrom_succ]
    simp only [monthCandidates]
    rw [Date_eq_dayAt R y m d0, ih (d0 + 1)]
    congr 2
    ring

theorem monthStart_year (y : Int) : monthStart (12 * y + 12) = monthStart (12 * y) + yearLen y := by
  unfold monthStart
  have e1 : (12 * y + 12) / 12 = y + 1 := by omega
  have e2 : (12 * y + 12) % 12 + 1 = 1 := by omega
  have e3 : (12 * y) / 12 = y := by omega
  have e4 : (12 * y) % 12 + 1 = 1 := by omega
  rw [e1, e2, e3, e4, civilDays_eq, civilDays_eq, daysSinceEpoch_succ]
  have hno : ∀ z : Int, (if isLeap z = true ∧ (3 : Int) ≤ 1 then (1 : Int) else 0) = 0 := by
    intro z
    rw [if_neg]
    rintro ⟨_, h⟩
    omega
  simp only [hno, sub_self, add_zero]
  ring

theorem yearCandidates_eq_daysFrom (R : Time) :
    ∀ (n : Nat) (m : Int), 1 ≤ m → m + n ≤ 13 →
      yearCandidates R n m
        = daysFrom R (monthStart (12 * R.Year + (m - 1)))
            (monthStart (12 * R.Year + (m - 1) + n) - monthStart (12 * R.Year + (m - 1))).toNat := by
  intro n
  induction n with
  | zero =>
    intro m _ _
    simp [yearCandidates, daysFrom]
  | succ n ih =>
    intro m h1 h2
    have hm2 : m ≤ 12 := by push_cast at h2; omega
    simp only [yearCandidates]
    rw [daysInMonth_eq h1 hm2, monthCandidates_eq_daysFrom R R.Year m,
      ih (m + 1) (by omega) (by push_cast at h2 ⊢; omega)]
    have hlen := monthLen_pos R.Year m
    have hs := monthStart_succ (12 * R.Year + (m - 1))
    have e1 : (12 * R.Year + (m - 1)) / 12 = R.Year := by omega
    have e2 : (12 * R.Year + (m - 1)) % 12 + 1 = m := by omega
    rw [e1, e2] at hs
    have e3 : 12 * R.Year + (m + 1 - 1) = 12 * R.Year + (m - 1) + 1 := by ring
    have e4 : 12 * R.Year + (m - 1) + ((n + 1 : Nat) : Int) = 12 * R.Year + (m - 1) + 1 + n := by
      push_cast
      ring
    rw [e3, e4]
    have hmono : monthStart (12 * R.Year + (m - 1) + 1)
        ≤ monthStart (12 * R.Year + (m - 1) + 1 + n) :=
      monthStart_mono (by omega)
    have e5 : monthStart (12 * R.Year + (m - 1)) + (1 - 1)
        = monthStart (12 * R.Year + (m - 1)) := by ring
    rw [e5]
    have e6 : monthStart (12 * R.Year + (m - 1) + 1)
        = monthStart (12 * R.Year + (m - 1)) + (((monthLen R.Year m).toNat : Nat) : Int) := by
      rw [Int.toNat_of_nonneg (by omega), hs]
    rw [e6, daysFrom_append]
    congr 1
    rw [← e6]
    omega

/-- The candidates of a `YEARLY` or `MONTHLY` rule for a root `R`. -/
theorem generateCandidates_periodDays (rule : RecurringRule)
    (hf : rule.Frequency = .MONTHLY ∨ rule.Frequency = .YEARLY) (R : Time)
    (wfuel : Nat) : generateCandidates rule wfuel R = some (periodDays rule R) := by
  obtain ⟨h1, h2, _, _, _⟩ := fields_valid R
  rcases hf with hf | hf
  · rw [generateCandidates_monthly rule hf]
    unfold periodDays Time.monthIndex
    rw [hf]
    simp only
    rw [monthCandidates_eq_daysFrom R R.Year R.Month]
    congr 2
    ring
  · unfold generateCandidates periodDays
    rw [hf]
    simp only
    rw [yearCandidates_eq_daysFrom R 12 1 (le_refl _) (by norm_num)]
    have e : 12 * R.Year + (1 - 1) + ((12 : Nat) : Int) = 12 * R.Year + 12 := by
      push_cast
      ring
    have e0 : 12 * R.Year + (1 - 1) = 12 * R.Year := by ring
    rw [e, e0, monthStart_year]
    congr 3
    ring

/-! ## Counting the days of one weekday -/

/-- Among the numbers below `n`, how many leave the remainder `r` on division by 7. -/
theorem count_mod7 (r : Nat) (hr : r < 7) :
    ∀ n : Nat, ((List.range n).filter fun i => i % 7 == r).length
      = n / 7 + (if r < n % 7 then 1 else 0) := by
  intro n
  induction n with
  | zero => simp
  | succ n ih =>
    rw [List.range_succ, List.filter_append, List.length_append, ih]
    by_cases h : n % 7 = r
    · simp only [List.filter_cons, h, beq_self_eq_true, if_true, List.filter_nil,
        List.length_singleton]
      split_ifs <;> omega
    · have hb : (n % 7 == r) = false := by simpa using h
      simp only [List.filter_cons, hb, Bool.false_eq_true, if_false, List.filter_nil,
        List.length_nil]
      split_ifs <;> omega

/-- The weekday of the candidate at index `i` of a list of consecutive days on each of
which the clock of `R` exists. -/
theorem daysFrom_weekday (R : Time) (D : Int) (n : Nat)
    (hs : ∀ i : Nat, i < n → R.loc.Shows ((D + (i : Int)) * 86400 + R.clock)) (i : Nat)
    (x : Time) (h : (daysFrom R D n)[i]? = some x) :
    i < n ∧ x.Weekday = (D + (i : Int) + 1) % 7 := by
  obtain ⟨hi, hx⟩ := daysFrom_getElem R D n i x h
  rw [hx]
  exact ⟨hi, (dayAt_fields R _ (hs i hi)).2.1⟩

/-- Counting the candidates on the weekday of the one at index `j` among the first `n`
of a list of consecutive days. -/
theorem count_take_daysFrom (R : Time) (D : Int) (N : Nat)
    (hs : ∀ i : Nat, i < N → R.loc.Shows ((D + (i : Int)) * 86400 + R.clock)) (j n : Nat)
    (hn : n ≤ N) :
    ((List.take n (daysFrom R D N)).filter fun y => y.Weekday == (D + (j : Int) + 1) % 7).length
      = n / 7 + (if j % 7 < n % 7 then 1 else 0) := by
  rw [← count_mod7 (j % 7) (Nat.mod_lt _ (by norm_num)) n]
  unfold daysFrom
  rw [← List.map_take, List.take_range, Nat.min_eq_left hn, List.filter_map, List.length_map]
  congr 1
  apply List.filter_congr
  intro i hi
  have hiN : i < N := lt_of_lt_of_le (List.mem_range.mp hi) hn
  simp only [Function.comp]
  rw [(dayAt_fields R _ (hs i hiN)).2.1]
  have hi0 : (0 : Int) ≤ i := Int.natCast_nonneg _
  have hj0 : (0 : Int) ≤ j := Int.natCast_nonneg _
  by_cases hm : i % 7 = j % 7
  · have : (D + (i : Int) + 1) % 7 = (D + (j : Int) + 1) % 7 := by omega
    simp [hm, this]
  · have : ¬ (D + (i : Int) + 1) % 7 = (D + (j : Int) + 1) % 7 := by omega
    simp [hm, this]

/-- The candidate at index `j` of a list of `N` consecutive days is candidate number
`j / 7 + 1` on its weekday counted from the start and number `(N - 1 - j) / 7 + 1`
counted from the end. -/
theorem counts_daysFrom (R : Time) (D : Int) (N : Nat)
    (hs : ∀ i : Nat, i < N → R.loc.Shows ((D + (i : Int)) * 86400 + R.clock)) (j : Nat)
    (hj : j < N) :
    countUpTo (daysFrom R D N) ((D + (j : Int) + 1) % 7) j = j / 7 + 1
      ∧ countFrom (daysFrom R D N) ((D + (j : Int) + 1) % 7) j = (N - 1 - j) / 7 + 1 := by
  constructor
  · unfold countUpTo
    rw [count_take_daysFrom R D N hs j (j + 1) (by omega)]
    split_ifs <;> omega
  · unfold countFrom
    have hall := count_take_daysFrom R D N hs j N (le_refl _)
    rw [List.take_of_length_le (by rw [daysFrom_length])] at hall
    have hpre := count_take_daysFrom R D N hs j j (by omega)
    have hsplit : (daysFrom R D N).filter (fun y => y.Weekday == (D + (j : Int) + 1) % 7)
        = ((daysFrom R D N).take j).filter (fun y => y.Weekday == (D + (j : Int) + 1) % 7)
          ++ ((daysFrom R D N).drop j).filter
              (fun y => y.Weekday == (D + (j : Int) + 1) % 7) := by
      rw [← List.filter_append, List.take_append_drop]
    rw [hsplit, List.length_append, hpre] at hall
    simp only [lt_self_iff_false, if_false, add_zero] at hall
    split_ifs at hall <;> omega

end RRule
namespace RRule

/-! ## BYDAY at `MONTHLY` and `YEARLY` -/

/-- For a `MONTHLY` or `YEARLY` rule whose only BY-part is BYDAY the list `matches` has
the one entry of the BYDAY block. -/
theorem byday_filter (rule : RecurringRule)
    (hf : rule.Frequency = .MONTHLY ∨ rule.Frequency = .YEARLY) (hby : rule.OnlyByDay)
    (cc cindex : Int) (d : Time) :
    firstFinalMatch (candidateMatches rule cc cindex d)
      = matchByDay rule.ByDay d cc cindex := by
  obtain ⟨h0, h1, h2, h3, h4, h5, h6, h7, _⟩ := hby
  have hlen : 0 < rule.ByDay.length := List.length_pos.mpr h0
  have hlen2 : ¬ rule.ByDay.length = 0 := by omega
  unfold candidateMatches firstFinalMatch
  rcases hf with hf | hf <;>
    simp only [h1, h2, h3, h4, h5, h6, h7, hf] <;>
    cases hb : matchByDay rule.ByDay d cc cindex <;> simp [hlen, hlen2, hb]

/-- The test of the BYDAY block on the candidate at index `j` of a list of consecutive
days counts the candidates on the weekday of the entry. -/
theorem matchByDay_counts (values : List ForDay) (R : Time) (D : Int) (N : Nat)
    (hs : ∀ i : Nat, i < N → R.loc.Shows ((D + (i : Int)) * 86400 + R.clock)) (j : Nat)
    (x : Time) (h : (daysFrom R D N)[j]? = some x) :
    matchByDay values x (N : Int) (j : Int) = byDaySelected values (daysFrom R D N) j x := by
  obtain ⟨hj, hw⟩ := daysFrom_weekday R D N hs j x h
  obtain ⟨c1, c2⟩ := counts_daysFrom R D N hs j hj
  rw [← hw] at c1 c2
  unfold matchByDay byDaySelected
  congr 1
  funext v
  by_cases hv : v.Weekday = x.Weekday
  · rw [hv, c1, c2]
    simp only [beq_self_eq_true, if_true, Bool.true_and]
    rcases lt_trichotomy v.Offset 0 with ho | ho | ho
    · have n1 : ¬ v.Offset = 0 := by omega
      have n2 : ¬ v.Offset > 0 := by omega
      have n3 : ¬ 0 < v.Offset := by omega
      have e : (((N : Int) - (j : Int) - 1) / 7 + (v.Offset + 1) == 0)
          = ((((N - 1 - j) / 7 + 1 : Nat) : Int) == -v.Offset) := by
        rw [Bool.eq_iff_iff]
        simp only [beq_iff_eq]
        omega
      simp [n1, n2, n3, ho, e]
    · simp [ho]
    · have n1 : ¬ v.Offset = 0 := by omega
      have n2 : v.Offset > 0 := by omega
      have n3 : ¬ v.Offset < 0 := by omega
      have e : ((j : Int) / 7 + 1 == v.Offset) = ((((j / 7 + 1 : Nat) : Int)) == v.Offset) := by
        rw [Bool.eq_iff_iff]
        simp only [beq_iff_eq]
        omega
      simp [n1, n3, ho, e]
  · have hb : (v.Weekday == x.Weekday) = false := by simpa using hv
    simp [hb]

theorem byDaySelected_iff (values : List ForDay) (c : List Time) (j : Nat) (x : Time) :
    byDaySelected values c j x = true
      ↔ ∃ v ∈ values, v.Weekday = x.Weekday
          ∧ (v.Offset = 0 ∨ (0 < v.Offset ∧ (countUpTo c v.Weekday j : Int) = v.Offset)
            ∨ (v.Offset < 0 ∧ (countFrom c v.Weekday j : Int) = -v.Offset)) := by
  unfold byDaySelected
  simp only [List.any_eq_true, Bool.or_eq_true, Bool.and_eq_true, decide_eq_true_eq,
    beq_iff_eq, or_assoc]

/-- The survivors of the first loop of `Step` over a list of consecutive days, for a
`MONTHLY` or `YEARLY` rule whose only BY-part is BYDAY. -/
theorem finalSet_byday (rule : RecurringRule)
    (hf : rule.Frequency = .MONTHLY ∨ rule.Frequency = .YEARLY) (hby : rule.OnlyByDay)
    (R : Time) (D : Int) (N : Nat)
    (hs : ∀ i : Nat, i < N → R.loc.Shows ((D + (i : Int)) * 86400 + R.clock)) :
    finalSet rule (daysFrom R D N).length 0 (daysFrom R D N)
      = ((withIndex 0 (daysFrom R D N)).filter fun p =>
          byDaySelected rule.ByDay (daysFrom R D N) p.1.toNat p.2).map Prod.snd := by
  rw [finalSet_withIndex]
  refine congrArg (List.map Prod.snd) ?_
  apply List.filter_congr
  rintro ⟨i, d⟩ hp
  obtain ⟨n, hi, hd⟩ := (mem_withIndex _ 0 i d).mp hp
  have hi2 : i = (n : Int) := by omega
  subst hi2
  simp only [Int.toNat_ofNat]
  rw [byday_filter rule hf hby, daysFrom_length, matchByDay_counts _ R D N hs n d hd]

/-- Consecutive days on each of which the clock of `R` exists show increasing wall
clocks. -/
theorem daysFrom_sorted (R : Time) (D : Int) (N : Nat)
    (hs : ∀ i : Nat, i < N → R.loc.Shows ((D + (i : Int)) * 86400 + R.clock)) :
    (daysFrom R D N).Pairwise fun a b => a.abs < b.abs := by
  unfold daysFrom
  rw [List.pairwise_map]
  apply List.Pairwise.imp_of_mem _ (List.pairwise_lt_range N)
  intro a b ha hb hab
  have h1 : (dayAt R (D + (a : Int))).abs = (D + (a : Int)) * 86400 + R.clock :=
    hs a (List.mem_range.mp ha)
  have h2 : (dayAt R (D + (b : Int))).abs = (D + (b : Int)) * 86400 + R.clock :=
    hs b (List.mem_range.mp hb)
  rw [h1, h2]
  omega

/-- Consecutive days in a zone without transitions are increasing instants. -/
theorem daysFrom_sorted_fixed (R : Time) (hfix : R.loc.Fixed) (D : Int) (N : Nat) :
    (daysFrom R D N).Pairwise fun a b => a.sec < b.sec := by
  have hs : ∀ i : Nat, i < N → R.loc.Shows ((D + (i : Int)) * 86400 + R.clock) :=
    fun _ _ => shows_of_fixed hfix _
  unfold daysFrom
  rw [List.pairwise_map]
  apply List.Pairwise.imp_of_mem _ (List.pairwise_lt_range N)
  intro a b ha hb hab
  have h1 : (dayAt R (D + (a : Int))).abs = (D + (a : Int)) * 86400 + R.clock :=
    hs a (List.mem_range.mp ha)
  have h2 : (dayAt R (D + (b : Int))).abs = (D + (b : Int)) * 86400 + R.clock :=
    hs b (List.mem_range.mp hb)
  rw [abs_fixed (t := dayAt R (D + (a : Int))) hfix] at h1
  rw [abs_fixed (t := dayAt R (D + (b : Int))) hfix] at h2
  have e1 : (dayAt R (D + (a : Int))).loc = R.loc := rfl
  have e2 : (dayAt R (D + (b : Int))).loc = R.loc := rfl
  rw [e1] at h1
  rw [e2] at h2
  omega

theorem daysBefore_jan : daysBefore 1 = 0 := by decide

theorem monthStart_jan (y : Int) : monthStart (12 * y) = daysSinceEpoch y := by
  unfold monthStart
  have e3 : (12 * y) / 12 = y := by omega
  have e4 : (12 * y) % 12 + 1 = 1 := by omega
  rw [e3, e4, civilDays_eq, daysBefore_jan, if_neg (by rintro ⟨_, h⟩; omega)]
  ring

/-- The year and the day of the year of the candidates of a `YEARLY` period, when the
clock of the root exists on the day of the candidate. -/
theorem yearDays_fields (R : Time)
    (hs : ∀ i : Nat, i < (yearLen R.Year).toNat →
      R.loc.Shows ((monthStart (12 * R.Year) + (i : Int)) * 86400 + R.clock))
    (j : Nat) (x : Time)
    (h : (daysFrom R (monthStart (12 * R.Year)) (yearLen R.Year).toNat)[j]? = some x) :
    x.Year = R.Year ∧ x.YearDay = (j : Int) + 1 := by
  obtain ⟨hj, hx⟩ := daysFrom_getElem _ _ _ _ _ h
  have hlen := yearLen_pos R.Year
  have hd := (dayAt_fields R (monthStart (12 * R.Year) + (j : Int)) (hs j hj)).1
  rw [← hx] at hd
  unfold Time.days at hd
  unfold Time.Year Time.YearDay
  rw [hd, monthStart_jan, absYearDay_of_year (Int.natCast_nonneg j) (by omega)]
  exact ⟨rfl, rfl⟩

/-- The first day of a month lies inside the year of the month. -/
theorem monthStart_in_year (y m : Int) (h0 : 0 ≤ m) (h1 : m ≤ 11) :
    monthStart (12 * y) ≤ monthStart (12 * y + m)
      ∧ monthStart (12 * y + m) < monthStart (12 * y) + yearLen y := by
  have a1 : monthStart (12 * y) ≤ monthStart (12 * y + m) := monthStart_mono (by omega)
  have a2 : monthStart (12 * y + m + 1) ≤ monthStart (12 * y + 12) := monthStart_mono (by omega)
  have a3 := monthStart_succ (12 * y + m)
  have a4 := monthLen_pos ((12 * y + m) / 12) ((12 * y + m) % 12 + 1)
  have a5 := monthStart_year y
  exact ⟨a1, by omega⟩

/-- The period `k` of a `MONTHLY` or `YEARLY` rule on every day of which the clock of
the anchor exists: the root shows the clock of the anchor, and the candidates are one
for each day of the period. -/
theorem periodDays_shown (rule : RecurringRule)
    (hf : rule.Frequency = .MONTHLY ∨ rule.Frequency = .YEARLY)
    (h0 : rule.DtStart.loc.Shows (rule.rootWall 0)) (k : Int) (hk : rule.PeriodShown k) :
    (periodRoot rule k).Hour = rule.DtStart.Hour
      ∧ (periodRoot rule k).Minute = rule.DtStart.Minute
      ∧ (periodRoot rule k).Second = rule.DtStart.Second
      ∧ (periodRoot rule k).loc = rule.DtStart.loc
      ∧ (rule.Frequency = .YEARLY →
          (periodRoot rule k).Year = rule.DtStart.Year + rule.Interval * k)
      ∧ periodDays rule (periodRoot rule k)
          = daysFrom (periodRoot rule k) (monthStart (rule.periodIndex k))
              (rule.periodLength k).toNat
      ∧ (∀ i : Nat, i < (rule.periodLength k).toNat →
          (periodRoot rule k).loc.Shows
            ((monthStart (rule.periodIndex k) + (i : Int)) * 86400 + (periodRoot rule k).clock))
      ∧ periodFirstDay rule (periodRoot rule k) = monthStart (rule.periodIndex k)
      ∧ periodDayCount rule (periodRoot rule k) = (rule.periodLength k).toNat := by
  obtain ⟨m1, m2, _⟩ := fields_valid (periodRoot rule k)
  obtain ⟨n1, n2, _⟩ := fields_valid rule.DtStart
  rcases hf with hf | hf
  · obtain ⟨_, r2, r4, r5, r6, r8⟩ := monthShown_of_period rule hf h0 k hk
    have hidx : rule.periodIndex k = rule.DtStart.monthIndex + rule.Interval * k := by
      unfold RecurringRule.periodIndex
      rw [hf]
    have hlen : rule.periodLength k
        = monthLen (rule.periodIndex k / 12) (rule.periodIndex k % 12 + 1) := by
      unfold RecurringRule.periodLength
      rw [hf]
    have e1 : (periodRoot rule k).Year = rule.periodIndex k / 12 := by
      rw [hidx, ← r2]; unfold Time.monthIndex; omega
    have e2 : (periodRoot rule k).Month = rule.periodIndex k % 12 + 1 := by
      rw [hidx, ← r2]; unfold Time.monthIndex; omega
    have hc : (periodRoot rule k).clock = rule.DtStart.clock := by
      have := clock_sum (periodRoot rule k)
      have := clock_sum rule.DtStart
      unfold Time.clock
      omega
    refine ⟨r4, r5, r6, r8, (fun h => by rw [hf] at h; cases h), ?_, ?_, ?_, ?_⟩
    · unfold periodDays
      rw [hf]
      simp only
      rw [r2, ← hidx, e1, e2, hlen]
    · intro i hi
      rw [r8, hc]
      exact hk i hi
    · unfold periodFirstDay
      rw [hf]
      simp only
      rw [r2, ← hidx]
    · unfold periodDayCount
      rw [hf]
      simp only
      rw [e1, e2, hlen]
  · have hidx : rule.periodIndex k = 12 * (rule.DtStart.Year + rule.Interval * k) := by
      unfold RecurringRule.periodIndex
      rw [hf]
    have hlen : rule.periodLength k = yearLen (rule.DtStart.Year + rule.Interval * k) := by
      unfold RecurringRule.periodLength
      rw [hf]
    have hyl := yearLen_pos (rule.DtStart.Year + rule.Interval * k)
    obtain ⟨b1, b2⟩ := monthStart_in_year (rule.DtStart.Year + rule.Interval * k)
      (rule.DtStart.Month - 1) (by omega) (by omega)
    have hroot : rule.rootWall k
        = wallOf (rule.periodIndex k)
            (((monthStart (12 * (rule.DtStart.Year + rule.Interval * k) + (rule.DtStart.Month - 1))
                - monthStart (12 * (rule.DtStart.Year + rule.Interval * k))).toNat : Nat) : Int)
            rule.DtStart.clock := by
      unfold RecurringRule.rootWall wallOf
      rw [hf, hidx, Int.toNat_of_nonneg (by omega)]
      simp only [if_true]
      have e : rule.DtStart.monthIndex + 12 * (rule.Interval * k)
          = 12 * (rule.DtStart.Year + rule.Interval * k) + (rule.DtStart.Month - 1) := by
        unfold Time.monthIndex
        ring
      rw [e]
      ring
    have hk0 : rule.DtStart.loc.Shows (rule.rootWall k) := by
      rw [hroot]
      apply hk
      rw [hlen]
      omega
    obtain ⟨_, r2, r3, r4, r5, r6, _, r8⟩ := root_fields rule (Or.inr hf) h0 k hk0
    rw [hf] at r2
    simp only [if_true] at r2
    have e1 : (periodRoot rule k).Year = rule.DtStart.Year + rule.Interval * k := by
      unfold Time.monthIndex at r2
      omega
    refine ⟨r4, r5, r6, r8, fun _ => e1, ?_, ?_, ?_, ?_⟩
    · unfold periodDays
      rw [hf]
      simp only
      rw [e1, hidx, hlen]
    · intro i hi
      rw [r8, r3]
      exact hk i hi
    · unfold periodFirstDay
      rw [hf]
      simp only
      rw [e1, hidx]
    · unfold periodDayCount
      rw [hf]
      simp only
      rw [e1, hlen]

/-- The candidates of a period with root `R` as consecutive days from the first day of
the period on. -/
theorem periodDays_eq (rule : RecurringRule) (R : Time) :
    periodDays rule R = daysFrom R (periodFirstDay rule R) (periodDayCount rule R) := by
  unfold periodDays periodFirstDay periodDayCount
  cases rule.Frequency <;> rfl

/-- The root of a period of a `MONTHLY` or `YEARLY` rule on every day of which the clock
of the anchor exists: the clock of the root exists on every day of the period. -/
theorem rootShown_of_period (rule : RecurringRule)
    (hf : rule.Frequency = .MONTHLY ∨ rule.Frequency = .YEARLY)
    (h0 : rule.DtStart.loc.Shows (rule.rootWall 0)) (k : Int) (hk : rule.PeriodShown k) :
    rule.RootShown (periodRoot rule k) := by
  obtain ⟨_, _, _, _, _, _, hs, e1, e2⟩ := periodDays_shown rule hf h0 k hk
  intro i hi
  rw [e1]
  exact hs i (by rw [← e2]; exact hi)

/-- C32 (amended). For a `MONTHLY` or `YEARLY` rule whose only BY-part is BYDAY, in
every period `k` on every day of which the wall clock of the root of the period exists
(no candidate of the period is asked for inside an hour that the zone skips): the
candidates are the consecutive days of the month of the root (`MONTHLY`) or of the year
of the root from January 1 on (`YEARLY`), at the clock of the root, in increasing
order; the candidate at index `j` is candidate number `j / 7 + 1` on its weekday
counted from the start and number `(length - 1 - j) / 7 + 1` counted from the end; and
a candidate survives the BY-part exactly if some entry of BYDAY has its weekday and has
offset 0, or a positive offset `n` and the candidate is the `n`-th on that weekday from
the start, or a negative offset `-n` and the candidate is the `n`-th on that weekday
from the end. An offset beyond the number of such weekdays in the period selects
nothing. The condition holds, and the root shows the clock of the anchor in the month
`k * Interval` months after the month of the anchor (in the year `k * Interval` years
after the year of the anchor), when the wall clock of the anchor exists on the first
day of the month of the anchor and on every day of that period. In UTC and in a zone
with one fixed offset every wall clock exists. -/
theorem byday_selects_by_occurrence (rule : RecurringRule)
    (hf : rule.Frequency = .MONTHLY ∨ rule.Frequency = .YEARLY) (hby : rule.OnlyByDay)
    (k : Int) (hs : rule.RootShown (periodRoot rule k)) :
    (∀ wfuel : Nat, generateCandidates rule wfuel (periodRoot rule k)
        = some (periodDays rule (periodRoot rule k)))
      ∧ (rule.Frequency = .MONTHLY →
          ((periodDays rule (periodRoot rule k)).length : Int)
              = monthLen (periodRoot rule k).Year (periodRoot rule k).Month
            ∧ ∀ (j : Nat) (x : Time), (periodDays rule (periodRoot rule k))[j]? = some x →
                x.Year = (periodRoot rule k).Year ∧ x.Month = (periodRoot rule k).Month
                  ∧ x.Day = (j : Int) + 1)
      ∧ (rule.Frequency = .YEARLY →
          ((periodDays rule (periodRoot rule k)).length : Int) = yearLen (periodRoot rule k).Year
            ∧ ∀ (j : Nat) (x : Time), (periodDays rule (periodRoot rule k))[j]? = some x →
                x.Year = (periodRoot rule k).Year ∧ x.YearDay = (j : Int) + 1)
      ∧ (periodDays rule (periodRoot rule k)).Pairwise (fun a b => a.abs < b.abs)
      ∧ (∀ (j : Nat) (x : Time), (periodDays rule (periodRoot rule k))[j]? = some x →
          x.Hour = (periodRoot rule k).Hour ∧ x.Minute = (periodRoot rule k).Minute
            ∧ x.Second = (periodRoot rule k).Second ∧ x.nsec = 0
            ∧ x.loc = (periodRoot rule k).loc
            ∧ countUpTo (periodDays rule (periodRoot rule k)) x.Weekday j = j / 7 + 1
            ∧ countFrom (periodDays rule (periodRoot rule k)) x.Weekday j
                = ((periodDays rule (periodRoot rule k)).length - 1 - j) / 7 + 1)
      ∧ finalSet rule (periodDays rule (periodRoot rule k)).length 0
            (periodDays rule (periodRoot rule k))
          = ((withIndex 0 (periodDays rule (periodRoot rule k))).filter (fun p =>
              byDaySelected rule.ByDay (periodDays rule (periodRoot rule k))
                p.1.toNat p.2)).map Prod.snd
      ∧ (∀ x : Time,
          x ∈ finalSet rule (periodDays rule (periodRoot rule k)).length 0
                (periodDays rule (periodRoot rule k))
            ↔ ∃ j : Nat, (periodDays rule (periodRoot rule k))[j]? = some x
                ∧ ∃ v ∈ rule.ByDay, v.Weekday = x.Weekday
                    ∧ (v.Offset = 0
                      ∨ (0 < v.Offset
                          ∧ (countUpTo (periodDays rule (periodRoot rule k)) v.Weekday j : Int)
                              = v.Offset)
                      ∨ (v.Offset < 0
                          ∧ (countFrom (periodDays rule (periodRoot rule k)) v.Weekday j : Int)
                              = -v.Offset)))
      ∧ (∀ k' : Int, rule.DtStart.loc.Shows (rule.rootWall 0) → rule.PeriodShown k' →
          rule.RootShown (periodRoot rule k')
            ∧ (periodRoot rule k').Hour = rule.DtStart.Hour
            ∧ (periodRoot rule k').Minute = rule.DtStart.Minute
            ∧ (periodRoot rule k').Second = rule.DtStart.Second
            ∧ (periodRoot rule k').loc = rule.DtStart.loc
            ∧ (rule.Frequency = .MONTHLY →
                (periodRoot rule k').monthIndex
                  = rule.DtStart.monthIndex + rule.Interval * k')
            ∧ (rule.Frequency = .YEARLY →
                (periodRoot rule k').Year = rule.DtStart.Year + rule.Interval * k'))
      ∧ (rule.DtStart.loc.Fixed →
          rule.DtStart.loc.Shows (rule.rootWall 0) ∧ (∀ k' : Int, rule.PeriodShown k')
            ∧ (periodDays rule (periodRoot rule k)).Pairwise (fun a b => a.sec < b.sec)) := by
  have hc := periodDays_eq rule (periodRoot rule k)
  have hgen := generateCandidates_periodDays rule hf (periodRoot rule k)
  have hfs := finalSet_byday rule hf hby (periodRoot rule k) _ _ hs
  rw [← hc] at hfs
  refine ⟨hgen, ?_, ?_, ?_, ?_, hfs, ?_, ?_, ?_⟩
  · intro hm
    have hmo : periodDays rule (periodRoot rule k) = monthOf (periodRoot rule k) := by
      have h1 := hgen 0
      rw [generateCandidates_monthly rule hm] at h1
      exact (Option.some.inj h1).symm
    have e1 : periodFirstDay rule (periodRoot rule k)
        = monthStart (periodRoot rule k).monthIndex := by
      unfold periodFirstDay
      rw [hm]
    have e2 : periodDayCount rule (periodRoot rule k)
        = (monthLen (periodRoot rule k).Year (periodRoot rule k).Month).toNat := by
      unfold periodDayCount
      rw [hm]
    have hms : MonthShown (periodRoot rule k) := by
      intro j hj
      have := hs j (by rw [e2]; exact hj)
      rw [e1] at this
      exact this
    rw [hmo]
    refine ⟨monthOf_length _, ?_⟩
    intro j x hx
    obtain ⟨_, f1, f2, f3, _⟩ := monthCandidates_fields _ hms j x hx
    exact ⟨f1, f2, f3⟩
  · intro hy
    have e1 : periodFirstDay rule (periodRoot rule k)
        = monthStart (12 * (periodRoot rule k).Year) := by
      unfold periodFirstDay
      rw [hy]
    have e2 : periodDayCount rule (periodRoot rule k)
        = (yearLen (periodRoot rule k).Year).toNat := by
      unfold periodDayCount
      rw [hy]
    have hs2 : ∀ i : Nat, i < (yearLen (periodRoot rule k).Year).toNat →
        (periodRoot rule k).loc.Shows
          ((monthStart (12 * (periodRoot rule k).Year) + (i : Int)) * 86400
            + (periodRoot rule k).clock) := by
      intro i hi
      have := hs i (by rw [e2]; exact hi)
      rw [e1] at this
      exact this
    rw [hc, e1, e2]
    refine ⟨?_, yearDays_fields _ hs2⟩
    rw [daysFrom_length]
    exact Int.toNat_of_nonneg (le_trans (by norm_num) (yearLen_pos _))
  · rw [hc]
    exact daysFrom_sorted _ _ _ hs
  · intro j x hx
    rw [hc] at hx ⊢
    obtain ⟨hj, hxe⟩ := daysFrom_getElem _ _ _ _ _ hx
    obtain ⟨_, _, g1, g2, g3, g4, g5⟩ := dayAt_fields (periodRoot rule k) _ (hs j hj)
    obtain ⟨_, hw⟩ := daysFrom_weekday _ _ _ hs j x hx
    obtain ⟨c1, c2⟩ := counts_daysFrom (periodRoot rule k) _ _ hs j hj
    rw [← hxe] at g1 g2 g3 g4 g5
    rw [hw, daysFrom_length]
    exact ⟨g1, g2, g3, g4, g5, c1, c2⟩
  · intro x
    rw [hfs, List.mem_map]
    constructor
    · rintro ⟨⟨i, d⟩, hp, hd⟩
      simp only at hd
      subst hd
      rw [List.mem_filter] at hp
      obtain ⟨hp1, hp2⟩ := hp
      obtain ⟨n, hi, hn⟩ := (mem_withIndex _ 0 i d).mp hp1
      have hi2 : i = (n : Int) := by omega
      subst hi2
      simp only [Int.toNat_ofNat] at hp2
      exact ⟨n, hn, (byDaySelected_iff _ _ _ _).mp hp2⟩
    · rintro ⟨j, hj, hsel⟩
      refine ⟨((j : Int), x), ?_, rfl⟩
      rw [List.mem_filter]
      refine ⟨(mem_withIndex _ 0 _ x).mpr ⟨j, by omega, hj⟩, ?_⟩
      simp only [Int.toNat_ofNat]
      exact (byDaySelected_iff _ _ _ _).mpr hsel
  · intro k' h0 hk'
    obtain ⟨r1, r2, r3, r5, ry, _⟩ := periodDays_shown rule hf h0 k' hk'
    exact ⟨rootShown_of_period rule hf h0 k' hk', r1, r2, r3, r5,
      fun hm => (monthShown_of_period rule hm h0 k' hk').2.1, ry⟩
  · intro hfix
    have h0 : rule.DtStart.loc.Shows (rule.rootWall 0) := shows_of_fixed hfix _
    have hk : rule.PeriodShown k := fun _ _ => shows_of_fixed hfix _
    obtain ⟨_, _, _, r5, _⟩ := periodDays_shown rule hf h0 k hk
    refine ⟨h0, fun _ _ _ => shows_of_fixed hfix _, ?_⟩
    rw [hc]
    exact daysFrom_sorted_fixed _ (by rw [r5]; exact hfix) _ _

/-- C32 (amended), at the rule of `Test_Monthly_secondtolast_monday`, in New York time:
the root of period 1 shows 1997-10-01 09:00, and 09:00 exists on every day of October
1997, in which the entry `-2MO` leaves Monday the 20th. The runs of that test, of
`Test_FirstandLast_SundayofMonth` and of `Test_Every20thMonday`, in New York time,
deliver the timestamps that the tests list. -/
theorem byday_selects_by_occurrence_witness :
    finalSet secondToLastMonday
          (periodDays secondToLastMonday (periodRoot secondToLastMonday 1)).length 0
          (periodDays secondToLastMonday (periodRoot secondToLastMonday 1))
        = ((withIndex 0 (periodDays secondToLastMonday
              (periodRoot secondToLastMonday 1))).filter (fun p =>
            byDaySelected secondToLastMonday.ByDay
              (periodDays secondToLastMonday (periodRoot secondToLastMonday 1))
              p.1.toNat p.2)).map Prod.snd
      ∧ ((withIndex 0 (periodDays secondToLastMonday
              (periodRoot secondToLastMonday 1))).filter (fun p =>
            byDaySelected secondToLastMonday.ByDay
              (periodDays secondToLastMonday (periodRoot secondToLastMonday 1))
              p.1.toNat p.2)).map Prod.snd
        = [Date 1997 10 20 9 0 0 0 newYork1997to1999]
      ∧ (drain 1 10 secondToLastMonday.Iterator EmptyTime).map (List.map StepResult.returned)
        = some [(true, Date 1997 9 22 9 0 0 0 newYork1997to1999),
            (true, Date 1997 10 20 9 0 0 0 newYork1997to1999),
            (true, Date 1997 11 17 9 0 0 0 newYork1997to1999),
            (true, Date 1997 12 22 9 0 0 0 newYork1997to1999),
            (true, Date 1998 1 19 9 0 0 0 newYork1997to1999),
            (true, Date 1998 2 16 9 0 0 0 newYork1997to1999),
            (false, Date 1998 2 16 9 0 0 0 newYork1997to1999)]
      ∧ (drain 1 12 firstAndLastSunday.Iterator EmptyTime).map (List.map StepResult.returned)
        = some [(true, Date 1997 9 7 9 0 0 0 newYork1997to1999),
            (true, Date 1997 9 28 9 0 0 0 newYork1997to1999),
            (true, Date 1997 11 2 9 0 0 0 newYork1997to1999),
            (true, Date 1997 11 30 9 0 0 0 newYork1997to1999),
            (true, Date 1998 1 4 9 0 0 0 newYork1997to1999),
            (true, Date 1998 1 25 9 0 0 0 newYork1997to1999),
            (true, Date 1998 3 1 9 0 0 0 newYork1997to1999),
            (true, Date 1998 3 29 9 0 0 0 newYork1997to1999),
            (true, Date 1998 5 3 9 0 0 0 newYork1997to1999),
            (true, Date 1998 5 31 9 0 0 0 newYork1997to1999),
            (false, Date 1998 5 31 9 0 0 0 newYork1997to1999)]
      ∧ (StepSeq [(1, EmptyTime), (1, EmptyTime), (1, EmptyTime)] every20thMonday.Iterator).map
          (List.map StepResult.returned)
        = some [(true, Date 1997 5 19 9 0 0 0 newYork1997to1999),
            (true, Date 1998 5 18 9 0 0 0 newYork1997to1999),
            (true, Date 1999 5 17 9 0 0 0 newYork1997to1999)] :=
  ⟨(byday_selects_by_occurrence secondToLastMonday (Or.inl rfl)
      ⟨by decide, rfl, rfl, rfl, rfl, rfl, rfl, rfl, rfl⟩ 1 (by decide!)).2.2.2.2.2.1,
    by decide!, by decide!, by decide!, by decide!⟩

/-- C32, the claim as it stands fails in a zone whose clocks skip an hour at midnight. In
Sao Paulo the clocks go from 00:00 to 01:00 on Sunday 2018-11-04, so the wall clock
00:30 does not exist on that day. For a rule anchored on 2018-11-01 at 00:30 the
candidate of November 4 is `time.Date(2018, 11, 4, 0, 30, ...)`, which is Saturday
2018-11-03 at 23:30. With `BYDAY=1SU` nothing is selected in November: the candidate of
Sunday the 11th, at index 10, is the first candidate on a Sunday but `10 / 7 + 1` is 2,
and the first timestamp delivered is December 2. With `BYDAY=1SA` the one entry selects
two candidates in November, Saturday the 3rd at 00:30 and at 23:30. -/
theorem byday_counts_indices_at_a_midnight_gap :
    ((monthOf (periodRoot firstSundaySaoPaulo 0)).map fun x =>
          (x.monthDayClock, x.Weekday)).take 5
        = [((11, 1, 0, 30), 4), ((11, 2, 0, 30), 5), ((11, 3, 0, 30), 6),
            ((11, 3, 23, 30), 6), ((11, 5, 0, 30), 1)]
      ∧ generateCandidates firstSundaySaoPaulo 0 (periodRoot firstSundaySaoPaulo 0)
        = some (monthOf (periodRoot firstSundaySaoPaulo 0))
      ∧ (monthOf (periodRoot firstSundaySaoPaulo 0)).length = 30
      ∧ ((monthOf (periodRoot firstSundaySaoPaulo 0))[10]?).map
          (fun x => (x.monthDayClock, x.Weekday)) = some ((11, 11, 0, 30), 0)
      ∧ countUpTo (monthOf (periodRoot firstSundaySaoPaulo 0)) 0 10 = 1
      ∧ finalSet firstSundaySaoPaulo 30 0 (monthOf (periodRoot firstSundaySaoPaulo 0)) = []
      ∧ (finalSet firstSaturdaySaoPaulo 30 0 (monthOf (periodRoot firstSaturdaySaoPaulo 0))).map
          Time.monthDayClock
        = [(11, 3, 0, 30), (11, 3, 23, 30)]
      ∧ (StepSeq [(8, EmptyTime), (8, EmptyTime)] firstSundaySaoPaulo.Iterator).map
          (List.map fun r => (r.ok, r.out.monthDayClock))
        = some [(true, 12, 2, 0, 30), (true, 1, 6, 0, 30)]
      ∧ (StepSeq [(8, EmptyTime), (8, EmptyTime)] firstSaturdaySaoPaulo.Iterator).map
          (List.map fun r => (r.ok, r.out.monthDayClock))
        = some [(true, 11, 3, 0, 30), (true, 11, 3, 23, 30)]
      ∧ ¬ firstSundaySaoPaulo.DtStart.loc.Shows
          (wallOf (firstSundaySaoPaulo.periodIndex 0) 3 firstSundaySaoPaulo.DtStart.clock)
      ∧ ¬ firstSundaySaoPaulo.PeriodShown 0
      ∧ firstSundaySaoPaulo.PeriodShown 1
      ∧ ¬ firstSundaySaoPaulo.RootShown (periodRoot firstSundaySaoPaulo 0)
      ∧ firstSundaySaoPaulo.RootShown (periodRoot firstSundaySaoPaulo 1) :=
  ⟨by decide!, by decide!, by decide!, by decide!, by decide!, by decide!, by decide!,
    by decide!, by decide!, by decide!, by decide!, by decide!, by decide!, by decide!⟩

end RRule
namespace RRule

/-! ## The weeks of a `WEEKLY` rule with `BYDAY`, whatever the zone -/

/-- A wall clock exists when the offset in force at the instant that the first lookup of
`time.Date` proposes is the offset of that lookup. -/
theorem shows_of_same_offset {loc : Location} {w : Int}
    (h : (loc.lookup (w - unixToAbs - (loc.lookup (w - unixToAbs)).1)).1
      = (loc.lookup (w - unixToAbs)).1) : loc.Shows w := by
  unfold Location.Shows atWall Time.abs Location.resolve
  simp only
  generalize hl : loc.lookup (w - unixToAbs) = p at h ⊢
  obtain ⟨o, s, e⟩ := p
  simp only at h ⊢
  by_cases ho : o = 0
  · subst ho
    simp only [sub_zero] at h
    simp [hl]
  · have hne : (o != 0) = true := by simpa using ho
    simp only [hne, if_true]
    split_ifs
    · rw [h]
      simp only [h]
      ring
    · simp only [h]
      ring

theorem newYork1997_lookup (u : Int) :
    newYork1997.lookup u
      = if u < 860310000 then (-18000, zoneAlpha, 860310000)
        else if u < 877845600 then (-14400, 860310000, 877845600)
        else (-18000, 877845600, zoneOmega) := by
  unfold newYork1997 Location.lookup
  simp only [lookupAux]

/-- In New York 09:00 exists on every day: the clocks change at 02:00. -/
theorem newYork1997_shows_nine (D : Int) : newYork1997.Shows (D * 86400 + 32400) := by
  apply shows_of_same_offset
  simp only [newYork1997_lookup, unixToAbs]
  split_ifs <;> first | rfl | (simp only at *; omega)

/-- More fuel does not change the candidates. -/
theorem generateCandidates_mono (rule : RecurringRule) (R : Time) (f : Nat) (c : List Time)
    (h : generateCandidates rule f R = some c) (m : Nat) :
    generateCandidates rule (f + m) R = some c := by
  unfold generateCandidates at h ⊢
  cases hf : rule.Frequency <;> rw [hf] at h <;> simp only at h ⊢ <;> try exact h
  cases hw : walkBack rule.WorkWeekStart f
      (Date R.Year R.Month R.Day R.Hour R.Minute R.Second 0 R.loc) with
  | none => rw [hw] at h; simp at h
  | some tw =>
    rw [hw] at h
    rw [walkBack_mono _ _ _ _ hw m]
    exact h

/-- The root of period `k` of a `WEEKLY` rule: the wall clock of the anchor moved by
`7 * Interval * k` days, resolved in the zone of the anchor. -/
theorem weekly_root_wall (rule : RecurringRule) (hf : rule.Frequency = .WEEKLY)
    (hn0 : 0 ≤ rule.DtStart.nsec) (hn1 : rule.DtStart.nsec < 1000000000) (k : Int) :
    periodRoot rule k
      = { atWall rule.DtStart.loc (rule.DtStart.abs + 7 * (rule.Interval * k) * 86400) with
          nsec := rule.DtStart.nsec } := by
  unfold periodRoot getNextDateByFreqAndInterval
  rw [hf]
  simp only
  rw [AddDate_wall _ hn0 hn1]

/-- The root of a period of a `WEEKLY` rule on each day of whose week the wall clock of
the anchor exists, and the candidates of its week. -/
theorem weekly_root (rule : RecurringRule) (hf : rule.Frequency = .WEEKLY)
    (hn0 : 0 ≤ rule.DtStart.nsec) (hn1 : rule.DtStart.nsec < 1000000000) (k : Int)
    (hs : rule.WeekClockShown k) :
    WeekShown rule.WorkWeekStart (periodRoot rule k)
      ∧ weekAt rule.WorkWeekStart (periodRoot rule k) = weekDays rule k := by
  have hdc := days_clock rule.DtStart
  obtain ⟨c0, c1⟩ := clock_range' rule.DtStart
  have hmul : 7 * rule.Interval * k = 7 * (rule.Interval * k) := by ring
  have hi : 0 ≤ (rule.DtStart.days + 7 * (rule.Interval * k) + 1 - rule.WorkWeekStart) % 7
      ∧ (rule.DtStart.days + 7 * (rule.Interval * k) + 1 - rule.WorkWeekStart) % 7 < 7 := by
    omega
  have hshow : rule.DtStart.loc.Shows (rule.DtStart.abs + 7 * (rule.Interval * k) * 86400) := by
    have h := hs ((rule.DtStart.days + 7 * (rule.Interval * k) + 1
      - rule.WorkWeekStart) % 7).toNat (by omega)
    rw [Int.toNat_of_nonneg hi.1, hmul] at h
    have e : (weekStart rule.WorkWeekStart (rule.DtStart.days + 7 * (rule.Interval * k))
          + (rule.DtStart.days + 7 * (rule.Interval * k) + 1 - rule.WorkWeekStart) % 7) * 86400
          + rule.DtStart.clock
        = rule.DtStart.abs + 7 * (rule.Interval * k) * 86400 := by
      unfold weekStart
      rw [hdc]
      ring
    rw [e] at h
    exact h
  have ha : (periodRoot rule k).abs = rule.DtStart.abs + 7 * (rule.Interval * k) * 86400 := by
    rw [weekly_root_wall rule hf hn0 hn1 k, abs_with_nsec]
    exact hshow
  have hl : (periodRoot rule k).loc = rule.DtStart.loc := by
    rw [weekly_root_wall rule hf hn0 hn1 k]
    rfl
  have hd : (periodRoot rule k).days = rule.DtStart.days + 7 * rule.Interval * k := by
    unfold Time.days at hdc ⊢
    unfold Time.clock at hdc c0 c1
    rw [ha, hmul]
    omega
  have hc : (periodRoot rule k).clock = rule.DtStart.clock := by
    unfold Time.clock
    rw [ha]
    omega
  refine ⟨?_, ?_⟩
  · intro j hj
    rw [hl, hd, hc]
    exact hs j hj
  · unfold weekAt weekDays
    rw [hl, hd, hc]

/-- What the pass of period `k` of a `WEEKLY` rule with `BYDAY` puts into an empty
buffer. -/
theorem periodYields_weekly (rule : RecurringRule) (hw : rule.WeeklyByDay)
    (h0 : 0 ≤ rule.WorkWeekStart) (h6 : rule.WorkWeekStart ≤ 6)
    (hn0 : 0 ≤ rule.DtStart.nsec) (hn1 : rule.DtStart.nsec < 1000000000)
    (hs : ∀ k : Int, 0 ≤ k → rule.WeekClockShown k) :
    PeriodYields rule 7 (weeklyYield rule) := by
  intro ri sc wfuel hr hb ha hk hbuf
  subst hr
  obtain ⟨hW, hE⟩ := weekly_root ri.rule hw.1 hn0 hn1 ri.iterCounter (hs _ hk)
  obtain ⟨g7, guniq⟩ := generateCandidates_week ri.rule hw.1 h0 h6 _ hW
  have key : ∀ c, generateCandidates ri.rule wfuel (periodRoot ri.rule ri.iterCounter) = some c →
      advancePeriod wfuel ri sc
        = some ({ ri with iterBuffer := weeklyYield ri.rule ri.iterCounter,
                          iterCounter := ri.iterCounter + 1 }, sc) := by
    intro c hc
    have hcv := guniq wfuel c hc
    rw [hE] at hcv
    subst hcv
    unfold periodRoot at hc
    unfold advancePeriod
    simp only [hc]
    rw [finalSet_weekly ri.rule hw, secondLoop_plain ri _ hw.2.2.2.2.2.2.2.2.2.2.1
      hw.2.2.2.2.2.2.2.2.2.2.2 hb ha]
    simp only [hbuf, List.nil_append]
    rfl
  refine ⟨?_, ?_⟩
  · intro h7
    obtain ⟨m, rfl⟩ : ∃ m, wfuel = 7 + m := ⟨wfuel - 7, by omega⟩
    rw [key _ (generateCandidates_mono _ _ _ _ g7 m)]
    rfl
  · intro p hp
    cases hg : generateCandidates ri.rule wfuel (periodRoot ri.rule ri.iterCounter) with
    | none =>
      unfold periodRoot at hg
      unfold advancePeriod at hp
      simp only [hg] at hp
      exact absurd hp (by simp)
    | some c =>
      rw [key c hg] at hp
      exact (Option.some.inj hp).symm

/-- The candidates of period `k`: the timestamps at the clock of the anchor in the week
of the anchor moved by `7 * Interval * k` days that `time.Date` gives for their wall
clocks. -/
theorem mem_weekDays_iff (rule : RecurringRule) (k : Int) (hs : rule.WeekClockShown k)
    (d : Time) :
    d ∈ weekDays rule k ↔ CarriesClock rule d ∧ InWeekOf rule k d ∧ d.Resolved := by
  obtain ⟨c0, c1⟩ := clock_range' rule.DtStart
  unfold Time.clock at c0 c1
  constructor
  · intro h
    unfold weekDays at h
    obtain ⟨j, hj, hd⟩ := List.mem_map.mp h
    have hj7 : j < 7 := List.mem_range.mp hj
    have hjj : (j : Int) < 7 := by exact_mod_cast hj7
    have hj0 : (0 : Int) ≤ j := Int.natCast_nonneg _
    have ha : d.abs = (weekStart rule.WorkWeekStart (rule.DtStart.days + 7 * rule.Interval * k)
        + (j : Int)) * 86400 + rule.DtStart.clock := by
      rw [← hd]
      exact hs j hj7
    unfold Time.clock at ha
    have hl : d.loc = rule.DtStart.loc := by rw [← hd]; rfl
    refine ⟨⟨hl, by rw [← hd]; rfl, ?_⟩, ⟨?_, ?_⟩, ?_⟩
    · rw [clock_eq_iff, ha]
      omega
    · show _ ≤ d.abs / 86400
      rw [ha]
      omega
    · show d.abs / 86400 < _
      rw [ha]
      omega
    · unfold Time.Resolved
      rw [hl, ha]
      exact hd
  · rintro ⟨⟨hl, _, hclock⟩, ⟨hlo, hhi⟩, hres⟩
    rw [clock_eq_iff] at hclock
    unfold Time.Resolved at hres
    have hdd : d.days = d.abs / 86400 := rfl
    rw [hdd] at hlo hhi
    unfold weekDays
    refine List.mem_map.mpr ⟨(d.abs / 86400
      - weekStart rule.WorkWeekStart (rule.DtStart.days + 7 * rule.Interval * k)).toNat,
      List.mem_range.mpr (by omega), ?_⟩
    rw [Int.toNat_of_nonneg (by omega)]
    have e : (weekStart rule.WorkWeekStart (rule.DtStart.days + 7 * rule.Interval * k)
          + (d.abs / 86400
            - weekStart rule.WorkWeekStart (rule.DtStart.days + 7 * rule.Interval * k)))
          * 86400 + rule.DtStart.clock = d.abs := by
      unfold Time.clock
      omega
    rw [e, ← hl]
    exact hres

theorem mem_weeklyYield_iff (rule : RecurringRule) (k : Int) (hs : rule.WeekClockShown k)
    (d : Time) :
    d ∈ weeklyYield rule k
      ↔ CarriesClock rule d ∧ d.Before rule.DtStart = false ∧ onByDay rule d = true
        ∧ InWeekOf rule k d ∧ d.Resolved := by
  unfold weeklyYield
  simp only [List.mem_filter, mem_weekDays_iff rule k hs, Bool.not_eq_true']
  tauto

/-- In a zone without transitions a time with whole seconds is the one that `time.Date`
gives for its wall clock. -/
theorem resolved_of_fixed (d : Time) (hfix : d.loc.Fixed) (hns : d.nsec = 0) : d.Resolved := by
  unfold Time.Resolved atWall Location.resolve
  simp only [lookup_fixed hfix]
  have ha := abs_fixed (t := d) hfix
  cases d with
  | mk ds dn dl =>
    simp only at hns ha ⊢
    subst hns
    congr 1
    split_ifs <;> simp_all

/-- C12 (amended). For a `WEEKLY` rule with a non-empty `BYDAY` without offsets, no
other BY-part and no exception, whose `WorkWeekStart` is a weekday and the wall clock
of whose anchor exists on each day of the weeks of the periods (no candidate is asked
for inside an hour that the zone skips), on a fresh iterator: every timestamp delivered
carries the wall clock of the anchor, is not before the anchor, falls on a weekday of
`BYDAY`, lies in the week, starting on `WorkWeekStart`, of the anchor moved by
`7 * Interval * k` days for some `k ≥ 0`, and is the time that `time.Date` gives for
its wall clock; and when the rule has neither `Count` nor `Until`, every timestamp with
these five properties is delivered by some sequence of calls. In UTC and in a zone with
one fixed offset every wall clock exists and every time with whole seconds is the one
that `time.Date` gives for its wall clock. -/
theorem weekly_byday_yields_the_aligned_weeks (rule : RecurringRule)
    (hw : rule.WeeklyByDay) (h0 : 0 ≤ rule.WorkWeekStart) (h6 : rule.WorkWeekStart ≤ 6)
    (hn0 : 0 ≤ rule.DtStart.nsec) (hn1 : rule.DtStart.nsec < 1000000000)
    (hs : ∀ k : Int, 0 ≤ k → rule.WeekClockShown k) :
    (∀ calls rs, StepSeq calls rule.Iterator = some rs → ∀ d ∈ yielded rs,
        CarriesClock rule d ∧ d.Before rule.DtStart = false ∧ onByDay rule d = true
          ∧ (∃ k : Int, 0 ≤ k ∧ InWeekOf rule k d) ∧ d.Resolved)
      ∧ (rule.Count ≤ 0 → rule.Until.Equal EmptyTime = true →
          ∀ d, CarriesClock rule d → d.Before rule.DtStart = false → onByDay rule d = true →
            (∃ k : Int, 0 ≤ k ∧ InWeekOf rule k d) → d.Resolved → Reaches rule.Iterator d)
      ∧ (rule.DtStart.loc.Fixed →
          (∀ k : Int, rule.WeekClockShown k) ∧ ∀ d, CarriesClock rule d → d.Resolved) := by
  have hp := periodYields_weekly rule hw h0 h6 hn0 hn1 hs
  refine ⟨?_, ?_, ?_⟩
  · intro calls rs hseq d hd
    have hin : Within rule (weeklyYield rule) rule.Iterator :=
      ⟨rfl, rfl, rfl, le_refl _, fun d hd => by simp [RecurringRule.Iterator] at hd⟩
    obtain ⟨i, hi, hmem⟩ := StepSeq_within hp calls rule.Iterator rs hin hseq d hd
    obtain ⟨g1, g2, g3, g4, g5⟩ := (mem_weeklyYield_iff rule i (hs i hi) d).mp hmem
    exact ⟨g1, g2, g3, ⟨i, hi, g4⟩, g5⟩
  · intro hc hu d g1 g2 g3 hk g5
    obtain ⟨k, hk0, g4⟩ := hk
    have hmem := (mem_weeklyYield_iff rule k (hs k hk0) d).mpr ⟨g1, g2, g3, g4, g5⟩
    exact reaches_of_period hp hmem (k.toNat + 1) [] rule.Iterator rfl ⟨hc, hu, le_refl _⟩
      rfl rfl (le_refl _) rfl
      (by
        have : ((k.toNat : Nat) : Int) = k := Int.toNat_of_nonneg hk0
        have e : rule.Iterator.iterCounter = 0 := rfl
        rw [e]
        push_cast
        omega)
      (Or.inr hk0)
  · intro hfix
    refine ⟨fun _ _ _ => shows_of_fixed hfix _, ?_⟩
    rintro d ⟨hl, hns, _⟩
    exact resolved_of_fixed d (by rw [hl]; exact hfix) hns

/-- C12 (amended), at the rule of `Test_WKST_Change` with the week starting on Sunday, in
New York time and without `COUNT`: 09:00 exists there on every day, and 1997-08-17
09:00, a Sunday in the week of the anchor moved by 14 days, is delivered. -/
theorem weekly_byday_yields_the_aligned_weeks_witness :
    Reaches everyOtherWeekNewYork.Iterator (Date 1997 8 17 9 0 0 0 newYork1997) :=
  (weekly_byday_yields_the_aligned_weeks everyOtherWeekNewYork
    ⟨rfl, by decide, fun fd hfd => by
      simp only [everyOtherWeekNewYork, plainRule, List.mem_cons, List.mem_singleton,
        List.not_mem_nil, or_false] at hfd
      rcases hfd with h | h <;> subst h <;> rfl,
      rfl, rfl, rfl, rfl, rfl, rfl, rfl, rfl, rfl⟩
    (by decide) (by decide) (by decide) (by decide)
    (fun k _ j _ => by
      have e : everyOtherWeekNewYork.DtStart.clock = 32400 := by decide!
      have l : everyOtherWeekNewYork.DtStart.loc = newYork1997 := rfl
      rw [e, l]
      exact newYork1997_shows_nine _)).2.1 (by decide) rfl
    (Date 1997 8 17 9 0 0 0 newYork1997) ⟨rfl, rfl, by decide!, by decide!, by decide!⟩
    (by decide!) (by decide!) ⟨1, by decide, by unfold InWeekOf; decide!⟩ (by decide!)

/-- C12, the claim as it stands fails in a zone with daylight saving time. The
candidates of a week are built one from the other by `AddDate(0, 0, 1)`: on the rule
`weeklyAcrossGap` (02:30 New York, Sundays and Mondays) the candidate of Sunday
2020-03-08 falls in the hour the clocks skip and comes out at 01:30, and Monday
2020-03-09 follows it at 01:30. The timestamp 2020-03-09 02:30 carries the clock of
the anchor, is not before the anchor, is a Monday and lies in the week of the anchor
moved by 7 days, yet it is not among the five timestamps delivered, the last of which
is later; the wall clock 02:30 does not exist on the first day of that week. And on the
rule `weeklyAcrossRepeat` (01:30 New York, Sundays) the wall clock 01:30 comes twice on
Sunday 2020-11-01: the second of the two instants carries the clock of the anchor, is
not before the anchor, is a Sunday and lies in the week of the anchor moved by 7 days,
but `time.Date` gives the first, which alone is delivered. -/
theorem weekly_byday_drifts_across_dst_gap :
    (drain 8 10 weeklyAcrossGap.Iterator EmptyTime).map (List.map StepResult.returned)
        = some [(true, Date 2020 3 1 2 30 0 0 newYork2020),
            (true, Date 2020 3 2 2 30 0 0 newYork2020),
            (true, Date 2020 3 8 1 30 0 0 newYork2020),
            (true, Date 2020 3 9 1 30 0 0 newYork2020),
            (true, Date 2020 3 15 2 30 0 0 newYork2020),
            (false, Date 2020 3 15 2 30 0 0 newYork2020)]
      ∧ (Date 2020 3 9 2 30 0 0 newYork2020).Hour = weeklyAcrossGap.DtStart.Hour
      ∧ (Date 2020 3 9 2 30 0 0 newYork2020).Minute = weeklyAcrossGap.DtStart.Minute
      ∧ (Date 2020 3 9 2 30 0 0 newYork2020).Second = weeklyAcrossGap.DtStart.Second
      ∧ (Date 2020 3 9 2 30 0 0 newYork2020).Before weeklyAcrossGap.DtStart = false
      ∧ onByDay weeklyAcrossGap (Date 2020 3 9 2 30 0 0 newYork2020) = true
      ∧ InWeekOf weeklyAcrossGap 1 (Date 2020 3 9 2 30 0 0 newYork2020)
      ∧ (Date 2020 3 9 2 30 0 0 newYork2020).Before (Date 2020 3 15 2 30 0 0 newYork2020) = true
      ∧ [Date 2020 3 1 2 30 0 0 newYork2020, Date 2020 3 2 2 30 0 0 newYork2020,
          Date 2020 3 8 1 30 0 0 newYork2020, Date 2020 3 9 1 30 0 0 newYork2020,
          Date 2020 3 15 2 30 0 0 newYork2020].contains (Date 2020 3 9 2 30 0 0 newYork2020)
        = false
      ∧ weeklyAcrossGap.WeekClockShown 0
      ∧ ¬ weeklyAcrossGap.WeekClockShown 1
      ∧ (StepSeq [(8, EmptyTime), (8, EmptyTime), (8, EmptyTime)]
            weeklyAcrossRepeat.Iterator).map (List.map fun r => (r.ok, r.out.sec))
          = some [(true, 1603603800), (true, 1604208600), (true, 1604817000)]
      ∧ secondHalfPastOne.abs = (Date 2020 11 1 1 30 0 0 newYork2020).abs
      ∧ CarriesClock weeklyAcrossRepeat secondHalfPastOne
      ∧ secondHalfPastOne.Before weeklyAcrossRepeat.DtStart = false
      ∧ onByDay weeklyAcrossRepeat secondHalfPastOne = true
      ∧ InWeekOf weeklyAcrossRepeat 1 secondHalfPastOne
      ∧ weeklyAcrossRepeat.WeekClockShown 1
      ∧ ¬ secondHalfPastOne.Resolved :=
  ⟨by decide!, by decide!, by decide!, by decide!, by decide!, by decide!,
    by unfold InWeekOf; decide!, by decide!, by decide!, by decide!, by decide!, by decide!,
    by decide!, ⟨rfl, rfl, by decide!, by decide!, by decide!⟩, by decide!, by decide!,
    by unfold InWeekOf; decide!, by decide!, by decide!⟩

/-- The runs of `Test_WKST_Change`: every other week from Tuesday 1997-08-05 on
Tuesdays and Sundays, four times, gives August 5, 10, 19 and 24 with the week starting
on Monday and August 5, 17, 19 and 31 with the week starting on Sunday. -/
theorem week_start_changes_the_weeks :
    (drain 8 10 (everyOtherWeek 1).Iterator EmptyTime).map (List.map StepResult.returned)
        = some [(true, Date 1997 8 5 9 0 0 0 newYork1997),
            (true, Date 1997 8 10 9 0 0 0 newYork1997),
            (true, Date 1997 8 19 9 0 0 0 newYork1997),
            (true, Date 1997 8 24 9 0 0 0 newYork1997),
            (false, Date 1997 8 24 9 0 0 0 newYork1997)]
      ∧ (drain 8 10 (everyOtherWeek 0).Iterator EmptyTime).map (List.map StepResult.returned)
        = some [(true, Date 1997 8 5 9 0 0 0 newYork1997),
            (true, Date 1997 8 17 9 0 0 0 newYork1997),
            (true, Date 1997 8 19 9 0 0 0 newYork1997),
            (true, Date 1997 8 31 9 0 0 0 newYork1997),
            (false, Date 1997 8 31 9 0 0 0 newYork1997)] :=
  ⟨by decide!, by decide!⟩

end RRule
namespace RRule

/-! ## The window `Before` on rules whose periods keep having survivors -/

/-- The second loop of `Step` on an iterator with the window `Before` sets the flag
`shortcircuit_finish` when a survivor is not before the bound, and never clears it. -/
theorem secondLoop_flag (ri : RecurrenceIterator) (fcc : Int) (hu : ri.UseUserBefore = true) :
    ∀ (l : List Time) (cindex : Int) (buf : List Time) (sc : Bool),
      (sc = true ∨ ∃ d ∈ l, d.Before ri.UserBefore = false) →
      (secondLoop ri fcc cindex l (buf, sc)).2 = true := by
  intro l
  induction l with
  | nil =>
    intro cindex buf sc h
    rcases h with h | ⟨d, hd, _⟩
    · simpa [secondLoop] using h
    · simp at hd
  | cons x rest ih =>
    intro cindex buf sc h
    simp only [secondLoop]
    apply ih
    rcases h with h | ⟨d, hd, hb⟩
    · left
      simp [h]
    · rcases List.mem_cons.mp hd with e | e
      · left
        subst e
        simp [hu, hb]
      · right
        exact ⟨d, e, hb⟩

/-- The second loop of `Step` on an iterator with the window `Before` buffers no
survivor that is not before the bound. -/
theorem secondLoop_past (ri : RecurrenceIterator) (fcc : Int) (hu : ri.UseUserBefore = true) :
    ∀ (l : List Time) (cindex : Int) (buf : List Time) (sc : Bool),
      (∀ d ∈ l, d.Before ri.UserBefore = false) →
      (secondLoop ri fcc cindex l (buf, sc)).1 = buf := by
  intro l
  induction l with
  | nil =>
    intro cindex buf sc _
    simp [secondLoop]
  | cons x rest ih =>
    intro cindex buf sc h
    have hx := h x (List.mem_cons_self _ _)
    have hm : (survivorMatches ri fcc cindex x).all id = false := by
      unfold survivorMatches
      simp [hu, hx]
    simp only [secondLoop, hm, Bool.false_and, Bool.false_eq_true, if_false]
    exact ih _ _ _ (fun d hd => h d (List.mem_cons_of_mem _ hd))

theorem advancePeriod_stops {ri ri' : RecurrenceIterator} {wfuel : Nat} {sc sc' : Bool}
    (hu : ri.UseUserBefore = true) (hs : ri.rule.StopsAt ri.UserBefore ri.iterCounter)
    (h : advancePeriod wfuel ri sc = some (ri', sc')) : sc' = true := by
  unfold advancePeriod at h
  simp only at h
  cases hg : generateCandidates ri.rule wfuel
      (getNextDateByFreqAndInterval ri.rule.DtStart ri.rule.Frequency
        (ri.rule.Interval * ri.iterCounter)) with
  | none => simp [hg] at h
  | some c =>
    obtain ⟨d, hd, hb⟩ := hs wfuel c hg
    simp only [hg, Option.some.injEq, Prod.mk.injEq] at h
    obtain ⟨_, h2⟩ := h
    rw [← h2]
    exact secondLoop_flag ri _ hu _ _ _ _ (Or.inr ⟨d, hd, hb⟩)

theorem advancePeriod_past {ri ri' : RecurrenceIterator} {wfuel : Nat} {sc sc' : Bool} {K : Int}
    (hu : ri.UseUserBefore = true) (hp : ri.rule.PastFrom ri.UserBefore K)
    (hK : K ≤ ri.iterCounter) (h : advancePeriod wfuel ri sc = some (ri', sc')) :
    ri'.iterBuffer = ri.iterBuffer := by
  unfold advancePeriod at h
  simp only at h
  cases hg : generateCandidates ri.rule wfuel
      (getNextDateByFreqAndInterval ri.rule.DtStart ri.rule.Frequency
        (ri.rule.Interval * ri.iterCounter)) with
  | none => simp [hg] at h
  | some c =>
    have hall := hp ri.iterCounter hK wfuel c hg
    simp only [hg, Option.some.injEq, Prod.mk.injEq] at h
    obtain ⟨h1, _⟩ := h
    rw [← h1]
    exact secondLoop_past ri _ hu _ _ _ _ hall

theorem refill_done (wfuel : Nat) (ri : RecurrenceIterator) :
    ∀ fuel : Nat, refill wfuel fuel ri true = some (ri, true) := by
  intro fuel
  cases fuel <;> simp [refill]

/-- The period loop of `Step` ends within `n + 1` passes when the period `n` passes
ahead has a survivor that is not before the bound. -/
theorem refill_stops {rule : RecurringRule} {B : Time} {wfuel : Nat}
    (hc : CandidatesWithin rule wfuel) :
    ∀ (n fuel : Nat) (ri : RecurrenceIterator) (sc : Bool), ri.rule = rule →
      ri.UseUserBefore = true → ri.UserBefore = B →
      rule.StopsAt B (ri.iterCounter + (n : Int)) → n + 1 ≤ fuel →
      (refill wfuel fuel ri sc).isSome = true := by
  intro n
  induction n with
  | zero =>
    intro fuel ri sc hr hu hb hs hf
    obtain ⟨f, rfl⟩ : ∃ f, fuel = f + 1 := ⟨fuel - 1, by omega⟩
    unfold refill
    split
    · obtain ⟨ri', sc', ha⟩ := advancePeriod_isSome hc ri hr sc
      rw [ha]
      simp only
      have hsc : sc' = true :=
        advancePeriod_stops hu (by rw [hr, hb]; simpa using hs) ha
      subst hsc
      rw [refill_done]
      rfl
    · rfl
  | succ n ih =>
    intro fuel ri sc hr hu hb hs hf
    obtain ⟨f, rfl⟩ : ∃ f, fuel = f + 1 := ⟨fuel - 1, by omega⟩
    unfold refill
    split
    · obtain ⟨ri', sc', ha⟩ := advancePeriod_isSome hc ri hr sc
      rw [ha]
      simp only
      obtain ⟨⟨c1, _, c3, _, c5, _⟩, _, hi, _⟩ := advancePeriod_spec ha
      apply ih f ri' sc' (by rw [← c1]; exact hr) (by rw [← c5]; exact hu)
        (by rw [← c3]; exact hb) _ (by omega)
      rw [hi]
      have e : ri.iterCounter + 1 + (n : Int) = ri.iterCounter + ((n + 1 : Nat) : Int) := by
        push_cast
        ring
      rw [e]
      exact hs
    · rfl

theorem Step_returns {rule : RecurringRule} {B : Time} {fuel n : Nat}
    (hc : CandidatesWithin rule fuel) (ri : RecurrenceIterator) (hr : ri.rule = rule)
    (hu : ri.UseUserBefore = true) (hb : ri.UserBefore = B)
    (hs : rule.StopsAt B (ri.iterCounter + (n : Int))) (hf : n + 1 ≤ fuel) (t : Time) :
    (Step fuel ri t).isSome = true := by
  unfold Step
  split
  · rfl
  · have h := refill_stops hc n fuel ri false hr hu hb hs hf
    cases hre : refill fuel fuel ri false with
    | none => rw [hre] at h; simp at h
    | some p => rfl

theorem refill_advances {wfuel fuel : Nat} {ri ri' : RecurrenceIterator} {sc' : Bool}
    (hbuf : ri.iterBuffer = []) (h : refill wfuel fuel ri false = some (ri', sc')) :
    ri.iterCounter + 1 ≤ ri'.iterCounter := by
  cases fuel with
  | zero => simp [refill, hbuf] at h
  | succ f =>
    unfold refill at h
    simp only [hbuf, List.length_nil, beq_self_eq_true, Bool.and_self, if_true] at h
    cases ha : advancePeriod wfuel ri false with
    | none => simp [ha] at h
    | some p =>
      obtain ⟨ri₁, sc₁⟩ := p
      simp only [ha] at h
      obtain ⟨_, _, hi, _⟩ := advancePeriod_spec ha
      obtain ⟨_, _, hi', _⟩ := refill_spec _ _ _ _ _ _ h
      omega

theorem refill_past {rule : RecurringRule} {B : Time} {K : Int} (hp : rule.PastFrom B K)
    (wfuel : Nat) :
    ∀ (fuel : Nat) (ri ri' : RecurrenceIterator) (sc sc' : Bool), ri.rule = rule →
      ri.UseUserBefore = true → ri.UserBefore = B → K ≤ ri.iterCounter → ri.iterBuffer = [] →
      refill wfuel fuel ri sc = some (ri', sc') → ri'.iterBuffer = [] := by
  intro fuel
  induction fuel with
  | zero =>
    intro ri ri' sc sc' _ _ _ _ hbuf h
    unfold refill at h
    split at h
    · exact absurd h (by simp)
    · simp only [Option.some.injEq, Prod.mk.injEq] at h
      rw [← h.1]
      exact hbuf
  | succ f ih =>
    intro ri ri' sc sc' hr hu hb hK hbuf h
    unfold refill at h
    split at h
    · cases ha : advancePeriod wfuel ri sc with
      | none => simp [ha] at h
      | some p =>
        obtain ⟨ri₁, sc₁⟩ := p
        simp only [ha] at h
        obtain ⟨⟨c1, _, c3, _, c5, _⟩, _, hi, _⟩ := advancePeriod_spec ha
        have hb1 : ri₁.iterBuffer = ri.iterBuffer :=
          advancePeriod_past hu (by rw [hr, hb]; exact hp) hK ha
        exact ih ri₁ ri' sc₁ sc' (by rw [← c1]; exact hr) (by rw [← c5]; exact hu)
          (by rw [← c3]; exact hb) (by omega) (by rw [hb1]; exact hbuf) h
    · simp only [Option.some.injEq, Prod.mk.injEq] at h
      rw [← h.1]
      exact hbuf

/-- With an empty buffer, once no survivor of a later period is before the bound, a call
of `Step` that returns returns false. -/
theorem Step_past {rule : RecurringRule} {B : Time} {K : Int} (hp : rule.PastFrom B K)
    {fuel : Nat} {ri : RecurrenceIterator} {t : Time} {r : StepResult} (hr : ri.rule = rule)
    (hu : ri.UseUserBefore = true) (hb : ri.UserBefore = B) (hK : K ≤ ri.iterCounter)
    (hbuf : ri.iterBuffer = []) (h : Step fuel ri t = some r) : r.ok = false := by
  rcases Step_cases h with ⟨_, _, he⟩ | ⟨_, ri₁, sc, hre, he⟩
  · rw [he]
  · have hb1 := refill_past hp fuel fuel ri ri₁ false sc hr hu hb hK hbuf hre
    obtain ⟨_, _, _, _, hx⟩ := refill_spec _ _ _ _ _ _ hre
    have hsc : sc = true := by
      rcases hx with hx | hx
      · exact absurd hb1 hx
      · exact hx
    rw [he, deliver_nil sc t hb1, hsc]
    rfl

/-- What a call of `Step` that returns does to the period counter and the buffer. -/
theorem Step_next {fuel : Nat} {ri : RecurrenceIterator} {t : Time} {r : StepResult}
    (h : Step fuel ri t = some r) :
    SameConfig ri r.iter ∧ ri.iterCounter ≤ r.iter.iterCounter
      ∧ (ri.iterBuffer ≠ [] → r.ok = true →
          r.iter.iterCounter = ri.iterCounter
            ∧ r.iter.iterBuffer.length + 1 = ri.iterBuffer.length)
      ∧ (ri.iterBuffer = [] → r.ok = true → ri.iterCounter + 1 ≤ r.iter.iterCounter) := by
  refine ⟨Step_config h, ?_⟩
  rcases Step_cases h with ⟨_, _, he⟩ | ⟨_, ri₁, sc, hre, he⟩
  · subst he
    exact ⟨le_refl _, fun _ hk => by simp at hk, fun _ hk => by simp at hk⟩
  · obtain ⟨_, _, hi, _, _⟩ := refill_spec _ _ _ _ _ _ hre
    have hcnt : r.iter.iterCounter = ri₁.iterCounter := by
      cases hb1 : ri₁.iterBuffer with
      | nil => rw [he, deliver_nil sc t hb1]
      | cons head tail =>
        rw [he]
        exact (deliver_cons sc t hb1).2.2.2.1
    refine ⟨by omega, ?_, ?_⟩
    · intro hne _
      rw [refill_nonempty fuel hne false fuel] at hre
      simp only [Option.some.injEq, Prod.mk.injEq] at hre
      obtain ⟨e1, _⟩ := hre
      subst e1
      cases hb1 : ri.iterBuffer with
      | nil => exact absurd hb1 hne
      | cons head tail =>
        obtain ⟨_, d2, _, d4, _⟩ := deliver_cons sc t hb1
        rw [he, d2, d4]
        exact ⟨rfl, rfl⟩
    · intro hbuf _
      have := refill_advances hbuf hre
      omega

/-- One call of `Step` on an iterator with the window `Before(B)`: it returns false, or
it takes a timestamp from the buffer, or it moves on to a later period. -/
theorem run_step {rule : RecurringRule} {B : Time} {W : Nat} {K : Int}
    (hw : ∀ wfuel : Nat, W ≤ wfuel → CandidatesWithin rule wfuel) (hs : rule.StopsAgain B)
    (hp : rule.PastFrom B K) (t : Time) (ri : RecurrenceIterator) (hr : ri.rule = rule)
    (hu : ri.UseUserBefore = true) (hb : ri.UserBefore = B) (h0 : 0 ≤ ri.iterCounter)
    (hless : ∀ ri' : RecurrenceIterator, ri'.rule = rule → ri'.UseUserBefore = true →
      ri'.UserBefore = B → ri.iterCounter + 1 ≤ ri'.iterCounter → ri.iterCounter < K →
      Finishes ri' t)
    (hpop : ∀ ri' : RecurrenceIterator, ri'.rule = rule → ri'.UseUserBefore = true →
      ri'.UserBefore = B → ri'.iterCounter = ri.iterCounter →
      ri'.iterBuffer.length + 1 = ri.iterBuffer.length → Finishes ri' t) :
    Finishes ri t := by
  obtain ⟨n, hn⟩ := hs ri.iterCounter h0
  have hsome := Step_returns (hw (max W (n + 1)) (le_max_left _ _)) ri hr hu hb hn
    (le_max_right _ _) t
  cases hst : Step (max W (n + 1)) ri t with
  | none => rw [hst] at hsome; simp at hsome
  | some r =>
    by_cases hok : r.ok = false
    · refine ⟨[max W (n + 1)], [r], ?_, r, List.mem_singleton.mpr rfl, hok⟩
      simp [StepSeq, hst]
    · have hok' : r.ok = true := by simpa using hok
      obtain ⟨⟨c1, _, c3, _, c5, _⟩, _, hpop', hless'⟩ := Step_next hst
      have hnext : Finishes r.iter t := by
        by_cases hbuf : ri.iterBuffer = []
        · have hlt : ri.iterCounter < K := by
            by_contra hcon
            have := Step_past hp hr hu hb (by omega) hbuf hst
            rw [this] at hok'
            exact absurd hok' (by simp)
          exact hless r.iter (by rw [← c1]; exact hr) (by rw [← c5]; exact hu)
            (by rw [← c3]; exact hb) (hless' hbuf hok') hlt
        · obtain ⟨e1, e2⟩ := hpop' hbuf hok'
          exact hpop r.iter (by rw [← c1]; exact hr) (by rw [← c5]; exact hu)
            (by rw [← c3]; exact hb) e1 e2
      obtain ⟨fuels, rs, hseq, x, hx, hxok⟩ := hnext
      refine ⟨max W (n + 1) :: fuels, r :: rs, ?_, x, List.mem_cons_of_mem _ hx, hxok⟩
      simp [StepSeq, hst, hseq]

/-- On an iterator with the window `Before(B)`, over a rule whose periods keep having a
survivor that is not before `B` and from some period on have no survivor before `B`,
some call of `Step` returns false. -/
theorem run_ends {rule : RecurringRule} {B : Time} {W : Nat} {K : Int}
    (hw : ∀ wfuel : Nat, W ≤ wfuel → CandidatesWithin rule wfuel) (hs : rule.StopsAgain B)
    (hp : rule.PastFrom B K) (t : Time) :
    ∀ (m b : Nat) (ri : RecurrenceIterator), ri.rule = rule → ri.UseUserBefore = true →
      ri.UserBefore = B → 0 ≤ ri.iterCounter → (K - ri.iterCounter).toNat ≤ m →
      ri.iterBuffer.length ≤ b → Finishes ri t := by
  intro m
  induction m using Nat.strong_induction_on with
  | _ m ihm =>
    intro b
    induction b with
    | zero =>
      intro ri hr hu hb h0 hm hl
      apply run_step hw hs hp t ri hr hu hb h0
      · intro ri' hr' hu' hb' hi hlt
        exact ihm (K - ri'.iterCounter).toNat (by omega) ri'.iterBuffer.length ri' hr' hu' hb'
          (by omega) (le_refl _) (le_refl _)
      · intro ri' _ _ _ _ hlen
        omega
    | succ b ihb =>
      intro ri hr hu hb h0 hm hl
      apply run_step hw hs hp t ri hr hu hb h0
      · intro ri' hr' hu' hb' hi hlt
        exact ihm (K - ri'.iterCounter).toNat (by omega) ri'.iterBuffer.length ri' hr' hu' hb'
          (by omega) (le_refl _) (le_refl _)
      · intro ri' hr' hu' hb' hi hlen
        exact ihb ri' hr' hu' hb' (by omega) (by omega) (by omega)

/-- Along ordered periods the bounds do not decrease. -/
theorem periodsOrdered_mono {rule : RecurringRule} {L : Int → Int} (h : PeriodsOrdered rule L)
    {K : Int} (hK : 0 ≤ K) : ∀ n : Nat, L K ≤ L (K + (n : Int)) := by
  intro n
  induction n with
  | zero => simp
  | succ n ih =>
    have := (h (K + (n : Int)) (by omega)).1
    have e : K + ((n + 1 : Nat) : Int) = K + (n : Int) + 1 := by
      push_cast
      ring
    rw [e]
    omega

/-- Where the periods follow one another in time, from the first period that starts
after `B` on no survivor is before `B`. -/
theorem pastFrom_of_ordered {rule : RecurringRule} {L : Int → Int} (h : PeriodsOrdered rule L)
    {K : Int} (hK : 0 ≤ K) {B : Time} (hB : B.sec < L K) : rule.PastFrom B K := by
  intro k hk wfuel c hg d hd
  have hmem : d ∈ c := (finalSet_sublist rule _ c 0).subset hd
  obtain ⟨_, hl, _⟩ := (h k (by omega)).2 wfuel c hg |>.2 d hmem
  have hmono := periodsOrdered_mono h hK (k - K).toNat
  have e : K + (((k - K).toNat : Nat) : Int) = k := by
    rw [Int.toNat_of_nonneg (by omega)]
    ring
  rw [e] at hmono
  unfold Time.Before
  have n1 : ¬ d.sec < B.sec := by omega
  have n2 : ¬ d.sec = B.sec := by omega
  simp [n1, n2]

/-- The survivors of a period of a `DAILY` rule without BY-parts, anchored at a whole
second in a zone without transitions: the anchor moved by the days of the period. -/
theorem survivors_daily (rule : RecurringRule) (hf : rule.Frequency = .DAILY)
    (hn : 1 ≤ rule.Interval) (hby : rule.NoByParts) (hns : rule.DtStart.nsec = 0)
    (hfix : rule.DtStart.loc.Fixed) (k : Int) (hk : 0 ≤ k) (wfuel : Nat) (c : List Time)
    (hg : generateCandidates rule wfuel (periodRoot rule k) = some c) :
    finalSet rule c.length 0 c = [occurrence rule k] := by
  obtain ⟨b1, b2, b3, b4, b5, b6, b7, b8, b9⟩ := hby
  have hte : rule.NoTimeExpansion := ⟨fun _ => b3, fun _ => b2, fun _ => b1⟩
  have hfit : rule.Fits k := by
    unfold RecurringRule.Fits
    rw [hf]
    simp [FrequencyValue.nanoseconds]
  rw [periodRoot_plain rule (Or.inl hf) hn hns hfix k hk hfit] at hg
  have h1 : generateCandidates rule wfuel (occurrence rule k)
      = some (generateTimesForCandidates rule (occurrence rule k)) := by
    unfold generateCandidates
    rw [hf]
  have hfix' : (occurrence rule k).loc.Fixed := hfix
  have hgen : generateCandidates rule wfuel (occurrence rule k) = some [occurrence rule k] := by
    rw [h1, generateTimes_single rule hte (Or.inl hf) (occurrence rule k) hfix']
    rfl
  rw [hgen, Option.some.injEq] at hg
  subst hg
  obtain ⟨c1, _, _⟩ := occurrence_clock rule hfix k
  have hmatch : ∀ cc : Int, candidateMatches rule cc 0 (occurrence rule k) = [true] := by
    intro cc
    unfold candidateMatches
    simp [b1, b2, b3, b4, b5, b6, b7, b8, hf, c1 hf]
  simp [finalSet, hmatch, firstFinalMatch]

/-- A `DAILY` rule without BY-parts has in every period one survivor, which from the
period `K` on is not before a bound `B` that lies before day `K * Interval` after the
anchor. -/
theorem daily_stops (rule : RecurringRule) (hf : rule.Frequency = .DAILY)
    (hn : 1 ≤ rule.Interval) (hby : rule.NoByParts) (hns : rule.DtStart.nsec = 0)
    (hfix : rule.DtStart.loc.Fixed) (B : Time) (K : Int) (hK : 0 ≤ K)
    (hB : B.sec < rule.DtStart.sec + 86400 * (rule.Interval * K)) :
    rule.StopsAgain B ∧ rule.PastFrom B K := by
  have key : ∀ k : Int, K ≤ k → ∀ (wfuel : Nat) (c : List Time),
      generateCandidates rule wfuel (periodRoot rule k) = some c →
      finalSet rule c.length 0 c = [occurrence rule k]
        ∧ (occurrence rule k).Before B = false := by
    intro k hk wfuel c hg
    refine ⟨survivors_daily rule hf hn hby hns hfix k (by omega) wfuel c hg, ?_⟩
    have hmul : rule.Interval * K ≤ rule.Interval * k :=
      mul_le_mul_of_nonneg_left hk (by omega)
    unfold Time.Before occurrence
    rw [hf]
    simp only [FrequencyValue.seconds]
    have n1 : ¬ rule.DtStart.sec + 86400 * (rule.Interval * k) < B.sec := by omega
    have n2 : ¬ rule.DtStart.sec + 86400 * (rule.Interval * k) = B.sec := by omega
    simp [n1, n2]
  constructor
  · intro k hk
    refine ⟨(K - k).toNat, ?_⟩
    intro wfuel c hg
    obtain ⟨e1, e2⟩ := key (k + (((K - k).toNat : Nat) : Int)) (by omega) wfuel c hg
    exact ⟨_, by rw [e1]; exact List.mem_singleton.mpr rfl, e2⟩
  · intro k hk wfuel c hg d hd
    obtain ⟨e1, e2⟩ := key k hk wfuel c hg
    rw [e1, List.mem_singleton] at hd
    rw [hd]
    exact e2

/-- C39 (amended). On an iterator with the window `Before(B)` (any state of it, the next
period being `iterCounter ≥ 0`) over a rule whose candidates are generated (always so
when the frequency is not `WEEKLY`) and of which every period is followed, after
finitely many periods, by one with a survivor of the BY-filters that is not before `B`:
every call of `Step` returns. If moreover from some period `K` on no survivor is before
`B`, then after finitely many calls `Step` returns false. The second condition holds
where the periods follow one another in time (`PeriodsOrdered`) from the first period
that starts after `B`. -/
theorem before_bounds_rules_with_survivors (rule : RecurringRule) (B : Time) (W : Nat)
    (hw : ∀ wfuel : Nat, W ≤ wfuel → CandidatesWithin rule wfuel)
    (hs : rule.StopsAgain B) :
    (∀ ri : RecurrenceIterator, ri.rule = rule → ri.UseUserBefore = true →
        ri.UserBefore = B → 0 ≤ ri.iterCounter →
        ∃ F : Nat, ∀ fuel : Nat, F ≤ fuel → ∀ t : Time, (Step fuel ri t).isSome = true)
      ∧ (∀ K : Int, rule.PastFrom B K →
          ∀ ri : RecurrenceIterator, ri.rule = rule → ri.UseUserBefore = true →
            ri.UserBefore = B → 0 ≤ ri.iterCounter → ∀ t : Time, Finishes ri t)
      ∧ (∀ (L : Int → Int) (K : Int), PeriodsOrdered rule L → 0 ≤ K → B.sec < L K →
          rule.PastFrom B K)
      ∧ (rule.Frequency ≠ .WEEKLY → ∀ wfuel : Nat, CandidatesWithin rule wfuel) := by
  refine ⟨?_, ?_, fun L K h hK hB => pastFrom_of_ordered h hK hB,
    fun h wfuel => generateCandidates_isSome_of_ne_weekly h wfuel⟩
  · intro ri hr hu hb h0
    obtain ⟨n, hn⟩ := hs ri.iterCounter h0
    refine ⟨max W (n + 1), fun fuel hfuel t => ?_⟩
    exact Step_returns (hw fuel (le_trans (le_max_left _ _) hfuel)) ri hr hu hb hn
      (le_trans (le_max_right _ _) hfuel) t
  · intro K hp ri hr hu hb h0 t
    exact run_ends hw hs hp t (K - ri.iterCounter).toNat ri.iterBuffer.length ri hr hu hb h0
      (le_refl _) (le_refl _)

/-- C39 (amended), at `FREQ=DAILY` from 1997-09-02 09:00 UTC with `Before` two days
later: every period has its day as survivor, from period 3 on after the bound; a
first call returns under any fuel from some fuel on, and some sequence of calls ends
with false. Evaluated: the run delivers September 2 and 3 and then returns false. -/
theorem before_bounds_rules_with_survivors_witness :
    (∃ F : Nat, ∀ fuel : Nat, F ≤ fuel → ∀ t : Time,
        (Step fuel ((plainRule (Date 1997 9 2 9 0 0 0 .utc) .DAILY).Iterator.Before
          (Date 1997 9 4 9 0 0 0 .utc)) t).isSome = true)
      ∧ Finishes ((plainRule (Date 1997 9 2 9 0 0 0 .utc) .DAILY).Iterator.Before
          (Date 1997 9 4 9 0 0 0 .utc)) EmptyTime
      ∧ (StepSeq [(2, EmptyTime), (2, EmptyTime), (2, EmptyTime)]
            ((plainRule (Date 1997 9 2 9 0 0 0 .utc) .DAILY).Iterator.Before
              (Date 1997 9 4 9 0 0 0 .utc))).map (List.map StepResult.returned)
          = some [(true, Date 1997 9 2 9 0 0 0 .utc), (true, Date 1997 9 3 9 0 0 0 .utc),
              (false, EmptyTime)] :=
  ⟨(before_bounds_rules_with_survivors (plainRule (Date 1997 9 2 9 0 0 0 .utc) .DAILY)
      (Date 1997 9 4 9 0 0 0 .utc) 0
      (fun wfuel _ => generateCandidates_isSome_of_ne_weekly (by decide) wfuel)
      (daily_stops (plainRule (Date 1997 9 2 9 0 0 0 .utc) .DAILY) rfl (by decide)
        ⟨rfl, rfl, rfl, rfl, rfl, rfl, rfl, rfl, rfl⟩ rfl trivial
        (Date 1997 9 4 9 0 0 0 .utc) 3 (by decide) (by decide!)).1).1 _ rfl rfl rfl (le_refl _),
    (before_bounds_rules_with_survivors (plainRule (Date 1997 9 2 9 0 0 0 .utc) .DAILY)
      (Date 1997 9 4 9 0 0 0 .utc) 0
      (fun wfuel _ => generateCandidates_isSome_of_ne_weekly (by decide) wfuel)
      (daily_stops (plainRule (Date 1997 9 2 9 0 0 0 .utc) .DAILY) rfl (by decide)
        ⟨rfl, rfl, rfl, rfl, rfl, rfl, rfl, rfl, rfl⟩ rfl trivial
        (Date 1997 9 4 9 0 0 0 .utc) 3 (by decide) (by decide!)).1).2.1 3
      (daily_stops (plainRule (Date 1997 9 2 9 0 0 0 .utc) .DAILY) rfl (by decide)
        ⟨rfl, rfl, rfl, rfl, rfl, rfl, rfl, rfl, rfl⟩ rfl trivial
        (Date 1997 9 4 9 0 0 0 .utc) 3 (by decide) (by decide!)).2 _ rfl rfl rfl (le_refl _)
      EmptyTime,
    by decide!⟩

end RRule
namespace RRule

/-! ## `String` followed by `Parse` -/

theorem mem_stringsJoin (sep : List Char) (c : Char) :
    ∀ l : List (List Char), c ∈ stringsJoin l sep → c ∈ sep ∨ ∃ a ∈ l, c ∈ a := by
  intro l
  induction l with
  | nil => intro h; simp [stringsJoin] at h
  | cons a rest ih =>
    intro h
    cases rest with
    | nil =>
      simp only [stringsJoin] at h
      exact Or.inr ⟨a, List.mem_cons_self _ _, h⟩
    | cons b rest' =>
      simp only [stringsJoin, List.mem_append] at h
      rcases h with (h | h) | h
      · exact Or.inr ⟨a, List.mem_cons_self _ _, h⟩
      · exact Or.inl h
      · rcases ih h with h' | ⟨x, hx, hc⟩
        · exact Or.inl h'
        · exact Or.inr ⟨x, List.mem_cons_of_mem _ hx, hc⟩

/-- Splitting a text that `strings.Join` made of pieces without the separator gives the
pieces back. -/
theorem stringsSplit_join (sep : Char) :
    ∀ l : List (List Char), l ≠ [] → (∀ p ∈ l, sep ∉ p) →
      stringsSplit (stringsJoin l [sep]) sep = l := by
  intro l
  induction l with
  | nil => intro h; exact absurd rfl h
  | cons a rest ih =>
    intro _ hp
    cases rest with
    | nil =>
      simp only [stringsJoin]
      exact stringsSplit_of_not_mem sep a (hp a (List.mem_cons_self _ _))
    | cons b rest' =>
      have e : stringsJoin (a :: b :: rest') [sep] = a ++ sep :: stringsJoin (b :: rest') [sep] := by
        simp [stringsJoin]
      rw [e, stringsSplit_append sep _ a (hp a (List.mem_cons_self _ _)),
        ih (by simp) fun p hm => hp p (List.mem_cons_of_mem _ hm)]

/-- The verb `%d` writes digits and the sign. -/
theorem mem_formatInt (v : Int) (c : Char) (h : c ∈ formatInt v) :
    isDigitByte c = true ∨ c = '-' := by
  obtain ⟨a1, _⟩ := natDigits_spec v.natAbs
  unfold formatInt at h
  split at h
  · rcases List.mem_cons.mp h with h | h
    · exact Or.inr h
    · exact Or.inl (a1 c h)
  · exact Or.inl (a1 c h)

theorem mem_listOfIntsToCSV (l : List Int) (c : Char) (h : c ∈ listOfIntsToCSV l) :
    isDigitByte c = true ∨ c = '-' ∨ c = ',' := by
  unfold listOfIntsToCSV at h
  rcases mem_stringsJoin _ c _ h with h | ⟨a, ha, hc⟩
  · exact Or.inr (Or.inr (List.mem_singleton.mp h))
  · obtain ⟨v, _, rfl⟩ := List.mem_map.mp ha
    rcases mem_formatInt v c hc with h | h
    · exact Or.inl h
    · exact Or.inr (Or.inl h)

theorem mem_weekdayShort (w : Int) (c : Char) (h : c ∈ weekdayShort w) :
    c ∈ ['S', 'U', 'M', 'O', 'T', 'W', 'E', 'H', 'F', 'R', 'A'] := by
  unfold weekdayShort at h
  split_ifs at h <;> simp only [List.mem_cons, List.mem_singleton, List.not_mem_nil,
    or_false] at h ⊢ <;> rcases h with h | h <;> simp [h]

/-- Neither `;` nor a line break is written in a value of the `RRULE` line. -/
theorem separator_not_written (c : Char) (hc : c = ';' ∨ c = '\n') :
    (∀ v : Int, c ∉ formatInt v) ∧ (∀ l : List Int, c ∉ listOfIntsToCSV l)
      ∧ (∀ w : Int, c ∉ weekdayShort w)
      ∧ (∀ l : List ForDay, c ∉ stringsJoin (l.map forDayText) [','])
      ∧ (∀ f : FrequencyValue, c ∉ frequencyName f) := by
  have hd : isDigitByte c = false := by rcases hc with rfl | rfl <;> decide
  have h1 : c ≠ '-' := by rcases hc with rfl | rfl <;> decide
  have h2 : c ≠ ',' := by rcases hc with rfl | rfl <;> decide
  have h3 : c ∉ ['S', 'U', 'M', 'O', 'T', 'W', 'E', 'H', 'F', 'R', 'A'] := by
    rcases hc with rfl | rfl <;> decide
  have hf : ∀ v : Int, c ∉ formatInt v := by
    intro v hm
    rcases mem_formatInt v c hm with h | h
    · rw [hd] at h; cases h
    · exact h1 h
  have hw : ∀ w : Int, c ∉ weekdayShort w := fun w hm => h3 (mem_weekdayShort w c hm)
  refine ⟨hf, ?_, hw, ?_, ?_⟩
  · intro l hm
    rcases mem_listOfIntsToCSV l c hm with h | h | h
    · rw [hd] at h; cases h
    · exact h1 h
    · exact h2 h
  · intro l hm
    rcases mem_stringsJoin _ c _ hm with h | ⟨a, ha, hca⟩
    · exact h2 (List.mem_singleton.mp h)
    · obtain ⟨fd, _, rfl⟩ := List.mem_map.mp ha
      unfold forDayText at hca
      rcases List.mem_append.mp hca with h | h
      · split at h
        · simp at h
        · exact hf _ h
      · exact hw _ h
  · intro f hm
    cases f <;> rcases hc with rfl | rfl <;> revert hm <;> decide

theorem cleanPart_of (U key v : List Char) (hk1 : ';' ∉ key) (hk2 : '\n' ∉ key)
    (hk3 : '=' ∉ key) (hv1 : ';' ∉ v) (hv2 : '\n' ∉ v) (hu : key = "UNTIL".toList → v = U) :
    CleanPart U (key ++ '=' :: v) := by
  refine ⟨?_, ?_, key, v, rfl, hk3, hu⟩
  · simp only [List.mem_append, List.mem_cons, not_or]
    exact ⟨hk1, by decide, hv1⟩
  · simp only [List.mem_append, List.mem_cons, not_or]
    exact ⟨hk2, by decide, hv2⟩

theorem mem_present (l : List (Bool × List Char)) (p : List Char) (h : p ∈ present l) :
    ∃ b, (b, p) ∈ l := by
  unfold present at h
  obtain ⟨⟨b, q⟩, hq, rfl⟩ := List.mem_map.mp h
  exact ⟨b, (List.mem_filter.mp hq).1⟩

/-- Every part that `String` writes into the `RRULE` line is a clean part `key=value`,
the one with the key `UNTIL` holding the text of `Until`. -/
theorem rruleParts_clean (rr : RecurringRule) (hy0 : 0 ≤ rr.Until.Year)
    (hy1 : rr.Until.Year ≤ 9999) :
    ∀ p ∈ present (rruleParts rr), CleanPart (DateTimeToString rr.Until) p := by
  obtain ⟨a1, a2, a3, a4, a5⟩ := separator_not_written ';' (Or.inl rfl)
  obtain ⟨b1, b2, b3, b4, b5⟩ := separator_not_written '\n' (Or.inr rfl)
  have u1 := not_mem_DateTimeToString rr.Until hy0 hy1 ';' (Or.inr (Or.inl rfl))
  have u2 := not_mem_DateTimeToString rr.Until hy0 hy1 '\n' (Or.inl rfl)
  intro p hp
  obtain ⟨b, hb⟩ := mem_present _ p hp
  unfold rruleParts at hb
  simp only [List.mem_cons, Prod.mk.injEq, List.mem_singleton, List.not_mem_nil, or_false] at hb
  rcases hb with h | h | h | h | h | h | h | h | h | h | h | h | h | h <;> obtain ⟨_, rfl⟩ := h
  · exact cleanPart_of _ "FREQ".toList _ (by decide) (by decide) (by decide) (a5 _) (b5 _)
      (fun h => absurd h (by decide))
  · exact cleanPart_of _ "INTERVAL".toList _ (by decide) (by decide) (by decide) (a1 _) (b1 _)
      (fun h => absurd h (by decide))
  · exact cleanPart_of _ "UNTIL".toList _ (by decide) (by decide) (by decide) u1 u2
      (fun _ => rfl)
  · exact cleanPart_of _ "BYSECOND".toList _ (by decide) (by decide) (by decide) (a2 _) (b2 _)
      (fun h => absurd h (by decide))
  · exact cleanPart_of _ "BYMINUTE".toList _ (by decide) (by decide) (by decide) (a2 _) (b2 _)
      (fun h => absurd h (by decide))
  · exact cleanPart_of _ "BYHOUR".toList _ (by decide) (by decide) (by decide) (a2 _) (b2 _)
      (fun h => absurd h (by decide))
  · exact cleanPart_of _ "BYMONTH".toList _ (by decide) (by decide) (by decide) (a2 _) (b2 _)
      (fun h => absurd h (by decide))
  · exact cleanPart_of _ "BYWEEKNO".toList _ (by decide) (by decide) (by decide) (a2 _) (b2 _)
      (fun h => absurd h (by decide))
  · exact cleanPart_of _ "COUNT".toList _ (by decide) (by decide) (by decide) (a1 _) (b1 _)
      (fun h => absurd h (by decide))
  · exact cleanPart_of _ "WKST".toList _ (by decide) (by decide) (by decide) (a3 _) (b3 _)
      (fun h => absurd h (by decide))
  · exact cleanPart_of _ "BYDAY".toList _ (by decide) (by decide) (by decide) (a4 _) (b4 _)
      (fun h => absurd h (by decide))
  · exact cleanPart_of _ "BYMONTHDAY".toList _ (by decide) (by decide) (by decide) (a2 _)
      (b2 _) (fun h => absurd h (by decide))
  · exact cleanPart_of _ "BYYEARDAY".toList _ (by decide) (by decide) (by decide) (a2 _)
      (b2 _) (fun h => absurd h (by decide))
  · exact cleanPart_of _ "BYSETPOS".toList _ (by decide) (by decide) (by decide) (a2 _) (b2 _)
      (fun h => absurd h (by decide))

/-- A branching on a condition keeps what both branches keep. -/
theorem ite_keeps {c : Prop} [Decidable c] {a b : Except Failure RecurringRule}
    {P : RecurringRule → Prop} (ha : ∀ r, a = .ok r → P r) (hb : ∀ r, b = .ok r → P r) :
    ∀ r, (if c then a else b) = .ok r → P r := by
  intro r h
  split at h
  · exact ha r h
  · exact hb r h

/-- No case of `handle_part_freq` touches `DtStart` or `Until`. -/
theorem handle_part_freq_keeps (rr : RecurringRule) (value : List Char) :
    ∀ r, rr.handle_part_freq value = .ok r → r.DtStart = rr.DtStart ∧ r.Until = rr.Until := by
  unfold RecurringRule.handle_part_freq
  refine ite_keeps (fun r h => by cases h; exact ⟨rfl, rfl⟩) ?_
  refine ite_keeps (fun r h => by cases h; exact ⟨rfl, rfl⟩) ?_
  refine ite_keeps (fun r h => by cases h; exact ⟨rfl, rfl⟩) ?_
  refine ite_keeps (fun r h => by cases h; exact ⟨rfl, rfl⟩) ?_
  refine ite_keeps (fun r h => by cases h; exact ⟨rfl, rfl⟩) ?_
  refine ite_keeps (fun r h => by cases h; exact ⟨rfl, rfl⟩) ?_
  refine ite_keeps (fun r h => by cases h; exact ⟨rfl, rfl⟩) ?_
  intro r h
  cases h

/-- No case of `handle_recur_rule_part` touches `DtStart`, and only the case `UNTIL`
touches `Until`. -/
theorem handle_recur_rule_part_keeps (rr : RecurringRule) (key value : List Char) :
    ∀ r, rr.handle_recur_rule_part key value = .ok r →
      r.DtStart = rr.DtStart ∧ (key ≠ "UNTIL".toList → r.Until = rr.Until) := by
  unfold RecurringRule.handle_recur_rule_part
  refine ite_keeps (fun r h => ?_) ?_
  · obtain ⟨e1, e2⟩ := handle_part_freq_keeps _ _ _ h
    exact ⟨e1, fun _ => e2⟩
  by_cases k2 : key = "UNTIL".toList
  · intro r h
    refine ⟨?_, fun hne => absurd k2 hne⟩
    rw [if_pos k2] at h
    cases hp : ParseDateTime value rr.DtStart.loc with
    | error e => rw [hp] at h; cases h
    | ok dt => rw [hp] at h; cases h; rfl
  intro r h
  rw [if_neg k2] at h
  suffices hs : r.DtStart = rr.DtStart ∧ r.Until = rr.Until from ⟨hs.1, fun _ => hs.2⟩
  revert r
  refine ite_keeps (fun r h => ?_) ?_
  · cases hp : strconvParseInt value 64 with
    | error e => rw [hp] at h; cases h
    | ok iv => rw [hp] at h; cases h; exact ⟨rfl, rfl⟩
  refine ite_keeps (fun r h => ?_) ?_
  · cases hp : strconvParseInt value 64 with
    | error e => rw [hp] at h; cases h
    | ok iv => rw [hp] at h; cases h; exact ⟨rfl, rfl⟩
  refine ite_keeps (fun r h => ?_) ?_
  · cases hp : parseInt16List (stringsSplit value ',') with
    | error e => rw [hp] at h; cases h
    | ok results =>
      rw [hp] at h
      simp only at h
      revert r
      refine ite_keeps (fun r h => by cases h; exact ⟨rfl, rfl⟩) ?_
      refine ite_keeps (fun r h => by cases h; exact ⟨rfl, rfl⟩) ?_
      refine ite_keeps (fun r h => by cases h; exact ⟨rfl, rfl⟩) ?_
      refine ite_keeps (fun r h => by cases h; exact ⟨rfl, rfl⟩) ?_
      refine ite_keeps (fun r h => by cases h; exact ⟨rfl, rfl⟩) ?_
      refine ite_keeps (fun r h => by cases h; exact ⟨rfl, rfl⟩) ?_
      refine ite_keeps (fun r h => by cases h; exact ⟨rfl, rfl⟩) ?_
      intro r h
      cases h
      exact ⟨rfl, rfl⟩
  refine ite_keeps (fun r h => ?_) ?_
  · cases hp : weekdayFromShort value with
    | error e => rw [hp] at h; cases h
    | ok d => rw [hp] at h; cases h; exact ⟨rfl, rfl⟩
  refine ite_keeps (fun r h => ?_) ?_
  · cases hp : parseForDays (stringsSplit value ',') with
    | error e => rw [hp] at h; cases h
    | ok results => rw [hp] at h; cases h; exact ⟨rfl, rfl⟩
  intro r h
  cases h
  exact ⟨rfl, rfl⟩

theorem handle_parts_cons (rr : RecurringRule) (key value : List Char) (hk : '=' ∉ key)
    (rest : List (List Char)) :
    rr.handle_parts ((key ++ '=' :: value) :: rest)
      = match rr.handle_recur_rule_part key value with
        | .error e => .error e
        | .ok rr' => rr'.handle_parts rest := by
  simp only [RecurringRule.handle_parts, stringsSplitN2_append '=' value key hk]

/-- Reading the parts of an `RRULE` line that `String` wrote: `DtStart` stays, and
`Until` ends as the time `t` whose text the part `UNTIL` holds, once it is `t` or when
that part is among the parts. -/
theorem handle_parts_until (t : Time) (hns : t.nsec = 0) (hy0 : 0 ≤ t.Year)
    (hy1 : t.Year ≤ 9999) (hfix : t.loc.Fixed) :
    ∀ (parts : List (List Char)) (rr R : RecurringRule),
      (∀ p ∈ parts, CleanPart (DateTimeToString t) p) → rr.handle_parts parts = .ok R →
      R.DtStart = rr.DtStart
        ∧ (t.loc = .utc ∨ rr.DtStart.loc = t.loc →
            rr.Until = t ∨ ("UNTIL".toList ++ '=' :: DateTimeToString t) ∈ parts →
            R.Until = t) := by
  intro parts
  induction parts with
  | nil =>
    intro rr R _ h
    simp only [RecurringRule.handle_parts, Except.ok.injEq] at h
    subst h
    refine ⟨rfl, fun _ hu => ?_⟩
    rcases hu with hu | hu
    · exact hu
    · simp at hu
  | cons p rest ih =>
    intro rr R hc h
    obtain ⟨_, _, key, value, rfl, hk, hU⟩ := hc _ (List.mem_cons_self _ _)
    rw [handle_parts_cons rr key value hk] at h
    cases hstep : rr.handle_recur_rule_part key value with
    | error e => rw [hstep] at h; cases h
    | ok rr' =>
      rw [hstep] at h
      simp only at h
      obtain ⟨k1, k2⟩ := handle_recur_rule_part_keeps _ _ _ _ hstep
      obtain ⟨i1, i2⟩ := ih rr' R (fun q hq => hc q (List.mem_cons_of_mem _ hq)) h
      refine ⟨i1.trans k1, fun hloc hu => ?_⟩
      have hloc' : t.loc = .utc ∨ rr'.DtStart.loc = t.loc := by rw [k1]; exact hloc
      by_cases hkey : key = "UNTIL".toList
      · have hv := hU hkey
        subst hkey hv
        rw [handle_until_part rr t hns hy0 hy1 hfix hloc, Except.ok.injEq] at hstep
        exact i2 hloc' (Or.inl (by rw [← hstep]))
      · rcases hu with hu | hu
        · exact i2 hloc' (Or.inl (by rw [k2 hkey]; exact hu))
        · rcases List.mem_cons.mp hu with hu | hu
          · exfalso
            have e1 := stringsSplitN2_append '=' (DateTimeToString t) "UNTIL".toList (by decide)
            have e2 := stringsSplitN2_append '=' value key hk
            rw [hu, e2] at e1
            simp only [List.cons.injEq, and_true] at e1
            exact hkey e1.1
          · exact i2 hloc' (Or.inr hu)

/-- The text of a rule ends with the `RRULE` line; what stands before it is empty or
ends with a line break. -/
theorem specString_split (rr : RecurringRule) :
    ∃ pre, specString rr
        = pre ++ ("RRULE:".toList ++ stringsJoin (present (rruleParts rr)) [';'])
      ∧ (pre = [] ∨ ∃ q, pre = q ++ ['\n']) := by
  have key : ∀ (b1 b2 : Bool) (l1 l2 r : List Char),
      ∃ pre, stringsJoin (present [(b1, l1), (b2, l2), (true, r)]) ['\n'] = pre ++ r
        ∧ (pre = [] ∨ ∃ q, pre = q ++ ['\n']) := by
    intro b1 b2 l1 l2 r
    cases b1 <;> cases b2
    · exact ⟨[], by simp [present, stringsJoin], Or.inl rfl⟩
    · exact ⟨l2 ++ ['\n'], by simp [present, stringsJoin], Or.inr ⟨l2, rfl⟩⟩
    · exact ⟨l1 ++ ['\n'], by simp [present, stringsJoin], Or.inr ⟨l1, rfl⟩⟩
    · exact ⟨(l1 ++ '\n' :: l2) ++ ['\n'], by simp [present, stringsJoin], Or.inr ⟨_, rfl⟩⟩
  unfold specString textLines
  exact key _ _ _ _ _

/-- The loop of `Parse` over a text followed by a last line: the last line is left as
the chunk. -/
theorem parseLoop_append (db : TzDatabase) (s : List Char) (hs : '\n' ∉ s) :
    ∀ (p chunk : List Char) (rr : RecurringRule),
      parseLoop db (p ++ s) chunk rr
        = match parseLoop db p chunk rr with
          | .error e => .error e
          | .ok (rr', c) => .ok (rr', c ++ s) := by
  intro p
  induction p with
  | nil =>
    intro chunk rr
    rw [List.nil_append, parseLoop_one_line db rr s chunk hs]
    simp [parseLoop]
  | cons c rest ih =>
    intro chunk rr
    simp only [List.cons_append, parseLoop]
    split
    · cases hh : rr.handle_rule_chunk db chunk.reverse with
      | error e => rfl
      | ok rr1 =>
        simp only
        exact ih [] rr1
    · exact ih (c :: chunk) rr

/-- After a line break the loop of `Parse` holds no chunk. -/
theorem parseLoop_line_end (db : TzDatabase) :
    ∀ (q chunk : List Char) (rr rr' : RecurringRule) (c : List Char),
      parseLoop db (q ++ ['\n']) chunk rr = .ok (rr', c) → c = [] := by
  intro q
  induction q with
  | nil =>
    intro chunk rr rr' c h
    simp only [List.nil_append, parseLoop, beq_self_eq_true, if_true] at h
    cases hh : rr.handle_rule_chunk db chunk.reverse with
    | error e => rw [hh] at h; cases h
    | ok rr1 =>
      rw [hh] at h
      simp only [Except.ok.injEq, Prod.mk.injEq] at h
      rw [← h.2]
      rfl
  | cons x rest ih =>
    intro chunk rr rr' c h
    simp only [List.cons_append, parseLoop] at h
    split at h
    · cases hh : rr.handle_rule_chunk db chunk.reverse with
      | error e => rw [hh] at h; cases h
      | ok rr1 =>
        rw [hh] at h
        exact ih [] rr1 rr' c h
    · exact ih (x :: chunk) rr rr' c h

theorem until_part_written (rr : RecurringRule) (hne : rr.Until.Equal EmptyTime = false) :
    ("UNTIL".toList ++ '=' :: DateTimeToString rr.Until) ∈ present (rruleParts rr) := by
  unfold present
  refine List.mem_map.mpr
    ⟨(!(rr.Until.Equal EmptyTime), "UNTIL=".toList ++ DateTimeToString rr.Until),
      List.mem_filter.mpr ⟨?_, by rw [hne]; rfl⟩, rfl⟩
  unfold rruleParts
  exact List.mem_cons_of_mem _ (List.mem_cons_of_mem _ (List.mem_cons_self _ _))

/-- Reading the `RRULE` line that `String` wrote, from any rule `r0`. -/
theorem handle_recur_line (db : TzDatabase) (rr r0 R : RecurringRule) (hns : rr.Until.nsec = 0)
    (hy0 : 0 ≤ rr.Until.Year) (hy1 : rr.Until.Year ≤ 9999) (hfix : rr.Until.loc.Fixed)
    (hne : rr.Until.Equal EmptyTime = false)
    (h : r0.handle_rule_chunk db
      ("RRULE:".toList ++ stringsJoin (present (rruleParts rr)) [';']) = .ok R) :
    R.DtStart = r0.DtStart
      ∧ (rr.Until.loc = .utc ∨ R.DtStart.loc = rr.Until.loc → R.Until = rr.Until) := by
  have hclean := rruleParts_clean rr hy0 hy1
  have hmem := until_part_written rr hne
  have hnil : present (rruleParts rr) ≠ [] := List.ne_nil_of_mem hmem
  have hp : stringsHasPrefix ("RRULE:".toList ++ stringsJoin (present (rruleParts rr)) [';'])
      "RRULE:".toList = true := by
    unfold stringsHasPrefix
    exact List.isPrefixOf_iff_prefix.mpr (List.prefix_append _ _)
  unfold RecurringRule.handle_rule_chunk at h
  rw [if_pos hp] at h
  have hdrop : List.drop 6 ("RRULE:".toList ++ stringsJoin (present (rruleParts rr)) [';'])
      = stringsJoin (present (rruleParts rr)) [';'] := rfl
  rw [hdrop, stringsSplit_join ';' _ hnil fun p hp => (hclean p hp).1] at h
  obtain ⟨i1, i2⟩ := handle_parts_until rr.Until hns hy0 hy1 hfix _ r0 R hclean h
  refine ⟨i1, fun hloc => i2 (by rw [← i1]; exact hloc) (Or.inr hmem)⟩

/-- What `Parse` returns for the text of a rule, when it returns a rule, has the `Until`
of the rule, an `Until` without `Z` being read in the zone that `Parse` has given to
`DtStart`. -/
theorem Parse_keeps_until (db : TzDatabase) (rr R : RecurringRule) (hns : rr.Until.nsec = 0)
    (hy0 : 0 ≤ rr.Until.Year) (hy1 : rr.Until.Year ≤ 9999) (hfix : rr.Until.loc.Fixed)
    (hne : rr.Until.Equal EmptyTime = false) (h : Parse db (specString rr) = .ok R)
    (hloc : rr.Until.loc = .utc ∨ R.DtStart.loc = rr.Until.loc) : R.Until = rr.Until := by
  obtain ⟨pre, hsplit, hpre⟩ := specString_split rr
  have hclean := rruleParts_clean rr hy0 hy1
  have hline : '\n' ∉ "RRULE:".toList ++ stringsJoin (present (rruleParts rr)) [';'] := by
    intro hm
    rcases List.mem_append.mp hm with hm | hm
    · revert hm
      decide
    · rcases mem_stringsJoin _ _ _ hm with hm | ⟨p, hp, hc⟩
      · revert hm
        decide
      · exact (hclean p hp).2.1 hc
  have hlen : ("RRULE:".toList ++ stringsJoin (present (rruleParts rr)) [';']).length > 0 := by
    simp
  unfold Parse at h
  simp only at h
  rw [hsplit, parseLoop_append db _ hline] at h
  cases hl : parseLoop db pre []
      { plainRule EmptyTime .YEARLY with Interval := 1, WorkWeekStart := 1 } with
  | error e => rw [hl] at h; cases h
  | ok pr =>
    obtain ⟨r0, c⟩ := pr
    have hc : c = [] := by
      rcases hpre with e | ⟨q, e⟩
      · rw [e] at hl
        simp only [parseLoop, List.reverse_nil, Except.ok.injEq, Prod.mk.injEq] at hl
        exact hl.2.symm
      · rw [e] at hl
        exact parseLoop_line_end db q [] _ r0 c hl
    subst hc
    rw [hl] at h
    simp only [List.nil_append] at h
    rw [if_pos hlen] at h
    cases hh : r0.handle_rule_chunk db
        ("RRULE:".toList ++ stringsJoin (present (rruleParts rr)) [';']) with
    | error e => rw [hh] at h; cases h
    | ok R1 =>
      rw [hh] at h
      simp only at h
      cases hi : R1.internalParser with
      | error e => rw [hi] at h; cases h
      | ok u =>
        rw [hi] at h
        simp only [Except.ok.injEq] at h
        subst h
        exact (handle_recur_line db rr r0 R1 hns hy0 hy1 hfix hne hh).2 hloc

/-- Reading back what the verb `%d` wrote of a number that fits 64 bits. -/
theorem strconvParseInt_formatInt (v : Int) (h0 : -(2 ^ 63) ≤ v) (h1 : v < 2 ^ 63) :
    strconvParseInt (formatInt v) 64 = .ok v := by
  obtain ⟨a1, a2, a3, _⟩ := natDigits_spec v.natAbs
  by_cases hv : v < 0
  · have hn : ((v.natAbs : Nat) : Int) = -v := by omega
    unfold formatInt
    rw [if_pos hv]
    unfold strconvParseInt
    simp only
    cases hd : natDigits v.natAbs with
    | nil => exact absurd hd a2
    | cons c rest =>
      rw [← hd, digitsValue_eq _ 0 a1]
      have e : decimalFrom 0 (natDigits v.natAbs) = v.natAbs := a3
      simp only [e, if_true, hn, neg_neg]
      have hlo : ¬ (v < -(2 ^ (64 - 1) : Int)) := by norm_num; omega
      have hhi : ¬ (v ≥ (2 ^ (64 - 1) : Int)) := by norm_num; omega
      simp only [hlo, hhi, decide_False, Bool.or_self, Bool.false_eq_true, if_false]
  · have hn : ((v.natAbs : Nat) : Int) = v := by omega
    unfold formatInt
    rw [if_neg hv, strconvParseInt_digits _ 64 a1 a2 (by rw [a3, hn]; norm_num; omega), a3, hn]

theorem handle_freq_name (r : RecurringRule) (f : FrequencyValue) :
    r.handle_recur_rule_part "FREQ".toList (frequencyName f) = .ok { r with Frequency := f } := by
  unfold RecurringRule.handle_recur_rule_part
  rw [if_pos rfl]
  cases f <;> rfl

theorem handle_interval_part (r : RecurringRule) (v : Int) (h0 : -(2 ^ 63) ≤ v)
    (h1 : v < 2 ^ 63) :
    r.handle_recur_rule_part "INTERVAL".toList (formatInt v) = .ok { r with Interval := v } := by
  unfold RecurringRule.handle_recur_rule_part
  rw [if_neg (by decide), if_neg (by decide), if_neg (by decide), if_pos rfl,
    strconvParseInt_formatInt v h0 h1]

theorem handle_count_part (r : RecurringRule) (v : Int) (h0 : -(2 ^ 63) ≤ v)
    (h1 : v < 2 ^ 63) :
    r.handle_recur_rule_part "COUNT".toList (formatInt v) = .ok { r with Count := v } := by
  unfold RecurringRule.handle_recur_rule_part
  rw [if_neg (by decide), if_neg (by decide), if_pos rfl, strconvParseInt_formatInt v h0 h1]

/-- The parts that `String` writes for a rule with `FREQ`, `INTERVAL`, `UNTIL` and
`COUNT` only. -/
theorem rruleParts_countsOnly (rr : RecurringRule) (hc : rr.CountsOnly)
    (hne : rr.Until.Equal EmptyTime = false) :
    present (rruleParts rr)
      = ("FREQ".toList ++ '=' :: frequencyName rr.Frequency)
        :: ((if rr.Interval ≠ 1 then ["INTERVAL".toList ++ '=' :: formatInt rr.Interval] else [])
          ++ ("UNTIL".toList ++ '=' :: DateTimeToString rr.Until)
            :: (if rr.Count > 0 then ["COUNT".toList ++ '=' :: formatInt rr.Count] else [])) := by
  obtain ⟨_, _, ⟨b1, b2, b3, b4, b5, b6, b7, b8, b9⟩, hw, _⟩ := hc
  unfold rruleParts present
  simp only [b1, b2, b3, b4, b5, b6, b7, b8, b9, hw, hne, List.isEmpty_nil, Bool.not_true,
    Bool.not_false, ne_eq, not_true_eq_false, decide_False, List.filter_cons, if_true,
    Bool.false_eq_true, if_false, List.filter_nil, List.map_cons, List.map_nil]
  by_cases hi : rr.Interval = 1 <;> by_cases hcnt : rr.Count > 0 <;> simp [hi, hcnt]

/-- For a rule with `FREQ`, `INTERVAL`, `UNTIL` and `COUNT` only, the `Until` in UTC,
`Parse` returns a rule on the text that `String` wrote. -/
theorem Parse_countsOnly (db : TzDatabase) (rr : RecurringRule) (hc : rr.CountsOnly)
    (hns : rr.Until.nsec = 0) (hy0 : 0 ≤ rr.Until.Year) (hy1 : rr.Until.Year ≤ 9999)
    (hutc : rr.Until.loc = .utc) (hne : rr.Until.Equal EmptyTime = false) :
    Parse db (specString rr) = .ok rr.reread := by
  have hfix : rr.Until.loc.Fixed := by rw [hutc]; trivial
  have hparts := rruleParts_countsOnly rr hc hne
  obtain ⟨hd, hex, _, _, i0, i1, c1⟩ := hc
  have hclean := rruleParts_clean rr hy0 hy1
  have hmem := until_part_written rr hne
  have hnil : present (rruleParts rr) ≠ [] := List.ne_nil_of_mem hmem
  have hspec : specString rr
      = "RRULE:".toList ++ stringsJoin (present (rruleParts rr)) [';'] := by
    unfold specString textLines present
    simp [hd, hex, stringsJoin]
  have hline : '\n' ∉ "RRULE:".toList ++ stringsJoin (present (rruleParts rr)) [';'] := by
    intro hm
    rcases List.mem_append.mp hm with hm | hm
    · revert hm
      decide
    · rcases mem_stringsJoin _ _ _ hm with hm | ⟨p, hp, hc⟩
      · revert hm
        decide
      · exact (hclean p hp).2.1 hc
  have hlen : ("RRULE:".toList ++ stringsJoin (present (rruleParts rr)) [';']).length > 0 := by
    simp
  have hp : stringsHasPrefix ("RRULE:".toList ++ stringsJoin (present (rruleParts rr)) [';'])
      "RRULE:".toList = true := by
    unfold stringsHasPrefix
    exact List.isPrefixOf_iff_prefix.mpr (List.prefix_append _ _)
  have hdrop : List.drop 6 ("RRULE:".toList ++ stringsJoin (present (rruleParts rr)) [';'])
      = stringsJoin (present (rruleParts rr)) [';'] := rfl
  have hchunk : RecurringRule.handle_rule_chunk db
        { plainRule EmptyTime .YEARLY with Interval := 1, WorkWeekStart := 1 }
        ("RRULE:".toList ++ stringsJoin (present (rruleParts rr)) [';'])
      = .ok rr.reread := by
    unfold RecurringRule.handle_rule_chunk
    rw [if_pos hp, hdrop, stringsSplit_join ';' _ hnil fun p hp => (hclean p hp).1, hparts,
      handle_parts_cons _ _ _ (by decide), handle_freq_name]
    simp only
    by_cases hi : rr.Interval = 1
    · by_cases hcnt : rr.Count > 0
      · simp only [hi, ne_eq, not_true_eq_false, if_false, hcnt, if_true, List.nil_append]
        rw [handle_parts_cons _ _ _ (by decide),
          handle_until_part _ rr.Until hns hy0 hy1 hfix (Or.inl hutc)]
        simp only
        rw [handle_parts_cons _ _ _ (by decide), handle_count_part _ _ (by omega) c1]
        simp only [RecurringRule.handle_parts, RecurringRule.reread, plainRule, hcnt, if_true, hi]
      · simp only [hi, ne_eq, not_true_eq_false, if_false, hcnt, List.nil_append]
        rw [handle_parts_cons _ _ _ (by decide),
          handle_until_part _ rr.Until hns hy0 hy1 hfix (Or.inl hutc)]
        simp only [RecurringRule.handle_parts, RecurringRule.reread, plainRule, hcnt, if_false,
          hi]
    · by_cases hcnt : rr.Count > 0
      · simp only [ne_eq, hi, not_false_eq_true, if_true, hcnt, List.singleton_append]
        rw [handle_parts_cons _ _ _ (by decide), handle_interval_part _ _ i0 i1]
        simp only
        rw [handle_parts_cons _ _ _ (by decide),
          handle_until_part _ rr.Until hns hy0 hy1 hfix (Or.inl hutc)]
        simp only
        rw [handle_parts_cons _ _ _ (by decide), handle_count_part _ _ (by omega) c1]
        simp only [RecurringRule.handle_parts, RecurringRule.reread, plainRule, hcnt, if_true]
      · simp only [ne_eq, hi, not_false_eq_true, if_true, hcnt, if_false,
          List.singleton_append]
        rw [handle_parts_cons _ _ _ (by decide), handle_interval_part _ _ i0 i1]
        simp only
        rw [handle_parts_cons _ _ _ (by decide),
          handle_until_part _ rr.Until hns hy0 hy1 hfix (Or.inl hutc)]
        simp only [RecurringRule.handle_parts, RecurringRule.reread, plainRule, hcnt, if_false]
  unfold Parse
  simp only
  rw [hspec, parseLoop_one_line db _ _ [] hline]
  simp only [List.reverse_nil, List.nil_append]
  rw [if_pos hlen, hchunk]
  rfl

/-- C29 (amended). For every time with zero nanoseconds and a year in 0..9999,
`DateTimeToString` writes `YYYYMMDDThhmmss`, followed by `Z` exactly when the time is in
UTC; in UTC and in a zone with one fixed offset `ParseDateTime` reads that text back, in
the location of the time, as the same time, and the part `UNTIL=` of a rule is read back
as the same time when it is in UTC or in the zone of `DtStart`. So an `Until` set on a
rule with valid weekdays survives `String` followed by `Parse` whenever `Parse` returns
a rule, an `Until` without `Z` being read in the zone that `Parse` has given to
`DtStart`; and `Parse` does return a rule for every rule with `FREQ`, `INTERVAL`,
`UNTIL` and `COUNT` only and for the rule of `Test_Parse_set_until_render`, with the
`Until` in UTC. -/
theorem DateTimeToString_ParseDateTime_inverse (t : Time) (hns : t.nsec = 0)
    (hy0 : 0 ≤ t.Year) (hy1 : t.Year ≤ 9999) :
    (∃ Y M D h mi s, DigitsOfWidth 4 Y ∧ DigitsOfWidth 2 M ∧ DigitsOfWidth 2 D
        ∧ DigitsOfWidth 2 h ∧ DigitsOfWidth 2 mi ∧ DigitsOfWidth 2 s
        ∧ DateTimeToString t = stampText Y M D h mi s (decide (t.loc = .utc)))
      ∧ (t.loc.Fixed → ParseDateTime (DateTimeToString t) t.loc = .ok t)
      ∧ (t.loc.Fixed → ∀ rr : RecurringRule, t.loc = .utc ∨ rr.DtStart.loc = t.loc →
          rr.handle_recur_rule_part "UNTIL".toList (DateTimeToString t)
            = .ok { rr with Until := t })
      ∧ (t.loc.Fixed → t.Equal EmptyTime = false →
          ∀ rr : RecurringRule, rr.Until = t → rr.WeekdaysValid →
            rr.String = .ok (specString rr)
              ∧ ∀ (db : TzDatabase) (R : RecurringRule), Parse db (specString rr) = .ok R →
                  t.loc = .utc ∨ R.DtStart.loc = t.loc → R.Until = t)
      ∧ (t.loc = .utc → t.Equal EmptyTime = false →
          ∀ rr : RecurringRule, rr.Until = t → rr.CountsOnly →
            ∀ db : TzDatabase, Parse db (specString rr) = .ok rr.reread ∧ rr.reread.Until = t)
      ∧ (t.loc = .utc → t.Equal EmptyTime = false → ∀ db : TzDatabase,
          ∃ text, RecurringRule.String { workdays with Until := t } = .ok text
            ∧ Parse db text = .ok { workdays with Until := t }) := by
  obtain ⟨e, ⟨wY, _⟩, ⟨wM, _⟩, ⟨wD, _⟩, ⟨wh, _⟩, ⟨wmi, _⟩, ⟨ws, _⟩⟩ :=
    DateTimeToString_shape t hy0 hy1
  refine ⟨⟨_, _, _, _, _, _, wY, wM, wD, wh, wmi, ws, e⟩, ?_, ?_, ?_, ?_, ?_⟩
  · intro hfix
    exact ParseDateTime_DateTimeToString t t.loc hns hy0 hy1 hfix (Or.inr rfl)
  · intro hfix rr hloc
    exact handle_until_part rr t hns hy0 hy1 hfix hloc
  · intro hfix hne rr hu hv
    subst hu
    exact ⟨String_layout rr hv, fun db R hp hloc =>
      Parse_keeps_until db rr R hns hy0 hy1 hfix hne hp hloc⟩
  · intro hutc hne rr hu hc db
    subst hu
    exact ⟨Parse_countsOnly db rr hc hns hy0 hy1 hutc hne, rfl⟩
  · intro hutc hne db
    exact ⟨_, workdays_String t hne, workdays_Parse db t hns hy0 hy1 hutc⟩

/-- C29, at the time of `Test_DateTimeToString`: 1998-01-19 07:00:00 in UTC, written
`19980119T070000Z` and read back; and at a rule anchored five hours west of Greenwich
with an `Until` in that zone, written without `Z` and read back in the zone of
`DTSTART`. -/
theorem DateTimeToString_ParseDateTime_inverse_witness :
    DateTimeToString { sec := 885193200, nsec := 0, loc := .utc } = "19980119T070000Z".toList
      ∧ ParseDateTime (DateTimeToString { sec := 885193200, nsec := 0, loc := .utc }) .utc
        = .ok { sec := 885193200, nsec := 0, loc := .utc }
      ∧ weeklyUntilFiveWest.String
        = .ok "DTSTART;TZID=EST:20170102T090000\nRRULE:FREQ=WEEKLY;UNTIL=20180101T000000".toList
      ∧ (Parse [fiveWest]
          "DTSTART;TZID=EST:20170102T090000\nRRULE:FREQ=WEEKLY;UNTIL=20180101T000000".toList).map
            (fun R => (R.DtStart, R.Until))
        = .ok (weeklyUntilFiveWest.DtStart, weeklyUntilFiveWest.Until) :=
  ⟨by decide!,
    (DateTimeToString_ParseDateTime_inverse { sec := 885193200, nsec := 0, loc := .utc } rfl
      (by decide!) (by decide!)).2.1 trivial, rfl, rfl⟩

/-- C29, the claim as it stands fails on its last clause. The parser reads `UNTIL` in
the zone of `DtStart`, so an `UNTIL` set in another zone (here midnight of 2018-01-01
five hours west, on a rule with no `DtStart`) is written without `Z` and read back in
UTC, five hours earlier. And `Parse` does not return a rule for every text that `String`
writes: an exception in UTC is written as the line `EXDATE:19970904T090000Z`, which has
none of the three prefixes that `handle_rule_chunk` knows, and reading it panics. -/
theorem until_in_another_zone_is_moved :
    ({ sec := 1514782800, nsec := 0, loc := fiveWest } : Time).Year = 2018
      ∧ fiveWest.Fixed
      ∧ RecurringRule.String
          { workdays with Until := { sec := 1514782800, nsec := 0, loc := fiveWest } }
        = .ok "RRULE:FREQ=WEEKLY;UNTIL=20180101T000000;BYDAY=MO,TU,WE,TH,FR".toList
      ∧ Parse [] "RRULE:FREQ=WEEKLY;UNTIL=20180101T000000;BYDAY=MO,TU,WE,TH,FR".toList
        = .ok { workdays with Until := { sec := 1514764800, nsec := 0, loc := .utc } }
      ∧ Time.Equal { sec := 1514764800, nsec := 0, loc := .utc }
          { sec := 1514782800, nsec := 0, loc := fiveWest } = false
      ∧ DateTimeToString { sec := 885211200, nsec := 0, loc := fiveWest }
        = "19980119T070000".toList
      ∧ dailyWithException.String
        = .ok "EXDATE:19970904T090000Z\nRRULE:FREQ=DAILY;UNTIL=19971224T000000Z".toList
      ∧ Parse [] "EXDATE:19970904T090000Z\nRRULE:FREQ=DAILY;UNTIL=19971224T000000Z".toList
        = .error .panic := by
  refine ⟨by decide!, rfl, rfl, rfl, rfl, by decide!, rfl, rfl⟩

end RRule
namespace RRule

/-! ## The weekdays of a rule that `Parse` returns -/

theorem weekdayFromShort_range {s : List Char} {d : Int} (h : weekdayFromShort s = .ok d) :
    0 ≤ d ∧ d ≤ 6 := by
  unfold weekdayFromShort at h
  repeat' split at h
  all_goals cases h
  all_goals exact ⟨by decide, by decide⟩

/-- What `parseForDay` does after the sign: the weekday comes from `weekdayFromShort`. -/
theorem parseForDay_tail (dir : Int) (item : List Char) (fd : ForDay)
    (h : (match item with
      | [] => (.error .panic : Except Failure ForDay)
      | d0 :: after0 =>
        if isDigitByte d0 then
          match after0 with
          | [] => .error .panic
          | d1 :: after1 =>
            match strconvParseInt (if isDigitByte d1 then [d0, d1] else [d0]) 64 with
            | .error e => .error e
            | .ok iv =>
              match weekdayFromShort (if isDigitByte d1 then after1 else after0) with
              | .error e => .error e
              | .ok dow => .ok { Weekday := dow, Offset := iv * dir }
        else
          match weekdayFromShort item with
          | .error e => .error e
          | .ok dow => .ok { Weekday := dow, Offset := 0 * dir }) = .ok fd) :
    0 ≤ fd.Weekday ∧ fd.Weekday ≤ 6 := by
  cases item with
  | nil => cases h
  | cons d0 after0 =>
    simp only at h
    by_cases hd : isDigitByte d0 = true
    · rw [if_pos hd] at h
      cases after0 with
      | nil => cases h
      | cons d1 after1 =>
        simp only at h
        cases h1 : strconvParseInt (if isDigitByte d1 = true then [d0, d1] else [d0]) 64 with
        | error e => rw [h1] at h; cases h
        | ok iv =>
          rw [h1] at h
          simp only at h
          cases h2 : weekdayFromShort (if isDigitByte d1 = true then after1 else d1 :: after1) with
          | error e => rw [h2] at h; cases h
          | ok dow =>
            rw [h2] at h
            cases h
            exact weekdayFromShort_range h2
    · rw [if_neg hd] at h
      cases h2 : weekdayFromShort (d0 :: after0) with
      | error e => rw [h2] at h; cases h
      | ok dow =>
        rw [h2] at h
        cases h
        exact weekdayFromShort_range h2

theorem parseForDay_range {item : List Char} {fd : ForDay} (h : parseForDay item = .ok fd) :
    0 ≤ fd.Weekday ∧ fd.Weekday ≤ 6 := by
  unfold parseForDay at h
  cases item with
  | nil => cases h
  | cons c0 rest =>
    simp only at h
    exact parseForDay_tail _ _ fd h

theorem parseForDays_range :
    ∀ (l : List (List Char)) (results : List ForDay), parseForDays l = .ok results →
      ∀ fd ∈ results, 0 ≤ fd.Weekday ∧ fd.Weekday ≤ 6 := by
  intro l
  induction l with
  | nil =>
    intro results h fd hfd
    simp only [parseForDays, Except.ok.injEq] at h
    rw [← h] at hfd
    simp at hfd
  | cons item rest ih =>
    intro results h fd hfd
    simp only [parseForDays] at h
    cases h1 : parseForDay item with
    | error e => rw [h1] at h; cases h
    | ok fd1 =>
      rw [h1] at h
      simp only at h
      cases h2 : parseForDays rest with
      | error e => rw [h2] at h; cases h
      | ok rs =>
        rw [h2] at h
        simp only [Except.ok.injEq] at h
        rw [← h] at hfd
        rcases List.mem_cons.mp hfd with e | e
        · rw [e]
          exact parseForDay_range h1
        · exact ih rs h2 fd e

/-- Every case of `handle_recur_rule_part` leaves the weekday fields weekdays. -/
theorem handle_recur_rule_part_weekdays (rr : RecurringRule) (hv : rr.WeekdaysValid)
    (key value : List Char) :
    ∀ r, rr.handle_recur_rule_part key value = .ok r → r.WeekdaysValid := by
  unfold RecurringRule.handle_recur_rule_part
  refine ite_keeps (fun r h => ?_) ?_
  · unfold RecurringRule.handle_part_freq at h
    revert r
    refine ite_keeps (fun r h => by cases h; exact hv) ?_
    refine ite_keeps (fun r h => by cases h; exact hv) ?_
    refine ite_keeps (fun r h => by cases h; exact hv) ?_
    refine ite_keeps (fun r h => by cases h; exact hv) ?_
    refine ite_keeps (fun r h => by cases h; exact hv) ?_
    refine ite_keeps (fun r h => by cases h; exact hv) ?_
    refine ite_keeps (fun r h => by cases h; exact hv) ?_
    intro r h
    cases h
  refine ite_keeps (fun r h => ?_) ?_
  · cases hp : ParseDateTime value rr.DtStart.loc with
    | error e => rw [hp] at h; cases h
    | ok dt => rw [hp] at h; cases h; exact hv
  refine ite_keeps (fun r h => ?_) ?_
  · cases hp : strconvParseInt value 64 with
    | error e => rw [hp] at h; cases h
    | ok iv => rw [hp] at h; cases h; exact hv
  refine ite_keeps (fun r h => ?_) ?_
  · cases hp : strconvParseInt value 64 with
    | error e => rw [hp] at h; cases h
    | ok iv => rw [hp] at h; cases h; exact hv
  refine ite_keeps (fun r h => ?_) ?_
  · cases hp : parseInt16List (stringsSplit value ',') with
    | error e => rw [hp] at h; cases h
    | ok results =>
      rw [hp] at h
      simp only at h
      revert r
      refine ite_keeps (fun r h => by cases h; exact hv) ?_
      refine ite_keeps (fun r h => by cases h; exact hv) ?_
      refine ite_keeps (fun r h => by cases h; exact hv) ?_
      refine ite_keeps (fun r h => by cases h; exact hv) ?_
      refine ite_keeps (fun r h => by cases h; exact hv) ?_
      refine ite_keeps (fun r h => by cases h; exact hv) ?_
      refine ite_keeps (fun r h => by cases h; exact hv) ?_
      intro r h
      cases h
      exact hv
  refine ite_keeps (fun r h => ?_) ?_
  · cases hp : weekdayFromShort value with
    | error e => rw [hp] at h; cases h
    | ok d =>
      rw [hp] at h
      cases h
      exact ⟨weekdayFromShort_range hp, hv.2⟩
  refine ite_keeps (fun r h => ?_) ?_
  · cases hp : parseForDays (stringsSplit value ',') with
    | error e => rw [hp] at h; cases h
    | ok results =>
      rw [hp] at h
      cases h
      exact ⟨hv.1, parseForDays_range _ _ hp⟩
  intro r h
  cases h
  exact hv

theorem handle_parts_weekdays :
    ∀ (parts : List (List Char)) (rr r : RecurringRule), rr.WeekdaysValid →
      rr.handle_parts parts = .ok r → r.WeekdaysValid := by
  intro parts
  induction parts with
  | nil =>
    intro rr r hv h
    simp only [RecurringRule.handle_parts, Except.ok.injEq] at h
    rw [← h]
    exact hv
  | cons p rest ih =>
    intro rr r hv h
    simp only [RecurringRule.handle_parts] at h
    split at h
    · rename_i key value _
      cases hs : rr.handle_recur_rule_part key value with
      | error e => rw [hs] at h; cases h
      | ok r1 =>
        rw [hs] at h
        exact ih r1 r (handle_recur_rule_part_weekdays rr hv key value r1 hs) h
    · cases h

theorem handle_rule_chunk_weekdays (db : TzDatabase) (rr : RecurringRule)
    (hv : rr.WeekdaysValid) (value : List Char) :
    ∀ r, rr.handle_rule_chunk db value = .ok r → r.WeekdaysValid := by
  unfold RecurringRule.handle_rule_chunk
  refine ite_keeps (fun r h => handle_parts_weekdays _ rr r hv h) ?_
  refine ite_keeps (fun r h => ?_) ?_
  · cases hp : ParseDateTimeChunks db (value.drop 8) with
    | error e => rw [hp] at h; cases h
    | ok l =>
      rw [hp] at h
      cases l with
      | nil => cases h
      | cons dt rest => cases h; exact hv
  refine ite_keeps (fun r h => ?_) ?_
  · cases hp : ParseDateTimeChunks db (value.drop 7) with
    | error e => rw [hp] at h; cases h
    | ok l => rw [hp] at h; cases h; exact hv
  intro r h
  cases h

theorem parseLoop_weekdays (db : TzDatabase) :
    ∀ (s chunk : List Char) (rr r : RecurringRule) (c : List Char), rr.WeekdaysValid →
      parseLoop db s chunk rr = .ok (r, c) → r.WeekdaysValid := by
  intro s
  induction s with
  | nil =>
    intro chunk rr r c hv h
    simp only [parseLoop, Except.ok.injEq, Prod.mk.injEq] at h
    rw [← h.1]
    exact hv
  | cons x rest ih =>
    intro chunk rr r c hv h
    simp only [parseLoop] at h
    split at h
    · cases hh : rr.handle_rule_chunk db chunk.reverse with
      | error e => rw [hh] at h; cases h
      | ok r1 =>
        rw [hh] at h
        exact ih [] r1 r c (handle_rule_chunk_weekdays db rr hv _ r1 hh) h
    · exact ih (x :: chunk) rr r c hv h

/-- Every rule that `Parse` returns has weekdays in its weekday fields: `WKST` and the
entries of `BYDAY` come from `weekdayFromShort`, which knows the seven names. -/
theorem Parse_weekdays_valid (db : TzDatabase) (text : List Char) (rr : RecurringRule)
    (h : Parse db text = .ok rr) : rr.WeekdaysValid := by
  have hv0 : ({ plainRule EmptyTime .YEARLY with Interval := 1, WorkWeekStart := 1 }
      : RecurringRule).WeekdaysValid :=
    ⟨⟨by decide, by decide⟩, fun fd hfd => by simp [plainRule] at hfd⟩
  unfold Parse at h
  simp only at h
  cases hl : parseLoop db text []
      { plainRule EmptyTime .YEARLY with Interval := 1, WorkWeekStart := 1 } with
  | error e => rw [hl] at h; cases h
  | ok pr =>
    obtain ⟨r0, c⟩ := pr
    have hv1 := parseLoop_weekdays db text [] _ r0 c hv0 hl
    rw [hl] at h
    simp only at h
    have hv2 : ∀ r, (if c.length > 0 then r0.handle_rule_chunk db c else .ok r0) = .ok r →
        r.WeekdaysValid :=
      ite_keeps (fun r hr => handle_rule_chunk_weekdays db r0 hv1 c r hr)
        (fun r hr => by cases hr; exact hv1)
    cases hh : (if c.length > 0 then r0.handle_rule_chunk db c else .ok r0) with
    | error e => rw [hh] at h; cases h
    | ok R1 =>
      rw [hh] at h
      simp only at h
      cases hi : R1.internalParser with
      | error e => rw [hi] at h; cases h
      | ok u =>
        rw [hi] at h
        simp only [Except.ok.injEq] at h
        rw [← h]
        exact hv2 R1 hh

end RRule
